import Mathlib

/-!
# Best-fit placement strategy of the arena allocator (`ouly::strat::best_fit_v2`)

A shallow embedding of `include/ouly/allocators/strat/best_fit_v2.hpp`, followed by the
embeddings of `utility/optional_val.hpp`, of the work groups of
`scheduler/detail/worker.hpp` with the ring of a worker, and of
`containers/basic_queue.hpp`.

Conventions of the embedding.

* A pointer into an array is the index of the element it points to; the array itself is a
  `List`.  `std::distance(p, q)` is `q - p`.
* `size_type` (default `uint32_t`) and block handles (`std::uint32_t`) are natural numbers.  The
  two places where the code does arithmetic on `size_type` (`*found - size` and
  `blk.offset_ + size` in `commit`) are reduced modulo `2 ^ 32`.
* Every operation returns an `Option`.  `none` stands for an execution that leaves the defined
  behaviour of the program: an element access outside an array, a `memmove` or `erase` outside
  the storage, the dereference of a vacant block handle, or a failed `OULY_ASSERT`.  A result
  `some x` therefore says that the run performed none of these and produced `x`.
-/

namespace ouly

/-! ## Low-level array operations -/

/-- The assignment `a[i] = v` on an array: defined only for `i` inside the array. -/
def store {α : Type} (a : List α) (i : Nat) (v : α) : Option (List α) :=
  if i < a.length then some (a.set i v) else none

/-- The library call `std::memmove(a + dest, a + src, count * sizeof(T))` on one array: the
`count` elements starting at `src` are copied to the positions starting at `dest`, as if through
a temporary buffer.  Defined only when both ranges lie inside the array. -/
def memmove {α : Type} (a : List α) (dest src count : Nat) : Option (List α) :=
  if src + count ≤ a.length ∧ dest + count ≤ a.length then
    some (a.take dest ++ (a.drop src).take count ++ a.drop (dest + count))
  else none

/-- The call `v.erase(v.begin() + i)` of a vector: defined only for `i` inside the vector. -/
def erase_at {α : Type} (a : List α) (i : Nat) : Option (List α) :=
  if i < a.length then some (a.eraseIdx i) else none

/-- The call `v.emplace(v.begin() + i, x)` of a vector: inserts `x` before position `i`;
defined for `i` up to and including the length. -/
def emplace_at {α : Type} (a : List α) (i : Nat) (x : α) : Option (List α) :=
  if i ≤ a.length then some (a.take i ++ x :: a.drop i) else none

/-- The list `l` after its entry `k` has been taken out and `v` has been put at position `j`
of what remains; the remaining entries keep their relative order. -/
def replace_move {α : Type} (l : List α) (k j : Nat) (v : α) : List α :=
  (l.eraseIdx k).take j ++ v :: (l.eraseIdx k).drop j

/-- The test `OULY_ASSERT(c)`. -/
def OULY_ASSERT (c : Bool) : Option Unit :=
  if c then some () else none

namespace strat

/-! ## The binary searches -/

/-- The modulus of `size_type` arithmetic (`uint32_t` unless the configuration overrides it). -/
def size_type_mod : Nat := 2 ^ 32

/-- The value `std::numeric_limits<uint32_t>::max()`. -/
def uint32_max : Nat := 2 ^ 32 - 1

/-- The macro `OULY_BINARY_SEARCH_STEP`, acting on the variables `it` and `size`. -/
def OULY_BINARY_SEARCH_STEP (a : List Nat) (key it size : Nat) : Option (Nat × Nat) :=
  match a[it + (size >>> 1)]? with
  | none => none
  | some m => some (if m < key then it + (size >>> 1) else it, (size + 1) >>> 1)

/-- A statement `it += size > bound && (*it < key);`: the element is read only when
`size > bound`. -/
def advance_if_less (a : List Nat) (key it size bound : Nat) : Option Nat :=
  if bound < size then
    match a[it]? with
    | none => none
    | some v => some (if v < key then it + 1 else it)
  else some it

/-- The two closing statements shared by the three searches. -/
def finish (a : List Nat) (key it size : Nat) : Option Nat :=
  match advance_if_less a key it size 1 with
  | none => none
  | some it1 => advance_if_less a key it1 size 0

/-- The loop `while (size > 2) { ... }` of `mini0`; returns the final `it` and `size`. -/
def mini0_loop (a : List Nat) (key it size : Nat) : Option (Nat × Nat) :=
  if 2 < size then
    match a[it + (size >>> 1)]? with
    | none => none
    | some m =>
      mini0_loop a key (if m < key then it + (size >>> 1) else it) ((size + 1) >>> 1)
  else some (it, size)
termination_by size
decreasing_by
  simp only [Nat.shiftRight_eq_div_pow] at *
  omega

/-- The function `best_fit_v2::mini0`. -/
def mini0 (a : List Nat) (it size key : Nat) : Option Nat :=
  match mini0_loop a key it size with
  | none => none
  | some (it1, size1) => finish a key it1 size1

/-- The loop `while (true) { step; if (size <= 2) break; }` of `mini1`. -/
def mini1_loop (a : List Nat) (key it size : Nat) : Option (Nat × Nat) :=
  match a[it + (size >>> 1)]? with
  | none => none
  | some m =>
    if (size + 1) >>> 1 ≤ 2 then
      some (if m < key then it + (size >>> 1) else it, (size + 1) >>> 1)
    else
      mini1_loop a key (if m < key then it + (size >>> 1) else it) ((size + 1) >>> 1)
termination_by size
decreasing_by
  simp only [Nat.shiftRight_eq_div_pow] at *
  omega

/-- The function `best_fit_v2::mini1`. -/
def mini1 (a : List Nat) (it size key : Nat) : Option Nat :=
  if size = 0 then some it
  else
    match mini1_loop a key it size with
    | none => none
    | some (it1, size1) => finish a key it1 size1

/-- The loop `while (true) { step; step; if (size <= 2) break; }` of `mini2`. -/
def mini2_loop (a : List Nat) (key it size : Nat) : Option (Nat × Nat) :=
  match h1 : OULY_BINARY_SEARCH_STEP a key it size with
  | none => none
  | some (it1, size1) =>
    match h2 : OULY_BINARY_SEARCH_STEP a key it1 size1 with
    | none => none
    | some (it2, size2) =>
      if size2 ≤ 2 then some (it2, size2) else mini2_loop a key it2 size2
termination_by size
decreasing_by
  unfold OULY_BINARY_SEARCH_STEP at h1 h2
  split at h1
  · simp at h1
  · split at h2
    · simp at h2
    · simp only [Option.some.injEq, Prod.mk.injEq, Nat.shiftRight_eq_div_pow] at h1 h2
      omega

/-- The function `best_fit_v2::mini2`. -/
def mini2 (a : List Nat) (it size key : Nat) : Option Nat :=
  if size = 0 then some it
  else
    match mini2_loop a key it size with
    | none => none
    | some (it1, size1) => finish a key it1 size1

/-- The function `best_fit_v2::bsearch`; `bsearch_algo` is the compile-time constant
`Config::bsearch_algo` (`0` when the configuration names none).  For a value other than
`0`, `1`, `2` no branch of the `if constexpr` chain returns and the program does not build. -/
def bsearch (bsearch_algo : Nat) (a : List Nat) (it s key : Nat) : Option Nat :=
  if bsearch_algo = 0 then mini0 a it s key
  else if bsearch_algo = 1 then mini1 a it s key
  else if bsearch_algo = 2 then mini2 a it s key
  else none

/-- The function `best_fit_v2::find_free_it`: `std::distance(it, bsearch(it, s, key))`. -/
def find_free_it (bsearch_algo : Nat) (a : List Nat) (it s key : Nat) : Option Nat :=
  match bsearch bsearch_algo a it s key with
  | none => none
  | some r => some (r - it)

/-! ## Blocks, arenas and the bank -/

/-- Modelled from the spec: the block record of `ouly/allocators/detail/arena.hpp`, a header
that is not among the sources.  A block carries its offset within the arena, its size, the
handle of its arena and the flag `is_free_`; `reserved_` is the fourth constructor argument,
for which `commit` passes `uint32_max`.  The position in the order list is kept in
the arena (see `arena`). -/
structure block where
  offset_ : Nat
  size_ : Nat
  arena_ : Nat
  reserved_ : Nat
  is_free_ : Bool
deriving DecidableEq, Repr

/-- Modelled from the spec: the block bank of `ouly/allocators/detail/arena.hpp`, a
stable-indexed pool of block records.  The handle of a block is its index; a vacant slot is
`none`. -/
abbrev block_bank : Type := List (Option block)

/-- Modelled from the spec: the access `blocks[block_link(h)]`, defined for the handle of a
block that is present in the bank. -/
def block_bank.at (blocks : block_bank) (h : Nat) : Option block :=
  match blocks[h]? with
  | some (some b) => some b
  | _ => none

/-- Modelled from the spec: writing through the reference `blocks[block_link(h)]`; existing
indices stay valid. -/
def block_bank.put (blocks : block_bank) (h : Nat) (b : block) : Option block_bank :=
  match block_bank.at blocks h with
  | none => none
  | some _ => some (blocks.set h (some b))

/-- Modelled from the spec: `blocks.emplace(...)` adds a record without invalidating existing
indices.  The record goes to the first vacant slot (removal yields reusable slots) or, when
there is none, to a new slot at the end; the handle of the slot is returned. -/
def block_bank.emplace (blocks : block_bank) (b : block) : block_bank × Nat :=
  if List.findIdx Option.isNone blocks < blocks.length then
    (blocks.set (List.findIdx Option.isNone blocks) (some b), List.findIdx Option.isNone blocks)
  else (blocks ++ [some b], blocks.length)

/-- Modelled from the spec: the call `list.insert_after(blocks, node, newnode)` on the order
list of an arena, which links `newnode` immediately after `node`.  The order list is kept as the
sequence of block handles from left to right; the call is defined when `node` is on the list. -/
def insert_after : List Nat → Nat → Nat → Option (List Nat)
  | [], _, _ => none
  | x :: xs, node, newnode =>
    if x = node then some (x :: newnode :: xs)
    else
      match insert_after xs node newnode with
      | none => none
      | some r => some (x :: r)

/-- Modelled from the spec: an arena of `ouly/allocators/detail/arena.hpp`, with its total
size and the order list of its blocks (left to right in address space). -/
structure arena where
  size_ : Nat
  block_order_ : List Nat
deriving DecidableEq, Repr

/-- Modelled from the spec: the structure `bank_data` with the block bank and the arenas. -/
structure bank_data where
  blocks_ : block_bank
  arenas_ : List arena
deriving DecidableEq, Repr

/-! ## The strategy -/

/-- The data members of `best_fit_v2`. -/
structure best_fit_v2 where
  sizes_ : List Nat
  free_ordering_ : List Nat
deriving DecidableEq, Repr

/-- The type `optional_addr = size_type*`: the null pointer or a pointer to the element of
`sizes_` with the given index. -/
inductive optional_addr where
  | nullptr : optional_addr
  | addr (index : Nat) : optional_addr
deriving DecidableEq, Repr

/-- The function `best_fit_v2::find_free`. -/
def find_free (bsearch_algo : Nat) (s : best_fit_v2) (size : Nat) : Option optional_addr :=
  match bsearch bsearch_algo s.sizes_ 0 s.sizes_.length size with
  | none => none
  | some it =>
    some (if it < 0 + s.sizes_.length then optional_addr.addr it else optional_addr.nullptr)

/-- The function `best_fit_v2::try_allocate`. -/
def try_allocate (bsearch_algo : Nat) (s : best_fit_v2) (size : Nat) : Option optional_addr :=
  match s.sizes_.getLast? with
  | none => some optional_addr.nullptr
  | some back =>
    if back < size then some optional_addr.nullptr else find_free bsearch_algo s size

/-- The function `best_fit_v2::reinsert_left`. -/
def reinsert_left (bsearch_algo : Nat) (s : best_fit_v2) (of size node : Nat) :
    Option best_fit_v2 :=
  if of = 0 then do
    let fo ← store s.free_ordering_ of node
    let sz ← store s.sizes_ of size
    some ⟨sz, fo⟩
  else do
    let it ← find_free_it bsearch_algo s.sizes_ 0 of size
    if it ≠ of then do
      let count := of - it
      let sz1 ← memmove s.sizes_ (it + 1) it count
      let fo1 ← memmove s.free_ordering_ (it + 1) it count
      let fo2 ← store fo1 it node
      let sz2 ← store sz1 it size
      some ⟨sz2, fo2⟩
    else do
      let fo ← store s.free_ordering_ of node
      let sz ← store s.sizes_ of size
      some ⟨sz, fo⟩

/-- The function `best_fit_v2::reinsert_right`. -/
def reinsert_right (bsearch_algo : Nat) (s : best_fit_v2) (of size node : Nat) :
    Option best_fit_v2 :=
  if of + 1 = s.sizes_.length then do
    let fo ← store s.free_ordering_ of node
    let sz ← store s.sizes_ of size
    some ⟨sz, fo⟩
  else do
    let it ← find_free_it bsearch_algo s.sizes_ (of + 1) (s.sizes_.length - (of + 1)) size
    if it ≠ 0 then do
      let count := it
      let sz1 ← memmove s.sizes_ of (of + 1) count
      let sz2 ← store sz1 (of + count) size
      let fo1 ← memmove s.free_ordering_ of (of + 1) count
      let fo2 ← store fo1 (of + count) node
      some ⟨sz2, fo2⟩
    else do
      let fo ← store s.free_ordering_ of node
      let sz ← store s.sizes_ of size
      some ⟨sz, fo⟩

/-- The loop `for (end = free_ordering_.size(); it != end && free_ordering_[it] != block;
++it)` of `grow_free_node`, `replace_and_grow` and `erase`; returns the final `it`. -/
def find_node (free_ordering_ : List Nat) (block it : Nat) : Option Nat :=
  if it ≠ free_ordering_.length then
    match h : free_ordering_[it]? with
    | none => none
    | some v => if v ≠ block then find_node free_ordering_ block (it + 1) else some it
  else some it
termination_by free_ordering_.length - it
decreasing_by
  have := (List.getElem?_eq_some_iff.mp h).1
  omega

/-- The function `best_fit_v2::commit`; `found` is the index of the element of `sizes_` the
pointer refers to. -/
def commit (bsearch_algo : Nat) (bank : bank_data) (s : best_fit_v2) (size found : Nat) :
    Option (bank_data × best_fit_v2 × Nat) := do
  let free_idx := found - 0
  let free_node ← s.free_ordering_[free_idx]?
  let blk ← bank.blocks_.at free_node
  let found_size ← s.sizes_[found]?
  let remaining := (found_size + size_type_mod - size) % size_type_mod
  let blocks1 ← bank.blocks_.put free_node { blk with is_free_ := false, size_ := size }
  if 0 < remaining then do
    let ar ← bank.arenas_[blk.arena_]?
    let arena := blk.arena_
    let (blocks2, newblk) :=
      blocks1.emplace ⟨(blk.offset_ + size) % size_type_mod, remaining, arena, uint32_max, true⟩
    let list ← insert_after ar.block_order_ free_node newblk
    let arenas1 ← store bank.arenas_ blk.arena_ { ar with block_order_ := list }
    let s1 ← reinsert_left bsearch_algo s free_idx remaining newblk
    some (⟨blocks2, arenas1⟩, s1, free_node)
  else do
    let sz ← erase_at s.sizes_ free_idx
    let fo ← erase_at s.free_ordering_ free_idx
    some (⟨blocks1, bank.arenas_⟩, ⟨sz, fo⟩, free_node)

/-- The function `best_fit_v2::add_free_after_begin`. -/
def add_free_after_begin (bsearch_algo : Nat) (blocks : block_bank) (s : best_fit_v2)
    (block : Nat) : Option (block_bank × best_fit_v2) := do
  let blk ← blocks.at block
  let blocks1 ← blocks.put block { blk with is_free_ := true }
  let size := blk.size_
  let it ← find_free_it bsearch_algo s.sizes_ 0 s.sizes_.length size
  let fo ← emplace_at s.free_ordering_ it block
  let sz ← emplace_at s.sizes_ it size
  some (blocks1, ⟨sz, fo⟩)

/-- The function `best_fit_v2::add_free`. -/
def add_free (bsearch_algo : Nat) (blocks : block_bank) (s : best_fit_v2) (block : Nat) :
    Option (block_bank × best_fit_v2) :=
  add_free_after_begin bsearch_algo blocks s block

/-- The function `best_fit_v2::grow_free_node`. -/
def grow_free_node (bsearch_algo : Nat) (blocks : block_bank) (s : best_fit_v2)
    (block newsize : Nat) : Option (block_bank × best_fit_v2) := do
  let blk ← blocks.at block
  let it0 ← find_free_it bsearch_algo s.sizes_ 0 s.sizes_.length blk.size_
  let it ← find_node s.free_ordering_ block it0
  OULY_ASSERT (it != s.free_ordering_.length)
  let blocks1 ← blocks.put block { blk with size_ := newsize }
  let s1 ← reinsert_right bsearch_algo s it newsize block
  some (blocks1, s1)

/-- The function `best_fit_v2::replace_and_grow`. -/
def replace_and_grow (bsearch_algo : Nat) (blocks : block_bank) (s : best_fit_v2)
    (block new_block new_size : Nat) : Option (block_bank × best_fit_v2) := do
  let blk ← blocks.at block
  let size := blk.size_
  let nblk ← blocks.at new_block
  let blocks1 ← blocks.put new_block { nblk with size_ := new_size }
  let it0 ← find_free_it bsearch_algo s.sizes_ 0 s.sizes_.length size
  let it ← find_node s.free_ordering_ block it0
  OULY_ASSERT (it != s.free_ordering_.length)
  let s1 ← reinsert_right bsearch_algo s it new_size new_block
  some (blocks1, s1)

/-- The function `best_fit_v2::erase`. -/
def erase (bsearch_algo : Nat) (blocks : block_bank) (s : best_fit_v2) (block : Nat) :
    Option best_fit_v2 := do
  let blk ← blocks.at block
  let it0 ← find_free_it bsearch_algo s.sizes_ 0 s.sizes_.length blk.size_
  let it ← find_node s.free_ordering_ block it0
  OULY_ASSERT (it != s.free_ordering_.length)
  let fo ← erase_at s.free_ordering_ it
  let sz ← erase_at s.sizes_ it
  some ⟨sz, fo⟩

/-! ## Specification predicates -/

/-- The range `[lo, hi)` of `a` is non-decreasing. -/
def range_sorted (a : List Nat) (lo hi : Nat) : Prop :=
  ∀ i j (hi1 : i < a.length) (hj : j < a.length), lo ≤ i → i ≤ j → j < hi → a[i] ≤ a[j]

/-- The index `r` splits the range `[lo, hi)` of `a` into the entries below `key`, which come
first, and the entries not below `key`. -/
def is_lower_bound (a : List Nat) (lo hi key r : Nat) : Prop :=
  lo ≤ r ∧ r ≤ hi ∧
  (∀ j (h : j < a.length), lo ≤ j → j < r → a[j] < key) ∧
  (∀ j (h : j < a.length), r ≤ j → j < hi → key ≤ a[j])

/-- Loop invariant of the searches: the entries of the range before `it` are below `key`, the
entries of the range from `it + size` on are not. -/
def search_inv (a : List Nat) (lo hi key it size : Nat) : Prop :=
  lo ≤ it ∧ it + size ≤ hi ∧
  (∀ j (h : j < a.length), lo ≤ j → j < it → a[j] < key) ∧
  (∀ j (h : j < a.length), it + size ≤ j → j < hi → key ≤ a[j])

/-- The free-index invariant: `sizes_` and `free_ordering_` have the same length, `sizes_` is
non-decreasing, and `sizes_[i]` is the size of the block `free_ordering_[i]`. -/
def free_index_inv (blocks : block_bank) (s : best_fit_v2) : Prop :=
  s.sizes_.length = s.free_ordering_.length ∧
  s.sizes_.Pairwise (· ≤ ·) ∧
  ∀ i (h1 : i < s.sizes_.length) (h2 : i < s.free_ordering_.length),
    (blocks.at s.free_ordering_[i]).map block.size_ = some s.sizes_[i]

instance (blocks : block_bank) (s : best_fit_v2) : Decidable (free_index_inv blocks s) :=
  inferInstanceAs (Decidable (s.sizes_.length = s.free_ordering_.length ∧
    s.sizes_.Pairwise (· ≤ ·) ∧
    ∀ i (h1 : i < s.sizes_.length) (h2 : i < s.free_ordering_.length),
      (blocks.at s.free_ordering_[i]).map block.size_ = some s.sizes_[i]))

/-- The handles on an order list are blocks of the bank and no handle is on the list twice:
the list links each of its blocks once. -/
def order_list_wf (blocks : block_bank) (order : List Nat) : Prop :=
  order.Nodup ∧ ∀ h ∈ order, (blocks.at h).isSome = true

instance (blocks : block_bank) (order : List Nat) : Decidable (order_list_wf blocks order) :=
  inferInstanceAs (Decidable (order.Nodup ∧ ∀ h ∈ order, (blocks.at h).isSome = true))

/-- The sum of the sizes of the blocks on an order list. -/
def sizes_sum (blocks : block_bank) (order : List Nat) : Nat :=
  (order.map (fun h => ((blocks.at h).map block.size_).getD 0)).sum

/-- The block `l` ends where the block `r` starts: `L.offset + L.size == R.offset`. -/
def adjacent (blocks : block_bank) (l r : Nat) : Prop :=
  (blocks.at l).map (fun L => L.offset_ + L.size_) = (blocks.at r).map block.offset_

instance (blocks : block_bank) : DecidableRel (adjacent blocks) :=
  fun l r => inferInstanceAs (Decidable
    ((blocks.at l).map (fun L => L.offset_ + L.size_) = (blocks.at r).map block.offset_))

/-- The blocks `l` and `r` are both free. -/
def both_free (blocks : block_bank) (l r : Nat) : Prop :=
  (blocks.at l).map block.is_free_ = some true ∧ (blocks.at r).map block.is_free_ = some true

instance (blocks : block_bank) : DecidableRel (both_free blocks) :=
  fun l r => inferInstanceAs (Decidable
    ((blocks.at l).map block.is_free_ = some true ∧
      (blocks.at r).map block.is_free_ = some true))

/-- The layout invariants of an arena: the sizes of its blocks sum to the size of the arena,
each block ends where the next one on the order list starts, and no two blocks that are
neighbours on the order list are both free. -/
def arena_layout (blocks : block_bank) (ar : arena) : Prop :=
  sizes_sum blocks ar.block_order_ = ar.size_ ∧
  ar.block_order_.Chain' (adjacent blocks) ∧
  ar.block_order_.Chain' (fun l r => ¬ both_free blocks l r)

instance (blocks : block_bank) (ar : arena) : Decidable (arena_layout blocks ar) :=
  inferInstanceAs (Decidable (sizes_sum blocks ar.block_order_ = ar.size_ ∧
    ar.block_order_.Chain' (adjacent blocks) ∧
    ar.block_order_.Chain' (fun l r => ¬ both_free blocks l r)))

/-! ## `add_free_arena` and `validate_integrity` -/

/-- The function `best_fit_v2::add_free_arena`. -/
def add_free_arena (blocks : block_bank) (s : best_fit_v2) (block : Nat) :
    Option best_fit_v2 :=
  match blocks.at block with
  | none => none
  | some blk => some ⟨s.sizes_ ++ [blk.size_], s.free_ordering_ ++ [block]⟩

/-- The first loop of `validate_integrity`:
`for (size_t i = 1; i < sizes_.size(); ++i) OULY_ASSERT(sizes_[i - 1] <= sizes_[i]);`,
from the value `i` of the counter on. -/
def validate_sizes_loop (sizes_ : List Nat) (i : Nat) : Option Unit :=
  if i < sizes_.length then
    match sizes_[i - 1]?, sizes_[i]? with
    | some a, some b =>
      match OULY_ASSERT (decide (a ≤ b)) with
      | none => none
      | some _ => validate_sizes_loop sizes_ (i + 1)
    | _, _ => none
  else some ()
termination_by sizes_.length - i

/-- The second loop of `validate_integrity`, from the value `i` of the counter and the value
`sz` of the local variable on. -/
def validate_blocks_loop (blocks : block_bank) (s : best_fit_v2) (i sz : Nat) : Option Unit :=
  if i < s.free_ordering_.length then
    match s.free_ordering_[i]? with
    | none => none
    | some fn =>
      match blocks.at fn with
      | none => none
      | some blk =>
        match OULY_ASSERT (decide (sz ≤ blk.size_)) with
        | none => none
        | some _ =>
          match s.sizes_[i]? with
          | none => none
          | some x =>
            match OULY_ASSERT (blk.size_ == x) with
            | none => none
            | some _ => validate_blocks_loop blocks s (i + 1) blk.size_
  else some ()
termination_by s.free_ordering_.length - i

/-- The function `best_fit_v2::validate_integrity`: `some ()` when no assertion fails. -/
def validate_integrity (blocks : block_bank) (s : best_fit_v2) : Option Unit :=
  match OULY_ASSERT (s.free_ordering_.length == s.sizes_.length) with
  | none => none
  | some _ =>
    match validate_sizes_loop s.sizes_ 1 with
    | none => none
    | some _ => validate_blocks_loop blocks s 0 0

/-! ## Reachable states of the strategy -/

/-- The states `(bank, strategy)` reachable from the empty strategy by the public operations,
each under the precondition named with it.  `client` is a change of the bank by the owner of
the strategy that leaves the blocks referenced by the index as they are (new blocks, blocks of
allocations).  `add_free_arena` is applied to a block that is not referenced, on an index that
is empty or whose last entry does not exceed the size of the block; `add_free` to a block that
is not referenced; `commit` to the entry returned by `try_allocate` for the same size;
`grow_free_node` to a referenced block with a size not below its size; `replace_and_grow` to a
referenced block, a block that is the same or not referenced, and a size not below the size of
the referenced block; `erase` to a referenced block. -/
inductive reachable (algo : Nat) : bank_data → best_fit_v2 → Prop
  | empty (bank : bank_data) : reachable algo bank ⟨[], []⟩
  | client (bank bank' : bank_data) (s : best_fit_v2) :
      reachable algo bank s →
      (∀ h ∈ s.free_ordering_, block_bank.at bank'.blocks_ h = bank.blocks_.at h) →
      reachable algo bank' s
  | add_free_arena (bank : bank_data) (s s' : best_fit_v2) (b : Nat) (blk : block) :
      reachable algo bank s →
      b ∉ s.free_ordering_ → bank.blocks_.at b = some blk →
      (∀ x ∈ s.sizes_.getLast?, x ≤ blk.size_) →
      add_free_arena bank.blocks_ s b = some s' →
      reachable algo bank s'
  | add_free (bank : bank_data) (s s' : best_fit_v2) (b : Nat) (blocks' : block_bank) :
      reachable algo bank s →
      b ∉ s.free_ordering_ →
      add_free algo bank.blocks_ s b = some (blocks', s') →
      reachable algo ⟨blocks', bank.arenas_⟩ s'
  | commit (bank bank' : bank_data) (s s' : best_fit_v2) (size k r : Nat) :
      reachable algo bank s →
      try_allocate algo s size = some (optional_addr.addr k) →
      commit algo bank s size k = some (bank', s', r) →
      reachable algo bank' s'
  | grow_free_node (bank : bank_data) (s s' : best_fit_v2) (b newsize : Nat) (blk : block)
      (blocks' : block_bank) :
      reachable algo bank s →
      b ∈ s.free_ordering_ → bank.blocks_.at b = some blk → blk.size_ ≤ newsize →
      grow_free_node algo bank.blocks_ s b newsize = some (blocks', s') →
      reachable algo ⟨blocks', bank.arenas_⟩ s'
  | replace_and_grow (bank : bank_data) (s s' : best_fit_v2) (b nb new_size : Nat)
      (blk : block) (blocks' : block_bank) :
      reachable algo bank s →
      b ∈ s.free_ordering_ → (nb = b ∨ nb ∉ s.free_ordering_) →
      bank.blocks_.at b = some blk → blk.size_ ≤ new_size →
      replace_and_grow algo bank.blocks_ s b nb new_size = some (blocks', s') →
      reachable algo ⟨blocks', bank.arenas_⟩ s'
  | erase (bank : bank_data) (s s' : best_fit_v2) (b : Nat) :
      reachable algo bank s →
      b ∈ s.free_ordering_ →
      erase algo bank.blocks_ s b = some s' →
      reachable algo bank s'

/-! ## The totals of the free index -/

/-- The function `best_fit_v2::total_free_nodes`: the number of entries, converted to
`std::uint32_t`. -/
def total_free_nodes (_blocks : block_bank) (s : best_fit_v2) : Nat :=
  s.free_ordering_.length % (uint32_max + 1)

/-- The function `best_fit_v2::total_free_size`: the loop `for (auto fn : sizes_) sz += fn;`
on a `size_type` variable that starts at `0`. -/
def total_free_size (_blocks : block_bank) (s : best_fit_v2) : Nat :=
  s.sizes_.foldl (fun sz fn => (sz + fn) % size_type_mod) 0


/-! ## Ties among equal sizes -/

/-- The entry `j` of the index holds the size `z` and the handle `node`, no entry of size `z`
comes before it, and `try_allocate` of `z` returns it. -/
def leftmost_entry (bsearch_algo : Nat) (s : best_fit_v2) (j z node : Nat) : Prop :=
  s.sizes_[j]? = some z ∧ s.free_ordering_[j]? = some node ∧
  (∀ i, s.sizes_[i]? = some z → j ≤ i) ∧
  try_allocate bsearch_algo s z = some (optional_addr.addr j)


end strat

/-! # Other components

The definitions of the queue, the scheduler structures, `optional_val` and the allocators that
are not part of the best-fit strategy. -/

/-! ## `optional_val` -/

/-- The class template `optional_val<Nullv>` of `utility/optional_val.hpp`; `α` is
`value_type`, the type of the sentinel `Nullv`. -/
structure optional_val (α : Type) (Nullv : α) where
  value_ : α

namespace optional_val

variable {α : Type} {Nullv : α}

/-- The defaulted constructor `optional_val()`: the member initialiser is `value_ = Nullv`. -/
def default_ctor (α : Type) (Nullv : α) : optional_val α Nullv := ⟨Nullv⟩

end optional_val

/-! ## Work groups of the scheduler -/

namespace detail

/-- The modulus of `uint32_t` arithmetic. -/
def uint32_mod : Nat := 2 ^ 32

/-- The structure `workgroup` of `scheduler/detail/worker.hpp`.  The header of the ring
(`mpmc_ring.hpp`) is not among the sources, so the type `ρ` of a ring is a parameter;
`per_worker_queues_` is the null pointer (`none`) or an array of rings. -/
structure workgroup (ρ : Type) where
  per_worker_queues_ : Option (List ρ)
  thread_count_ : Nat
  start_thread_idx_ : Nat
  end_thread_idx_ : Nat
  priority_ : Nat

namespace workgroup

variable {ρ ι : Type}

/-- The defaulted constructor `workgroup()`. -/
def default_ctor (ρ : Type) : workgroup ρ := ⟨none, 0, 0, 0, 0⟩

/-- The function `workgroup::create_group`; `empty_ring` is a default-constructed ring, of
which `std::make_unique<mpmc_work_ring[]>(count)` makes `count`.  Returns the group and the
returned index. -/
def create_group (empty_ring : ρ) (_self : workgroup ρ) (start count priority : Nat) :
    workgroup ρ × Nat :=
  ({ thread_count_ := count
     start_thread_idx_ := start
     end_thread_idx_ := (start + count) % uint32_mod
     priority_ := priority
     per_worker_queues_ := some (List.replicate count empty_ring) },
   (start + count) % uint32_mod)

/-- The move constructor `workgroup(workgroup&& other)`: returns the new object and `other`
after the move. -/
def move_ctor (other : workgroup ρ) : workgroup ρ × workgroup ρ :=
  (⟨other.per_worker_queues_, other.thread_count_, other.start_thread_idx_,
      other.end_thread_idx_, other.priority_⟩,
   ⟨none, 0, 0, 0, 0⟩)

/-- The move assignment `operator=(workgroup&& other)` for `this != &other`: returns `*this`
and `other` after the assignment.  For `this == &other` the object is left as it is. -/
def move_assign (_self other : workgroup ρ) : workgroup ρ × workgroup ρ :=
  (⟨other.per_worker_queues_, other.thread_count_, other.start_thread_idx_,
      other.end_thread_idx_, other.priority_⟩,
   ⟨none, 0, 0, 0, 0⟩)

/-- The function `workgroup::push_item_to_worker`; `emplace` is the member `emplace` of the
ring, which yields its result and the ring afterwards, or nothing when it does not return.
The result is the returned flag and the group afterwards. -/
def push_item_to_worker (emplace : ρ → ι → Option (Bool × ρ)) (self : workgroup ρ)
    (worker_offset : Nat) (item : ι) : Option (Bool × workgroup ρ) :=
  if worker_offset ≥ self.thread_count_ then some (false, self)
  else
    match self.per_worker_queues_ with
    | none => none
    | some queues =>
      match queues[worker_offset]? with
      | none => none
      | some ring =>
        match emplace ring item with
        | none => none
        | some (r, ring1) =>
          some (r, { self with per_worker_queues_ := some (queues.set worker_offset ring1) })

/-- The function `workgroup::pop_item_from_worker`; `pop` is the member `pop` of the ring,
which yields its result, the output item and the ring afterwards.  The result is the returned
flag, the output item and the group afterwards. -/
def pop_item_from_worker (pop : ρ → ι → Option (Bool × ι × ρ)) (self : workgroup ρ)
    (worker_offset : Nat) (item : ι) : Option (Bool × ι × workgroup ρ) :=
  if worker_offset ≥ self.thread_count_ then some (false, item, self)
  else
    match self.per_worker_queues_ with
    | none => none
    | some queues =>
      match queues[worker_offset]? with
      | none => none
      | some ring =>
        match pop ring item with
        | none => none
        | some (r, item1, ring1) =>
          some (r, item1,
            { self with per_worker_queues_ := some (queues.set worker_offset ring1) })

/-- The calling pattern of claim C16: the groups of a list of descriptors
`(thread_count, priority)` are created in declaration order, each starting at the index the
previous call returned.  Returns the groups and the last returned index. -/
def create_groups (empty_ring : ρ) : Nat → List (Nat × Nat) → List (workgroup ρ) × Nat
  | start, [] => ([], start)
  | start, (count, priority) :: rest =>
    ((create_group empty_ring (default_ctor ρ) start count priority).1 ::
        (create_groups empty_ring
          (create_group empty_ring (default_ctor ρ) start count priority).2 rest).1,
      (create_groups empty_ring
        (create_group empty_ring (default_ctor ρ) start count priority).2 rest).2)

end workgroup

end detail

/-! ## `basic_queue`

The queue owns blocks of `pool_size` slots that are chained through `next_`.  A pointer to a
block is the index of the block in `heap`, the list of the blocks obtained from the allocator
so far (`nullptr` is `none`).  A slot is `some v` while it holds an object and `none` while
it holds none (never constructed, or destroyed); reading or destroying a slot that holds no
object, an index outside the array of a block, a dereferenced `nullptr` and a failed
`OULY_ASSERT` are `none`.  `size_type` is `uint32_t`, the default of the configuration. -/

/-- The struct `basic_queue::deque_block`. -/
structure deque_block (α : Type) where
  data_ : List (Option α)
  next_ : Option Nat
  deriving DecidableEq, Repr

/-- The data members of `basic_queue`, with the blocks obtained from the allocator. -/
structure basic_queue (α : Type) where
  heap : List (deque_block α)
  head_ : Option Nat
  tail_ : Option Nat
  free_ : Option Nat
  size_ : Nat
  front_ : Nat
  back_ : Nat
  deriving DecidableEq, Repr

namespace basic_queue

/-- The number of values of `size_type`. -/
def size_type_mod : Nat := 2 ^ 32

/-- The constructor `basic_queue() noexcept = default` (the default member initializers). -/
def default_ctor {α : Type} : basic_queue α :=
  ⟨[], none, none, none, 0, 0, 0⟩

/-- The function `basic_queue::size`. -/
def size {α : Type} (q : basic_queue α) : Nat :=
  q.size_

/-- The function `basic_queue::empty`. -/
def empty {α : Type} (q : basic_queue α) : Bool :=
  q.size_ == 0

/-- The function `basic_queue::add_tail`.  `ouly::allocate<deque_block>` returns a block that
was not handed out before; its slots hold no object. -/
def add_tail {α : Type} (pool_size : Nat) (q : basic_queue α) : Option (basic_queue α) :=
  let taken : Option (Nat × basic_queue α) :=
    match q.free_ with
    | some f =>
      match q.heap[f]? with
      | none => none
      | some fb => some (f, { q with free_ := fb.next_ })
    | none =>
      some (q.heap.length,
        { q with heap := q.heap ++ [⟨List.replicate pool_size none, none⟩] })
  match taken with
  | none => none
  | some (db, q1) =>
    match q1.tail_ with
    | some t =>
      match q1.heap[t]? with
      | none => none
      | some tb =>
        some { q1 with heap := q1.heap.set t { tb with next_ := some db }, tail_ := some db }
    | none => some { q1 with head_ := some db, tail_ := some db }

/-- The function `basic_queue::remove_head`. -/
def remove_head {α : Type} (q : basic_queue α) : Option (basic_queue α) :=
  match q.head_ with
  | none => none
  | some h =>
    match q.heap[h]? with
    | none => none
    | some hb =>
      let q1 : basic_queue α :=
        { q with head_ := hb.next_, heap := q.heap.set h { hb with next_ := q.free_ },
                 free_ := some h }
      if some h = q.tail_ then
        some { q1 with head_ := none, tail_ := none, front_ := 0, back_ := 0 }
      else some q1

/-- The function `basic_queue::emplace_back` (and `push_back`, which forwards to it); the
reference it returns is the slot written. -/
def emplace_back {α : Type} (pool_size : Nat) (q : basic_queue α) (v : α) :
    Option (basic_queue α) :=
  let grown : Option (basic_queue α) :=
    if pool_size ≤ q.back_ ∨ q.tail_ = none then
      (add_tail pool_size q).map (fun q1 => { q1 with back_ := 0 })
    else some q
  match grown with
  | none => none
  | some q1 =>
    match q1.tail_ with
    | none => none
    | some t =>
      match q1.heap[t]? with
      | none => none
      | some tb =>
        if q1.back_ < tb.data_.length then
          some { q1 with
            heap := q1.heap.set t { tb with data_ := tb.data_.set q1.back_ (some v) },
            back_ := (q1.back_ + 1) % size_type_mod,
            size_ := (q1.size_ + 1) % size_type_mod }
        else none

/-- The function `basic_queue::pop_front_unsafe`.  `trivially_destructible` is
`std::is_trivially_destructible_v<Ty>`: for such a type the slot keeps the object that was
moved from, for the other types the object is destroyed. -/
def pop_front_unsafe {α : Type} (trivially_destructible : Bool) (pool_size : Nat)
    (q : basic_queue α) : Option (α × basic_queue α) :=
  match OULY_ASSERT (!q.empty) with
  | none => none
  | some _ =>
    match q.head_ with
    | none => none
    | some h =>
      match q.heap[h]? with
      | none => none
      | some hb =>
        match hb.data_[q.front_]? with
        | none => none
        | some none => none
        | some (some ret) =>
          let q1 : basic_queue α :=
            { q with
              heap := if trivially_destructible then q.heap
                else q.heap.set h { hb with data_ := hb.data_.set q.front_ none },
              front_ := (q.front_ + 1) % size_type_mod }
          let q2 : Option (basic_queue α) :=
            if q1.front_ = pool_size then
              (remove_head q1).map (fun q' => { q' with front_ := 0 })
            else some q1
          match q2 with
          | none => none
          | some q3 =>
            some (ret, { q3 with size_ := (q3.size_ + size_type_mod - 1) % size_type_mod })

/-- The function `basic_queue::pop_front()`: `Except.error` is the exception
`std::runtime_error` with its message, thrown with the queue as it was. -/
def pop_front {α : Type} (trivially_destructible : Bool) (pool_size : Nat)
    (q : basic_queue α) : Option (Except String α × basic_queue α) :=
  if q.empty then some (Except.error "Deque is empty", q)
  else
    match pop_front_unsafe trivially_destructible pool_size q with
    | none => none
    | some (ret, q1) => some (Except.ok ret, q1)

/-- The function `basic_queue::pop_front(Ty& out)`: the result, the value of `out` after the
call, and the queue. -/
def pop_front_out {α : Type} (trivially_destructible : Bool) (pool_size : Nat)
    (q : basic_queue α) (out : α) : Option (Bool × α × basic_queue α) :=
  if q.empty then some (false, out, q)
  else
    match pop_front_unsafe trivially_destructible pool_size q with
    | none => none
    | some (ret, q1) => some (true, ret, q1)

/-- The inner loop `for (; start < end; ++start) lambda(*block->data_[start])` of
`internal_for_each` on the slots of one block; `lambda` takes the state of the caller and the
object and returns the new state and what the slot holds afterwards. -/
def for_each_slot {α σ : Type} (lambda : σ → α → σ × Option α) (data_ : List (Option α))
    (start end_ : Nat) (st : σ) : Option (σ × List (Option α)) :=
  if h : start < end_ then
    match data_[start]? with
    | none => none
    | some none => none
    | some (some v) =>
      for_each_slot lambda (data_.set start (lambda st v).2) (start + 1) end_ (lambda st v).1
  else some (st, data_)
termination_by end_ - start

/-- The loop `while (block)` of `internal_for_each`, for at most `fuel` blocks. -/
def internal_for_each_loop {α σ : Type} (pool_size : Nat) (lambda : σ → α → σ × Option α)
    (tail_ : Option Nat) (back_ : Nat) :
    Nat → Option Nat → Nat → σ → List (deque_block α) → Option (σ × List (deque_block α))
  | _, none, _, st, heap => some (st, heap)
  | 0, some _, _, _, _ => none
  | fuel + 1, some b, start, st, heap =>
    match heap[b]? with
    | none => none
    | some blk =>
      match for_each_slot lambda blk.data_ start
          (if some b = tail_ then back_ else pool_size) st with
      | none => none
      | some (st1, data1) =>
        internal_for_each_loop pool_size lambda tail_ back_ fuel blk.next_ 0 st1
          (heap.set b { blk with data_ := data1 })

/-- The function `basic_queue::for_each` (through `internal_for_each`).  A walk that enters
more blocks than the allocator handed out does not end; it is `none`. -/
def for_each {α σ : Type} (pool_size : Nat) (lambda : σ → α → σ × Option α)
    (q : basic_queue α) (st : σ) : Option (σ × basic_queue α) :=
  (internal_for_each_loop pool_size lambda q.tail_ q.back_ (q.heap.length + 1) q.head_
    q.front_ st q.heap).map (fun r => (r.1, { q with heap := r.2 }))

/-- The function `basic_queue::clear`; the callback of its `for_each` is
`std::destroy_at`. -/
def clear {α : Type} (trivially_destructible : Bool) (pool_size : Nat) (q : basic_queue α) :
    Option (basic_queue α) :=
  let destroyed : Option (basic_queue α) :=
    if trivially_destructible then some q
    else (for_each pool_size (fun (_ : Unit) (_ : α) => ((), none)) q ()).map Prod.snd
  match destroyed with
  | none => none
  | some q1 =>
    let linked : Option (basic_queue α) :=
      match q1.tail_ with
      | some t =>
        match OULY_ASSERT q1.head_.isSome, OULY_ASSERT (decide (q1.head_ ≠ q1.free_)) with
        | some _, some _ =>
          match q1.heap[t]? with
          | none => none
          | some tb =>
            some { q1 with heap := q1.heap.set t { tb with next_ := q1.free_ },
                           free_ := q1.head_ }
        | _, _ => none
      | none => some q1
    match linked with
    | none => none
    | some q2 =>
      some { q2 with head_ := none, tail_ := none, front_ := 0, back_ := 0, size_ := 0 }

/-! ### The queue as a list -/

/-- An operation of a client of the queue. -/
inductive queue_op (α : Type) where
  | emplace_back (v : α)
  | pop_front
  | clear
  deriving DecidableEq, Repr

/-- One operation on the queue: the value returned by a pop that succeeds, and the queue. -/
def apply_op {α : Type} (trivially_destructible : Bool) (pool_size : Nat)
    (q : basic_queue α) : queue_op α → Option (Option α × basic_queue α)
  | queue_op.emplace_back v => (emplace_back pool_size q v).map (fun q1 => (none, q1))
  | queue_op.pop_front =>
    match pop_front trivially_destructible pool_size q with
    | none => none
    | some (Except.ok v, q1) => some (some v, q1)
    | some (Except.error _, q1) => some (none, q1)
  | queue_op.clear => (clear trivially_destructible pool_size q).map (fun q1 => (none, q1))

/-- A sequence of operations on the queue: the values returned by the pops that succeed, in
the order of the pops, and the queue at the end. -/
def run {α : Type} (trivially_destructible : Bool) (pool_size : Nat) :
    List (queue_op α) → basic_queue α → Option (List α × basic_queue α)
  | [], q => some ([], q)
  | o :: ops, q =>
    match apply_op trivially_destructible pool_size q o with
    | none => none
    | some (r, q1) =>
      match run trivially_destructible pool_size ops q1 with
      | none => none
      | some (rs, q2) => some (r.toList ++ rs, q2)

/-- The queue of the documentation, a list with append at the back and removal at the front:
one operation, with the value returned by a pop on a list that is not empty. -/
def list_apply_op {α : Type} (xs : List α) : queue_op α → Option α × List α
  | queue_op.emplace_back v => (none, xs ++ [v])
  | queue_op.pop_front => (xs.head?, xs.tail)
  | queue_op.clear => (none, [])

/-- A sequence of operations on the list. -/
def list_run {α : Type} : List (queue_op α) → List α → List α × List α
  | [], xs => ([], xs)
  | o :: ops, xs =>
    ((list_apply_op xs o).1.toList ++ (list_run ops (list_apply_op xs o).2).1,
      (list_run ops (list_apply_op xs o).2).2)

/-- The list holds fewer elements than `size_type` has values, at every point of the
sequence of operations. -/
def held_below {α : Type} (ops : List (queue_op α)) (xs : List α) : Prop :=
  ∀ n, (list_run (ops.take n) xs).2.length < size_type_mod

/-! ### The representation of a list by the blocks -/

/-- The slots of the block `b`. -/
def data_of {α : Type} (heap : List (deque_block α)) (b : Nat) : List (Option α) :=
  match heap[b]? with
  | some blk => blk.data_
  | none => []

/-- The link `next_` of the block `b` (`none` when there is no such block). -/
def next_of {α : Type} (heap : List (deque_block α)) (b : Nat) : Option (Option Nat) :=
  (heap[b]?).map (fun blk => blk.next_)

/-- The slots of the blocks `live` from the first slot of the first block up to the slot
`back` of the last block. -/
def stored {α : Type} (heap : List (deque_block α)) (back : Nat) : List Nat → List (Option α)
  | [] => []
  | [t] => (data_of heap t).take back
  | b :: c :: rest => data_of heap b ++ stored heap back (c :: rest)

/-- The blocks `live` are chained from `hd` to `tl`; the link of the last block is not
constrained. -/
def live_chain {α : Type} (heap : List (deque_block α)) :
    Option Nat → Option Nat → List Nat → Prop
  | hd, tl, [] => hd = none ∧ tl = none
  | hd, tl, [b] => hd = some b ∧ tl = some b
  | hd, tl, b :: c :: rest =>
    hd = some b ∧ next_of heap b = some (some c) ∧ live_chain heap (some c) tl (c :: rest)

/-- The blocks `fl` are chained from `p` on and the link of the last one is `nullptr`. -/
def free_chain {α : Type} (heap : List (deque_block α)) : Option Nat → List Nat → Prop
  | p, [] => p = none
  | p, b :: rest => p = some b ∧ ∃ n, next_of heap b = some n ∧ free_chain heap n rest

/-- The representation invariant: the queue holds the list `xs` in the blocks `live`, and the
blocks `fl` are its free list. -/
structure queue_inv {α : Type} (pool_size : Nat) (q : basic_queue α) (live fl : List Nat)
    (xs : List α) : Prop where
  nodup : (live ++ fl).Nodup
  valid : ∀ b ∈ live ++ fl, b < q.heap.length ∧ (data_of q.heap b).length = pool_size
  live_links : live_chain q.heap q.head_ q.tail_ live
  free_links : free_chain q.heap q.free_ fl
  front_zero : live = [] → q.front_ = 0
  front_lt : live ≠ [] → q.front_ < pool_size
  back_pos : live ≠ [] → 0 < q.back_
  back_le : q.back_ ≤ pool_size
  front_le : q.front_ ≤ (stored q.heap q.back_ live).length
  content : (stored q.heap q.back_ live).drop q.front_ = xs.map some
  size_eq : q.size_ = xs.length % size_type_mod

end basic_queue
namespace basic_queue

/-- The values pushed by a sequence of operations, in the order of the pushes. -/
def pushed_values {α : Type} : List (queue_op α) → List α
  | [] => []
  | queue_op.emplace_back v :: ops => v :: pushed_values ops
  | _ :: ops => pushed_values ops

end basic_queue

/-! ## The ring of a worker

The header `scheduler/detail/mpmc_ring.hpp` is not among the sources.  The ring is modelled
from sections 3 and 4.5 of the specification, for calls that are not interleaved with other
calls on the same ring: a compare-exchange then succeeds whenever it is attempted. -/

namespace detail

/-- Modelled from the spec: a cell of `mpmc_ring` (the header is missing), "each cell
carries a sequence counter and a work-item slot". -/
structure ring_cell (ι : Type) where
  sequence : Nat
  slot : Option ι
  deriving DecidableEq, Repr

/-- Modelled from the spec: the class `mpmc_ring` (the header is missing), an "array of `C`
cells" and "two global counters `enqueue_pos` and `dequeue_pos`". -/
structure mpmc_ring (ι : Type) where
  cells : List (ring_cell ι)
  enqueue_pos : Nat
  dequeue_pos : Nat
  deriving DecidableEq, Repr

namespace mpmc_ring

variable {ι : Type}

/-- Modelled from the spec: the constructor of `mpmc_ring` (the header is missing), "each
cell holds a sequence counter initialized so that cell `i` starts with sequence `i`". -/
def default_ctor (ι : Type) (C : Nat) : mpmc_ring ι :=
  ⟨(List.range C).map (fun i => ⟨i, none⟩), 0, 0⟩

/-- Modelled from the spec: the member `emplace` of `mpmc_ring` (the header is missing), the
enqueue of section 4.5: "read `p = enqueue_pos`; examine cell `p mod C`; if its sequence is
exactly `p`, attempt to advance `enqueue_pos` to `p+1` by compare-exchange; on success, write
the payload and publish sequence `p+1`; if the sequence is `< p`, the ring is full, return
`false`".  For a sequence above `p` the specification gives no result (`none`). -/
def emplace (C : Nat) (r : mpmc_ring ι) (item : ι) : Option (Bool × mpmc_ring ι) :=
  match r.cells[r.enqueue_pos % C]? with
  | none => none
  | some cell =>
    if cell.sequence = r.enqueue_pos then
      some (true,
        { r with
          enqueue_pos := r.enqueue_pos + 1,
          cells := r.cells.set (r.enqueue_pos % C) ⟨r.enqueue_pos + 1, some item⟩ })
    else if cell.sequence < r.enqueue_pos then some (false, r)
    else none

/-- Modelled from the spec: the sequence that a dequeue at the position `p` publishes (the
header is missing), "advance to `p+1 mod C + C` on publish" in section 4.5.  The formula is
printed without brackets: `grouped` selects the reading `(p+1) mod C + C`, the other reading
is `p + (1 mod C) + C`. -/
def dequeue_sequence (grouped : Bool) (C p : Nat) : Nat :=
  if grouped then (p + 1) % C + C else p + 1 % C + C

/-- Modelled from the spec: the member `pop` of `mpmc_ring` (the header is missing), the
dequeue of section 4.5, "symmetric, with the expected sequence `p+1`, advance to
`p+1 mod C + C` on publish": the cell `p mod C` is read when its sequence is `p+1`,
`dequeue_pos` advances to `p+1` and the sequence `dequeue_sequence` is published; the ring is
empty when the sequence is below `p+1`, and for a sequence above `p+1` the specification
gives no result (`none`).  The result is the returned flag, the output item and the ring. -/
def pop (grouped : Bool) (C : Nat) (r : mpmc_ring ι) (item : ι) :
    Option (Bool × ι × mpmc_ring ι) :=
  match r.cells[r.dequeue_pos % C]? with
  | none => none
  | some cell =>
    if cell.sequence = r.dequeue_pos + 1 then
      match cell.slot with
      | none => none
      | some x =>
        some (true, x,
          { r with
            dequeue_pos := r.dequeue_pos + 1,
            cells := r.cells.set (r.dequeue_pos % C)
              ⟨dequeue_sequence grouped C r.dequeue_pos, cell.slot⟩ })
    else if cell.sequence < r.dequeue_pos + 1 then some (false, item, r)
    else none

end mpmc_ring

end detail

namespace basic_queue

/-! ### The blocks of the queue -/

end basic_queue


/-! ## The wake event of a worker

`wake_event` of `scheduler/detail/worker.hpp` forwards to `std::binary_semaphore`, a class of
the C++ standard library.  The semaphore is modelled as the standard specifies it
(`[thread.sema.cnt]`), for calls that are not interleaved with other calls. -/

namespace detail

/-- The class `std::binary_semaphore` (`std::counting_semaphore<1>`): the internal counter.
The constructor `counting_semaphore(desired)` initializes the counter with `desired`. -/
structure binary_semaphore where
  counter : Nat
  deriving DecidableEq, Repr

namespace binary_semaphore

/-- The function `std::binary_semaphore::release(update = 1)`.  `max` is the value of
`max()`, which is at least `1`.  The standard requires `update <= max() - counter` and then
adds `update` to the counter; a call outside this precondition is undefined behaviour,
`none`. -/
def release (max : Nat) (s : binary_semaphore) : Option binary_semaphore :=
  if 1 ≤ max - s.counter then some ⟨s.counter + 1⟩ else none

/-- The function `std::binary_semaphore::acquire`: it decrements the counter when it is
greater than zero and blocks otherwise.  With no other call in flight a call on the counter
`0` does not return, `none`. -/
def acquire (s : binary_semaphore) : Option binary_semaphore :=
  if 0 < s.counter then some ⟨s.counter - 1⟩ else none

end binary_semaphore

/-- The struct `wake_event`. -/
structure wake_event where
  semaphore_ : binary_semaphore
  deriving DecidableEq, Repr

namespace wake_event

/-- The constructor `wake_event() noexcept : semaphore_(0)`. -/
def ctor : wake_event :=
  ⟨⟨0⟩⟩

/-- The function `wake_event::wait`. -/
def wait (e : wake_event) : Option wake_event :=
  (e.semaphore_.acquire).map wake_event.mk

/-- The function `wake_event::notify`. -/
def notify (max : Nat) (e : wake_event) : Option wake_event :=
  (e.semaphore_.release max).map wake_event.mk

/-- The number of pending notifications: the counter of the semaphore. -/
def pending (e : wake_event) : Nat :=
  e.semaphore_.counter

/-- A call on a wake event. -/
inductive wake_op where
  | notify
  | wait
  deriving DecidableEq, Repr

/-- A sequence of calls on a wake event. -/
def wake_run (max : Nat) : List wake_op → wake_event → Option wake_event
  | [], e => some e
  | wake_op.notify :: ops, e =>
    match notify max e with
    | none => none
    | some e1 => wake_run max ops e1
  | wake_op.wait :: ops, e =>
    match wait e with
    | none => none
    | some e1 => wake_run max ops e1

/-- The sequence of calls issues `notify` only when no notification is pending and `wait` only
when one is pending: it alternates `notify`, `wait`, `notify`, ... -/
def alternates : List wake_op → Bool
  | [] => true
  | [wake_op.notify] => true
  | wake_op.notify :: wake_op.wait :: ops => alternates ops
  | _ => false

end wake_event

end detail


namespace strat

/-! ## Correctness of the binary searches -/

theorem range_sorted_of_pairwise {a : List Nat} (h : a.Pairwise (· ≤ ·)) (lo hi : Nat) :
    range_sorted a lo hi := by
  intro i j hi1 hj _ hij _
  rcases Nat.eq_or_lt_of_le hij with h1 | h1
  · subst h1; exact Nat.le_refl _
  · exact (List.pairwise_iff_getElem.mp h) i j hi1 hj h1

theorem is_lower_bound_unique {a : List Nat} {lo hi key r r' : Nat}
    (hhi : hi ≤ a.length)
    (h : is_lower_bound a lo hi key r) (h' : is_lower_bound a lo hi key r') : r = r' := by
  obtain ⟨h1, h2, h3, h4⟩ := h
  obtain ⟨h1', h2', h3', h4'⟩ := h'
  rcases Nat.lt_trichotomy r r' with hlt | heq | hgt
  · have hr : r < a.length := by omega
    have := h3' r hr h1 hlt
    have := h4 r hr (Nat.le_refl _) (by omega)
    omega
  · exact heq
  · have hr : r' < a.length := by omega
    have := h3 r' hr h1' hgt
    have := h4' r' hr (Nat.le_refl _) (by omega)
    omega

theorem step_spec {a : List Nat} {lo hi key it size : Nat}
    (hs : range_sorted a lo hi) (hhi : hi ≤ a.length) (h1 : 1 ≤ size)
    (hinv : search_inv a lo hi key it size) :
    ∃ it', OULY_BINARY_SEARCH_STEP a key it size = some (it', (size + 1) / 2) ∧
      search_inv a lo hi key it' ((size + 1) / 2) := by
  obtain ⟨i1, i2, i3, i4⟩ := hinv
  have hm : it + size / 2 < a.length := by omega
  unfold OULY_BINARY_SEARCH_STEP
  simp only [Nat.shiftRight_eq_div_pow, pow_one, List.getElem?_eq_getElem hm]
  by_cases hlt : a[it + size / 2] < key
  · refine ⟨it + size / 2, by simp [hlt], by omega, by omega, ?_, ?_⟩
    · intro j hj hlo hjm
      rcases Nat.lt_or_ge j it with hji | hji
      · exact i3 j hj hlo hji
      · have := hs j (it + size / 2) hj hm hlo (by omega) (by omega)
        omega
    · intro j hj hge hjh
      exact i4 j hj (by omega) hjh
  · refine ⟨it, by simp [hlt], i1, by omega, i3, ?_⟩
    intro j hj hge hjh
    rcases Nat.lt_or_ge j (it + size) with hji | hji
    · have := hs (it + size / 2) j hm hj (by omega) (by omega) hjh
      omega
    · exact i4 j hj hji hjh

theorem finish_spec {a : List Nat} {lo hi key it size : Nat}
    (hs : range_sorted a lo hi) (hhi : hi ≤ a.length) (h2 : size ≤ 2)
    (hinv : search_inv a lo hi key it size) :
    ∃ r, finish a key it size = some r ∧ is_lower_bound a lo hi key r := by
  obtain ⟨i1, i2, i3, i4⟩ := hinv
  unfold finish advance_if_less
  interval_cases size
  · exact ⟨it, by simp, i1, by omega, i3, fun j hj h1 h2 => i4 j hj (by omega) h2⟩
  · have hit : it < a.length := by omega
    simp only [Nat.lt_irrefl, if_false, Nat.lt_one_iff, Nat.zero_lt_one, if_true,
      List.getElem?_eq_getElem hit]
    by_cases hlt : a[it] < key
    · refine ⟨it + 1, by simp [hlt], by omega, by omega, ?_, ?_⟩
      · intro j hj hlo hjr
        rcases Nat.lt_or_ge j it with hji | hji
        · exact i3 j hj hlo hji
        · have : j = it := by omega
          subst this; exact hlt
      · intro j hj hge hjh
        exact i4 j hj hge hjh
    · refine ⟨it, by simp [hlt], i1, by omega, i3, ?_⟩
      intro j hj hge hjh
      rcases Nat.eq_or_lt_of_le hge with heq | hgt
      · subst heq; omega
      · exact i4 j hj (by omega) hjh
  · have hit : it < a.length := by omega
    have hit1 : it + 1 < a.length := by omega
    simp only [Nat.one_lt_ofNat, if_true, Nat.ofNat_pos, List.getElem?_eq_getElem hit]
    by_cases hlt : a[it] < key
    · simp only [hlt, if_true, List.getElem?_eq_getElem hit1]
      by_cases hlt1 : a[it + 1] < key
      · refine ⟨it + 2, by simp [hlt1], by omega, by omega, ?_, ?_⟩
        · intro j hj hlo hjr
          rcases Nat.lt_or_ge j it with hji | hji
          · exact i3 j hj hlo hji
          · rcases Nat.eq_or_lt_of_le hji with heq | hgt
            · subst heq; exact hlt
            · have : j = it + 1 := by omega
              subst this; exact hlt1
        · intro j hj hge hjh
          exact i4 j hj hge hjh
      · refine ⟨it + 1, by simp [hlt1], by omega, by omega, ?_, ?_⟩
        · intro j hj hlo hjr
          rcases Nat.lt_or_ge j it with hji | hji
          · exact i3 j hj hlo hji
          · have : j = it := by omega
            subst this; exact hlt
        · intro j hj hge hjh
          rcases Nat.eq_or_lt_of_le hge with heq | hgt
          · subst heq; omega
          · exact i4 j hj (by omega) hjh
    · simp only [hlt, if_false, List.getElem?_eq_getElem hit]
      refine ⟨it, by simp, i1, by omega, i3, ?_⟩
      intro j hj hge hjh
      have := hs it j hit hj i1 hge hjh
      omega

theorem mini0_loop_unfold (a : List Nat) (key it size : Nat) :
    mini0_loop a key it size =
      if 2 < size then
        match OULY_BINARY_SEARCH_STEP a key it size with
        | none => none
        | some p => mini0_loop a key p.1 p.2
      else some (it, size) := by
  rw [mini0_loop]
  unfold OULY_BINARY_SEARCH_STEP
  split
  · split <;> rename_i h <;> simp [h]
  · rfl

theorem mini1_loop_unfold (a : List Nat) (key it size : Nat) :
    mini1_loop a key it size =
      match OULY_BINARY_SEARCH_STEP a key it size with
      | none => none
      | some p => if p.2 ≤ 2 then some p else mini1_loop a key p.1 p.2 := by
  rw [mini1_loop]
  unfold OULY_BINARY_SEARCH_STEP
  split <;> rename_i h <;> simp [h]

theorem mini2_loop_unfold (a : List Nat) (key it size : Nat) :
    mini2_loop a key it size =
      match OULY_BINARY_SEARCH_STEP a key it size with
      | none => none
      | some p =>
        match OULY_BINARY_SEARCH_STEP a key p.1 p.2 with
        | none => none
        | some q => if q.2 ≤ 2 then some q else mini2_loop a key q.1 q.2 := by
  rw [mini2_loop]
  split
  · rename_i h; rw [h]
  · rename_i it1 size1 h
    rw [h]
    dsimp only
    split
    · rename_i h2; rw [h2]
    · rename_i it2 size2 h2
      rw [h2]

theorem mini0_loop_spec {a : List Nat} {lo hi key : Nat}
    (hs : range_sorted a lo hi) (hhi : hi ≤ a.length) :
    ∀ size it, search_inv a lo hi key it size →
      ∃ it' size', mini0_loop a key it size = some (it', size') ∧ size' ≤ 2 ∧
        search_inv a lo hi key it' size' := by
  intro size
  induction size using Nat.strong_induction_on with
  | _ size ih =>
    intro it hinv
    rw [mini0_loop_unfold]
    by_cases h2 : 2 < size
    · obtain ⟨it', he, hinv'⟩ := step_spec hs hhi (by omega) hinv
      simp only [h2, if_true, he]
      exact ih ((size + 1) / 2) (by omega) it' hinv'
    · exact ⟨it, size, by simp [h2], by omega, hinv⟩

theorem mini1_loop_spec {a : List Nat} {lo hi key : Nat}
    (hs : range_sorted a lo hi) (hhi : hi ≤ a.length) :
    ∀ size it, 1 ≤ size → search_inv a lo hi key it size →
      ∃ it' size', mini1_loop a key it size = some (it', size') ∧ size' ≤ 2 ∧
        search_inv a lo hi key it' size' := by
  intro size
  induction size using Nat.strong_induction_on with
  | _ size ih =>
    intro it h1 hinv
    rw [mini1_loop_unfold]
    obtain ⟨it', he, hinv'⟩ := step_spec hs hhi h1 hinv
    simp only [he]
    by_cases h2 : (size + 1) / 2 ≤ 2
    · exact ⟨it', (size + 1) / 2, by simp [h2], h2, hinv'⟩
    · simp only [h2, if_false]
      exact ih ((size + 1) / 2) (by omega) it' (by omega) hinv'

theorem mini2_loop_spec {a : List Nat} {lo hi key : Nat}
    (hs : range_sorted a lo hi) (hhi : hi ≤ a.length) :
    ∀ size it, 1 ≤ size → search_inv a lo hi key it size →
      ∃ it' size', mini2_loop a key it size = some (it', size') ∧ size' ≤ 2 ∧
        search_inv a lo hi key it' size' := by
  intro size
  induction size using Nat.strong_induction_on with
  | _ size ih =>
    intro it h1 hinv
    rw [mini2_loop_unfold]
    obtain ⟨it1, he1, hinv1⟩ := step_spec hs hhi h1 hinv
    obtain ⟨it2, he2, hinv2⟩ := step_spec hs hhi (by omega : 1 ≤ (size + 1) / 2) hinv1
    simp only [he1, he2]
    by_cases h2 : ((size + 1) / 2 + 1) / 2 ≤ 2
    · exact ⟨it2, _, by simp [h2], h2, hinv2⟩
    · simp only [h2, if_false]
      exact ih (((size + 1) / 2 + 1) / 2) (by omega) it2 (by omega) hinv2

theorem search_inv_init (a : List Nat) (lo key size : Nat) :
    search_inv a lo (lo + size) key lo size :=
  ⟨Nat.le_refl _, Nat.le_refl _, fun j _ h1 h2 => absurd h1 (by omega),
    fun j _ h1 h2 => absurd h1 (by omega)⟩

/-- On a range that is non-decreasing and inside the array, each of the three searches
returns the lower bound of the key in the range. -/
theorem bsearch_spec (a : List Nat) (lo size key algo : Nat)
    (halgo : algo ≤ 2)
    (hs : range_sorted a lo (lo + size)) (hhi : lo + size ≤ a.length) :
    ∃ r, bsearch algo a lo size key = some r ∧ is_lower_bound a lo (lo + size) key r := by
  have h0 := search_inv_init a lo key size
  unfold bsearch
  interval_cases algo
  · obtain ⟨it', size', he, h2, hinv⟩ := mini0_loop_spec hs hhi size lo h0
    simp only [if_true, mini0, he]
    exact finish_spec hs hhi h2 hinv
  · simp only [Nat.succ_ne_zero, if_false, if_true, mini1]
    by_cases hz : size = 0
    · subst hz
      exact ⟨lo, by simp, Nat.le_refl _, Nat.le_refl _, h0.2.2.1, h0.2.2.2⟩
    · obtain ⟨it', size', he, h2, hinv⟩ := mini1_loop_spec hs hhi size lo (by omega) h0
      simp only [hz, if_false, he]
      exact finish_spec hs hhi h2 hinv
  · simp only [Nat.succ_ne_zero, if_false, if_true, mini2]
    by_cases hz : size = 0
    · subst hz
      exact ⟨lo, by simp, Nat.le_refl _, Nat.le_refl _, h0.2.2.1, h0.2.2.2⟩
    · obtain ⟨it', size', he, h2, hinv⟩ := mini2_loop_spec hs hhi size lo (by omega) h0
      simp only [hz, if_false, he]
      exact finish_spec hs hhi h2 hinv

theorem find_free_it_spec (a : List Nat) (lo size key algo : Nat)
    (halgo : algo ≤ 2)
    (hs : range_sorted a lo (lo + size)) (hhi : lo + size ≤ a.length) :
    ∃ r, find_free_it algo a lo size key = some (r - lo) ∧
      is_lower_bound a lo (lo + size) key r := by
  obtain ⟨r, he, hr⟩ := bsearch_spec a lo size key algo halgo hs hhi
  exact ⟨r, by simp [find_free_it, he], hr⟩


/-- Claim C1. On a non-decreasing array `sizes` (of any length, also empty) the search
`find_free_it` with the default variant `mini0` returns an index `i` in `[0, n]` such that
every entry before `i` is below the key and every entry from `i` on is at least the key; `i = n`
when no entry reaches the key, and for `i < n` the entry `sizes[i]` reaches the key while its
left neighbour, if any, does not. -/
theorem find_free_it_leftmost (sizes : List Nat) (key : Nat)
    (hsorted : sizes.Pairwise (· ≤ ·)) :
    ∃ i, find_free_it 0 sizes 0 sizes.length key = some i ∧ i ≤ sizes.length ∧
      (∀ j (hj : j < sizes.length), j < i → sizes[j] < key) ∧
      (∀ j (hj : j < sizes.length), i ≤ j → key ≤ sizes[j]) ∧
      ((∀ j (hj : j < sizes.length), sizes[j] < key) → i = sizes.length) ∧
      (∀ hi : i < sizes.length,
        key ≤ sizes[i] ∧ (i = 0 ∨ ∀ hp : i - 1 < sizes.length, sizes[i - 1] < key)) := by
  obtain ⟨r, he, h1, h2, h3, h4⟩ :=
    find_free_it_spec sizes 0 sizes.length key 0 (Nat.zero_le 2)
      (range_sorted_of_pairwise hsorted 0 (0 + sizes.length)) (by omega)
  simp only [Nat.sub_zero, Nat.zero_add] at he h2 h4
  refine ⟨r, he, h2, fun j hj hjr => h3 j hj (Nat.zero_le _) hjr,
    fun j hj hrj => h4 j hj hrj hj, ?_, ?_⟩
  · intro hall
    rcases Nat.eq_or_lt_of_le h2 with heq | hlt
    · exact heq
    · have := hall r hlt
      have := h4 r hlt (Nat.le_refl _) hlt
      omega
  · intro hi
    refine ⟨h4 r hi (Nat.le_refl _) hi, ?_⟩
    rcases Nat.eq_zero_or_pos r with hz | hpos
    · exact Or.inl hz
    · exact Or.inr (fun hp => h3 (r - 1) hp (Nat.zero_le _) (by omega))

/-- Instance of C1 on the array `[4, 8, 8, 16, 32, 64]` with key `9`. -/
theorem find_free_it_leftmost_witness :
    [4, 8, 8, 16, 32, 64].Pairwise (· ≤ ·) ∧
    ∃ i, find_free_it 0 [4, 8, 8, 16, 32, 64] 0 [4, 8, 8, 16, 32, 64].length 9 = some i ∧
      i ≤ [4, 8, 8, 16, 32, 64].length ∧
      (∀ j (hj : j < [4, 8, 8, 16, 32, 64].length), j < i → [4, 8, 8, 16, 32, 64][j] < 9) ∧
      (∀ j (hj : j < [4, 8, 8, 16, 32, 64].length), i ≤ j → 9 ≤ [4, 8, 8, 16, 32, 64][j]) ∧
      ((∀ j (hj : j < [4, 8, 8, 16, 32, 64].length), [4, 8, 8, 16, 32, 64][j] < 9) →
        i = [4, 8, 8, 16, 32, 64].length) ∧
      (∀ hi : i < [4, 8, 8, 16, 32, 64].length,
        9 ≤ [4, 8, 8, 16, 32, 64][i] ∧
          (i = 0 ∨ ∀ hp : i - 1 < [4, 8, 8, 16, 32, 64].length,
            [4, 8, 8, 16, 32, 64][i - 1] < 9)) :=
  ⟨by decide, find_free_it_leftmost [4, 8, 8, 16, 32, 64] 9 (by decide)⟩

/-- Claim C2. On a non-decreasing array the three variants `mini0`, `mini1` and `mini2`
(`bsearch_algo` 0, 1 and 2) all return, and return the same index. -/
theorem bsearch_variants_agree (sizes : List Nat) (key : Nat)
    (hsorted : sizes.Pairwise (· ≤ ·)) :
    ∃ i, mini0 sizes 0 sizes.length key = some i ∧
      mini1 sizes 0 sizes.length key = some i ∧
      mini2 sizes 0 sizes.length key = some i ∧
      bsearch 0 sizes 0 sizes.length key = some i ∧
      bsearch 1 sizes 0 sizes.length key = some i ∧
      bsearch 2 sizes 0 sizes.length key = some i := by
  have hs := range_sorted_of_pairwise hsorted 0 (0 + sizes.length)
  have hhi : 0 + sizes.length ≤ sizes.length := by omega
  obtain ⟨r0, he0, hr0⟩ := bsearch_spec sizes 0 sizes.length key 0 (by omega) hs hhi
  obtain ⟨r1, he1, hr1⟩ := bsearch_spec sizes 0 sizes.length key 1 (by omega) hs hhi
  obtain ⟨r2, he2, hr2⟩ := bsearch_spec sizes 0 sizes.length key 2 (by omega) hs hhi
  have h01 : r1 = r0 := is_lower_bound_unique hhi hr1 hr0
  have h02 : r2 = r0 := is_lower_bound_unique hhi hr2 hr0
  rw [h01] at he1
  rw [h02] at he2
  refine ⟨r0, ?_, ?_, ?_, he0, he1, he2⟩
  · simpa [bsearch] using he0
  · simpa [bsearch] using he1
  · simpa [bsearch] using he2

/-- The scenario of C2: on `[4, 8, 8, 16, 32, 64]` the variants agree for the key `9`, and for
the keys `3, 4, 5, 8, 9, 64, 65` each variant returns `0, 0, 1, 1, 3, 5, 6`. -/
theorem bsearch_variants_agree_witness :
    [4, 8, 8, 16, 32, 64].Pairwise (· ≤ ·) ∧
    (∃ i, mini0 [4, 8, 8, 16, 32, 64] 0 [4, 8, 8, 16, 32, 64].length 9 = some i ∧
      mini1 [4, 8, 8, 16, 32, 64] 0 [4, 8, 8, 16, 32, 64].length 9 = some i ∧
      mini2 [4, 8, 8, 16, 32, 64] 0 [4, 8, 8, 16, 32, 64].length 9 = some i ∧
      bsearch 0 [4, 8, 8, 16, 32, 64] 0 [4, 8, 8, 16, 32, 64].length 9 = some i ∧
      bsearch 1 [4, 8, 8, 16, 32, 64] 0 [4, 8, 8, 16, 32, 64].length 9 = some i ∧
      bsearch 2 [4, 8, 8, 16, 32, 64] 0 [4, 8, 8, 16, 32, 64].length 9 = some i) ∧
    (∀ algo ∈ [0, 1, 2],
      bsearch algo [4, 8, 8, 16, 32, 64] 0 6 3 = some 0 ∧
      bsearch algo [4, 8, 8, 16, 32, 64] 0 6 4 = some 0 ∧
      bsearch algo [4, 8, 8, 16, 32, 64] 0 6 5 = some 1 ∧
      bsearch algo [4, 8, 8, 16, 32, 64] 0 6 8 = some 1 ∧
      bsearch algo [4, 8, 8, 16, 32, 64] 0 6 9 = some 3 ∧
      bsearch algo [4, 8, 8, 16, 32, 64] 0 6 64 = some 5 ∧
      bsearch algo [4, 8, 8, 16, 32, 64] 0 6 65 = some 6) := by
  refine ⟨by decide, bsearch_variants_agree [4, 8, 8, 16, 32, 64] 9 (by decide), ?_⟩
  intro algo halgo
  simp only [List.mem_cons, List.mem_singleton, List.not_mem_nil, or_false] at halgo
  rcases halgo with h | h | h <;> subst h
  · refine ⟨?_, ?_, ?_, ?_, ?_, ?_, ?_⟩ <;>
      simp [bsearch, mini0, mini0_loop, finish, advance_if_less]
  · refine ⟨?_, ?_, ?_, ?_, ?_, ?_, ?_⟩ <;>
      simp [bsearch, mini1, mini1_loop, finish, advance_if_less]
  · refine ⟨?_, ?_, ?_, ?_, ?_, ?_, ?_⟩ <;>
      simp [bsearch, mini2, mini2_loop_unfold, OULY_BINARY_SEARCH_STEP, finish,
        advance_if_less]

/-! ## `try_allocate` -/

/-- Claim C3. On a free index whose `sizes_` is non-decreasing, `try_allocate` returns the null
pointer exactly when no entry reaches the request; otherwise it returns a pointer to an entry
that reaches the request and is of minimum size among the entries that do (the leftmost such
entry).  The embedding of `try_allocate` yields no new state: its body assigns to no member. -/
theorem try_allocate_best_fit (algo : Nat) (s : best_fit_v2) (size : Nat)
    (halgo : algo ≤ 2) (hsorted : s.sizes_.Pairwise (· ≤ ·)) :
    ∃ r, try_allocate algo s size = some r ∧
      (r = optional_addr.nullptr ↔ ∀ x ∈ s.sizes_, x < size) ∧
      (∀ i, r = optional_addr.addr i → ∃ hi : i < s.sizes_.length,
        size ≤ s.sizes_[i] ∧
        (∀ j (hj : j < s.sizes_.length), j < i → s.sizes_[j] < size) ∧
        (∀ j (hj : j < s.sizes_.length), size ≤ s.sizes_[j] → s.sizes_[i] ≤ s.sizes_[j])) := by
  have hs := range_sorted_of_pairwise hsorted 0 (0 + s.sizes_.length)
  unfold try_allocate
  rcases hlast : s.sizes_.getLast? with _ | back
  · have hnil : s.sizes_ = [] := List.getLast?_eq_none_iff.mp hlast
    refine ⟨optional_addr.nullptr, rfl, ?_, ?_⟩
    · simp [hnil]
    · intro i hi; cases hi
  · have hne : s.sizes_ ≠ [] := by
      intro h; rw [h] at hlast; simp at hlast
    have hlen : 0 < s.sizes_.length := List.length_pos.mpr hne
    have hback : s.sizes_[s.sizes_.length - 1]? = some back := by
      rw [← List.getLast?_eq_getElem?]; exact hlast
    have hback' : s.sizes_[s.sizes_.length - 1] = back := by
      have := List.getElem?_eq_getElem (by omega : s.sizes_.length - 1 < s.sizes_.length)
      rw [this] at hback
      exact Option.some.inj hback
    by_cases hlt : back < size
    · refine ⟨optional_addr.nullptr, by simp [hlt], ?_, ?_⟩
      · simp only [true_iff]
        intro x hx
        obtain ⟨j, hj, rfl⟩ := List.mem_iff_getElem.mp hx
        have := hs j (s.sizes_.length - 1) hj (by omega) (Nat.zero_le _) (by omega) (by omega)
        omega
      · intro i hi; cases hi
    · obtain ⟨r, he, h1, h2, h3, h4⟩ :=
        bsearch_spec s.sizes_ 0 s.sizes_.length size algo halgo hs (by omega)
      have hr : r < s.sizes_.length := by
        rcases Nat.lt_or_ge r s.sizes_.length with h | h
        · exact h
        · have := h3 (s.sizes_.length - 1) (by omega) (Nat.zero_le _) (by omega)
          omega
      refine ⟨optional_addr.addr r, by simp [hlt, find_free, he, hr], ?_, ?_⟩
      · constructor
        · intro h; cases h
        · intro hall
          have := hall s.sizes_[r] (List.getElem_mem hr)
          have := h4 r hr (Nat.le_refl _) (by omega)
          omega
      · intro i hi
        cases hi
        refine ⟨hr, h4 r hr (Nat.le_refl _) (by omega),
          fun j hj hji => h3 j hj (Nat.zero_le _) hji, ?_⟩
        intro j hj hge
        rcases Nat.lt_or_ge j r with hjr | hjr
        · have := h3 j hj (Nat.zero_le _) hjr
          omega
        · exact hs r j hr hj (Nat.zero_le _) hjr (by omega)

/-- The scenario of C3: with the free sizes `[200, 674]` a request of `150` selects the entry
of size `200` (index `0`), not the entry of size `674`. -/
theorem try_allocate_best_fit_witness :
    (0 ≤ 2 ∧ [200, 674].Pairwise (· ≤ ·)) ∧
    (∃ r, try_allocate 0 ⟨[200, 674], [1, 3]⟩ 150 = some r ∧
      (r = optional_addr.nullptr ↔
        ∀ x ∈ (best_fit_v2.mk [200, 674] [1, 3]).sizes_, x < 150) ∧
      (∀ i, r = optional_addr.addr i →
        ∃ hi : i < (best_fit_v2.mk [200, 674] [1, 3]).sizes_.length,
          150 ≤ (best_fit_v2.mk [200, 674] [1, 3]).sizes_[i] ∧
          (∀ j (hj : j < (best_fit_v2.mk [200, 674] [1, 3]).sizes_.length), j < i →
            (best_fit_v2.mk [200, 674] [1, 3]).sizes_[j] < 150) ∧
          (∀ j (hj : j < (best_fit_v2.mk [200, 674] [1, 3]).sizes_.length),
            150 ≤ (best_fit_v2.mk [200, 674] [1, 3]).sizes_[j] →
            (best_fit_v2.mk [200, 674] [1, 3]).sizes_[i] ≤
              (best_fit_v2.mk [200, 674] [1, 3]).sizes_[j]))) ∧
    try_allocate 0 ⟨[200, 674], [1, 3]⟩ 150 = some (optional_addr.addr 0) ∧
    try_allocate 0 ⟨[200, 674], [1, 3]⟩ 700 = some optional_addr.nullptr :=
  ⟨⟨by decide, by decide⟩,
    try_allocate_best_fit 0 ⟨[200, 674], [1, 3]⟩ 150 (by decide) (by decide),
    by simp [try_allocate, find_free, bsearch, mini0, mini0_loop, finish, advance_if_less],
    by simp [try_allocate]⟩

/-! ## Lists: removing an entry and inserting one -/

theorem store_eq_some {α : Type} (a : List α) (i : Nat) (v : α) (h : i < a.length) :
    store a i v = some (a.set i v) := by
  simp [store, h]

theorem erase_at_eq_some {α : Type} (a : List α) (i : Nat) (h : i < a.length) :
    erase_at a i = some (a.eraseIdx i) := by
  simp [erase_at, h]

theorem set_eq_replace_move {α : Type} (l : List α) (k : Nat) (v : α) (hk : k < l.length) :
    l.set k v = replace_move l k k v := by
  unfold replace_move
  rw [List.set_eq_take_append_cons_drop, if_pos hk, List.eraseIdx_eq_take_drop_succ]
  have h1 : (List.take k l).length = k := by simp; omega
  rw [List.take_left' h1, List.drop_left' h1]

/-- The shift of `reinsert_left`: the entries `j .. of - 1` move one place to the right and
the new entry is written at `j`. -/
theorem shift_left_eq {α : Type} (l : List α) (j of : Nat) (v : α)
    (hj : j < of) (hof : of < l.length) :
    ∃ m, memmove l (j + 1) j (of - j) = some m ∧ store m j v = some (replace_move l of j v) := by
  have hc : j + (of - j) ≤ l.length ∧ j + 1 + (of - j) ≤ l.length := by omega
  refine ⟨List.take (j + 1) l ++ List.take (of - j) (List.drop j l)
      ++ List.drop (j + 1 + (of - j)) l, by simp only [memmove, if_pos hc], ?_⟩
  have hlen : j < (List.take (j + 1) l ++ List.take (of - j) (List.drop j l)
      ++ List.drop (j + 1 + (of - j)) l).length := by
    simp; omega
  rw [store_eq_some _ _ _ hlen]
  congr 1
  unfold replace_move
  have e1 : j + 1 + (of - j) = of + 1 := by omega
  rw [e1, List.eraseIdx_eq_take_drop_succ, List.append_assoc]
  have h1 : j < (List.take (j + 1) l).length := by simp; omega
  rw [List.set_append_left _ _ h1]
  have h2 : (List.take (j + 1) l).set j v = List.take j l ++ [v] := by
    rw [List.set_eq_take_append_cons_drop, if_pos h1, List.take_take]
    have : min j (j + 1) = j := by omega
    rw [this]
    have : List.drop (j + 1) (List.take (j + 1) l) = [] := by
      apply List.drop_eq_nil_of_le
      simp
    rw [this]
  rw [h2]
  have h3 : List.take j (List.take of l ++ List.drop (of + 1) l) = List.take j l := by
    rw [List.take_append_of_le_length (by simp; omega), List.take_take]
    have : min j of = j := by omega
    rw [this]
  have h4 : List.drop j (List.take of l ++ List.drop (of + 1) l)
      = List.take (of - j) (List.drop j l) ++ List.drop (of + 1) l := by
    rw [List.drop_append_of_le_length (by simp; omega), List.drop_take]
  rw [h3, h4]
  simp

/-- The shift of `reinsert_right`: the entries `of + 1 .. of + c` move one place to the left
and the new entry is written at `of + c`. -/
theorem shift_right_eq {α : Type} (l : List α) (of c : Nat) (v : α)
    (hc : of + c < l.length) :
    ∃ m, memmove l of (of + 1) c = some m ∧
      store m (of + c) v = some (replace_move l of (of + c) v) := by
  have hb : of + 1 + c ≤ l.length ∧ of + c ≤ l.length := by omega
  refine ⟨List.take of l ++ List.take c (List.drop (of + 1) l)
      ++ List.drop (of + c) l, by simp only [memmove, if_pos hb], ?_⟩
  have hlen : of + c < (List.take of l ++ List.take c (List.drop (of + 1) l)
      ++ List.drop (of + c) l).length := by
    simp; omega
  rw [store_eq_some _ _ _ hlen]
  congr 1
  unfold replace_move
  rw [List.eraseIdx_eq_take_drop_succ]
  have hl1 : (List.take of l ++ List.take c (List.drop (of + 1) l)).length = of + c := by
    simp; omega
  rw [List.set_append_right _ _ (by omega), hl1, Nat.sub_self]
  have h3 : List.take (of + c) (List.take of l ++ List.drop (of + 1) l)
      = List.take of l ++ List.take c (List.drop (of + 1) l) := by
    have : (List.take of l).length = of := by simp; omega
    rw [List.take_append_eq_append_take, this, Nat.add_sub_cancel_left,
      List.take_of_length_le (by omega)]
  have h4 : List.drop (of + c) (List.take of l ++ List.drop (of + 1) l)
      = List.drop (of + c + 1) l := by
    have : (List.take of l).length = of := by simp; omega
    rw [List.drop_append_eq_append_drop, this, Nat.add_sub_cancel_left,
      List.drop_of_length_le (by omega), List.drop_drop]
    simp
    congr 1
    omega
  rw [h3, h4]
  have h5 : (List.drop (of + c) l).set 0 v = v :: List.drop (of + c + 1) l := by
    rw [List.drop_eq_getElem_cons hc]
    rfl
  rw [h5]

theorem length_replace_move {α : Type} (l : List α) (k j : Nat) (v : α)
    (hk : k < l.length) : (replace_move l k j v).length = l.length := by
  unfold replace_move
  have := List.length_eraseIdx_of_lt hk
  simp only [List.length_append, List.length_cons, List.length_take, List.length_drop]
  omega

theorem getElem?_replace_move {α : Type} (l : List α) (k j : Nat) (v : α)
    (hk : k < l.length) (hj : j < l.length) : (replace_move l k j v)[j]? = some v := by
  unfold replace_move
  have := List.length_eraseIdx_of_lt hk
  have h1 : (List.take j (l.eraseIdx k)).length = j := by simp; omega
  rw [List.getElem?_append_right (by omega), h1]
  simp

theorem eraseIdx_replace_move {α : Type} (l : List α) (k j : Nat) (v : α)
    (hk : k < l.length) (hj : j < l.length) :
    (replace_move l k j v).eraseIdx j = l.eraseIdx k := by
  unfold replace_move
  have := List.length_eraseIdx_of_lt hk
  have h1 : (List.take j (l.eraseIdx k)).length = j := by simp; omega
  rw [List.eraseIdx_append_of_length_le (by omega), h1]
  simp

/-! ## The two re-insertions -/

theorem range_sorted_mono {a : List Nat} {lo hi lo' hi' : Nat}
    (h : range_sorted a lo hi) (h1 : lo ≤ lo') (h2 : hi' ≤ hi) : range_sorted a lo' hi' :=
  fun i j hi1 hj hlo hij hjh => h i j hi1 hj (by omega) hij (by omega)

/-- Under equal lengths and a non-decreasing prefix, `reinsert_left` returns: the entry `of`
is taken out and the new entry is put at the lower bound `j ≤ of` of its size in the prefix. -/
theorem reinsert_left_spec (algo : Nat) (s : best_fit_v2) (of size node : Nat)
    (halgo : algo ≤ 2) (hlen : s.sizes_.length = s.free_ordering_.length)
    (hof : of < s.sizes_.length) (hs : range_sorted s.sizes_ 0 of) :
    ∃ j, j ≤ of ∧ is_lower_bound s.sizes_ 0 of size j ∧
      reinsert_left algo s of size node =
        some ⟨replace_move s.sizes_ of j size, replace_move s.free_ordering_ of j node⟩ := by
  have hof' : of < s.free_ordering_.length := by omega
  unfold reinsert_left
  by_cases h0 : of = 0
  · subst h0
    refine ⟨0, Nat.le_refl _, ⟨Nat.le_refl _, Nat.le_refl _,
      fun j _ _ h => absurd h (by omega), fun j _ _ h => absurd h (by omega)⟩, ?_⟩
    simp [store_eq_some _ _ _ hof, store_eq_some _ _ _ hof', set_eq_replace_move _ _ _ hof,
      set_eq_replace_move _ _ _ hof']
  · obtain ⟨r, he, hr⟩ := find_free_it_spec s.sizes_ 0 of size algo halgo
      (by simpa using hs) (by omega)
    simp only [Nat.sub_zero, Nat.zero_add] at he hr
    refine ⟨r, hr.2.1, hr, ?_⟩
    simp only [if_neg h0, he, Option.bind_eq_bind, Option.some_bind]
    by_cases hro : r = of
    · subst hro
      simp [store_eq_some _ _ _ hof, store_eq_some _ _ _ hof', set_eq_replace_move _ _ _ hof,
        set_eq_replace_move _ _ _ hof']
    · have hlt : r < of := by have := hr.2.1; omega
      obtain ⟨m1, hm1, hs1⟩ := shift_left_eq s.sizes_ r of size hlt hof
      obtain ⟨m2, hm2, hs2⟩ := shift_left_eq s.free_ordering_ r of node hlt hof'
      simp [hro, hm1, hm2, hs1, hs2]

/-- Under equal lengths and a non-decreasing suffix, `reinsert_right` returns: the entry `of`
is taken out and the new entry is put at position `j ≥ of`, where `j + 1` is the lower bound of
its size in the suffix after `of`. -/
theorem reinsert_right_spec (algo : Nat) (s : best_fit_v2) (of size node : Nat)
    (halgo : algo ≤ 2) (hlen : s.sizes_.length = s.free_ordering_.length)
    (hof : of < s.sizes_.length) (hs : range_sorted s.sizes_ (of + 1) s.sizes_.length) :
    ∃ j, of ≤ j ∧ j < s.sizes_.length ∧
      is_lower_bound s.sizes_ (of + 1) s.sizes_.length size (j + 1) ∧
      reinsert_right algo s of size node =
        some ⟨replace_move s.sizes_ of j size, replace_move s.free_ordering_ of j node⟩ := by
  have hof' : of < s.free_ordering_.length := by omega
  unfold reinsert_right
  by_cases h0 : of + 1 = s.sizes_.length
  · refine ⟨of, Nat.le_refl _, hof, ⟨Nat.le_refl _, by omega,
      fun j _ h1 h2 => absurd h1 (by omega), fun j _ h1 h2 => absurd h1 (by omega)⟩, ?_⟩
    simp [h0, store_eq_some _ _ _ hof, store_eq_some _ _ _ hof',
      set_eq_replace_move _ _ _ hof, set_eq_replace_move _ _ _ hof']
  · have hsum : of + 1 + (s.sizes_.length - (of + 1)) = s.sizes_.length := by omega
    obtain ⟨r, he, hr⟩ := find_free_it_spec s.sizes_ (of + 1) (s.sizes_.length - (of + 1))
      size algo halgo (by rw [hsum]; exact hs) (by omega)
    rw [hsum] at hr
    have hr1 := hr.1
    have hr2 := hr.2.1
    refine ⟨r - 1, by omega, by omega, by
      have : r - 1 + 1 = r := by omega
      rw [this]; exact hr, ?_⟩
    simp only [if_neg h0, he, Option.bind_eq_bind, Option.some_bind]
    by_cases hc : r - (of + 1) = 0
    · have hro : r - 1 = of := by omega
      rw [hro]
      simp [hc, store_eq_some _ _ _ hof, store_eq_some _ _ _ hof',
        set_eq_replace_move _ _ _ hof, set_eq_replace_move _ _ _ hof']
    · have hj : of + (r - (of + 1)) = r - 1 := by omega
      obtain ⟨m1, hm1, hs1⟩ := shift_right_eq s.sizes_ of (r - (of + 1)) size (by omega)
      obtain ⟨m2, hm2, hs2⟩ :=
        shift_right_eq s.free_ordering_ of (r - (of + 1)) node (by omega)
      rw [hj] at hs1 hs2
      simp [hc, hm1, hm2, hs1, hs2, hj]

/-! ## The scan for a handle -/

theorem find_node_unfold (order : List Nat) (block it : Nat) :
    find_node order block it =
      if it ≠ order.length then
        match order[it]? with
        | none => none
        | some v => if v ≠ block then find_node order block (it + 1) else some it
      else some it := by
  rw [find_node]
  split
  · split <;> rename_i h <;> simp [h]
  · rfl

/-- The scan started at `it` stops at the first position from `it` on that holds the handle. -/
theorem find_node_spec (order : List Nat) (block : Nat) :
    ∀ (d it p : Nat) (hp : p < order.length), p = it + d → order[p] = block →
      ∃ k, it ≤ k ∧ k ≤ p ∧ order[k]? = some block ∧
        (∀ i (hi : i < order.length), it ≤ i → i < k → order[i] ≠ block) ∧
        find_node order block it = some k := by
  intro d
  induction d with
  | zero =>
    intro it p hp hpe hb
    have : p = it := by omega
    subst this
    refine ⟨p, Nat.le_refl _, Nat.le_refl _, by rw [List.getElem?_eq_getElem hp, hb],
      fun i _ h1 h2 => absurd h1 (by omega), ?_⟩
    rw [find_node_unfold]
    simp [Nat.ne_of_lt hp, List.getElem?_eq_getElem hp, hb]
  | succ d ih =>
    intro it p hp hpe hb
    have hit : it < order.length := by omega
    rw [find_node_unfold]
    by_cases hv : order[it] = block
    · refine ⟨it, Nat.le_refl _, by omega, by rw [List.getElem?_eq_getElem hit, hv],
        fun i _ h1 h2 => absurd h1 (by omega), ?_⟩
      simp [Nat.ne_of_lt hit, List.getElem?_eq_getElem hit, hv]
    · obtain ⟨k, h1, h2, h3, h4, h5⟩ := ih (it + 1) p hp (by omega) hb
      refine ⟨k, by omega, h2, h3, ?_, ?_⟩
      · intro i hi hge hlt
        rcases Nat.eq_or_lt_of_le hge with heq | hgt
        · subst heq; exact hv
        · exact h4 i hi (by omega) hlt
      · simp [Nat.ne_of_lt hit, List.getElem?_eq_getElem hit, hv, h5]

/-! ## Order after a re-insertion -/

theorem mem_take_eraseIdx {l : List Nat} {k j a : Nat}
    (h : a ∈ List.take j (l.eraseIdx k)) :
    ∃ i, ∃ hi : i < l.length, l[i] = a ∧ i ≠ k ∧ (i < j ∨ (k < i ∧ i ≤ j)) := by
  obtain ⟨p, hp, rfl⟩ := List.mem_take_iff_getElem.mp h
  have hp2 : p < (l.eraseIdx k).length := by omega
  have hle := List.length_eraseIdx_le l k
  by_cases hpk : p < k
  · exact ⟨p, by omega, (List.getElem_eraseIdx_of_lt l k p hp2 hpk).symm, by omega, by omega⟩
  · have hlen : p + 1 < l.length := by
      rw [List.length_eraseIdx] at hp2
      split at hp2 <;> omega
    exact ⟨p + 1, hlen, (List.getElem_eraseIdx_of_ge l k p hp2 (by omega)).symm, by omega,
      by omega⟩

theorem mem_drop_eraseIdx {l : List Nat} {k j a : Nat}
    (h : a ∈ List.drop j (l.eraseIdx k)) :
    ∃ i, ∃ hi : i < l.length, l[i] = a ∧ i ≠ k ∧ ((j ≤ i ∧ i < k) ∨ (k < i ∧ j < i)) := by
  obtain ⟨p, hp, rfl⟩ := List.mem_drop_iff_getElem.mp h
  have hp2 : j + p < (l.eraseIdx k).length := by omega
  have hle := List.length_eraseIdx_le l k
  by_cases hpk : j + p < k
  · exact ⟨j + p, by omega, (List.getElem_eraseIdx_of_lt l k (j + p) hp2 hpk).symm, by omega,
      by omega⟩
  · have hlen : j + p + 1 < l.length := by
      rw [List.length_eraseIdx] at hp2
      split at hp2 <;> omega
    exact ⟨j + p + 1, hlen, (List.getElem_eraseIdx_of_ge l k (j + p) hp2 (by omega)).symm,
      by omega, by omega⟩

theorem pairwise_replace_move {l : List Nat} {k j v : Nat}
    (hl : l.Pairwise (· ≤ ·))
    (hbefore : ∀ i (hi : i < l.length), i ≠ k → (i < j ∨ (k < i ∧ i ≤ j)) → l[i] ≤ v)
    (hafter : ∀ i (hi : i < l.length), i ≠ k → ((j ≤ i ∧ i < k) ∨ (k < i ∧ j < i)) → v ≤ l[i]) :
    (replace_move l k j v).Pairwise (· ≤ ·) := by
  unfold replace_move
  have hm : (l.eraseIdx k).Pairwise (· ≤ ·) := hl.sublist (List.eraseIdx_sublist l k)
  have hb : ∀ a ∈ List.take j (l.eraseIdx k), a ≤ v := by
    intro a ha
    obtain ⟨i, hi, rfl, h1, h2⟩ := mem_take_eraseIdx ha
    exact hbefore i hi h1 h2
  have ha : ∀ b ∈ List.drop j (l.eraseIdx k), v ≤ b := by
    intro b hb'
    obtain ⟨i, hi, rfl, h1, h2⟩ := mem_drop_eraseIdx hb'
    exact hafter i hi h1 h2
  rw [List.pairwise_append]
  refine ⟨hm.sublist (List.take_sublist _ _), ?_, ?_⟩
  · rw [List.pairwise_cons]
    exact ⟨ha, hm.sublist (List.drop_sublist _ _)⟩
  · intro a haa b hbb
    rcases List.mem_cons.mp hbb with rfl | hbd
    · exact hb a haa
    · exact Nat.le_trans (hb a haa) (ha b hbd)

theorem pairwise_replace_move_left {l : List Nat} {k j v : Nat}
    (hl : l.Pairwise (· ≤ ·)) (hk : k < l.length) (hjk : j ≤ k)
    (hlb : is_lower_bound l 0 k v j) (hv : v ≤ l[k]) :
    (replace_move l k j v).Pairwise (· ≤ ·) := by
  have hs := range_sorted_of_pairwise hl 0 l.length
  obtain ⟨_, _, h3, h4⟩ := hlb
  apply pairwise_replace_move hl
  · intro i hi _ hc
    have := h3 i hi (Nat.zero_le _) (by omega)
    omega
  · intro i hi _ hc
    rcases hc with ⟨h1, h2⟩ | ⟨h1, h2⟩
    · exact h4 i hi h1 h2
    · have := hs k i hk hi (Nat.zero_le _) (by omega) hi
      omega

theorem pairwise_replace_move_right {l : List Nat} {k j v : Nat}
    (hl : l.Pairwise (· ≤ ·)) (hk : k < l.length) (hkj : k ≤ j)
    (hlb : is_lower_bound l (k + 1) l.length v (j + 1)) (hv : l[k] ≤ v) :
    (replace_move l k j v).Pairwise (· ≤ ·) := by
  have hs := range_sorted_of_pairwise hl 0 l.length
  obtain ⟨_, _, h3, h4⟩ := hlb
  apply pairwise_replace_move hl
  · intro i hi hne hc
    rcases Nat.lt_or_ge i k with hik | hik
    · have := hs i k hi hk (Nat.zero_le _) (by omega) hk
      omega
    · have := h3 i hi (by omega) (by omega)
      omega
  · intro i hi _ hc
    exact h4 i hi (by omega) hi

/-! ## The block bank -/

theorem at_isSome_lt {blocks : block_bank} {h : Nat} {b : block}
    (hb : blocks.at h = some b) : h < blocks.length ∧ blocks[h]? = some (some b) := by
  unfold block_bank.at at hb
  split at hb
  · rename_i x hx
    have := (List.getElem?_eq_some_iff.mp hx).1
    simp only [Option.some.injEq] at hb
    subst hb
    exact ⟨this, hx⟩
  · simp at hb

theorem put_eq_some {blocks : block_bank} {h : Nat} {b : block} (b' : block)
    (hb : blocks.at h = some b) : blocks.put h b' = some (blocks.set h (some b')) := by
  simp [block_bank.put, hb]

theorem at_set_self {blocks : block_bank} {h : Nat} (b' : block) (hlt : h < blocks.length) :
    block_bank.at (blocks.set h (some b')) h = some b' := by
  simp [block_bank.at, List.getElem?_set_self, hlt]

theorem at_set_other {blocks : block_bank} {h h' : Nat} (x : Option block) (hne : h' ≠ h) :
    block_bank.at (blocks.set h x) h' = blocks.at h' := by
  simp [block_bank.at, List.getElem?_set_ne (Ne.symm hne)]

/-- The three facts about `emplace` the proofs use: the returned handle was vacant, it holds
the new record afterwards, and no other handle is affected. -/
theorem emplace_spec (blocks : block_bank) (b : block) :
    blocks.at (blocks.emplace b).2 = none ∧
    block_bank.at (blocks.emplace b).1 (blocks.emplace b).2 = some b ∧
    ∀ h, h ≠ (blocks.emplace b).2 → block_bank.at (blocks.emplace b).1 h = blocks.at h := by
  unfold block_bank.emplace
  by_cases hf : List.findIdx Option.isNone blocks < blocks.length
  · simp only [if_pos hf]
    have hnone : (blocks[List.findIdx Option.isNone blocks]).isNone = true :=
      List.findIdx_getElem
    refine ⟨?_, at_set_self b hf, fun h hne => at_set_other _ hne⟩
    unfold block_bank.at
    rw [List.getElem?_eq_getElem hf]
    cases hx : blocks[List.findIdx Option.isNone blocks] with
    | none => rfl
    | some x => rw [hx] at hnone; simp at hnone
  · simp only [if_neg hf]
    refine ⟨?_, ?_, ?_⟩
    · simp [block_bank.at]
    · simp [block_bank.at]
    · intro h hne
      simp only [block_bank.at]
      rcases Nat.lt_or_ge h blocks.length with hlt | hge
      · rw [List.getElem?_append_left hlt]
      · have hgt : blocks.length < h := by omega
        rw [List.getElem?_eq_none (by simp; omega), List.getElem?_eq_none (by omega)]

/-! ## The link between sizes and blocks -/

theorem free_index_inv_iff (blocks : block_bank) (s : best_fit_v2) :
    free_index_inv blocks s ↔
      s.sizes_.Pairwise (· ≤ ·) ∧
      List.Forall₂ (fun sz h => (blocks.at h).map block.size_ = some sz)
        s.sizes_ s.free_ordering_ := by
  unfold free_index_inv
  rw [List.forall₂_iff_get]
  constructor
  · rintro ⟨h1, h2, h3⟩
    exact ⟨h2, h1, fun i hi1 hi2 => by simpa using h3 i hi1 hi2⟩
  · rintro ⟨h2, h1, h3⟩
    exact ⟨h1, h2, fun i hi1 hi2 => by simpa using h3 i hi1 hi2⟩

theorem forall₂_eraseIdx {α β : Type} {R : α → β → Prop} {l1 : List α} {l2 : List β}
    (k : Nat) (h : List.Forall₂ R l1 l2) :
    List.Forall₂ R (l1.eraseIdx k) (l2.eraseIdx k) := by
  rw [List.eraseIdx_eq_take_drop_succ, List.eraseIdx_eq_take_drop_succ]
  exact List.rel_append (List.forall₂_take k h) (List.forall₂_drop (k + 1) h)

theorem forall₂_insert {α β : Type} {R : α → β → Prop} {l1 : List α} {l2 : List β}
    (j : Nat) {v : α} {w : β} (h : List.Forall₂ R l1 l2) (hvw : R v w) :
    List.Forall₂ R (l1.take j ++ v :: l1.drop j) (l2.take j ++ w :: l2.drop j) :=
  List.rel_append (List.forall₂_take j h) (List.Forall₂.cons hvw (List.forall₂_drop j h))

theorem forall₂_replace_move {α β : Type} {R : α → β → Prop} {l1 : List α} {l2 : List β}
    (k j : Nat) {v : α} {w : β} (h : List.Forall₂ R l1 l2) (hvw : R v w) :
    List.Forall₂ R (replace_move l1 k j v) (replace_move l2 k j w) :=
  forall₂_insert j (forall₂_eraseIdx k h) hvw

theorem forall₂_congr_right {α β : Type} {R S : α → β → Prop} {l1 : List α} {l2 : List β}
    (h : List.Forall₂ R l1 l2) (himp : ∀ a, ∀ b ∈ l2, R a b → S a b) :
    List.Forall₂ S l1 l2 := by
  induction h with
  | nil => exact List.Forall₂.nil
  | cons hab _ ih =>
    exact List.Forall₂.cons (himp _ _ (List.mem_cons_self _ _) hab)
      (ih (fun a b hb => himp a b (List.mem_cons_of_mem _ hb)))

theorem pairwise_insert_at {l : List Nat} {j v : Nat} (hl : l.Pairwise (· ≤ ·))
    (hlb : is_lower_bound l 0 l.length v j) :
    (l.take j ++ v :: l.drop j).Pairwise (· ≤ ·) := by
  obtain ⟨_, _, h3, h4⟩ := hlb
  rw [List.pairwise_append]
  have hb : ∀ a ∈ List.take j l, a ≤ v := by
    intro a ha
    obtain ⟨i, hi, rfl⟩ := List.mem_take_iff_getElem.mp ha
    have := h3 i (by omega) (Nat.zero_le _) (by omega)
    omega
  have ha : ∀ b ∈ List.drop j l, v ≤ b := by
    intro b hb'
    obtain ⟨i, hi, rfl⟩ := List.mem_drop_iff_getElem.mp hb'
    exact h4 (j + i) (by omega) (by omega) (by omega)
  refine ⟨hl.sublist (List.take_sublist _ _), ?_, ?_⟩
  · rw [List.pairwise_cons]
    exact ⟨ha, hl.sublist (List.drop_sublist _ _)⟩
  · intro a haa b hbb
    rcases List.mem_cons.mp hbb with rfl | hbd
    · exact hb a haa
    · exact Nat.le_trans (hb a haa) (ha b hbd)

theorem nodup_not_mem_eraseIdx {l : List Nat} {k : Nat} (hnd : l.Nodup) (hk : k < l.length) :
    l[k] ∉ l.eraseIdx k := by
  intro hmem
  obtain ⟨i, hi, hne, heq⟩ := List.mem_eraseIdx_iff_getElem.mp hmem
  exact hne ((hnd.getElem_inj_iff).mp heq)

theorem nodup_insert {l : List Nat} {j v : Nat} (hnd : l.Nodup) (hv : v ∉ l) :
    (l.take j ++ v :: l.drop j).Nodup := by
  have : (v :: (l.take j ++ l.drop j)).Nodup := by
    rw [List.take_append_drop]
    exact List.nodup_cons.mpr ⟨hv, hnd⟩
  exact List.nodup_middle.mpr this

theorem mem_insert_iff {l : List Nat} {j v x : Nat} :
    x ∈ l.take j ++ v :: l.drop j ↔ x = v ∨ x ∈ l := by
  rw [List.mem_append, List.mem_cons]
  constructor
  · rintro (h | h | h)
    · exact Or.inr (List.mem_of_mem_take h)
    · exact Or.inl h
    · exact Or.inr (List.mem_of_mem_drop h)
  · rintro (h | h)
    · exact Or.inr (Or.inl h)
    · rw [← List.take_append_drop j l, List.mem_append] at h
      rcases h with h | h
      · exact Or.inl h
      · exact Or.inr (Or.inr h)

/-! ## Locating the entry of a handle -/

/-- Under the free-index invariant the search for the size of a referenced block followed by
the scan stops at the first entry that holds the handle; its size is the size of the block. -/
theorem locate_spec (algo : Nat) (blocks : block_bank) (s : best_fit_v2) (b p : Nat)
    (halgo : algo ≤ 2) (hinv : free_index_inv blocks s)
    (hp : p < s.free_ordering_.length) (hb : s.free_ordering_[p] = b) :
    ∃ blk r k, blocks.at b = some blk ∧
      find_free_it algo s.sizes_ 0 s.sizes_.length blk.size_ = some r ∧
      find_node s.free_ordering_ b r = some k ∧
      k ≤ p ∧ ∃ hk : k < s.sizes_.length, ∃ hk2 : k < s.free_ordering_.length,
        s.free_ordering_[k] = b ∧ s.sizes_[k] = blk.size_ ∧
        (s.free_ordering_.Nodup → k = p) := by
  obtain ⟨hlen, hsorted, h3⟩ := hinv
  have hp1 : p < s.sizes_.length := by omega
  have hbp := h3 p hp1 hp
  rw [hb] at hbp
  rcases hblk : blocks.at b with _ | blk
  · rw [hblk] at hbp; simp at hbp
  · rw [hblk] at hbp
    simp only [Option.map_some', Option.some.injEq] at hbp
    obtain ⟨r, he, hr1, hr2, hr3, hr4⟩ :=
      find_free_it_spec s.sizes_ 0 s.sizes_.length blk.size_ algo halgo
        (range_sorted_of_pairwise hsorted 0 (0 + s.sizes_.length)) (by omega)
    simp only [Nat.sub_zero, Nat.zero_add] at he hr2 hr4
    have hrp : r ≤ p := by
      rcases Nat.lt_or_ge p r with h | h
      · have := hr3 p hp1 (Nat.zero_le _) h
        omega
      · exact h
    obtain ⟨k, hk1, hk2, hk3, hk4, hk5⟩ :=
      find_node_spec s.free_ordering_ b (p - r) r p hp (by omega) hb
    have hk' : k < s.free_ordering_.length := by omega
    have hkb : s.free_ordering_[k] = b := by
      rw [List.getElem?_eq_getElem hk'] at hk3
      exact Option.some.inj hk3
    refine ⟨blk, r, k, rfl, he, hk5, hk2, by omega, hk', hkb, ?_, ?_⟩
    · have := h3 k (by omega) hk'
      rw [hkb, hblk] at this
      simp only [Option.map_some', Option.some.injEq] at this
      exact this.symm
    · intro hnd
      exact (hnd.getElem_inj_iff).mp (hkb.trans hb.symm)

/-! ## `erase` -/

theorem OULY_ASSERT_ne {k n : Nat} (h : k < n) : OULY_ASSERT (k != n) = some () := by
  have : (k != n) = true := by simp; omega
  simp [OULY_ASSERT, this]

/-- Claim C9. Under the free-index invariant, `erase` of a referenced block returns; it removes
one entry, at an index `k` whose handle is the block, from both arrays (all other entries keep
their relative order), both lengths decrease by one and the invariant holds afterwards.  When
no handle occurs twice, `k` is the index the block was given at, the block is no longer
referenced and the handles stay distinct. -/
theorem erase_removes_entry (algo : Nat) (blocks : block_bank) (s : best_fit_v2) (b p : Nat)
    (halgo : algo ≤ 2) (hinv : free_index_inv blocks s)
    (hp : p < s.free_ordering_.length) (hb : s.free_ordering_[p] = b) :
    ∃ s' k, erase algo blocks s b = some s' ∧ k ≤ p ∧
      s.free_ordering_[k]? = some b ∧
      s'.sizes_ = s.sizes_.eraseIdx k ∧
      s'.free_ordering_ = s.free_ordering_.eraseIdx k ∧
      s'.sizes_.length + 1 = s.sizes_.length ∧
      s'.free_ordering_.length + 1 = s.free_ordering_.length ∧
      free_index_inv blocks s' ∧
      (s.free_ordering_.Nodup → k = p ∧ b ∉ s'.free_ordering_ ∧ s'.free_ordering_.Nodup) := by
  obtain ⟨blk, r, k, hblk, hfind, hnode, hkp, hk, hk2, hkb, hks, hkn⟩ :=
    locate_spec algo blocks s b p halgo hinv hp hb
  refine ⟨⟨s.sizes_.eraseIdx k, s.free_ordering_.eraseIdx k⟩, k, ?_, hkp, ?_, rfl, rfl, ?_, ?_,
    ?_, ?_⟩
  · simp [erase, hblk, hfind, hnode, OULY_ASSERT_ne hk2, erase_at_eq_some _ _ hk,
      erase_at_eq_some _ _ hk2]
  · rw [List.getElem?_eq_getElem hk2, hkb]
  · have := List.length_eraseIdx_of_lt hk
    simp only []
    omega
  · have := List.length_eraseIdx_of_lt hk2
    simp only []
    omega
  · rw [free_index_inv_iff] at hinv ⊢
    exact ⟨hinv.1.sublist (List.eraseIdx_sublist _ _), forall₂_eraseIdx k hinv.2⟩
  · intro hnd
    refine ⟨hkn hnd, ?_, hnd.eraseIdx k⟩
    have := nodup_not_mem_eraseIdx hnd hk2
    rw [hkb] at this
    exact this

/-- Instance of C9: two free blocks of equal size `8`; erasing the second one (handle `1`)
removes its entry and not the entry of handle `0`. -/
theorem erase_removes_entry_witness :
    (0 ≤ 2 ∧
      free_index_inv [some ⟨0, 8, 0, 0, true⟩, some ⟨8, 8, 0, 0, true⟩, some ⟨16, 20, 0, 0, true⟩]
        ⟨[8, 8, 20], [0, 1, 2]⟩) ∧
    ∃ s' k, erase 0 [some ⟨0, 8, 0, 0, true⟩, some ⟨8, 8, 0, 0, true⟩, some ⟨16, 20, 0, 0, true⟩]
        ⟨[8, 8, 20], [0, 1, 2]⟩ 1 = some s' ∧ k ≤ 1 ∧
      (best_fit_v2.mk [8, 8, 20] [0, 1, 2]).free_ordering_[k]? = some 1 ∧
      s'.sizes_ = (best_fit_v2.mk [8, 8, 20] [0, 1, 2]).sizes_.eraseIdx k ∧
      s'.free_ordering_ = (best_fit_v2.mk [8, 8, 20] [0, 1, 2]).free_ordering_.eraseIdx k ∧
      s'.sizes_.length + 1 = (best_fit_v2.mk [8, 8, 20] [0, 1, 2]).sizes_.length ∧
      s'.free_ordering_.length + 1
        = (best_fit_v2.mk [8, 8, 20] [0, 1, 2]).free_ordering_.length ∧
      free_index_inv
        [some ⟨0, 8, 0, 0, true⟩, some ⟨8, 8, 0, 0, true⟩, some ⟨16, 20, 0, 0, true⟩] s' ∧
      ((best_fit_v2.mk [8, 8, 20] [0, 1, 2]).free_ordering_.Nodup →
        k = 1 ∧ 1 ∉ s'.free_ordering_ ∧ s'.free_ordering_.Nodup) :=
  ⟨⟨by decide, by decide⟩,
    erase_removes_entry 0
      [some ⟨0, 8, 0, 0, true⟩, some ⟨8, 8, 0, 0, true⟩, some ⟨16, 20, 0, 0, true⟩]
      ⟨[8, 8, 20], [0, 1, 2]⟩ 1 1 (by decide) (by decide) (by decide) (by decide)⟩

/-! ## `add_free` -/

theorem emplace_at_eq_some {α : Type} (a : List α) (i : Nat) (x : α) (h : i ≤ a.length) :
    emplace_at a i x = some (a.take i ++ x :: a.drop i) := by
  simp [emplace_at, h]

theorem getElem?_insert {α : Type} (l : List α) (j : Nat) (v : α) (hj : j ≤ l.length) :
    (l.take j ++ v :: l.drop j)[j]? = some v := by
  have h1 : (List.take j l).length = j := by simp; omega
  rw [List.getElem?_append_right (by omega), h1]
  simp

theorem eraseIdx_insert {α : Type} (l : List α) (j : Nat) (v : α) (hj : j ≤ l.length) :
    (l.take j ++ v :: l.drop j).eraseIdx j = l := by
  have h1 : (List.take j l).length = j := by simp; omega
  rw [List.eraseIdx_append_of_length_le (by omega), h1]
  simp

theorem length_insert {α : Type} (l : List α) (j : Nat) (v : α) :
    (l.take j ++ v :: l.drop j).length = l.length + 1 := by
  simp only [List.length_append, List.length_cons, List.length_take, List.length_drop]
  omega

/-- Claim C8. Under the free-index invariant, `add_free` of a block of the bank that the index
does not reference returns; it sets `is_free_` of the block and leaves every other block as it
was, it adds one entry `(b.size, b)` at some index `j` of both arrays, so both lengths grow by
one and the other entries keep their relative order, the handle occurs exactly once afterwards,
and the invariant holds afterwards. -/
theorem add_free_inserts_entry (algo : Nat) (blocks : block_bank) (s : best_fit_v2)
    (b : Nat) (blk : block)
    (halgo : algo ≤ 2) (hinv : free_index_inv blocks s)
    (hblk : blocks.at b = some blk) (hnew : b ∉ s.free_ordering_) :
    ∃ blocks' s' j, add_free algo blocks s b = some (blocks', s') ∧
      block_bank.at blocks' b = some { blk with is_free_ := true } ∧
      (∀ h, h ≠ b → block_bank.at blocks' h = blocks.at h) ∧
      s'.sizes_[j]? = some blk.size_ ∧
      s'.free_ordering_[j]? = some b ∧
      s'.sizes_.eraseIdx j = s.sizes_ ∧
      s'.free_ordering_.eraseIdx j = s.free_ordering_ ∧
      s'.sizes_.length = s.sizes_.length + 1 ∧
      s'.free_ordering_.length = s.free_ordering_.length + 1 ∧
      s'.free_ordering_.count b = 1 ∧
      (s.free_ordering_.Nodup → s'.free_ordering_.Nodup) ∧
      free_index_inv blocks' s' := by
  have hinv' := (free_index_inv_iff blocks s).mp hinv
  obtain ⟨hlen, hsorted, _⟩ := hinv
  obtain ⟨hlt, _⟩ := at_isSome_lt hblk
  obtain ⟨r, he, hr⟩ :=
    find_free_it_spec s.sizes_ 0 s.sizes_.length blk.size_ algo halgo
      (range_sorted_of_pairwise hsorted 0 (0 + s.sizes_.length)) (by omega)
  simp only [Nat.sub_zero, Nat.zero_add] at he hr
  have hr2 : r ≤ s.sizes_.length := hr.2.1
  have hr2' : r ≤ s.free_ordering_.length := by omega
  refine ⟨blocks.set b (some { blk with is_free_ := true }),
    ⟨s.sizes_.take r ++ blk.size_ :: s.sizes_.drop r,
      s.free_ordering_.take r ++ b :: s.free_ordering_.drop r⟩, r, ?_, at_set_self _ hlt,
    fun h hne => at_set_other _ hne, getElem?_insert _ _ _ hr2, getElem?_insert _ _ _ hr2',
    eraseIdx_insert _ _ _ hr2, eraseIdx_insert _ _ _ hr2', length_insert _ _ _,
    length_insert _ _ _, ?_, fun hnd => nodup_insert hnd hnew, ?_⟩
  · simp [add_free, add_free_after_begin, hblk, put_eq_some _ hblk, he,
      emplace_at_eq_some _ _ _ hr2, emplace_at_eq_some _ _ _ hr2']
  · have h0 : s.free_ordering_.count b = 0 := List.count_eq_zero.mpr hnew
    have h1 : (List.take r s.free_ordering_).count b
        + (List.drop r s.free_ordering_).count b = 0 := by
      rw [← List.count_append, List.take_append_drop]; exact h0
    simp only [List.count_append, List.count_cons_self]
    omega
  · rw [free_index_inv_iff]
    refine ⟨pairwise_insert_at hsorted hr, ?_⟩
    have hrest : List.Forall₂
        (fun sz h => (block_bank.at (blocks.set b (some { blk with is_free_ := true })) h).map
          block.size_ = some sz) s.sizes_ s.free_ordering_ := by
      apply forall₂_congr_right hinv'.2
      intro a h hh hR
      have hne : h ≠ b := fun e => hnew (e ▸ hh)
      rw [at_set_other _ hne]
      exact hR
    exact forall₂_insert r hrest (by rw [at_set_self _ hlt]; rfl)

/-- Instance of C8: the block of handle `2` (size `50`) is added to the index of the blocks
`1` (size `200`) and `3` (size `674`). -/
theorem add_free_inserts_entry_witness :
    (0 ≤ 2 ∧
      free_index_inv [some ⟨0, 100, 0, 0, false⟩, some ⟨100, 200, 0, 0, true⟩,
        some ⟨300, 50, 0, 0, false⟩, some ⟨350, 674, 0, 0, true⟩] ⟨[200, 674], [1, 3]⟩ ∧
      block_bank.at [some ⟨0, 100, 0, 0, false⟩, some ⟨100, 200, 0, 0, true⟩,
        some ⟨300, 50, 0, 0, false⟩, some ⟨350, 674, 0, 0, true⟩] 2
        = some ⟨300, 50, 0, 0, false⟩ ∧
      2 ∉ (best_fit_v2.mk [200, 674] [1, 3]).free_ordering_) ∧
    ∃ blocks' s' j, add_free 0 [some ⟨0, 100, 0, 0, false⟩, some ⟨100, 200, 0, 0, true⟩,
        some ⟨300, 50, 0, 0, false⟩, some ⟨350, 674, 0, 0, true⟩] ⟨[200, 674], [1, 3]⟩ 2
        = some (blocks', s') ∧
      block_bank.at blocks' 2 = some { (block.mk 300 50 0 0 false) with is_free_ := true } ∧
      (∀ h, h ≠ 2 → block_bank.at blocks' h
        = block_bank.at [some ⟨0, 100, 0, 0, false⟩, some ⟨100, 200, 0, 0, true⟩,
            some ⟨300, 50, 0, 0, false⟩, some ⟨350, 674, 0, 0, true⟩] h) ∧
      s'.sizes_[j]? = some (block.mk 300 50 0 0 false).size_ ∧
      s'.free_ordering_[j]? = some 2 ∧
      s'.sizes_.eraseIdx j = (best_fit_v2.mk [200, 674] [1, 3]).sizes_ ∧
      s'.free_ordering_.eraseIdx j = (best_fit_v2.mk [200, 674] [1, 3]).free_ordering_ ∧
      s'.sizes_.length = (best_fit_v2.mk [200, 674] [1, 3]).sizes_.length + 1 ∧
      s'.free_ordering_.length = (best_fit_v2.mk [200, 674] [1, 3]).free_ordering_.length + 1 ∧
      s'.free_ordering_.count 2 = 1 ∧
      ((best_fit_v2.mk [200, 674] [1, 3]).free_ordering_.Nodup → s'.free_ordering_.Nodup) ∧
      free_index_inv blocks' s' :=
  ⟨⟨by decide, by decide, by decide, by decide⟩,
    add_free_inserts_entry 0 [some ⟨0, 100, 0, 0, false⟩, some ⟨100, 200, 0, 0, true⟩,
        some ⟨300, 50, 0, 0, false⟩, some ⟨350, 674, 0, 0, true⟩] ⟨[200, 674], [1, 3]⟩ 2
      ⟨300, 50, 0, 0, false⟩ (by decide) (by decide) (by decide) (by decide)⟩

/-! ## Re-insertion and the invariant -/

theorem inv_replace_move {blocks blocks' : block_bank} {s : best_fit_v2} {k j v node : Nat}
    (hinv : free_index_inv blocks s)
    (hsorted : (replace_move s.sizes_ k j v).Pairwise (· ≤ ·))
    (hsame : ∀ h ∈ s.free_ordering_.eraseIdx k, block_bank.at blocks' h = blocks.at h)
    (hnode : (block_bank.at blocks' node).map block.size_ = some v) :
    free_index_inv blocks'
      ⟨replace_move s.sizes_ k j v, replace_move s.free_ordering_ k j node⟩ := by
  rw [free_index_inv_iff] at hinv ⊢
  refine ⟨hsorted, ?_⟩
  have h1 := forall₂_eraseIdx k hinv.2
  have h2 : List.Forall₂ (fun sz h => (block_bank.at blocks' h).map block.size_ = some sz)
      (s.sizes_.eraseIdx k) (s.free_ordering_.eraseIdx k) := by
    apply forall₂_congr_right h1
    intro a h hh hR
    rw [hsame h hh]
    exact hR
  exact forall₂_insert j h2 hnode

/-- What `reinsert_right` does to an index that satisfies the invariant, when the bank has
been updated so that `node` has the size `v ≥ sizes_[k]` and the blocks of the other entries
are as before. -/
theorem reinsert_right_inv (algo : Nat) (blocks blocks' : block_bank) (s : best_fit_v2)
    (k v node : Nat) (halgo : algo ≤ 2)
    (hinv : free_index_inv blocks s) (hk : k < s.sizes_.length)
    (hv : ∀ hk' : k < s.sizes_.length, s.sizes_[k] ≤ v)
    (hsame : ∀ h ∈ s.free_ordering_.eraseIdx k, block_bank.at blocks' h = blocks.at h)
    (hnode : (block_bank.at blocks' node).map block.size_ = some v) :
    ∃ s' j, reinsert_right algo s k v node = some s' ∧ k ≤ j ∧ j < s.sizes_.length ∧
      s'.sizes_[j]? = some v ∧ s'.free_ordering_[j]? = some node ∧
      s'.sizes_.eraseIdx j = s.sizes_.eraseIdx k ∧
      s'.free_ordering_.eraseIdx j = s.free_ordering_.eraseIdx k ∧
      s'.sizes_.length = s.sizes_.length ∧
      s'.free_ordering_.length = s.free_ordering_.length ∧
      (s.free_ordering_.Nodup → node ∉ s.free_ordering_.eraseIdx k →
        s'.free_ordering_.Nodup) ∧
      free_index_inv blocks' s' := by
  have hlen := hinv.1
  have hsorted := hinv.2.1
  have hk2 : k < s.free_ordering_.length := by omega
  obtain ⟨j, hj1, hj2, hlb, he⟩ := reinsert_right_spec algo s k v node halgo hlen hk
    (range_sorted_of_pairwise hsorted _ _)
  refine ⟨_, j, he, hj1, hj2, getElem?_replace_move _ _ _ _ hk hj2,
    getElem?_replace_move _ _ _ _ hk2 (by omega), eraseIdx_replace_move _ _ _ _ hk hj2,
    eraseIdx_replace_move _ _ _ _ hk2 (by omega), length_replace_move _ _ _ _ hk,
    length_replace_move _ _ _ _ hk2, ?_, ?_⟩
  · intro hnd hnot
    exact nodup_insert (hnd.eraseIdx k) hnot
  · exact inv_replace_move hinv
      (pairwise_replace_move_right hsorted hk hj1 hlb (hv hk)) hsame hnode

/-- What `reinsert_left` does to an index that satisfies the invariant, when the bank has
been updated so that `node` has the size `v ≤ sizes_[k]` and the blocks of the other entries
are as before. -/
theorem reinsert_left_inv (algo : Nat) (blocks blocks' : block_bank) (s : best_fit_v2)
    (k v node : Nat) (halgo : algo ≤ 2)
    (hinv : free_index_inv blocks s) (hk : k < s.sizes_.length)
    (hv : ∀ hk' : k < s.sizes_.length, v ≤ s.sizes_[k])
    (hsame : ∀ h ∈ s.free_ordering_.eraseIdx k, block_bank.at blocks' h = blocks.at h)
    (hnode : (block_bank.at blocks' node).map block.size_ = some v) :
    ∃ s' j, reinsert_left algo s k v node = some s' ∧ j ≤ k ∧
      s'.sizes_[j]? = some v ∧ s'.free_ordering_[j]? = some node ∧
      s'.sizes_.eraseIdx j = s.sizes_.eraseIdx k ∧
      s'.free_ordering_.eraseIdx j = s.free_ordering_.eraseIdx k ∧
      s'.sizes_.length = s.sizes_.length ∧
      s'.free_ordering_.length = s.free_ordering_.length ∧
      (s.free_ordering_.Nodup → node ∉ s.free_ordering_.eraseIdx k →
        s'.free_ordering_.Nodup) ∧
      free_index_inv blocks' s' := by
  have hlen := hinv.1
  have hsorted := hinv.2.1
  have hk2 : k < s.free_ordering_.length := by omega
  obtain ⟨j, hj1, hlb, he⟩ := reinsert_left_spec algo s k v node halgo hlen hk
    (range_sorted_of_pairwise hsorted _ _)
  refine ⟨_, j, he, hj1, getElem?_replace_move _ _ _ _ hk (by omega),
    getElem?_replace_move _ _ _ _ hk2 (by omega), eraseIdx_replace_move _ _ _ _ hk (by omega),
    eraseIdx_replace_move _ _ _ _ hk2 (by omega), length_replace_move _ _ _ _ hk,
    length_replace_move _ _ _ _ hk2, ?_, ?_⟩
  · intro hnd hnot
    exact nodup_insert (hnd.eraseIdx k) hnot
  · exact inv_replace_move hinv
      (pairwise_replace_move_left hsorted hk hj1 hlb (hv hk)) hsame hnode

/-! ## `grow_free_node` -/

/-- Claim C7, as amended. Under the free-index invariant and with no handle occurring twice in
`free_ordering_`, `grow_free_node` of the block at index `k` with a size not below its size
returns; the block gets the new size and no other block changes, both lengths stay, the entry
of the block moves to an index `j ≥ k` with the new size while the other entries keep their
relative order, the handles stay distinct and the invariant holds afterwards. -/
theorem grow_free_node_moves_right (algo : Nat) (blocks : block_bank) (s : best_fit_v2)
    (b k newsize : Nat) (blk : block)
    (halgo : algo ≤ 2) (hinv : free_index_inv blocks s) (hnd : s.free_ordering_.Nodup)
    (hk : k < s.free_ordering_.length) (hb : s.free_ordering_[k] = b)
    (hblk : blocks.at b = some blk) (hsize : blk.size_ ≤ newsize) :
    ∃ blocks' s' j, grow_free_node algo blocks s b newsize = some (blocks', s') ∧
      block_bank.at blocks' b = some { blk with size_ := newsize } ∧
      (∀ h, h ≠ b → block_bank.at blocks' h = blocks.at h) ∧
      k ≤ j ∧ j < s.sizes_.length ∧
      s'.sizes_[j]? = some newsize ∧ s'.free_ordering_[j]? = some b ∧
      s'.sizes_.eraseIdx j = s.sizes_.eraseIdx k ∧
      s'.free_ordering_.eraseIdx j = s.free_ordering_.eraseIdx k ∧
      s'.sizes_.length = s.sizes_.length ∧
      s'.free_ordering_.length = s.free_ordering_.length ∧
      s'.free_ordering_.Nodup ∧
      free_index_inv blocks' s' := by
  obtain ⟨blk', r, k', hblk', hfind, hnode, _, hk1, hk2, hkb, hks, hkn⟩ :=
    locate_spec algo blocks s b k halgo hinv hk hb
  have hkk : k' = k := hkn hnd
  subst hkk
  rw [hblk] at hblk'
  have hbb : blk = blk' := Option.some.inj hblk'
  subst hbb
  obtain ⟨hlt, _⟩ := at_isSome_lt hblk
  have hnot : b ∉ s.free_ordering_.eraseIdx k' := by
    have := nodup_not_mem_eraseIdx hnd hk2
    rw [hkb] at this
    exact this
  obtain ⟨s', j, he, hj1, hj2, h1, h2, h3, h4, h5, h6, h7, h8⟩ :=
    reinsert_right_inv algo blocks
      (blocks.set b (some { blk with size_ := newsize })) s k' newsize b halgo hinv
      hk1 (fun _ => by rw [hks]; exact hsize)
      (fun h hh => at_set_other _ (fun e => hnot (e ▸ hh)))
      (by rw [at_set_self _ hlt]; rfl)
  refine ⟨_, s', j, ?_, at_set_self _ hlt, fun h hne => at_set_other _ hne, hj1, hj2, h1, h2,
    h3, h4, h5, h6, h7 hnd hnot, h8⟩
  simp [grow_free_node, hblk, hfind, hnode, OULY_ASSERT_ne hk2, put_eq_some _ hblk, he]

/-- Instance of C7 as amended: the block of handle `1` grows from `200` to `700` and its entry
moves behind the entry of size `674`. -/
theorem grow_free_node_moves_right_witness :
    (0 ≤ 2 ∧
      free_index_inv [some ⟨0, 100, 0, 0, false⟩, some ⟨100, 200, 0, 0, true⟩,
        some ⟨300, 50, 0, 0, false⟩, some ⟨350, 674, 0, 0, true⟩] ⟨[200, 674], [1, 3]⟩ ∧
      (best_fit_v2.mk [200, 674] [1, 3]).free_ordering_.Nodup ∧
      block_bank.at [some ⟨0, 100, 0, 0, false⟩, some ⟨100, 200, 0, 0, true⟩,
        some ⟨300, 50, 0, 0, false⟩, some ⟨350, 674, 0, 0, true⟩] 1
        = some ⟨100, 200, 0, 0, true⟩ ∧
      (block.mk 100 200 0 0 true).size_ ≤ 700) ∧
    ∃ blocks' s' j, grow_free_node 0 [some ⟨0, 100, 0, 0, false⟩, some ⟨100, 200, 0, 0, true⟩,
        some ⟨300, 50, 0, 0, false⟩, some ⟨350, 674, 0, 0, true⟩] ⟨[200, 674], [1, 3]⟩ 1 700
        = some (blocks', s') ∧
      block_bank.at blocks' 1 = some { (block.mk 100 200 0 0 true) with size_ := 700 } ∧
      (∀ h, h ≠ 1 → block_bank.at blocks' h
        = block_bank.at [some ⟨0, 100, 0, 0, false⟩, some ⟨100, 200, 0, 0, true⟩,
            some ⟨300, 50, 0, 0, false⟩, some ⟨350, 674, 0, 0, true⟩] h) ∧
      0 ≤ j ∧ j < (best_fit_v2.mk [200, 674] [1, 3]).sizes_.length ∧
      s'.sizes_[j]? = some 700 ∧ s'.free_ordering_[j]? = some 1 ∧
      s'.sizes_.eraseIdx j = (best_fit_v2.mk [200, 674] [1, 3]).sizes_.eraseIdx 0 ∧
      s'.free_ordering_.eraseIdx j
        = (best_fit_v2.mk [200, 674] [1, 3]).free_ordering_.eraseIdx 0 ∧
      s'.sizes_.length = (best_fit_v2.mk [200, 674] [1, 3]).sizes_.length ∧
      s'.free_ordering_.length = (best_fit_v2.mk [200, 674] [1, 3]).free_ordering_.length ∧
      s'.free_ordering_.Nodup ∧
      free_index_inv blocks' s' :=
  ⟨⟨by decide, by decide, by decide, by decide, by decide⟩,
    grow_free_node_moves_right 0 [some ⟨0, 100, 0, 0, false⟩, some ⟨100, 200, 0, 0, true⟩,
        some ⟨300, 50, 0, 0, false⟩, some ⟨350, 674, 0, 0, true⟩] ⟨[200, 674], [1, 3]⟩ 1 0 700
      ⟨100, 200, 0, 0, true⟩ (by decide) (by decide) (by decide) (by decide) (by decide)
      (by decide) (by decide)⟩

/-- Counterexample to C7 as stated: the index `sizes_ = [10, 10]`, `free_ordering_ = [0, 0]`
over a bank whose block `0` has size `10` satisfies the free-index invariant and references
block `0` (at index `0` and at index `1`); `grow_free_node` to the size `20` returns the index
`sizes_ = [10, 20]`, `free_ordering_ = [0, 0]` over the block of size `20`, which violates
`sizes_[0] = size of block free_ordering_[0]`. -/
theorem grow_free_node_duplicate_counterexample :
    free_index_inv [some ⟨0, 10, 0, 0, true⟩] ⟨[10, 10], [0, 0]⟩ ∧
    (best_fit_v2.mk [10, 10] [0, 0]).free_ordering_[1]? = some 0 ∧
    block_bank.at [some ⟨0, 10, 0, 0, true⟩] 0 = some ⟨0, 10, 0, 0, true⟩ ∧
    (block.mk 0 10 0 0 true).size_ ≤ 20 ∧
    grow_free_node 0 [some ⟨0, 10, 0, 0, true⟩] ⟨[10, 10], [0, 0]⟩ 0 20
      = some ([some ⟨0, 20, 0, 0, true⟩], ⟨[10, 20], [0, 0]⟩) ∧
    ¬ free_index_inv [some ⟨0, 20, 0, 0, true⟩] ⟨[10, 20], [0, 0]⟩ := by
  have h1 : find_free_it 0 [10, 10] 0 2 10 = some 0 := by
    simp [find_free_it, bsearch, mini0, mini0_loop, finish, advance_if_less]
  have h2 : find_node [0, 0] 0 0 = some 0 := by
    rw [find_node_unfold]; simp
  have h3 : find_free_it 0 [10, 10] 1 1 20 = some 1 := by
    simp [find_free_it, bsearch, mini0, mini0_loop, finish, advance_if_less]
    decide
  have h4 : reinsert_right 0 ⟨[10, 10], [0, 0]⟩ 0 20 0 = some ⟨[10, 20], [0, 0]⟩ := by
    simp [reinsert_right, h3, memmove, store]
  refine ⟨by decide, by decide, by decide, by decide, ?_, by decide⟩
  simp [grow_free_node, block_bank.at, block_bank.put, h1, h2, h4, OULY_ASSERT]

/-! ## `replace_and_grow` -/

/-- Claim C10, as amended. Under the free-index invariant and with no handle occurring twice in
`free_ordering_`, `replace_and_grow` of the block `b` at index `k` by a block `nb` of the bank
that is `b` itself or is not referenced by the index, with a size not below the size of `b`,
returns; `nb` gets the new size and no other block changes, both lengths stay, the entry of
`b` is replaced by the entry `(new_size, nb)` at an index `j ≥ k` while the other entries keep
their relative order, `b` is no longer referenced when `nb ≠ b`, the handles stay distinct and
the invariant holds afterwards. -/
theorem replace_and_grow_replaces_entry (algo : Nat) (blocks : block_bank) (s : best_fit_v2)
    (b nb k new_size : Nat) (blk nblk : block)
    (halgo : algo ≤ 2) (hinv : free_index_inv blocks s) (hnd : s.free_ordering_.Nodup)
    (hk : k < s.free_ordering_.length) (hb : s.free_ordering_[k] = b)
    (hblk : blocks.at b = some blk) (hnblk : blocks.at nb = some nblk)
    (hnb : nb = b ∨ nb ∉ s.free_ordering_) (hsize : blk.size_ ≤ new_size) :
    ∃ blocks' s' j, replace_and_grow algo blocks s b nb new_size = some (blocks', s') ∧
      block_bank.at blocks' nb = some { nblk with size_ := new_size } ∧
      (∀ h, h ≠ nb → block_bank.at blocks' h = blocks.at h) ∧
      k ≤ j ∧ j < s.sizes_.length ∧
      s'.sizes_[j]? = some new_size ∧ s'.free_ordering_[j]? = some nb ∧
      s'.sizes_.eraseIdx j = s.sizes_.eraseIdx k ∧
      s'.free_ordering_.eraseIdx j = s.free_ordering_.eraseIdx k ∧
      s'.sizes_.length = s.sizes_.length ∧
      s'.free_ordering_.length = s.free_ordering_.length ∧
      (nb ≠ b → b ∉ s'.free_ordering_) ∧
      s'.free_ordering_.Nodup ∧
      free_index_inv blocks' s' := by
  obtain ⟨blk', r, k', hblk', hfind, hnode, _, hk1, hk2, hkb, hks, hkn⟩ :=
    locate_spec algo blocks s b k halgo hinv hk hb
  have hkk : k' = k := hkn hnd
  subst hkk
  rw [hblk] at hblk'
  have hbb : blk = blk' := Option.some.inj hblk'
  subst hbb
  obtain ⟨hlt, _⟩ := at_isSome_lt hnblk
  have hnotb : b ∉ s.free_ordering_.eraseIdx k' := by
    have := nodup_not_mem_eraseIdx hnd hk2
    rw [hkb] at this
    exact this
  have hnot : nb ∉ s.free_ordering_.eraseIdx k' := by
    rcases hnb with h | h
    · rw [h]; exact hnotb
    · exact fun hm => h (List.mem_of_mem_eraseIdx hm)
  obtain ⟨s', j, he, hj1, hj2, h1, h2, h3, h4, h5, h6, h7, h8⟩ :=
    reinsert_right_inv algo blocks
      (blocks.set nb (some { nblk with size_ := new_size })) s k' new_size nb halgo hinv
      hk1 (fun _ => by rw [hks]; exact hsize)
      (fun h hh => at_set_other _ (fun e => hnot (e ▸ hh)))
      (by rw [at_set_self _ hlt]; rfl)
  refine ⟨_, s', j, ?_, at_set_self _ hlt, fun h hne => at_set_other _ hne, hj1, hj2, h1, h2,
    h3, h4, h5, h6, ?_, h7 hnd hnot, h8⟩
  · simp [replace_and_grow, hblk, hnblk, hfind, hnode, OULY_ASSERT_ne hk2,
      put_eq_some _ hnblk, he]
  · intro hne hmem
    obtain ⟨i, hi⟩ := List.mem_iff_getElem?.mp hmem
    by_cases hij : i = j
    · rw [hij, h2] at hi
      exact hne (Option.some.inj hi)
    · have : b ∈ s'.free_ordering_.eraseIdx j :=
        List.mem_eraseIdx_iff_getElem?.mpr ⟨i, hij, hi⟩
      rw [h4] at this
      exact hnotb this

/-- Instance of C10 as amended: the entry of the free block `3` (size `674`) is taken over by
the block `2`, which is not referenced, with the size `724`. -/
theorem replace_and_grow_replaces_entry_witness :
    (0 ≤ 2 ∧
      free_index_inv [some ⟨0, 100, 0, 0, false⟩, some ⟨100, 200, 0, 0, true⟩,
        some ⟨300, 50, 0, 0, false⟩, some ⟨350, 674, 0, 0, true⟩] ⟨[200, 674], [1, 3]⟩ ∧
      (best_fit_v2.mk [200, 674] [1, 3]).free_ordering_.Nodup ∧
      block_bank.at [some ⟨0, 100, 0, 0, false⟩, some ⟨100, 200, 0, 0, true⟩,
        some ⟨300, 50, 0, 0, false⟩, some ⟨350, 674, 0, 0, true⟩] 3
        = some ⟨350, 674, 0, 0, true⟩ ∧
      block_bank.at [some ⟨0, 100, 0, 0, false⟩, some ⟨100, 200, 0, 0, true⟩,
        some ⟨300, 50, 0, 0, false⟩, some ⟨350, 674, 0, 0, true⟩] 2
        = some ⟨300, 50, 0, 0, false⟩ ∧
      (2 = 3 ∨ 2 ∉ (best_fit_v2.mk [200, 674] [1, 3]).free_ordering_) ∧
      (block.mk 350 674 0 0 true).size_ ≤ 724) ∧
    ∃ blocks' s' j, replace_and_grow 0 [some ⟨0, 100, 0, 0, false⟩, some ⟨100, 200, 0, 0, true⟩,
        some ⟨300, 50, 0, 0, false⟩, some ⟨350, 674, 0, 0, true⟩] ⟨[200, 674], [1, 3]⟩ 3 2 724
        = some (blocks', s') ∧
      block_bank.at blocks' 2 = some { (block.mk 300 50 0 0 false) with size_ := 724 } ∧
      (∀ h, h ≠ 2 → block_bank.at blocks' h
        = block_bank.at [some ⟨0, 100, 0, 0, false⟩, some ⟨100, 200, 0, 0, true⟩,
            some ⟨300, 50, 0, 0, false⟩, some ⟨350, 674, 0, 0, true⟩] h) ∧
      1 ≤ j ∧ j < (best_fit_v2.mk [200, 674] [1, 3]).sizes_.length ∧
      s'.sizes_[j]? = some 724 ∧ s'.free_ordering_[j]? = some 2 ∧
      s'.sizes_.eraseIdx j = (best_fit_v2.mk [200, 674] [1, 3]).sizes_.eraseIdx 1 ∧
      s'.free_ordering_.eraseIdx j
        = (best_fit_v2.mk [200, 674] [1, 3]).free_ordering_.eraseIdx 1 ∧
      s'.sizes_.length = (best_fit_v2.mk [200, 674] [1, 3]).sizes_.length ∧
      s'.free_ordering_.length = (best_fit_v2.mk [200, 674] [1, 3]).free_ordering_.length ∧
      (2 ≠ 3 → 3 ∉ s'.free_ordering_) ∧
      s'.free_ordering_.Nodup ∧
      free_index_inv blocks' s' :=
  ⟨⟨by decide, by decide, by decide, by decide, by decide, by decide, by decide⟩,
    replace_and_grow_replaces_entry 0 [some ⟨0, 100, 0, 0, false⟩, some ⟨100, 200, 0, 0, true⟩,
        some ⟨300, 50, 0, 0, false⟩, some ⟨350, 674, 0, 0, true⟩] ⟨[200, 674], [1, 3]⟩ 3 2 1 724
      ⟨350, 674, 0, 0, true⟩ ⟨300, 50, 0, 0, false⟩ (by decide) (by decide) (by decide)
      (by decide) (by decide) (by decide) (by decide) (by decide) (by decide)⟩

/-- Counterexample to C10 as stated: over the blocks `0` (size `10`) and `1` (size `12`) the
index `sizes_ = [10, 12]`, `free_ordering_ = [0, 1]` satisfies the free-index invariant and
references block `0`; `replace_and_grow` of block `0` by block `1`, which the index
references as well, with the size `30` returns the index `sizes_ = [12, 30]`,
`free_ordering_ = [1, 1]` over a block `1` of size `30`, which violates
`sizes_[0] = size of block free_ordering_[0]`. -/
theorem replace_and_grow_referenced_counterexample :
    free_index_inv [some ⟨0, 10, 0, 0, true⟩, some ⟨10, 12, 0, 0, true⟩] ⟨[10, 12], [0, 1]⟩ ∧
    (best_fit_v2.mk [10, 12] [0, 1]).free_ordering_[0]? = some 0 ∧
    block_bank.at [some ⟨0, 10, 0, 0, true⟩, some ⟨10, 12, 0, 0, true⟩] 0
      = some ⟨0, 10, 0, 0, true⟩ ∧
    block_bank.at [some ⟨0, 10, 0, 0, true⟩, some ⟨10, 12, 0, 0, true⟩] 1
      = some ⟨10, 12, 0, 0, true⟩ ∧
    (block.mk 0 10 0 0 true).size_ ≤ 30 ∧
    replace_and_grow 0 [some ⟨0, 10, 0, 0, true⟩, some ⟨10, 12, 0, 0, true⟩]
        ⟨[10, 12], [0, 1]⟩ 0 1 30
      = some ([some ⟨0, 10, 0, 0, true⟩, some ⟨10, 30, 0, 0, true⟩], ⟨[12, 30], [1, 1]⟩) ∧
    ¬ free_index_inv [some ⟨0, 10, 0, 0, true⟩, some ⟨10, 30, 0, 0, true⟩]
      ⟨[12, 30], [1, 1]⟩ := by
  have h1 : find_free_it 0 [10, 12] 0 2 10 = some 0 := by
    simp [find_free_it, bsearch, mini0, mini0_loop, finish, advance_if_less]
  have h2 : find_node [0, 1] 0 0 = some 0 := by
    rw [find_node_unfold]; simp
  have h3 : find_free_it 0 [10, 12] 1 1 30 = some 1 := by
    simp [find_free_it, bsearch, mini0, mini0_loop, finish, advance_if_less]
    decide
  have h4 : reinsert_right 0 ⟨[10, 12], [0, 1]⟩ 0 30 1 = some ⟨[12, 30], [1, 1]⟩ := by
    simp [reinsert_right, h3, memmove, store]
  refine ⟨by decide, by decide, by decide, by decide, by decide, ?_, by decide⟩
  simp [replace_and_grow, block_bank.at, block_bank.put, h1, h2, h4, OULY_ASSERT]

/-! ## `commit` -/

theorem insert_after_spec (order : List Nat) (node newnode : Nat) (h : node ∈ order) :
    ∃ l1 l2, order = l1 ++ node :: l2 ∧ node ∉ l1 ∧
      insert_after order node newnode = some (l1 ++ node :: newnode :: l2) := by
  induction order with
  | nil => simp at h
  | cons x xs ih =>
    by_cases hx : x = node
    · subst hx
      exact ⟨[], xs, rfl, by simp, by simp [insert_after]⟩
    · have hmem : node ∈ xs := by
        rcases List.mem_cons.mp h with h1 | h1
        · exact absurd h1.symm hx
        · exact h1
      obtain ⟨l1, l2, he, hn, hi⟩ := ih hmem
      refine ⟨x :: l1, l2, by rw [he]; rfl, ?_, ?_⟩
      · simp only [List.mem_cons, not_or]
        exact ⟨fun e => hx e.symm, hn⟩
      · simp [insert_after, hx, hi]

theorem remaining_eq {S size : Nat} (hsz : size ≤ S) (hty : S < size_type_mod) :
    (S + size_type_mod - size) % size_type_mod = S - size := by
  have : S + size_type_mod - size = (S - size) + size_type_mod := by omega
  rw [this, Nat.add_mod_right, Nat.mod_eq_of_lt (by omega)]

/-- The run of `commit` on an entry `k` whose block is in the bank and on the order list of
its arena, for a request that does not exceed the size `S` of the entry. -/
theorem commit_spec (algo : Nat) (bank : bank_data) (s : best_fit_v2) (size k h S : Nat)
    (blk : block) (ar : arena)
    (hh : s.free_ordering_[k]? = some h) (hS : s.sizes_[k]? = some S)
    (hblk : bank.blocks_.at h = some blk) (hsz : size ≤ S) (hty : S < size_type_mod)
    (har : bank.arenas_[blk.arena_]? = some ar) (hmem : h ∈ ar.block_order_) :
    (S = size → commit algo bank s size k =
      some (⟨bank.blocks_.set h (some { blk with is_free_ := false, size_ := size }),
          bank.arenas_⟩,
        ⟨s.sizes_.eraseIdx k, s.free_ordering_.eraseIdx k⟩, h)) ∧
    (size < S → ∃ l1 l2, ar.block_order_ = l1 ++ h :: l2 ∧ h ∉ l1 ∧
      ∀ s1, reinsert_left algo s k (S - size)
          (block_bank.emplace
            (bank.blocks_.set h (some { blk with is_free_ := false, size_ := size }))
            ⟨(blk.offset_ + size) % size_type_mod, S - size, blk.arena_, uint32_max, true⟩).2
          = some s1 →
        commit algo bank s size k =
          some (⟨(block_bank.emplace
              (bank.blocks_.set h (some { blk with is_free_ := false, size_ := size }))
              ⟨(blk.offset_ + size) % size_type_mod, S - size, blk.arena_, uint32_max,
                true⟩).1,
            bank.arenas_.set blk.arena_
              { ar with block_order_ := l1 ++ h ::
                (block_bank.emplace
                  (bank.blocks_.set h (some { blk with is_free_ := false, size_ := size }))
                  ⟨(blk.offset_ + size) % size_type_mod, S - size, blk.arena_, uint32_max,
                    true⟩).2 :: l2 }⟩,
            s1, h)) := by
  have hk1 : k < s.free_ordering_.length := (List.getElem?_eq_some_iff.mp hh).1
  have hk2 : k < s.sizes_.length := (List.getElem?_eq_some_iff.mp hS).1
  have hrem := remaining_eq hsz hty
  have harlt : blk.arena_ < bank.arenas_.length := (List.getElem?_eq_some_iff.mp har).1
  constructor
  · intro heq
    have hz : ¬ 0 < S - size := by omega
    simp [commit, hh, hS, hblk, hrem, put_eq_some _ hblk, hz, erase_at_eq_some _ _ hk1,
      erase_at_eq_some _ _ hk2]
  · intro hlt
    obtain ⟨l1, l2, he, hn, hi⟩ := insert_after_spec ar.block_order_ h
      (block_bank.emplace
        (bank.blocks_.set h (some { blk with is_free_ := false, size_ := size }))
        ⟨(blk.offset_ + size) % size_type_mod, S - size, blk.arena_, uint32_max, true⟩).2 hmem
    refine ⟨l1, l2, he, hn, ?_⟩
    intro s1 hs1
    have hpos : 0 < S - size := by omega
    simp [commit, hh, hS, hblk, hrem, put_eq_some _ hblk, hpos, har, hi,
      store_eq_some _ _ _ harlt, hs1]

/-- The facts on the entry `k` of an index that satisfies the invariant. -/
theorem entry_of_inv {blocks : block_bank} {s : best_fit_v2} {k h : Nat} {blk : block}
    (hinv : free_index_inv blocks s) (hk : k < s.sizes_.length)
    (hh : s.free_ordering_[k]? = some h) (hblk : blocks.at h = some blk) :
    s.sizes_[k]? = some blk.size_ ∧ ∀ hk' : k < s.sizes_.length, s.sizes_[k] = blk.size_ := by
  have hk2 : k < s.free_ordering_.length := (List.getElem?_eq_some_iff.mp hh).1
  have hhk : s.free_ordering_[k] = h := by
    rw [List.getElem?_eq_getElem hk2] at hh
    exact Option.some.inj hh
  have h3 := hinv.2.2 k hk hk2
  rw [hhk, hblk] at h3
  simp only [Option.map_some', Option.some.injEq] at h3
  exact ⟨by rw [List.getElem?_eq_getElem hk, h3], fun _ => h3.symm⟩

/-- The effect of `commit` on the bank: the committed block, the remainder block and the
order list of the arena. -/
theorem commit_bank_spec (algo : Nat) (bank : bank_data) (s : best_fit_v2)
    (size k h : Nat) (blk : block) (ar : arena)
    (halgo : algo ≤ 2) (hinv : free_index_inv bank.blocks_ s)
    (hk : k < s.sizes_.length) (hh : s.free_ordering_[k]? = some h)
    (hblk : bank.blocks_.at h = some blk) (hsz : size ≤ blk.size_)
    (hty : blk.offset_ + blk.size_ < size_type_mod)
    (har : bank.arenas_[blk.arena_]? = some ar) (hmem : h ∈ ar.block_order_) :
    ∃ bank' s', commit algo bank s size k = some (bank', s', h) ∧
      block_bank.at bank'.blocks_ h = some { blk with is_free_ := false, size_ := size } ∧
      (blk.size_ = size → bank'.arenas_ = bank.arenas_ ∧
        ∀ h', h' ≠ h → block_bank.at bank'.blocks_ h' = bank.blocks_.at h') ∧
      (size < blk.size_ → ∃ nb l1 l2,
        bank.blocks_.at nb = none ∧
        block_bank.at bank'.blocks_ nb
          = some ⟨blk.offset_ + size, blk.size_ - size, blk.arena_, uint32_max, true⟩ ∧
        (∀ h', h' ≠ h → h' ≠ nb → block_bank.at bank'.blocks_ h' = bank.blocks_.at h') ∧
        ar.block_order_ = l1 ++ h :: l2 ∧ h ∉ l1 ∧
        bank'.arenas_[blk.arena_]? = some { ar with block_order_ := l1 ++ h :: nb :: l2 } ∧
        (∀ a, a ≠ blk.arena_ → bank'.arenas_[a]? = bank.arenas_[a]?)) := by
  obtain ⟨hS, hSk⟩ := entry_of_inv hinv hk hh hblk
  obtain ⟨hlt, _⟩ := at_isSome_lt hblk
  have harlt : blk.arena_ < bank.arenas_.length := (List.getElem?_eq_some_iff.mp har).1
  obtain ⟨hc1, hc2⟩ := commit_spec algo bank s size k h blk.size_ blk ar hh hS hblk hsz
    (by omega) har hmem
  rcases Nat.eq_or_lt_of_le hsz with heq | hlt'
  · refine ⟨_, _, hc1 heq.symm, at_set_self _ hlt, ?_, ?_⟩
    · intro _
      exact ⟨rfl, fun h' hne => at_set_other _ hne⟩
    · intro hcontra
      omega
  · obtain ⟨l1, l2, he, hn, hc⟩ := hc2 hlt'
    have hmod : (blk.offset_ + size) % size_type_mod = blk.offset_ + size :=
      Nat.mod_eq_of_lt (by omega)
    rw [hmod] at hc
    obtain ⟨e1, e2, e3⟩ := emplace_spec
      (bank.blocks_.set h (some { blk with is_free_ := false, size_ := size }))
      ⟨blk.offset_ + size, blk.size_ - size, blk.arena_, uint32_max, true⟩
    have hnbh : (block_bank.emplace
        (bank.blocks_.set h (some { blk with is_free_ := false, size_ := size }))
        ⟨blk.offset_ + size, blk.size_ - size, blk.arena_, uint32_max, true⟩).2 ≠ h := by
      intro e
      rw [e, at_set_self _ hlt] at e1
      simp at e1
    obtain ⟨j, _, _, hs1⟩ := reinsert_left_spec algo s k (blk.size_ - size)
      (block_bank.emplace
        (bank.blocks_.set h (some { blk with is_free_ := false, size_ := size }))
        ⟨blk.offset_ + size, blk.size_ - size, blk.arena_, uint32_max, true⟩).2
      halgo hinv.1 hk (range_sorted_of_pairwise hinv.2.1 _ _)
    refine ⟨_, _, hc _ hs1, ?_, ?_, ?_⟩
    · rw [e3 h (Ne.symm hnbh)]
      exact at_set_self _ hlt
    · intro hcontra
      omega
    · intro _
      refine ⟨_, l1, l2, ?_, e2, ?_, he, hn, ?_, ?_⟩
      · rw [← at_set_other (some { blk with is_free_ := false, size_ := size }) hnbh]
        exact e1
      · intro h' hne1 hne2
        rw [e3 h' hne2]
        exact at_set_other _ hne1
      · simp only [List.getElem?_set_self harlt]
      · intro a hne
        simp only [List.getElem?_set_ne (Ne.symm hne)]


/-- Claim C5. For an entry `k` of an index that satisfies the invariant, whose block `blk`
(handle `h`) is on the order list of its arena and ends inside the range of `size_type`, and a
request `size ≤ blk.size_`: `commit` returns the handle `h`; afterwards the block has the
size `size`, `is_free_ == false` and its other fields as before.  If the sizes are equal, no
block is created and the arenas are as before.  If the block was larger, exactly one handle
`nb` that was vacant holds a block afterwards, namely the block with offset
`blk.offset_ + size`, size `blk.size_ - size`, the arena of `blk` and `is_free_ == true`; it
stands immediately after `h` on the order list of the arena; all other blocks and arenas are
as before. -/
theorem commit_splits_block (algo : Nat) (bank : bank_data) (s : best_fit_v2)
    (size k h : Nat) (blk : block) (ar : arena)
    (halgo : algo ≤ 2) (hinv : free_index_inv bank.blocks_ s)
    (hk : k < s.sizes_.length) (hh : s.free_ordering_[k]? = some h)
    (hblk : bank.blocks_.at h = some blk) (hsz : size ≤ blk.size_)
    (hty : blk.offset_ + blk.size_ < size_type_mod)
    (har : bank.arenas_[blk.arena_]? = some ar) (hmem : h ∈ ar.block_order_) :
    ∃ bank' s', commit algo bank s size k = some (bank', s', h) ∧
      block_bank.at bank'.blocks_ h = some { blk with is_free_ := false, size_ := size } ∧
      (blk.size_ = size → bank'.arenas_ = bank.arenas_ ∧
        ∀ h', h' ≠ h → block_bank.at bank'.blocks_ h' = bank.blocks_.at h') ∧
      (size < blk.size_ → ∃ nb l1 l2,
        bank.blocks_.at nb = none ∧
        block_bank.at bank'.blocks_ nb
          = some ⟨blk.offset_ + size, blk.size_ - size, blk.arena_, uint32_max, true⟩ ∧
        (∀ h', h' ≠ h → h' ≠ nb → block_bank.at bank'.blocks_ h' = bank.blocks_.at h') ∧
        ar.block_order_ = l1 ++ h :: l2 ∧ h ∉ l1 ∧
        bank'.arenas_[blk.arena_]? = some { ar with block_order_ := l1 ++ h :: nb :: l2 } ∧
        (∀ a, a ≠ blk.arena_ → bank'.arenas_[a]? = bank.arenas_[a]?)) := by
  obtain ⟨bank', s', hc, hat, heq, hlt⟩ :=
    commit_bank_spec algo bank s size k h blk ar halgo hinv hk hh hblk hsz hty har hmem
  refine ⟨bank', s', hc, hat, heq, ?_⟩
  intro hlt'
  obtain ⟨nb, l1, l2, h1, h2, h3, h4, h5, h6, h7⟩ := hlt hlt'
  exact ⟨nb, l1, l2, h1, h2, h3, h4, h5, h6, h7⟩

/-- Instance of C5, the scenario of the spec: the free block `1` (offset `100`, size `200`) is
committed for a request of `150`. -/
theorem commit_splits_block_witness :
    (0 ≤ 2 ∧
      free_index_inv (bank_data.mk [some ⟨0, 100, 0, 0, false⟩, some ⟨100, 200, 0, 0, true⟩,
        some ⟨300, 50, 0, 0, false⟩, some ⟨350, 674, 0, 0, true⟩]
        [⟨1024, [0, 1, 2, 3]⟩]).blocks_ ⟨[200, 674], [1, 3]⟩ ∧
      0 < (best_fit_v2.mk [200, 674] [1, 3]).sizes_.length ∧
      (best_fit_v2.mk [200, 674] [1, 3]).free_ordering_[0]? = some 1 ∧
      block_bank.at (bank_data.mk [some ⟨0, 100, 0, 0, false⟩, some ⟨100, 200, 0, 0, true⟩,
        some ⟨300, 50, 0, 0, false⟩, some ⟨350, 674, 0, 0, true⟩]
        [⟨1024, [0, 1, 2, 3]⟩]).blocks_ 1 = some ⟨100, 200, 0, 0, true⟩ ∧
      150 ≤ (block.mk 100 200 0 0 true).size_ ∧
      (block.mk 100 200 0 0 true).offset_ + (block.mk 100 200 0 0 true).size_ < size_type_mod ∧
      (bank_data.mk [some ⟨0, 100, 0, 0, false⟩, some ⟨100, 200, 0, 0, true⟩,
        some ⟨300, 50, 0, 0, false⟩, some ⟨350, 674, 0, 0, true⟩]
        [⟨1024, [0, 1, 2, 3]⟩]).arenas_[(block.mk 100 200 0 0 true).arena_]?
        = some ⟨1024, [0, 1, 2, 3]⟩ ∧
      1 ∈ (arena.mk 1024 [0, 1, 2, 3]).block_order_) ∧
    ∃ bank' s', commit 0 (bank_data.mk [some ⟨0, 100, 0, 0, false⟩,
        some ⟨100, 200, 0, 0, true⟩, some ⟨300, 50, 0, 0, false⟩, some ⟨350, 674, 0, 0, true⟩]
        [⟨1024, [0, 1, 2, 3]⟩]) ⟨[200, 674], [1, 3]⟩ 150 0 = some (bank', s', 1) ∧
      block_bank.at bank'.blocks_ 1
        = some { (block.mk 100 200 0 0 true) with is_free_ := false, size_ := 150 } ∧
      ((block.mk 100 200 0 0 true).size_ = 150 →
        bank'.arenas_ = (bank_data.mk [some ⟨0, 100, 0, 0, false⟩,
          some ⟨100, 200, 0, 0, true⟩, some ⟨300, 50, 0, 0, false⟩,
          some ⟨350, 674, 0, 0, true⟩] [⟨1024, [0, 1, 2, 3]⟩]).arenas_ ∧
        ∀ h', h' ≠ 1 → block_bank.at bank'.blocks_ h'
          = block_bank.at (bank_data.mk [some ⟨0, 100, 0, 0, false⟩,
            some ⟨100, 200, 0, 0, true⟩, some ⟨300, 50, 0, 0, false⟩,
            some ⟨350, 674, 0, 0, true⟩] [⟨1024, [0, 1, 2, 3]⟩]).blocks_ h') ∧
      (150 < (block.mk 100 200 0 0 true).size_ → ∃ nb l1 l2,
        block_bank.at (bank_data.mk [some ⟨0, 100, 0, 0, false⟩,
          some ⟨100, 200, 0, 0, true⟩, some ⟨300, 50, 0, 0, false⟩,
          some ⟨350, 674, 0, 0, true⟩] [⟨1024, [0, 1, 2, 3]⟩]).blocks_ nb = none ∧
        block_bank.at bank'.blocks_ nb
          = some ⟨(block.mk 100 200 0 0 true).offset_ + 150,
              (block.mk 100 200 0 0 true).size_ - 150, (block.mk 100 200 0 0 true).arena_,
              uint32_max, true⟩ ∧
        (∀ h', h' ≠ 1 → h' ≠ nb → block_bank.at bank'.blocks_ h'
          = block_bank.at (bank_data.mk [some ⟨0, 100, 0, 0, false⟩,
            some ⟨100, 200, 0, 0, true⟩, some ⟨300, 50, 0, 0, false⟩,
            some ⟨350, 674, 0, 0, true⟩] [⟨1024, [0, 1, 2, 3]⟩]).blocks_ h') ∧
        (arena.mk 1024 [0, 1, 2, 3]).block_order_ = l1 ++ 1 :: l2 ∧ 1 ∉ l1 ∧
        bank'.arenas_[(block.mk 100 200 0 0 true).arena_]?
          = some { (arena.mk 1024 [0, 1, 2, 3]) with block_order_ := l1 ++ 1 :: nb :: l2 } ∧
        (∀ a, a ≠ (block.mk 100 200 0 0 true).arena_ →
          bank'.arenas_[a]? = (bank_data.mk [some ⟨0, 100, 0, 0, false⟩,
            some ⟨100, 200, 0, 0, true⟩, some ⟨300, 50, 0, 0, false⟩,
            some ⟨350, 674, 0, 0, true⟩] [⟨1024, [0, 1, 2, 3]⟩]).arenas_[a]?)) :=
  ⟨⟨by decide, by decide, by decide, by decide, by decide, by decide, by decide, by decide,
      by decide⟩,
    commit_splits_block 0 (bank_data.mk [some ⟨0, 100, 0, 0, false⟩,
        some ⟨100, 200, 0, 0, true⟩, some ⟨300, 50, 0, 0, false⟩, some ⟨350, 674, 0, 0, true⟩]
        [⟨1024, [0, 1, 2, 3]⟩]) ⟨[200, 674], [1, 3]⟩ 150 0 1 ⟨100, 200, 0, 0, true⟩
      ⟨1024, [0, 1, 2, 3]⟩ (by decide) (by decide) (by decide) (by decide) (by decide)
      (by decide) (by decide) (by decide) (by decide)⟩

/-- Claim C4, as amended. For an index that satisfies the free-index invariant and in which no
handle occurs twice, an entry `k` of size `S` (a `size_type` value) whose block is on the
order list of its arena, and a request `size ≤ S`: `commit` returns and the invariant holds
afterwards, with the handles still distinct.  If `S = size`, entry `k` is removed from both
arrays (the lengths decrease by one, the other entries keep their relative order).  If
`S > size`, the lengths are unchanged and the entry of the old block is replaced by the entry
`(S - size, nb)` of the remainder block `nb`, a block that did not exist before, at an index
`j ≤ k`, the other entries keeping their relative order. -/
theorem commit_free_index (algo : Nat) (bank : bank_data) (s : best_fit_v2)
    (size k h S : Nat) (blk : block) (ar : arena)
    (halgo : algo ≤ 2) (hinv : free_index_inv bank.blocks_ s)
    (hnd : s.free_ordering_.Nodup)
    (hh : s.free_ordering_[k]? = some h) (hS : s.sizes_[k]? = some S)
    (hblk : bank.blocks_.at h = some blk) (hsz : size ≤ S) (hty : S < size_type_mod)
    (har : bank.arenas_[blk.arena_]? = some ar) (hmem : h ∈ ar.block_order_) :
    ∃ bank' s', commit algo bank s size k = some (bank', s', h) ∧
      free_index_inv bank'.blocks_ s' ∧ s'.free_ordering_.Nodup ∧
      (S = size →
        s'.sizes_ = s.sizes_.eraseIdx k ∧
        s'.free_ordering_ = s.free_ordering_.eraseIdx k ∧
        s'.sizes_.length + 1 = s.sizes_.length ∧
        s'.free_ordering_.length + 1 = s.free_ordering_.length) ∧
      (size < S → ∃ j nb, j ≤ k ∧
        bank.blocks_.at nb = none ∧
        (block_bank.at bank'.blocks_ nb).map block.size_ = some (S - size) ∧
        s'.sizes_[j]? = some (S - size) ∧ s'.free_ordering_[j]? = some nb ∧
        s'.sizes_.eraseIdx j = s.sizes_.eraseIdx k ∧
        s'.free_ordering_.eraseIdx j = s.free_ordering_.eraseIdx k ∧
        s'.sizes_.length = s.sizes_.length ∧
        s'.free_ordering_.length = s.free_ordering_.length) := by
  have hk : k < s.sizes_.length := (List.getElem?_eq_some_iff.mp hS).1
  have hk2 : k < s.free_ordering_.length := (List.getElem?_eq_some_iff.mp hh).1
  have hhk : s.free_ordering_[k] = h := by
    rw [List.getElem?_eq_getElem hk2] at hh
    exact Option.some.inj hh
  have hSk : s.sizes_[k] = S := by
    rw [List.getElem?_eq_getElem hk] at hS
    exact Option.some.inj hS
  obtain ⟨hlt, _⟩ := at_isSome_lt hblk
  have hnoth : h ∉ s.free_ordering_.eraseIdx k := by
    have := nodup_not_mem_eraseIdx hnd hk2
    rw [hhk] at this
    exact this
  have hlive : ∀ h' ∈ s.free_ordering_, (bank.blocks_.at h').isSome = true := by
    intro h' hh'
    obtain ⟨i, hi, rfl⟩ := List.mem_iff_getElem.mp hh'
    have := hinv.2.2 i (by have := hinv.1; omega) hi
    cases hx : bank.blocks_.at s.free_ordering_[i] with
    | none => rw [hx] at this; simp at this
    | some x => rfl
  obtain ⟨hc1, hc2⟩ := commit_spec algo bank s size k h S blk ar hh hS hblk hsz hty har hmem
  rcases Nat.eq_or_lt_of_le hsz with heq | hlt'
  · refine ⟨_, _, hc1 heq.symm, ?_, hnd.eraseIdx k, ?_, ?_⟩
    · have hinv' := (free_index_inv_iff bank.blocks_ s).mp hinv
      rw [free_index_inv_iff]
      refine ⟨hinv'.1.sublist (List.eraseIdx_sublist _ _), ?_⟩
      apply forall₂_congr_right (forall₂_eraseIdx k hinv'.2)
      intro a h' hh' hR
      have hne : h' ≠ h := fun e => hnoth (e ▸ hh')
      simp only [at_set_other _ hne]
      exact hR
    · intro _
      have h1 := List.length_eraseIdx_of_lt hk
      have h2 := List.length_eraseIdx_of_lt hk2
      refine ⟨rfl, rfl, ?_, ?_⟩
      · simp only []
        omega
      · simp only []
        omega
    · intro hcontra
      omega
  · obtain ⟨l1, l2, he, hn, hc⟩ := hc2 hlt'
    obtain ⟨e1, e2, e3⟩ := emplace_spec
      (bank.blocks_.set h (some { blk with is_free_ := false, size_ := size }))
      ⟨(blk.offset_ + size) % size_type_mod, S - size, blk.arena_, uint32_max, true⟩
    have hnbh : (block_bank.emplace
        (bank.blocks_.set h (some { blk with is_free_ := false, size_ := size }))
        ⟨(blk.offset_ + size) % size_type_mod, S - size, blk.arena_, uint32_max,
          true⟩).2 ≠ h := by
      intro e
      rw [e, at_set_self _ hlt] at e1
      simp at e1
    have hvac : bank.blocks_.at (block_bank.emplace
        (bank.blocks_.set h (some { blk with is_free_ := false, size_ := size }))
        ⟨(blk.offset_ + size) % size_type_mod, S - size, blk.arena_, uint32_max,
          true⟩).2 = none := by
      rw [← at_set_other (some { blk with is_free_ := false, size_ := size }) hnbh]
      exact e1
    have hnbnot : (block_bank.emplace
        (bank.blocks_.set h (some { blk with is_free_ := false, size_ := size }))
        ⟨(blk.offset_ + size) % size_type_mod, S - size, blk.arena_, uint32_max,
          true⟩).2 ∉ s.free_ordering_ := by
      intro hm
      have := hlive _ hm
      rw [hvac] at this
      simp at this
    obtain ⟨s1, j, hs1, hj, g1, g2, g3, g4, g5, g6, g7, g8⟩ :=
      reinsert_left_inv algo bank.blocks_
        (block_bank.emplace
          (bank.blocks_.set h (some { blk with is_free_ := false, size_ := size }))
          ⟨(blk.offset_ + size) % size_type_mod, S - size, blk.arena_, uint32_max, true⟩).1
        s k (S - size)
        (block_bank.emplace
          (bank.blocks_.set h (some { blk with is_free_ := false, size_ := size }))
          ⟨(blk.offset_ + size) % size_type_mod, S - size, blk.arena_, uint32_max, true⟩).2
        halgo hinv hk (fun hk' => by rw [hSk]; omega)
        (by
          intro h' hh'
          have hne1 : h' ≠ h := fun e => hnoth (e ▸ hh')
          have hne2 : h' ≠ (block_bank.emplace
              (bank.blocks_.set h (some { blk with is_free_ := false, size_ := size }))
              ⟨(blk.offset_ + size) % size_type_mod, S - size, blk.arena_, uint32_max,
                true⟩).2 :=
            fun e => hnbnot (e ▸ List.mem_of_mem_eraseIdx hh')
          rw [e3 h' hne2]
          exact at_set_other _ hne1)
        (by rw [e2]; rfl)
    refine ⟨_, s1, hc s1 hs1, g8,
      g7 hnd (fun hm => hnbnot (List.mem_of_mem_eraseIdx hm)), ?_, ?_⟩
    · intro hcontra
      omega
    · intro _
      exact ⟨j, _, hj, hvac, by rw [e2]; rfl, g1, g2, g3, g4, g5, g6⟩

/-- Instance of C4 as amended, the scenario of the spec: the entry of the block `1`
(size `200`) is committed for a request of `150`. -/
theorem commit_free_index_witness :
    (0 ≤ 2 ∧
      free_index_inv (bank_data.mk [some ⟨0, 100, 0, 0, false⟩, some ⟨100, 200, 0, 0, true⟩,
        some ⟨300, 50, 0, 0, false⟩, some ⟨350, 674, 0, 0, true⟩]
        [⟨1024, [0, 1, 2, 3]⟩]).blocks_ ⟨[200, 674], [1, 3]⟩ ∧
      (best_fit_v2.mk [200, 674] [1, 3]).free_ordering_.Nodup ∧
      (best_fit_v2.mk [200, 674] [1, 3]).free_ordering_[0]? = some 1 ∧
      (best_fit_v2.mk [200, 674] [1, 3]).sizes_[0]? = some 200 ∧
      block_bank.at (bank_data.mk [some ⟨0, 100, 0, 0, false⟩, some ⟨100, 200, 0, 0, true⟩,
        some ⟨300, 50, 0, 0, false⟩, some ⟨350, 674, 0, 0, true⟩]
        [⟨1024, [0, 1, 2, 3]⟩]).blocks_ 1 = some ⟨100, 200, 0, 0, true⟩ ∧
      150 ≤ 200 ∧ 200 < size_type_mod ∧
      (bank_data.mk [some ⟨0, 100, 0, 0, false⟩, some ⟨100, 200, 0, 0, true⟩,
        some ⟨300, 50, 0, 0, false⟩, some ⟨350, 674, 0, 0, true⟩]
        [⟨1024, [0, 1, 2, 3]⟩]).arenas_[(block.mk 100 200 0 0 true).arena_]?
        = some ⟨1024, [0, 1, 2, 3]⟩ ∧
      1 ∈ (arena.mk 1024 [0, 1, 2, 3]).block_order_) ∧
    ∃ bank' s', commit 0 (bank_data.mk [some ⟨0, 100, 0, 0, false⟩,
        some ⟨100, 200, 0, 0, true⟩, some ⟨300, 50, 0, 0, false⟩, some ⟨350, 674, 0, 0, true⟩]
        [⟨1024, [0, 1, 2, 3]⟩]) ⟨[200, 674], [1, 3]⟩ 150 0 = some (bank', s', 1) ∧
      free_index_inv bank'.blocks_ s' ∧ s'.free_ordering_.Nodup ∧
      (200 = 150 →
        s'.sizes_ = (best_fit_v2.mk [200, 674] [1, 3]).sizes_.eraseIdx 0 ∧
        s'.free_ordering_ = (best_fit_v2.mk [200, 674] [1, 3]).free_ordering_.eraseIdx 0 ∧
        s'.sizes_.length + 1 = (best_fit_v2.mk [200, 674] [1, 3]).sizes_.length ∧
        s'.free_ordering_.length + 1
          = (best_fit_v2.mk [200, 674] [1, 3]).free_ordering_.length) ∧
      (150 < 200 → ∃ j nb, j ≤ 0 ∧
        block_bank.at (bank_data.mk [some ⟨0, 100, 0, 0, false⟩,
          some ⟨100, 200, 0, 0, true⟩, some ⟨300, 50, 0, 0, false⟩,
          some ⟨350, 674, 0, 0, true⟩] [⟨1024, [0, 1, 2, 3]⟩]).blocks_ nb = none ∧
        (block_bank.at bank'.blocks_ nb).map block.size_ = some (200 - 150) ∧
        s'.sizes_[j]? = some (200 - 150) ∧ s'.free_ordering_[j]? = some nb ∧
        s'.sizes_.eraseIdx j = (best_fit_v2.mk [200, 674] [1, 3]).sizes_.eraseIdx 0 ∧
        s'.free_ordering_.eraseIdx j
          = (best_fit_v2.mk [200, 674] [1, 3]).free_ordering_.eraseIdx 0 ∧
        s'.sizes_.length = (best_fit_v2.mk [200, 674] [1, 3]).sizes_.length ∧
        s'.free_ordering_.length
          = (best_fit_v2.mk [200, 674] [1, 3]).free_ordering_.length) :=
  ⟨⟨by decide, by decide, by decide, by decide, by decide, by decide, by decide, by decide,
      by decide, by decide⟩,
    commit_free_index 0 (bank_data.mk [some ⟨0, 100, 0, 0, false⟩,
        some ⟨100, 200, 0, 0, true⟩, some ⟨300, 50, 0, 0, false⟩, some ⟨350, 674, 0, 0, true⟩]
        [⟨1024, [0, 1, 2, 3]⟩]) ⟨[200, 674], [1, 3]⟩ 150 0 1 200 ⟨100, 200, 0, 0, true⟩
      ⟨1024, [0, 1, 2, 3]⟩ (by decide) (by decide) (by decide) (by decide) (by decide)
      (by decide) (by decide) (by decide) (by decide) (by decide)⟩

/-- Counterexample to C4 as stated: the index `sizes_ = [10, 10]`, `free_ordering_ = [0, 0]`
over a bank whose block `0` has size `10` has equal lengths, non-decreasing sizes and
`sizes_[i]` equal to the size of block `free_ordering_[i]`; `commit` of `4` on entry `0`
(`sizes_[0] = 10 ≥ 4`) returns the index `sizes_ = [6, 10]`, `free_ordering_ = [1, 0]` over a
block `0` of size `4`, which violates `sizes_[1] = size of block free_ordering_[1]`. -/
theorem commit_duplicate_counterexample :
    free_index_inv [some ⟨0, 10, 0, 0, true⟩] ⟨[10, 10], [0, 0]⟩ ∧
    (best_fit_v2.mk [10, 10] [0, 0]).sizes_[0]? = some 10 ∧ 4 ≤ 10 ∧
    commit 0 ⟨[some ⟨0, 10, 0, 0, true⟩], [⟨10, [0]⟩]⟩ ⟨[10, 10], [0, 0]⟩ 4 0
      = some (⟨[some ⟨0, 4, 0, 0, false⟩, some ⟨4, 6, 0, uint32_max, true⟩], [⟨10, [0, 1]⟩]⟩,
          ⟨[6, 10], [1, 0]⟩, 0) ∧
    ¬ free_index_inv [some ⟨0, 4, 0, 0, false⟩, some ⟨4, 6, 0, uint32_max, true⟩]
      ⟨[6, 10], [1, 0]⟩ := by
  refine ⟨by decide, by decide, by decide, ?_, by decide⟩
  decide

/-! ## `commit` and the layout of the arena -/

theorem chain_congr_mem {R R' : Nat → Nat → Prop} {l : List Nat}
    (hc : l.Chain' R) (h : ∀ x ∈ l, ∀ y ∈ l, R x y → R' x y) : l.Chain' R' :=
  (List.Chain'.iff_mem.mp hc).imp (fun x y hxy => h x hxy.1 y hxy.2.1 hxy.2.2)

/-- A chain stays a chain when `nb` is linked after `h`, if the links among the blocks before
`h` and among the blocks after `h` carry over, the link into `h` carries over, `h` links to
`nb`, and `nb` links to what `h` linked to. -/
theorem chain_insert_after {R R' : Nat → Nat → Prop} {l1 l2 : List Nat} {h nb : Nat}
    (hc : (l1 ++ h :: l2).Chain' R)
    (h1 : ∀ x ∈ l1, ∀ y ∈ l1, R x y → R' x y)
    (h2 : ∀ x ∈ l1, R x h → R' x h)
    (h3 : R' h nb)
    (h4 : ∀ y ∈ l2, R h y → R' nb y)
    (h5 : ∀ x ∈ l2, ∀ y ∈ l2, R x y → R' x y) :
    (l1 ++ h :: nb :: l2).Chain' R' := by
  rw [List.chain'_append] at hc ⊢
  obtain ⟨c1, c2, c3⟩ := hc
  refine ⟨chain_congr_mem c1 h1, ?_, ?_⟩
  · rw [List.chain'_cons]
    refine ⟨h3, ?_⟩
    cases l2 with
    | nil => exact List.chain'_singleton _
    | cons y t =>
      rw [List.chain'_cons] at c2 ⊢
      refine ⟨h4 y (List.mem_cons_self _ _) c2.1, ?_⟩
      exact chain_congr_mem c2.2 (fun x hx y' hy' => h5 x hx y' hy')
  · intro x hx y hy
    simp only [List.head?_cons, Option.mem_def, Option.some.injEq] at hy
    subst hy
    exact h2 x (List.mem_of_mem_getLast? hx)
      (c3 x hx h (by simp only [List.head?_cons, Option.mem_def]))

theorem sizes_sum_congr {blocks blocks' : block_bank} {l : List Nat}
    (h : ∀ x ∈ l, block_bank.at blocks' x = blocks.at x) :
    sizes_sum blocks' l = sizes_sum blocks l := by
  unfold sizes_sum
  congr 1
  apply List.map_congr_left
  intro x hx
  rw [h x hx]

theorem sizes_sum_append (blocks : block_bank) (l1 l2 : List Nat) :
    sizes_sum blocks (l1 ++ l2) = sizes_sum blocks l1 + sizes_sum blocks l2 := by
  simp [sizes_sum]

theorem sizes_sum_cons (blocks : block_bank) (x : Nat) (l : List Nat) :
    sizes_sum blocks (x :: l)
      = ((blocks.at x).map block.size_).getD 0 + sizes_sum blocks l := by
  simp [sizes_sum]

/-- The layout of an order list is kept when one of its blocks, a free one or not, becomes
allocated and keeps its offset and size, and no other block changes. -/
theorem layout_after_take {blocks blocks' : block_bank} {h : Nat} {blk : block}
    {order : List Nat}
    (hblk : blocks.at h = some blk)
    (hnew : block_bank.at blocks' h = some { blk with is_free_ := false })
    (hoth : ∀ x, x ≠ h → block_bank.at blocks' x = blocks.at x)
    (hwf : order_list_wf blocks order) :
    order_list_wf blocks' order ∧
    sizes_sum blocks' order = sizes_sum blocks order ∧
    (order.Chain' (adjacent blocks) → order.Chain' (adjacent blocks')) ∧
    (order.Chain' (fun l r => ¬ both_free blocks l r) →
      order.Chain' (fun l r => ¬ both_free blocks' l r)) := by
  have hsize : ∀ x, (block_bank.at blocks' x).map block.size_
      = (blocks.at x).map block.size_ := by
    intro x
    by_cases hx : x = h
    · subst hx; rw [hnew, hblk]; rfl
    · rw [hoth x hx]
  have hoff : ∀ x, (block_bank.at blocks' x).map block.offset_
      = (blocks.at x).map block.offset_ := by
    intro x
    by_cases hx : x = h
    · subst hx; rw [hnew, hblk]; rfl
    · rw [hoth x hx]
  have hend : ∀ x, (block_bank.at blocks' x).map (fun L => L.offset_ + L.size_)
      = (blocks.at x).map (fun L => L.offset_ + L.size_) := by
    intro x
    by_cases hx : x = h
    · subst hx; rw [hnew, hblk]; rfl
    · rw [hoth x hx]
  have hfr : ∀ x, (block_bank.at blocks' x).map block.is_free_ = some true →
      (blocks.at x).map block.is_free_ = some true := by
    intro x hx'
    by_cases hx : x = h
    · subst hx; rw [hnew] at hx'; simp at hx'
    · rw [hoth x hx] at hx'; exact hx'
  refine ⟨⟨hwf.1, ?_⟩, ?_, ?_, ?_⟩
  · intro x hx
    have h1 := hwf.2 x hx
    have h2 := hsize x
    cases hb : blocks.at x with
    | none => rw [hb] at h1; simp at h1
    | some b =>
      rw [hb] at h2
      cases hb' : block_bank.at blocks' x with
      | none => rw [hb'] at h2; simp at h2
      | some b' => rfl
  · unfold sizes_sum
    congr 1
    apply List.map_congr_left
    intro x _
    rw [hsize x]
  · intro hc
    apply hc.imp
    intro a b hab
    unfold adjacent at hab ⊢
    rw [hend a, hoff b]
    exact hab
  · intro hc
    apply hc.imp
    intro a b hab hcon
    exact hab ⟨hfr a hcon.1, hfr b hcon.2⟩

/-- The layout of an order list is kept when a free block `h` is split: `h` becomes allocated
with the size `size`, and a new free block `nb` with the rest of the old size is linked after
it. -/
theorem layout_after_split {blocks blocks' : block_bank} {h nb size : Nat} {blk : block}
    {l1 l2 : List Nat}
    (hblk : blocks.at h = some blk) (hfree : blk.is_free_ = true) (hsz : size ≤ blk.size_)
    (hvac : blocks.at nb = none)
    (hnewh : block_bank.at blocks' h = some { blk with is_free_ := false, size_ := size })
    (hnewnb : block_bank.at blocks' nb
      = some ⟨blk.offset_ + size, blk.size_ - size, blk.arena_, uint32_max, true⟩)
    (hoth : ∀ x, x ≠ h → x ≠ nb → block_bank.at blocks' x = blocks.at x)
    (hwf : order_list_wf blocks (l1 ++ h :: l2)) :
    order_list_wf blocks' (l1 ++ h :: nb :: l2) ∧
    sizes_sum blocks' (l1 ++ h :: nb :: l2) = sizes_sum blocks (l1 ++ h :: l2) ∧
    ((l1 ++ h :: l2).Chain' (adjacent blocks) →
      (l1 ++ h :: nb :: l2).Chain' (adjacent blocks')) ∧
    ((l1 ++ h :: l2).Chain' (fun l r => ¬ both_free blocks l r) →
      (l1 ++ h :: nb :: l2).Chain' (fun l r => ¬ both_free blocks' l r)) := by
  obtain ⟨hnd, hlive⟩ := hwf
  have hnbnot : nb ∉ l1 ++ h :: l2 := by
    intro hm
    have := hlive nb hm
    rw [hvac] at this
    simp at this
  have hnd' : (h :: (l1 ++ l2)).Nodup := List.nodup_middle.mp hnd
  have hh12 : h ∉ l1 ++ l2 := (List.nodup_cons.mp hnd').1
  have hl1 : ∀ x ∈ l1, block_bank.at blocks' x = blocks.at x := by
    intro x hx
    apply hoth
    · exact fun e => hh12 (e ▸ List.mem_append_left _ hx)
    · exact fun e => hnbnot (e ▸ List.mem_append_left _ hx)
  have hl2 : ∀ x ∈ l2, block_bank.at blocks' x = blocks.at x := by
    intro x hx
    apply hoth
    · exact fun e => hh12 (e ▸ List.mem_append_right _ hx)
    · exact fun e => hnbnot (e ▸ List.mem_append_right _ (List.mem_cons_of_mem _ hx))
  refine ⟨⟨?_, ?_⟩, ?_, ?_, ?_⟩
  · have : (nb :: (l1 ++ h :: l2)).Nodup := List.nodup_cons.mpr ⟨hnbnot, hnd⟩
    have h3 : (l1 ++ h :: nb :: l2) = (l1 ++ [h]) ++ nb :: l2 := by simp
    have h4 : (nb :: (l1 ++ h :: l2)) = nb :: ((l1 ++ [h]) ++ l2) := by simp
    rw [h3]
    rw [h4] at this
    exact List.nodup_middle.mpr this
  · intro x hx
    simp only [List.mem_append, List.mem_cons] at hx
    rcases hx with hx | rfl | rfl | hx
    · rw [hl1 x hx]; exact hlive x (List.mem_append_left _ hx)
    · rw [hnewh]; rfl
    · rw [hnewnb]; rfl
    · rw [hl2 x hx]
      exact hlive x (List.mem_append_right _ (List.mem_cons_of_mem _ hx))
  · rw [sizes_sum_append, sizes_sum_cons, sizes_sum_cons, sizes_sum_append, sizes_sum_cons,
      sizes_sum_congr hl1, sizes_sum_congr hl2, hnewh, hnewnb, hblk]
    simp only [Option.map_some', Option.getD_some]
    omega
  · intro hc
    apply chain_insert_after hc
    · intro x hx y hy hR
      unfold adjacent at hR ⊢
      rw [hl1 x hx, hl1 y hy]; exact hR
    · intro x hx hR
      unfold adjacent at hR ⊢
      rw [hl1 x hx, hnewh]
      rw [hblk] at hR
      exact hR
    · unfold adjacent
      rw [hnewh, hnewnb]
      rfl
    · intro y hy hR
      unfold adjacent at hR ⊢
      rw [hl2 y hy, hnewnb]
      rw [hblk] at hR
      rw [← hR]
      simp only [Option.map_some', Option.some.injEq]
      omega
    · intro x hx y hy hR
      unfold adjacent at hR ⊢
      rw [hl2 x hx, hl2 y hy]; exact hR
  · intro hc
    apply chain_insert_after hc
    · intro x hx y hy hR
      unfold both_free at hR ⊢
      rw [hl1 x hx, hl1 y hy]; exact hR
    · intro x hx _ hcon
      unfold both_free at hcon
      rw [hnewh] at hcon
      simp at hcon
    · intro hcon
      unfold both_free at hcon
      rw [hnewh] at hcon
      simp at hcon
    · intro y hy hR hcon
      apply hR
      unfold both_free at hcon ⊢
      rw [hl2 y hy] at hcon
      rw [hblk]
      exact ⟨by simp [hfree], hcon.2⟩
    · intro x hx y hy hR
      unfold both_free at hR ⊢
      rw [hl2 x hx, hl2 y hy]; exact hR

theorem layout_congr {blocks blocks' : block_bank} {order : List Nat}
    (h : ∀ x ∈ order, block_bank.at blocks' x = blocks.at x)
    (hwf : order_list_wf blocks order) :
    order_list_wf blocks' order ∧
    sizes_sum blocks' order = sizes_sum blocks order ∧
    (order.Chain' (adjacent blocks) → order.Chain' (adjacent blocks')) ∧
    (order.Chain' (fun l r => ¬ both_free blocks l r) →
      order.Chain' (fun l r => ¬ both_free blocks' l r)) := by
  refine ⟨⟨hwf.1, fun x hx => by rw [h x hx]; exact hwf.2 x hx⟩, sizes_sum_congr h, ?_, ?_⟩
  · intro hc
    apply chain_congr_mem hc
    intro x hx y hy hR
    unfold adjacent at hR ⊢
    rw [h x hx, h y hy]; exact hR
  · intro hc
    apply chain_congr_mem hc
    intro x hx y hy hR
    unfold both_free at hR ⊢
    rw [h x hx, h y hy]; exact hR

/-- Claim C6. For an entry `k` of an index that satisfies the invariant, whose block `blk`
(handle `h`) is free, is on the order list of its arena and ends inside the range of
`size_type`, and a request `size ≤ blk.size_`: if the order list of the arena links blocks of
the bank, each once, and the layout invariants hold for the arena (the sizes of its blocks sum
to the arena size, each block ends where the next one starts, no two neighbours are both
free), then `commit` returns and the same holds for the arena afterwards.  Every other arena
whose order list does not hold `h` keeps its order list and its layout as well. -/
theorem commit_preserves_layout (algo : Nat) (bank : bank_data) (s : best_fit_v2)
    (size k h : Nat) (blk : block) (ar : arena)
    (halgo : algo ≤ 2) (hinv : free_index_inv bank.blocks_ s)
    (hk : k < s.sizes_.length) (hh : s.free_ordering_[k]? = some h)
    (hblk : bank.blocks_.at h = some blk) (hfree : blk.is_free_ = true)
    (hsz : size ≤ blk.size_) (hty : blk.offset_ + blk.size_ < size_type_mod)
    (har : bank.arenas_[blk.arena_]? = some ar) (hmem : h ∈ ar.block_order_)
    (hwf : order_list_wf bank.blocks_ ar.block_order_)
    (hlay : arena_layout bank.blocks_ ar) :
    ∃ bank' s' ar', commit algo bank s size k = some (bank', s', h) ∧
      bank'.arenas_[blk.arena_]? = some ar' ∧ ar'.size_ = ar.size_ ∧
      order_list_wf bank'.blocks_ ar'.block_order_ ∧
      arena_layout bank'.blocks_ ar' ∧
      (∀ a ar2, a ≠ blk.arena_ → bank.arenas_[a]? = some ar2 → h ∉ ar2.block_order_ →
        order_list_wf bank.blocks_ ar2.block_order_ → arena_layout bank.blocks_ ar2 →
        bank'.arenas_[a]? = some ar2 ∧ order_list_wf bank'.blocks_ ar2.block_order_ ∧
          arena_layout bank'.blocks_ ar2) := by
  obtain ⟨bank', s', hc, hat, heq, hlt⟩ :=
    commit_bank_spec algo bank s size k h blk ar halgo hinv hk hh hblk hsz hty har hmem
  obtain ⟨hsum, hadj, hnf⟩ := hlay
  rcases Nat.eq_or_lt_of_le hsz with he | hl
  · obtain ⟨harenas, hoth⟩ := heq he.symm
    subst he
    obtain ⟨w1, w2, w3, w4⟩ := layout_after_take hblk hat hoth hwf
    refine ⟨bank', s', ar, hc, by rw [harenas]; exact har, rfl, w1,
      ⟨by rw [w2]; exact hsum, w3 hadj, w4 hnf⟩, ?_⟩
    intro a ar2 _ ha2 hnot hwf2 hlay2
    obtain ⟨v1, v2, v3, v4⟩ := layout_congr
      (fun x hx => hoth x (fun e => hnot (e ▸ hx))) hwf2
    exact ⟨by rw [harenas]; exact ha2, v1, by rw [v2]; exact hlay2.1, v3 hlay2.2.1,
      v4 hlay2.2.2⟩
  · obtain ⟨nb, l1, l2, hvac, hnb, hoth, hord, _, har', harest⟩ := hlt hl
    rw [hord] at hwf hsum hadj hnf
    obtain ⟨w1, w2, w3, w4⟩ :=
      layout_after_split hblk hfree hsz hvac hat hnb hoth hwf
    refine ⟨bank', s', { ar with block_order_ := l1 ++ h :: nb :: l2 }, hc, har', rfl, w1,
      ⟨by rw [w2]; exact hsum, w3 hadj, w4 hnf⟩, ?_⟩
    intro a ar2 hne ha2 hnot hwf2 hlay2
    obtain ⟨v1, v2, v3, v4⟩ := layout_congr
      (fun x hx => hoth x (fun e => hnot (e ▸ hx))
        (fun e => by
          have := hwf2.2 x hx
          rw [e, hvac] at this
          simp at this)) hwf2
    exact ⟨by rw [harest a hne]; exact ha2, v1, by rw [v2]; exact hlay2.1, v3 hlay2.2.1,
      v4 hlay2.2.2⟩

/-- Instance of C6, the scenario of the spec: an arena of `1024` bytes with the blocks
`100` (allocated), `200` (free), `50` (allocated), `674` (free); the free block `1` is
committed for a request of `150`. -/
theorem commit_preserves_layout_witness :
    (0 ≤ 2 ∧
      free_index_inv (bank_data.mk [some ⟨0, 100, 0, 0, false⟩, some ⟨100, 200, 0, 0, true⟩,
        some ⟨300, 50, 0, 0, false⟩, some ⟨350, 674, 0, 0, true⟩]
        [⟨1024, [0, 1, 2, 3]⟩]).blocks_ ⟨[200, 674], [1, 3]⟩ ∧
      0 < (best_fit_v2.mk [200, 674] [1, 3]).sizes_.length ∧
      (best_fit_v2.mk [200, 674] [1, 3]).free_ordering_[0]? = some 1 ∧
      block_bank.at (bank_data.mk [some ⟨0, 100, 0, 0, false⟩, some ⟨100, 200, 0, 0, true⟩,
        some ⟨300, 50, 0, 0, false⟩, some ⟨350, 674, 0, 0, true⟩]
        [⟨1024, [0, 1, 2, 3]⟩]).blocks_ 1 = some ⟨100, 200, 0, 0, true⟩ ∧
      (block.mk 100 200 0 0 true).is_free_ = true ∧
      150 ≤ (block.mk 100 200 0 0 true).size_ ∧
      (block.mk 100 200 0 0 true).offset_ + (block.mk 100 200 0 0 true).size_ < size_type_mod ∧
      (bank_data.mk [some ⟨0, 100, 0, 0, false⟩, some ⟨100, 200, 0, 0, true⟩,
        some ⟨300, 50, 0, 0, false⟩, some ⟨350, 674, 0, 0, true⟩]
        [⟨1024, [0, 1, 2, 3]⟩]).arenas_[(block.mk 100 200 0 0 true).arena_]?
        = some ⟨1024, [0, 1, 2, 3]⟩ ∧
      1 ∈ (arena.mk 1024 [0, 1, 2, 3]).block_order_ ∧
      order_list_wf (bank_data.mk [some ⟨0, 100, 0, 0, false⟩, some ⟨100, 200, 0, 0, true⟩,
        some ⟨300, 50, 0, 0, false⟩, some ⟨350, 674, 0, 0, true⟩]
        [⟨1024, [0, 1, 2, 3]⟩]).blocks_ (arena.mk 1024 [0, 1, 2, 3]).block_order_ ∧
      arena_layout (bank_data.mk [some ⟨0, 100, 0, 0, false⟩, some ⟨100, 200, 0, 0, true⟩,
        some ⟨300, 50, 0, 0, false⟩, some ⟨350, 674, 0, 0, true⟩]
        [⟨1024, [0, 1, 2, 3]⟩]).blocks_ ⟨1024, [0, 1, 2, 3]⟩) ∧
    ∃ bank' s' ar', commit 0 (bank_data.mk [some ⟨0, 100, 0, 0, false⟩,
        some ⟨100, 200, 0, 0, true⟩, some ⟨300, 50, 0, 0, false⟩, some ⟨350, 674, 0, 0, true⟩]
        [⟨1024, [0, 1, 2, 3]⟩]) ⟨[200, 674], [1, 3]⟩ 150 0 = some (bank', s', 1) ∧
      bank'.arenas_[(block.mk 100 200 0 0 true).arena_]? = some ar' ∧
      ar'.size_ = (arena.mk 1024 [0, 1, 2, 3]).size_ ∧
      order_list_wf bank'.blocks_ ar'.block_order_ ∧
      arena_layout bank'.blocks_ ar' ∧
      (∀ a ar2, a ≠ (block.mk 100 200 0 0 true).arena_ →
        (bank_data.mk [some ⟨0, 100, 0, 0, false⟩, some ⟨100, 200, 0, 0, true⟩,
          some ⟨300, 50, 0, 0, false⟩, some ⟨350, 674, 0, 0, true⟩]
          [⟨1024, [0, 1, 2, 3]⟩]).arenas_[a]? = some ar2 → 1 ∉ ar2.block_order_ →
        order_list_wf (bank_data.mk [some ⟨0, 100, 0, 0, false⟩,
          some ⟨100, 200, 0, 0, true⟩, some ⟨300, 50, 0, 0, false⟩,
          some ⟨350, 674, 0, 0, true⟩] [⟨1024, [0, 1, 2, 3]⟩]).blocks_ ar2.block_order_ →
        arena_layout (bank_data.mk [some ⟨0, 100, 0, 0, false⟩,
          some ⟨100, 200, 0, 0, true⟩, some ⟨300, 50, 0, 0, false⟩,
          some ⟨350, 674, 0, 0, true⟩] [⟨1024, [0, 1, 2, 3]⟩]).blocks_ ar2 →
        bank'.arenas_[a]? = some ar2 ∧ order_list_wf bank'.blocks_ ar2.block_order_ ∧
          arena_layout bank'.blocks_ ar2) :=
  ⟨⟨by decide, by decide, by decide, by decide, by decide, by decide, by decide, by decide,
      by decide, by decide, by decide,
      ⟨by decide, by simp [adjacent, block_bank.at], by simp [both_free, block_bank.at]⟩⟩,
    commit_preserves_layout 0 (bank_data.mk [some ⟨0, 100, 0, 0, false⟩,
        some ⟨100, 200, 0, 0, true⟩, some ⟨300, 50, 0, 0, false⟩, some ⟨350, 674, 0, 0, true⟩]
        [⟨1024, [0, 1, 2, 3]⟩]) ⟨[200, 674], [1, 3]⟩ 150 0 1 ⟨100, 200, 0, 0, true⟩
      ⟨1024, [0, 1, 2, 3]⟩ (by decide) (by decide) (by decide) (by decide) (by decide)
      (by decide) (by decide) (by decide) (by decide) (by decide) (by decide)
      ⟨by decide, by simp [adjacent, block_bank.at], by simp [both_free, block_bank.at]⟩⟩

/-! ## `validate_integrity` -/

theorem OULY_ASSERT_eq_some (c : Bool) : OULY_ASSERT c = some () ↔ c = true := by
  unfold OULY_ASSERT
  cases c <;> simp

theorem validate_sizes_loop_unfold (sizes_ : List Nat) (i : Nat) :
    validate_sizes_loop sizes_ i =
      if i < sizes_.length then
        match sizes_[i - 1]?, sizes_[i]? with
        | some a, some b =>
          match OULY_ASSERT (decide (a ≤ b)) with
          | none => none
          | some _ => validate_sizes_loop sizes_ (i + 1)
        | _, _ => none
      else some () := by
  rw [validate_sizes_loop]

theorem validate_blocks_loop_unfold (blocks : block_bank) (s : best_fit_v2) (i sz : Nat) :
    validate_blocks_loop blocks s i sz =
      if i < s.free_ordering_.length then
        match s.free_ordering_[i]? with
        | none => none
        | some fn =>
          match blocks.at fn with
          | none => none
          | some blk =>
            match OULY_ASSERT (decide (sz ≤ blk.size_)) with
            | none => none
            | some _ =>
              match s.sizes_[i]? with
              | none => none
              | some x =>
                match OULY_ASSERT (blk.size_ == x) with
                | none => none
                | some _ => validate_blocks_loop blocks s (i + 1) blk.size_
      else some () := by
  rw [validate_blocks_loop]

/-- The first loop passes exactly when each entry from `i` on is at least its left
neighbour. -/
theorem validate_sizes_loop_iff (sizes_ : List Nat) :
    ∀ (d i : Nat), 1 ≤ i → sizes_.length ≤ i + d →
      (validate_sizes_loop sizes_ i = some () ↔
        ∀ j (hj : j < sizes_.length), i ≤ j →
          ∀ hp : j - 1 < sizes_.length, sizes_[j - 1] ≤ sizes_[j]) := by
  intro d
  induction d with
  | zero =>
    intro i _ hlen
    rw [validate_sizes_loop_unfold, if_neg (by omega)]
    simp only [true_iff]
    intro j hj hij
    omega
  | succ d ih =>
    intro i hi hlen
    rw [validate_sizes_loop_unfold]
    by_cases hlt : i < sizes_.length
    · have hp : i - 1 < sizes_.length := by omega
      simp only [if_pos hlt, List.getElem?_eq_getElem hlt, List.getElem?_eq_getElem hp]
      by_cases hle : sizes_[i - 1] ≤ sizes_[i]
      · have ha : OULY_ASSERT (decide (sizes_[i - 1] ≤ sizes_[i])) = some () := by
          rw [OULY_ASSERT_eq_some]; simp [hle]
        simp only [ha]
        rw [ih (i + 1) (by omega) (by omega)]
        constructor
        · intro h j hj hij hp'
          rcases Nat.eq_or_lt_of_le hij with heq | hgt
          · subst heq; exact hle
          · exact h j hj (by omega) hp'
        · intro h j hj hij hp'
          exact h j hj (by omega) hp'
      · have ha : OULY_ASSERT (decide (sizes_[i - 1] ≤ sizes_[i])) = none := by
          simp [OULY_ASSERT, hle]
        simp only [ha]
        constructor
        · intro h; cases h
        · intro h
          exact absurd (h i hlt (Nat.le_refl _) hp) hle
    · simp only [if_neg hlt, true_iff]
      intro j hj hij
      omega

theorem pairwise_iff_adjacent (l : List Nat) :
    l.Pairwise (· ≤ ·) ↔
      ∀ j (hj : j < l.length), 1 ≤ j → ∀ hp : j - 1 < l.length, l[j - 1] ≤ l[j] := by
  constructor
  · intro h j hj h1 hp
    exact (List.pairwise_iff_getElem.mp h) (j - 1) j hp hj (by omega)
  · intro h
    rw [List.pairwise_iff_getElem]
    intro i j hi hj hij
    have key : ∀ d, ∀ (hd : i + d < l.length), l[i] ≤ l[i + d] := by
      intro d
      induction d with
      | zero => intro _; exact Nat.le_refl _
      | succ d ihd =>
        intro hd
        have h1 := ihd (by omega)
        have h2 := h (i + (d + 1)) hd (by omega) (by omega)
        have e : i + (d + 1) - 1 = i + d := by omega
        simp only [e] at h2
        exact Nat.le_trans h1 h2
    have := key (j - i) (by omega)
    have e : i + (j - i) = j := by omega
    simp only [e] at this
    exact this

/-- Under equal lengths and non-decreasing sizes, the second loop passes from `i` on exactly
when `sz` does not exceed the entry `i` and every entry from `i` on has the size of its
block. -/
theorem validate_blocks_loop_iff (blocks : block_bank) (s : best_fit_v2)
    (hlen : s.sizes_.length = s.free_ordering_.length)
    (hsorted : s.sizes_.Pairwise (· ≤ ·)) :
    ∀ (d i sz : Nat), s.free_ordering_.length ≤ i + d →
      (validate_blocks_loop blocks s i sz = some () ↔
        (∀ hi : i < s.sizes_.length, sz ≤ s.sizes_[i]) ∧
        ∀ j (h1 : j < s.sizes_.length) (h2 : j < s.free_ordering_.length), i ≤ j →
          (blocks.at s.free_ordering_[j]).map block.size_ = some s.sizes_[j]) := by
  intro d
  induction d with
  | zero =>
    intro i sz hd
    rw [validate_blocks_loop_unfold, if_neg (by omega)]
    simp only [true_iff]
    exact ⟨fun hi => absurd hi (by omega), fun j h1 h2 hij => absurd h2 (by omega)⟩
  | succ d ih =>
    intro i sz hd
    rw [validate_blocks_loop_unfold]
    by_cases hlt : i < s.free_ordering_.length
    · have hlt' : i < s.sizes_.length := by omega
      simp only [if_pos hlt, List.getElem?_eq_getElem hlt, List.getElem?_eq_getElem hlt']
      cases hb : blocks.at s.free_ordering_[i] with
      | none =>
        simp only
        constructor
        · intro h; cases h
        · intro h
          have := h.2 i hlt' hlt (Nat.le_refl _)
          rw [hb] at this
          simp at this
      | some blk =>
        simp only
        by_cases h1 : sz ≤ blk.size_
        · have ha : OULY_ASSERT (decide (sz ≤ blk.size_)) = some () := by
            rw [OULY_ASSERT_eq_some]; simp [h1]
          simp only [ha]
          by_cases h2 : blk.size_ = s.sizes_[i]
          · have ha2 : OULY_ASSERT (blk.size_ == s.sizes_[i]) = some () := by
              rw [OULY_ASSERT_eq_some]; simp [h2]
            simp only [ha2]
            rw [ih (i + 1) blk.size_ (by omega)]
            constructor
            · rintro ⟨_, hall⟩
              refine ⟨fun _ => by omega, ?_⟩
              intro j hj1 hj2 hij
              rcases Nat.eq_or_lt_of_le hij with heq | hgt
              · subst heq
                rw [hb]
                simp [h2]
              · exact hall j hj1 hj2 (by omega)
            · rintro ⟨_, hall⟩
              refine ⟨?_, fun j hj1 hj2 hij => hall j hj1 hj2 (by omega)⟩
              intro hi
              rw [h2]
              exact (List.pairwise_iff_getElem.mp hsorted) i (i + 1) hlt' hi (by omega)
          · have ha2 : OULY_ASSERT (blk.size_ == s.sizes_[i]) = none := by
              simp [OULY_ASSERT, h2]
            simp only [ha2]
            constructor
            · intro h; cases h
            · rintro ⟨_, hall⟩
              have := hall i hlt' hlt (Nat.le_refl _)
              rw [hb] at this
              simp only [Option.map_some', Option.some.injEq] at this
              exact absurd this h2
        · have ha : OULY_ASSERT (decide (sz ≤ blk.size_)) = none := by
            simp [OULY_ASSERT, h1]
          simp only [ha]
          constructor
          · intro h; cases h
          · rintro ⟨hsz, hall⟩
            have := hall i hlt' hlt (Nat.le_refl _)
            rw [hb] at this
            simp only [Option.map_some', Option.some.injEq] at this
            have := hsz hlt'
            omega
    · simp only [if_neg hlt, true_iff]
      exact ⟨fun hi => absurd hi (by omega), fun j h1 h2 hij => absurd h2 (by omega)⟩

/-- Claim C12, as amended. For every strategy state and block bank, no assertion of
`validate_integrity` fails if and only if `sizes_` and `free_ordering_` have the same length,
`sizes_` is non-decreasing, and for all `i` the entry `sizes_[i]` equals the size of the block
`free_ordering_[i]`; the flag `is_free_` of the blocks is not examined. -/
theorem validate_integrity_iff (blocks : block_bank) (s : best_fit_v2) :
    (validate_integrity blocks s = some () ↔ free_index_inv blocks s) ∧
    (validate_integrity blocks s = some () →
      ∀ blocks' : block_bank,
        (∀ h, (block_bank.at blocks' h).map block.size_ = (blocks.at h).map block.size_) →
        validate_integrity blocks' s = some ()) := by
  have key : ∀ b : block_bank, validate_integrity b s = some () ↔ free_index_inv b s := by
    intro b
    unfold validate_integrity free_index_inv
    by_cases hlen : s.sizes_.length = s.free_ordering_.length
    · have ha : OULY_ASSERT (s.free_ordering_.length == s.sizes_.length) = some () := by
        rw [OULY_ASSERT_eq_some]; simp [hlen]
      simp only [ha]
      by_cases hs : s.sizes_.Pairwise (· ≤ ·)
      · have h1 : validate_sizes_loop s.sizes_ 1 = some () :=
          (validate_sizes_loop_iff s.sizes_ s.sizes_.length 1 (Nat.le_refl _)
            (by omega)).mpr ((pairwise_iff_adjacent _).mp hs)
        simp only [h1]
        rw [validate_blocks_loop_iff b s hlen hs s.free_ordering_.length 0 0 (by omega)]
        constructor
        · rintro ⟨_, hall⟩
          exact ⟨hlen, hs, fun i hi1 hi2 => hall i hi1 hi2 (Nat.zero_le _)⟩
        · rintro ⟨_, _, hall⟩
          exact ⟨fun _ => Nat.zero_le _, fun j hj1 hj2 _ => hall j hj1 hj2⟩
      · have h1 : validate_sizes_loop s.sizes_ 1 = none := by
          cases hv : validate_sizes_loop s.sizes_ 1 with
          | none => rfl
          | some u =>
            exact absurd ((pairwise_iff_adjacent _).mpr
              ((validate_sizes_loop_iff s.sizes_ s.sizes_.length 1 (Nat.le_refl _)
                (by omega)).mp hv)) hs
        simp only [h1]
        constructor
        · intro h; cases h
        · intro h; exact absurd h.2.1 hs
    · have ha : OULY_ASSERT (s.free_ordering_.length == s.sizes_.length) = none := by
        have : ¬ s.free_ordering_.length = s.sizes_.length := fun e => hlen e.symm
        simp [OULY_ASSERT, this]
      simp only [ha]
      constructor
      · intro h; cases h
      · intro h; exact absurd h.1 hlen
  refine ⟨key blocks, ?_⟩
  intro hv blocks' hsame
  rw [key] at hv ⊢
  exact ⟨hv.1, hv.2.1, fun i h1 h2 => by rw [hsame]; exact hv.2.2 i h1 h2⟩

/-- Instance of C12 as amended: the same index passes over a bank in which the referenced
block is flagged free and over the bank in which it is not. -/
theorem validate_integrity_iff_witness :
    validate_integrity [some ⟨0, 10, 0, 0, true⟩] ⟨[10], [0]⟩ = some () ∧
    (∀ h, (block_bank.at [some ⟨0, 10, 0, 0, false⟩] h).map block.size_
      = (block_bank.at [some ⟨0, 10, 0, 0, true⟩] h).map block.size_) ∧
    validate_integrity [some ⟨0, 10, 0, 0, false⟩] ⟨[10], [0]⟩ = some () := by
  have h1 : validate_integrity [some ⟨0, 10, 0, 0, true⟩] ⟨[10], [0]⟩ = some () :=
    (validate_integrity_iff [some ⟨0, 10, 0, 0, true⟩] ⟨[10], [0]⟩).1.mpr (by decide)
  have h2 : ∀ h, (block_bank.at [some ⟨0, 10, 0, 0, false⟩] h).map block.size_
      = (block_bank.at [some ⟨0, 10, 0, 0, true⟩] h).map block.size_ := by
    intro h
    cases h with
    | zero => rfl
    | succ n => simp [block_bank.at]
  exact ⟨h1, h2,
    (validate_integrity_iff [some ⟨0, 10, 0, 0, true⟩] ⟨[10], [0]⟩).2 h1 _ h2⟩

/-- Counterexample to C12 as stated: over a bank whose block `0` has size `10` and
`is_free_ == false`, the index `sizes_ = [10]`, `free_ordering_ = [0]` passes
`validate_integrity`, although the block it references is not flagged free. -/
theorem validate_integrity_is_free_counterexample :
    validate_integrity [some ⟨0, 10, 0, 0, false⟩] ⟨[10], [0]⟩ = some () ∧
    ¬ ((best_fit_v2.mk [10] [0]).sizes_.length
          = (best_fit_v2.mk [10] [0]).free_ordering_.length ∧
        (best_fit_v2.mk [10] [0]).sizes_.Pairwise (· ≤ ·) ∧
        ∀ i (h1 : i < (best_fit_v2.mk [10] [0]).sizes_.length)
          (h2 : i < (best_fit_v2.mk [10] [0]).free_ordering_.length),
          (block_bank.at [some ⟨0, 10, 0, 0, false⟩]
              (best_fit_v2.mk [10] [0]).free_ordering_[i]).map block.size_
            = some (best_fit_v2.mk [10] [0]).sizes_[i] ∧
          (block_bank.at [some ⟨0, 10, 0, 0, false⟩]
              (best_fit_v2.mk [10] [0]).free_ordering_[i]).map block.is_free_
            = some true) := by
  constructor
  · have h1 : validate_sizes_loop [10] 1 = some () := by
      rw [validate_sizes_loop_unfold]; simp
    have h2 : validate_blocks_loop [some ⟨0, 10, 0, 0, false⟩] ⟨[10], [0]⟩ 1 10
        = some () := by
      rw [validate_blocks_loop_unfold]; simp
    have h3 : validate_blocks_loop [some ⟨0, 10, 0, 0, false⟩] ⟨[10], [0]⟩ 0 0
        = some () := by
      rw [validate_blocks_loop_unfold]
      simp [block_bank.at, OULY_ASSERT, h2]
    simp [validate_integrity, OULY_ASSERT, h1, h3]
  · decide

/-- The run of `erase` on a referenced block under the invariant. -/
theorem erase_spec (algo : Nat) (blocks : block_bank) (s : best_fit_v2) (b p : Nat)
    (halgo : algo ≤ 2) (hinv : free_index_inv blocks s)
    (hp : p < s.free_ordering_.length) (hb : s.free_ordering_[p] = b) :
    ∃ s' k, erase algo blocks s b = some s' ∧ k ≤ p ∧
      s.free_ordering_[k]? = some b ∧
      s'.sizes_ = s.sizes_.eraseIdx k ∧
      s'.free_ordering_ = s.free_ordering_.eraseIdx k ∧
      s'.sizes_.length + 1 = s.sizes_.length ∧
      s'.free_ordering_.length + 1 = s.free_ordering_.length ∧
      free_index_inv blocks s' ∧
      (s.free_ordering_.Nodup → k = p ∧ b ∉ s'.free_ordering_ ∧ s'.free_ordering_.Nodup) := by
  obtain ⟨blk, r, k, hblk, hfind, hnode, hkp, hk, hk2, hkb, hks, hkn⟩ :=
    locate_spec algo blocks s b p halgo hinv hp hb
  refine ⟨⟨s.sizes_.eraseIdx k, s.free_ordering_.eraseIdx k⟩, k, ?_, hkp, ?_, rfl, rfl, ?_, ?_,
    ?_, ?_⟩
  · simp [erase, hblk, hfind, hnode, OULY_ASSERT_ne hk2, erase_at_eq_some _ _ hk,
      erase_at_eq_some _ _ hk2]
  · rw [List.getElem?_eq_getElem hk2, hkb]
  · have := List.length_eraseIdx_of_lt hk
    simp only []
    omega
  · have := List.length_eraseIdx_of_lt hk2
    simp only []
    omega
  · rw [free_index_inv_iff] at hinv ⊢
    exact ⟨hinv.1.sublist (List.eraseIdx_sublist _ _), forall₂_eraseIdx k hinv.2⟩
  · intro hnd
    refine ⟨hkn hnd, ?_, hnd.eraseIdx k⟩
    have := nodup_not_mem_eraseIdx hnd hk2
    rw [hkb] at this
    exact this

/-- The run of `add_free` on a block that is not referenced, under the invariant. -/
theorem add_free_spec (algo : Nat) (blocks : block_bank) (s : best_fit_v2)
    (b : Nat) (blk : block)
    (halgo : algo ≤ 2) (hinv : free_index_inv blocks s)
    (hblk : blocks.at b = some blk) (hnew : b ∉ s.free_ordering_) :
    ∃ blocks' s' j, add_free algo blocks s b = some (blocks', s') ∧
      block_bank.at blocks' b = some { blk with is_free_ := true } ∧
      (∀ h, h ≠ b → block_bank.at blocks' h = blocks.at h) ∧
      s'.sizes_[j]? = some blk.size_ ∧
      s'.free_ordering_[j]? = some b ∧
      s'.sizes_.eraseIdx j = s.sizes_ ∧
      s'.free_ordering_.eraseIdx j = s.free_ordering_ ∧
      s'.sizes_.length = s.sizes_.length + 1 ∧
      s'.free_ordering_.length = s.free_ordering_.length + 1 ∧
      s'.free_ordering_.count b = 1 ∧
      (s.free_ordering_.Nodup → s'.free_ordering_.Nodup) ∧
      free_index_inv blocks' s' := by
  have hinv' := (free_index_inv_iff blocks s).mp hinv
  obtain ⟨hlen, hsorted, _⟩ := hinv
  obtain ⟨hlt, _⟩ := at_isSome_lt hblk
  obtain ⟨r, he, hr⟩ :=
    find_free_it_spec s.sizes_ 0 s.sizes_.length blk.size_ algo halgo
      (range_sorted_of_pairwise hsorted 0 (0 + s.sizes_.length)) (by omega)
  simp only [Nat.sub_zero, Nat.zero_add] at he hr
  have hr2 : r ≤ s.sizes_.length := hr.2.1
  have hr2' : r ≤ s.free_ordering_.length := by omega
  refine ⟨blocks.set b (some { blk with is_free_ := true }),
    ⟨s.sizes_.take r ++ blk.size_ :: s.sizes_.drop r,
      s.free_ordering_.take r ++ b :: s.free_ordering_.drop r⟩, r, ?_, at_set_self _ hlt,
    fun h hne => at_set_other _ hne, getElem?_insert _ _ _ hr2, getElem?_insert _ _ _ hr2',
    eraseIdx_insert _ _ _ hr2, eraseIdx_insert _ _ _ hr2', length_insert _ _ _,
    length_insert _ _ _, ?_, fun hnd => nodup_insert hnd hnew, ?_⟩
  · simp [add_free, add_free_after_begin, hblk, put_eq_some _ hblk, he,
      emplace_at_eq_some _ _ _ hr2, emplace_at_eq_some _ _ _ hr2']
  · have h0 : s.free_ordering_.count b = 0 := List.count_eq_zero.mpr hnew
    have h1 : (List.take r s.free_ordering_).count b
        + (List.drop r s.free_ordering_).count b = 0 := by
      rw [← List.count_append, List.take_append_drop]; exact h0
    simp only [List.count_append, List.count_cons_self]
    omega
  · rw [free_index_inv_iff]
    refine ⟨pairwise_insert_at hsorted hr, ?_⟩
    have hrest : List.Forall₂
        (fun sz h => (block_bank.at (blocks.set b (some { blk with is_free_ := true })) h).map
          block.size_ = some sz) s.sizes_ s.free_ordering_ := by
      apply forall₂_congr_right hinv'.2
      intro a h hh hR
      have hne : h ≠ b := fun e => hnew (e ▸ hh)
      rw [at_set_other _ hne]
      exact hR
    exact forall₂_insert r hrest (by rw [at_set_self _ hlt]; rfl)

/-- The run of `grow_free_node` on a referenced block under the invariant and distinct handles. -/
theorem grow_free_node_spec (algo : Nat) (blocks : block_bank) (s : best_fit_v2)
    (b k newsize : Nat) (blk : block)
    (halgo : algo ≤ 2) (hinv : free_index_inv blocks s) (hnd : s.free_ordering_.Nodup)
    (hk : k < s.free_ordering_.length) (hb : s.free_ordering_[k] = b)
    (hblk : blocks.at b = some blk) (hsize : blk.size_ ≤ newsize) :
    ∃ blocks' s' j, grow_free_node algo blocks s b newsize = some (blocks', s') ∧
      block_bank.at blocks' b = some { blk with size_ := newsize } ∧
      (∀ h, h ≠ b → block_bank.at blocks' h = blocks.at h) ∧
      k ≤ j ∧ j < s.sizes_.length ∧
      s'.sizes_[j]? = some newsize ∧ s'.free_ordering_[j]? = some b ∧
      s'.sizes_.eraseIdx j = s.sizes_.eraseIdx k ∧
      s'.free_ordering_.eraseIdx j = s.free_ordering_.eraseIdx k ∧
      s'.sizes_.length = s.sizes_.length ∧
      s'.free_ordering_.length = s.free_ordering_.length ∧
      s'.free_ordering_.Nodup ∧
      free_index_inv blocks' s' := by
  obtain ⟨blk', r, k', hblk', hfind, hnode, _, hk1, hk2, hkb, hks, hkn⟩ :=
    locate_spec algo blocks s b k halgo hinv hk hb
  have hkk : k' = k := hkn hnd
  subst hkk
  rw [hblk] at hblk'
  have hbb : blk = blk' := Option.some.inj hblk'
  subst hbb
  obtain ⟨hlt, _⟩ := at_isSome_lt hblk
  have hnot : b ∉ s.free_ordering_.eraseIdx k' := by
    have := nodup_not_mem_eraseIdx hnd hk2
    rw [hkb] at this
    exact this
  obtain ⟨s', j, he, hj1, hj2, h1, h2, h3, h4, h5, h6, h7, h8⟩ :=
    reinsert_right_inv algo blocks
      (blocks.set b (some { blk with size_ := newsize })) s k' newsize b halgo hinv
      hk1 (fun _ => by rw [hks]; exact hsize)
      (fun h hh => at_set_other _ (fun e => hnot (e ▸ hh)))
      (by rw [at_set_self _ hlt]; rfl)
  refine ⟨_, s', j, ?_, at_set_self _ hlt, fun h hne => at_set_other _ hne, hj1, hj2, h1, h2,
    h3, h4, h5, h6, h7 hnd hnot, h8⟩
  simp [grow_free_node, hblk, hfind, hnode, OULY_ASSERT_ne hk2, put_eq_some _ hblk, he]

/-- The run of `replace_and_grow` under the invariant and distinct handles. -/
theorem replace_and_grow_spec (algo : Nat) (blocks : block_bank) (s : best_fit_v2)
    (b nb k new_size : Nat) (blk nblk : block)
    (halgo : algo ≤ 2) (hinv : free_index_inv blocks s) (hnd : s.free_ordering_.Nodup)
    (hk : k < s.free_ordering_.length) (hb : s.free_ordering_[k] = b)
    (hblk : blocks.at b = some blk) (hnblk : blocks.at nb = some nblk)
    (hnb : nb = b ∨ nb ∉ s.free_ordering_) (hsize : blk.size_ ≤ new_size) :
    ∃ blocks' s' j, replace_and_grow algo blocks s b nb new_size = some (blocks', s') ∧
      block_bank.at blocks' nb = some { nblk with size_ := new_size } ∧
      (∀ h, h ≠ nb → block_bank.at blocks' h = blocks.at h) ∧
      k ≤ j ∧ j < s.sizes_.length ∧
      s'.sizes_[j]? = some new_size ∧ s'.free_ordering_[j]? = some nb ∧
      s'.sizes_.eraseIdx j = s.sizes_.eraseIdx k ∧
      s'.free_ordering_.eraseIdx j = s.free_ordering_.eraseIdx k ∧
      s'.sizes_.length = s.sizes_.length ∧
      s'.free_ordering_.length = s.free_ordering_.length ∧
      (nb ≠ b → b ∉ s'.free_ordering_) ∧
      s'.free_ordering_.Nodup ∧
      free_index_inv blocks' s' := by
  obtain ⟨blk', r, k', hblk', hfind, hnode, _, hk1, hk2, hkb, hks, hkn⟩ :=
    locate_spec algo blocks s b k halgo hinv hk hb
  have hkk : k' = k := hkn hnd
  subst hkk
  rw [hblk] at hblk'
  have hbb : blk = blk' := Option.some.inj hblk'
  subst hbb
  obtain ⟨hlt, _⟩ := at_isSome_lt hnblk
  have hnotb : b ∉ s.free_ordering_.eraseIdx k' := by
    have := nodup_not_mem_eraseIdx hnd hk2
    rw [hkb] at this
    exact this
  have hnot : nb ∉ s.free_ordering_.eraseIdx k' := by
    rcases hnb with h | h
    · rw [h]; exact hnotb
    · exact fun hm => h (List.mem_of_mem_eraseIdx hm)
  obtain ⟨s', j, he, hj1, hj2, h1, h2, h3, h4, h5, h6, h7, h8⟩ :=
    reinsert_right_inv algo blocks
      (blocks.set nb (some { nblk with size_ := new_size })) s k' new_size nb halgo hinv
      hk1 (fun _ => by rw [hks]; exact hsize)
      (fun h hh => at_set_other _ (fun e => hnot (e ▸ hh)))
      (by rw [at_set_self _ hlt]; rfl)
  refine ⟨_, s', j, ?_, at_set_self _ hlt, fun h hne => at_set_other _ hne, hj1, hj2, h1, h2,
    h3, h4, h5, h6, ?_, h7 hnd hnot, h8⟩
  · simp [replace_and_grow, hblk, hnblk, hfind, hnode, OULY_ASSERT_ne hk2,
      put_eq_some _ hnblk, he]
  · intro hne hmem
    obtain ⟨i, hi⟩ := List.mem_iff_getElem?.mp hmem
    by_cases hij : i = j
    · rw [hij, h2] at hi
      exact hne (Option.some.inj hi)
    · have : b ∈ s'.free_ordering_.eraseIdx j :=
        List.mem_eraseIdx_iff_getElem?.mpr ⟨i, hij, hi⟩
      rw [h4] at this
      exact hnotb this

/-! ## The invariant in every reachable state -/

theorem commit_some_cases (algo : Nat) (bank bank' : bank_data) (s s' : best_fit_v2)
    (size k r h S : Nat) (blk : block)
    (hc : commit algo bank s size k = some (bank', s', r))
    (hh : s.free_ordering_[k]? = some h) (hS : s.sizes_[k]? = some S)
    (hblk : bank.blocks_.at h = some blk) :
    r = h ∧
    (((S + size_type_mod - size) % size_type_mod = 0 ∧
        bank'.blocks_ = bank.blocks_.set h (some { blk with is_free_ := false, size_ := size }) ∧
        s' = ⟨s.sizes_.eraseIdx k, s.free_ordering_.eraseIdx k⟩) ∨
      (0 < (S + size_type_mod - size) % size_type_mod ∧
        bank'.blocks_ = (block_bank.emplace
          (bank.blocks_.set h (some { blk with is_free_ := false, size_ := size }))
          ⟨(blk.offset_ + size) % size_type_mod, (S + size_type_mod - size) % size_type_mod,
            blk.arena_, uint32_max, true⟩).1 ∧
        reinsert_left algo s k ((S + size_type_mod - size) % size_type_mod)
          (block_bank.emplace
            (bank.blocks_.set h (some { blk with is_free_ := false, size_ := size }))
            ⟨(blk.offset_ + size) % size_type_mod, (S + size_type_mod - size) % size_type_mod,
              blk.arena_, uint32_max, true⟩).2 = some s')) := by
  have hk1 : k < s.free_ordering_.length := (List.getElem?_eq_some_iff.mp hh).1
  have hk2 : k < s.sizes_.length := (List.getElem?_eq_some_iff.mp hS).1
  unfold commit at hc
  simp only [Nat.sub_zero, hh, hS, hblk, put_eq_some _ hblk, Option.bind_eq_bind,
    Option.some_bind] at hc
  by_cases hrem : 0 < (S + size_type_mod - size) % size_type_mod
  · simp only [if_pos hrem, Option.bind_eq_some] at hc
    obtain ⟨ar, _, list, _, arenas1, _, s1, hs1, heq⟩ := hc
    simp only [Option.some.injEq, Prod.mk.injEq] at heq
    obtain ⟨e1, e2, e3⟩ := heq
    refine ⟨e3.symm, Or.inr ⟨hrem, ?_, ?_⟩⟩
    · rw [← e1]
    · rw [← e2]; exact hs1
  · simp only [if_neg hrem, erase_at_eq_some _ _ hk1, erase_at_eq_some _ _ hk2,
      Option.some_bind, Option.some.injEq, Prod.mk.injEq] at hc
    obtain ⟨e1, e2, e3⟩ := hc
    refine ⟨e3.symm, Or.inl ⟨by omega, ?_, e2.symm⟩⟩
    rw [← e1]

theorem try_allocate_addr (algo : Nat) (s : best_fit_v2) (size k : Nat)
    (halgo : algo ≤ 2) (hsorted : s.sizes_.Pairwise (· ≤ ·))
    (h : try_allocate algo s size = some (optional_addr.addr k)) :
    ∃ hk : k < s.sizes_.length, size ≤ s.sizes_[k] := by
  unfold try_allocate at h
  cases hlast : s.sizes_.getLast? with
  | none => rw [hlast] at h; simp at h
  | some back =>
    rw [hlast] at h
    simp only at h
    by_cases hlt : back < size
    · simp [hlt] at h
    · simp only [if_neg hlt] at h
      obtain ⟨r, he, h1, h2, h3, h4⟩ := bsearch_spec s.sizes_ 0 s.sizes_.length size algo halgo
        (range_sorted_of_pairwise hsorted 0 (0 + s.sizes_.length)) (by omega)
      unfold find_free at h
      rw [he] at h
      simp only [Option.some.injEq] at h
      by_cases hr : r < 0 + s.sizes_.length
      · rw [if_pos hr] at h
        simp only [optional_addr.addr.injEq] at h
        subst h
        exact ⟨by omega, h4 r (by omega) (Nat.le_refl _) hr⟩
      · rw [if_neg hr] at h
        cases h

theorem mod_remaining_le {S size : Nat} (hsz : size ≤ S) :
    (S + size_type_mod - size) % size_type_mod ≤ S := by
  have hpos : 0 < size_type_mod := by unfold size_type_mod; omega
  by_cases h : S < size_type_mod
  · rw [remaining_eq hsz h]; omega
  · have := Nat.mod_lt (S + size_type_mod - size) hpos
    omega

/-- The invariant that the operations keep: the free-index invariant together with the
distinctness of the handles. -/
theorem reachable_inv (algo : Nat) (halgo : algo ≤ 2) (bank : bank_data) (s : best_fit_v2)
    (hr : reachable algo bank s) :
    free_index_inv bank.blocks_ s ∧ s.free_ordering_.Nodup := by
  induction hr with
  | empty bank =>
    exact ⟨⟨rfl, List.Pairwise.nil, fun i h1 _ => absurd h1 (by simp)⟩, List.nodup_nil⟩
  | client bank bank' s _ hsame ih =>
    obtain ⟨hinv, hnd⟩ := ih
    refine ⟨⟨hinv.1, hinv.2.1, ?_⟩, hnd⟩
    intro i h1 h2
    rw [hsame _ (List.getElem_mem h2)]
    exact hinv.2.2 i h1 h2
  | add_free_arena bank s s' b blk _ hnew hblk hlast hop ih =>
    obtain ⟨hinv, hnd⟩ := ih
    unfold add_free_arena at hop
    rw [hblk] at hop
    simp only [Option.some.injEq] at hop
    subst hop
    have hinv' := (free_index_inv_iff bank.blocks_ s).mp hinv
    constructor
    · rw [free_index_inv_iff]
      constructor
      · rw [List.pairwise_append]
        refine ⟨hinv'.1, List.pairwise_singleton _ _, ?_⟩
        intro a ha b' hb'
        simp only [List.mem_singleton] at hb'
        subst hb'
        obtain ⟨i, hi, rfl⟩ := List.mem_iff_getElem.mp ha
        have hl : s.sizes_.getLast? = some s.sizes_[s.sizes_.length - 1] := by
          rw [List.getLast?_eq_getElem?, List.getElem?_eq_getElem (by omega)]
        have h1 := hlast _ (by rw [hl]; rfl)
        have h2 := range_sorted_of_pairwise hinv'.1 0 s.sizes_.length i (s.sizes_.length - 1)
          hi (by omega) (Nat.zero_le _) (by omega) (by omega)
        omega
      · exact List.rel_append hinv'.2
          (List.Forall₂.cons (by rw [hblk]; rfl) List.Forall₂.nil)
    · rw [List.nodup_append]
      refine ⟨hnd, List.nodup_singleton _, ?_⟩
      intro x hx hy
      simp only [List.mem_singleton] at hy
      subst hy
      exact hnew hx
  | add_free bank s s' b blocks' _ hnew hop ih =>
    obtain ⟨hinv, hnd⟩ := ih
    cases hblk : bank.blocks_.at b with
    | none => simp [add_free, add_free_after_begin, hblk] at hop
    | some blk =>
      obtain ⟨blocks2, s2, j, he, _, _, _, _, _, _, _, _, _, hn2, hi2⟩ :=
        add_free_spec algo bank.blocks_ s b blk halgo hinv hblk hnew
      rw [he] at hop
      simp only [Option.some.injEq, Prod.mk.injEq] at hop
      obtain ⟨rfl, rfl⟩ := hop
      exact ⟨hi2, hn2 hnd⟩
  | commit bank bank' s s' size k r _ hta hop ih =>
    obtain ⟨hinv, hnd⟩ := ih
    obtain ⟨hk, hsz⟩ := try_allocate_addr algo s size k halgo hinv.2.1 hta
    have hk2 : k < s.free_ordering_.length := by have := hinv.1; omega
    have hh : s.free_ordering_[k]? = some s.free_ordering_[k] := List.getElem?_eq_getElem hk2
    have hS : s.sizes_[k]? = some s.sizes_[k] := List.getElem?_eq_getElem hk
    have h3 := hinv.2.2 k hk hk2
    cases hblk : bank.blocks_.at s.free_ordering_[k] with
    | none => rw [hblk] at h3; simp at h3
    | some blk =>
      obtain ⟨hlt, _⟩ := at_isSome_lt hblk
      have hnoth : s.free_ordering_[k] ∉ s.free_ordering_.eraseIdx k :=
        nodup_not_mem_eraseIdx hnd hk2
      have hlive : ∀ h' ∈ s.free_ordering_, (bank.blocks_.at h').isSome = true := by
        intro h' hh'
        obtain ⟨i, hi, rfl⟩ := List.mem_iff_getElem.mp hh'
        have := hinv.2.2 i (by have := hinv.1; omega) hi
        cases hx : bank.blocks_.at s.free_ordering_[i] with
        | none => rw [hx] at this; simp at this
        | some x => rfl
      obtain ⟨_, hcase | hcase⟩ :=
        commit_some_cases algo bank bank' s s' size k r _ _ blk hop hh hS hblk
      · obtain ⟨_, hb', hs'⟩ := hcase
        rw [hb', hs']
        refine ⟨?_, hnd.eraseIdx k⟩
        have hinv' := (free_index_inv_iff bank.blocks_ s).mp hinv
        rw [free_index_inv_iff]
        refine ⟨hinv'.1.sublist (List.eraseIdx_sublist _ _), ?_⟩
        apply forall₂_congr_right (forall₂_eraseIdx k hinv'.2)
        intro a h' hh' hR
        have hne : h' ≠ s.free_ordering_[k] := fun e => hnoth (e ▸ hh')
        simp only [at_set_other _ hne]
        exact hR
      · obtain ⟨_, hb', hs'⟩ := hcase
        obtain ⟨e1, e2, e3⟩ := emplace_spec
          (bank.blocks_.set s.free_ordering_[k]
            (some { blk with is_free_ := false, size_ := size }))
          ⟨(blk.offset_ + size) % size_type_mod,
            (s.sizes_[k] + size_type_mod - size) % size_type_mod, blk.arena_, uint32_max,
            true⟩
        rw [← hb'] at e2 e3
        have hnbh : (block_bank.emplace
            (bank.blocks_.set s.free_ordering_[k]
              (some { blk with is_free_ := false, size_ := size }))
            ⟨(blk.offset_ + size) % size_type_mod,
              (s.sizes_[k] + size_type_mod - size) % size_type_mod, blk.arena_, uint32_max,
              true⟩).2 ≠ s.free_ordering_[k] := by
          intro e
          rw [e, at_set_self _ hlt] at e1
          simp at e1
        have hvac : bank.blocks_.at (block_bank.emplace
            (bank.blocks_.set s.free_ordering_[k]
              (some { blk with is_free_ := false, size_ := size }))
            ⟨(blk.offset_ + size) % size_type_mod,
              (s.sizes_[k] + size_type_mod - size) % size_type_mod, blk.arena_, uint32_max,
              true⟩).2 = none := by
          rw [← at_set_other (some { blk with is_free_ := false, size_ := size }) hnbh]
          exact e1
        have hnbnot : (block_bank.emplace
            (bank.blocks_.set s.free_ordering_[k]
              (some { blk with is_free_ := false, size_ := size }))
            ⟨(blk.offset_ + size) % size_type_mod,
              (s.sizes_[k] + size_type_mod - size) % size_type_mod, blk.arena_, uint32_max,
              true⟩).2 ∉ s.free_ordering_ := by
          intro hm
          have := hlive _ hm
          rw [hvac] at this
          simp at this
        obtain ⟨s1, j, hs1, _, _, _, _, _, _, _, g7, g8⟩ :=
          reinsert_left_inv algo bank.blocks_ bank'.blocks_ s k
            ((s.sizes_[k] + size_type_mod - size) % size_type_mod)
            (block_bank.emplace
              (bank.blocks_.set s.free_ordering_[k]
                (some { blk with is_free_ := false, size_ := size }))
              ⟨(blk.offset_ + size) % size_type_mod,
                (s.sizes_[k] + size_type_mod - size) % size_type_mod, blk.arena_, uint32_max,
                true⟩).2
            halgo hinv hk (fun _ => mod_remaining_le hsz)
            (by
              intro h' hh'
              have hne1 : h' ≠ s.free_ordering_[k] := fun e => hnoth (e ▸ hh')
              rw [e3 h' (fun e => hnbnot (e ▸ List.mem_of_mem_eraseIdx hh'))]
              exact at_set_other _ hne1)
            (by rw [e2]; rfl)
        rw [hs1] at hs'
        simp only [Option.some.injEq] at hs'
        subst hs'
        exact ⟨g8, g7 hnd (fun hm => hnbnot (List.mem_of_mem_eraseIdx hm))⟩
  | grow_free_node bank s s' b newsize blk blocks' _ hmem hblk hsz hop ih =>
    obtain ⟨hinv, hnd⟩ := ih
    obtain ⟨k, hk, hb⟩ := List.mem_iff_getElem.mp hmem
    obtain ⟨blocks2, s2, j, he, _, _, _, _, _, _, _, _, _, _, hn2, hi2⟩ :=
      grow_free_node_spec algo bank.blocks_ s b k newsize blk halgo hinv hnd hk hb hblk hsz
    rw [he] at hop
    simp only [Option.some.injEq, Prod.mk.injEq] at hop
    obtain ⟨rfl, rfl⟩ := hop
    exact ⟨hi2, hn2⟩
  | replace_and_grow bank s s' b nb new_size blk blocks' _ hmem hnb hblk hsz hop ih =>
    obtain ⟨hinv, hnd⟩ := ih
    obtain ⟨k, hk, hb⟩ := List.mem_iff_getElem.mp hmem
    cases hnblk : bank.blocks_.at nb with
    | none => simp [replace_and_grow, hblk, hnblk] at hop
    | some nblk =>
      obtain ⟨blocks2, s2, j, he, _, _, _, _, _, _, _, _, _, _, _, hn2, hi2⟩ :=
        replace_and_grow_spec algo bank.blocks_ s b nb k new_size blk nblk halgo hinv hnd hk
          hb hblk hnblk hnb hsz
      rw [he] at hop
      simp only [Option.some.injEq, Prod.mk.injEq] at hop
      obtain ⟨rfl, rfl⟩ := hop
      exact ⟨hi2, hn2⟩
  | erase bank s s' b _ hmem hop ih =>
    obtain ⟨hinv, hnd⟩ := ih
    obtain ⟨k, hk, hb⟩ := List.mem_iff_getElem.mp hmem
    obtain ⟨s2, k2, he, _, _, _, _, _, _, hi2, hn2⟩ :=
      erase_spec algo bank.blocks_ s b k halgo hinv hk hb
    rw [he] at hop
    simp only [Option.some.injEq] at hop
    subst hop
    exact ⟨hi2, (hn2 hnd).2.2⟩

/-- Claim C11, as amended. In every state reachable from the empty strategy by the public
operations, where `add_free_arena` is applied only to an index that is empty or whose last
entry does not exceed the size of the new block, `replace_and_grow` only with a size not below
the size of the replaced block and a new block that is the replaced one or not referenced, and
every operation to blocks that meet its membership precondition: `sizes_` is non-decreasing,
`sizes_` and `free_ordering_` have the same length, `sizes_[i]` is the size of the block
`free_ordering_[i]` for all `i`, and no handle is listed twice. -/
theorem reachable_free_index_inv (algo : Nat) (halgo : algo ≤ 2) (bank : bank_data)
    (s : best_fit_v2) (hr : reachable algo bank s) :
    s.sizes_.Pairwise (· ≤ ·) ∧ s.sizes_.length = s.free_ordering_.length ∧
    (∀ i (h1 : i < s.sizes_.length) (h2 : i < s.free_ordering_.length),
      (bank.blocks_.at s.free_ordering_[i]).map block.size_ = some s.sizes_[i]) ∧
    s.free_ordering_.Nodup := by
  obtain ⟨hinv, hnd⟩ := reachable_inv algo halgo bank s hr
  exact ⟨hinv.2.1, hinv.1, hinv.2.2, hnd⟩

/-- Instance of C11 as amended: the state reached from the empty strategy by `add_free_arena`
of the block `0` (size `1024`) followed by `try_allocate` and `commit` of a request of
`100`. -/
theorem reachable_free_index_inv_witness :
    (1 ≤ 2 ∧
      add_free_arena [some ⟨0, 1024, 0, 0, true⟩] ⟨[], []⟩ 0 = some ⟨[1024], [0]⟩ ∧
      try_allocate 1 ⟨[1024], [0]⟩ 100 = some (optional_addr.addr 0) ∧
      commit 1 ⟨[some ⟨0, 1024, 0, 0, true⟩], [⟨1024, [0]⟩]⟩ ⟨[1024], [0]⟩ 100 0
        = some (⟨[some ⟨0, 100, 0, 0, false⟩, some ⟨100, 924, 0, uint32_max, true⟩],
            [⟨1024, [0, 1]⟩]⟩, ⟨[924], [1]⟩, 0)) ∧
    ((best_fit_v2.mk [924] [1]).sizes_.Pairwise (· ≤ ·) ∧
      (best_fit_v2.mk [924] [1]).sizes_.length
        = (best_fit_v2.mk [924] [1]).free_ordering_.length ∧
      (∀ i (h1 : i < (best_fit_v2.mk [924] [1]).sizes_.length)
          (h2 : i < (best_fit_v2.mk [924] [1]).free_ordering_.length),
        (block_bank.at (bank_data.mk [some ⟨0, 100, 0, 0, false⟩,
            some ⟨100, 924, 0, uint32_max, true⟩] [⟨1024, [0, 1]⟩]).blocks_
          (best_fit_v2.mk [924] [1]).free_ordering_[i]).map block.size_
          = some (best_fit_v2.mk [924] [1]).sizes_[i]) ∧
      (best_fit_v2.mk [924] [1]).free_ordering_.Nodup) := by
  have h1 : add_free_arena [some ⟨0, 1024, 0, 0, true⟩] ⟨[], []⟩ 0 = some ⟨[1024], [0]⟩ := by
    decide
  have h2 : try_allocate 1 ⟨[1024], [0]⟩ 100 = some (optional_addr.addr 0) := by
    simp [try_allocate, find_free, find_free_it, bsearch, mini1, mini1_loop, finish,
      advance_if_less]
  have h3 : commit 1 ⟨[some ⟨0, 1024, 0, 0, true⟩], [⟨1024, [0]⟩]⟩ ⟨[1024], [0]⟩ 100 0
      = some (⟨[some ⟨0, 100, 0, 0, false⟩, some ⟨100, 924, 0, uint32_max, true⟩],
          [⟨1024, [0, 1]⟩]⟩, ⟨[924], [1]⟩, 0) := by
    decide
  exact ⟨⟨by decide, h1, h2, h3⟩,
    reachable_free_index_inv 1 (by decide) _ _
      (reachable.commit _ _ _ _ 100 0 0
        (reachable.add_free_arena ⟨[some ⟨0, 1024, 0, 0, true⟩], [⟨1024, [0]⟩]⟩ ⟨[], []⟩ _ 0
          ⟨0, 1024, 0, 0, true⟩ (reachable.empty _) (by decide) (by decide) (by decide) h1)
        h2 h3)⟩

/-- Counterexample to C11 as stated: over a bank whose blocks `0` and `1` have the sizes `100`
and `50`, `add_free_arena` of the block `0` on the empty strategy and then of the block `1`
(neither is referenced when it is added) gives `sizes_ = [100, 50]`, which is not
non-decreasing. -/
theorem add_free_arena_unsorted_counterexample :
    (0 ∉ (best_fit_v2.mk [] []).free_ordering_ ∧
      add_free_arena [some ⟨0, 100, 0, 0, true⟩, some ⟨0, 50, 1, 0, true⟩] ⟨[], []⟩ 0
        = some ⟨[100], [0]⟩) ∧
    (1 ∉ (best_fit_v2.mk [100] [0]).free_ordering_ ∧
      add_free_arena [some ⟨0, 100, 0, 0, true⟩, some ⟨0, 50, 1, 0, true⟩] ⟨[100], [0]⟩ 1
        = some ⟨[100, 50], [0, 1]⟩) ∧
    ¬ (best_fit_v2.mk [100, 50] [0, 1]).sizes_.Pairwise (· ≤ ·) := by
  refine ⟨⟨by decide, by decide⟩, ⟨by decide, by decide⟩, by decide⟩


/-! ## Bounds of the binary searches on arbitrary arrays -/

theorem step_bounds (a : List Nat) (hi key it size : Nat)
    (hhi : hi ≤ a.length) (h1 : 1 ≤ size) (hb : it + size ≤ hi) :
    ∃ it', OULY_BINARY_SEARCH_STEP a key it size = some (it', (size + 1) / 2) ∧
      it ≤ it' ∧ it' + (size + 1) / 2 ≤ hi := by
  have hm : it + size / 2 < a.length := by omega
  unfold OULY_BINARY_SEARCH_STEP
  simp only [Nat.shiftRight_eq_div_pow, pow_one, List.getElem?_eq_getElem hm]
  by_cases hlt : a[it + size / 2] < key
  · exact ⟨it + size / 2, by simp [hlt], by omega, by omega⟩
  · exact ⟨it, by simp [hlt], Nat.le_refl _, by omega⟩

theorem advance_bounds (a : List Nat) (key it size bound : Nat)
    (h : bound < size → it < a.length) :
    ∃ r, advance_if_less a key it size bound = some r ∧ it ≤ r ∧ r ≤ it + 1 ∧
      (¬ bound < size → r = it) := by
  unfold advance_if_less
  by_cases hb : bound < size
  · simp only [hb, if_true, List.getElem?_eq_getElem (h hb)]
    by_cases hlt : a[it] < key
    · exact ⟨it + 1, by simp [hlt], by omega, by omega, fun h => absurd trivial h⟩
    · exact ⟨it, by simp [hlt], by omega, by omega, fun h => absurd trivial h⟩
  · exact ⟨it, by simp [hb], by omega, by omega, fun _ => rfl⟩

theorem finish_bounds (a : List Nat) (hi key it size : Nat)
    (hhi : hi ≤ a.length) (h2 : size ≤ 2) (hb : it + size ≤ hi) :
    ∃ r, finish a key it size = some r ∧ it ≤ r ∧ r ≤ it + size := by
  unfold finish
  obtain ⟨r1, e1, l1, u1, z1⟩ := advance_bounds a key it size 1 (fun h => by omega)
  simp only [e1]
  obtain ⟨r2, e2, l2, u2, z2⟩ := advance_bounds a key r1 size 0 (fun h => by
      by_cases h1 : 1 < size
      · omega
      · have := z1 h1
        omega)
  refine ⟨r2, e2, by omega, ?_⟩
  by_cases h0 : 0 < size
  · by_cases h1 : 1 < size
    · omega
    · have := z1 h1
      omega
  · have := z1 (by omega)
    have := z2 h0
    omega

theorem mini0_loop_bounds (a : List Nat) (hi key : Nat) (hhi : hi ≤ a.length) :
    ∀ size it, it + size ≤ hi →
      ∃ it' size', mini0_loop a key it size = some (it', size') ∧ size' ≤ 2 ∧
        it ≤ it' ∧ it' + size' ≤ hi := by
  intro size
  induction size using Nat.strong_induction_on with
  | _ size ih =>
    intro it hb
    rw [mini0_loop_unfold]
    by_cases h2 : 2 < size
    · obtain ⟨it', he, hl, hb'⟩ := step_bounds a hi key it size hhi (by omega) hb
      simp only [h2, if_true, he]
      obtain ⟨it2, size2, e, s2, l2, b2⟩ := ih ((size + 1) / 2) (by omega) it' hb'
      exact ⟨it2, size2, e, s2, by omega, b2⟩
    · exact ⟨it, size, by simp [h2], by omega, Nat.le_refl _, hb⟩

theorem mini1_loop_bounds (a : List Nat) (hi key : Nat) (hhi : hi ≤ a.length) :
    ∀ size it, 1 ≤ size → it + size ≤ hi →
      ∃ it' size', mini1_loop a key it size = some (it', size') ∧ size' ≤ 2 ∧
        it ≤ it' ∧ it' + size' ≤ hi := by
  intro size
  induction size using Nat.strong_induction_on with
  | _ size ih =>
    intro it h1 hb
    rw [mini1_loop_unfold]
    obtain ⟨it', he, hl, hb'⟩ := step_bounds a hi key it size hhi h1 hb
    simp only [he]
    by_cases h2 : (size + 1) / 2 ≤ 2
    · exact ⟨it', (size + 1) / 2, by simp [h2], h2, hl, hb'⟩
    · simp only [h2, if_false]
      obtain ⟨it2, size2, e, s2, l2, b2⟩ := ih ((size + 1) / 2) (by omega) it' (by omega) hb'
      exact ⟨it2, size2, e, s2, by omega, b2⟩

theorem mini2_loop_bounds (a : List Nat) (hi key : Nat) (hhi : hi ≤ a.length) :
    ∀ size it, 1 ≤ size → it + size ≤ hi →
      ∃ it' size', mini2_loop a key it size = some (it', size') ∧ size' ≤ 2 ∧
        it ≤ it' ∧ it' + size' ≤ hi := by
  intro size
  induction size using Nat.strong_induction_on with
  | _ size ih =>
    intro it h1 hb
    rw [mini2_loop_unfold]
    obtain ⟨it1, he1, hl1, hb1⟩ := step_bounds a hi key it size hhi h1 hb
    obtain ⟨it2, he2, hl2, hb2⟩ := step_bounds a hi key it1 ((size + 1) / 2) hhi
      (by omega : 1 ≤ (size + 1) / 2) hb1
    simp only [he1, he2]
    by_cases h2 : ((size + 1) / 2 + 1) / 2 ≤ 2
    · exact ⟨it2, _, by simp [h2], h2, by omega, hb2⟩
    · simp only [h2, if_false]
      obtain ⟨it3, size3, e, s3, l3, b3⟩ :=
        ih (((size + 1) / 2 + 1) / 2) (by omega) it2 (by omega) hb2
      exact ⟨it3, size3, e, s3, by omega, b3⟩

/-- On every range inside an array, sorted or not, each of the three searches returns an
index of the range or its end. -/
theorem bsearch_bounds (a : List Nat) (it size key algo : Nat) (halgo : algo ≤ 2)
    (h : it + size ≤ a.length) :
    ∃ r, bsearch algo a it size key = some r ∧ it ≤ r ∧ r ≤ it + size := by
  unfold bsearch
  interval_cases algo
  · obtain ⟨it', size', he, h2, hl, hb⟩ := mini0_loop_bounds a (it + size) key h
      size it (Nat.le_refl _)
    simp only [if_true, mini0, he]
    obtain ⟨r, e, l, u⟩ := finish_bounds a (it + size) key it' size' h h2 hb
    exact ⟨r, e, by omega, by omega⟩
  · simp only [Nat.succ_ne_zero, if_false, if_true, mini1]
    by_cases hz : size = 0
    · exact ⟨it, by simp [hz], Nat.le_refl _, by omega⟩
    · obtain ⟨it', size', he, h2, hl, hb⟩ := mini1_loop_bounds a (it + size) key h
        size it (by omega) (Nat.le_refl _)
      simp only [hz, if_false, he]
      obtain ⟨r, e, l, u⟩ := finish_bounds a (it + size) key it' size' h h2 hb
      exact ⟨r, e, by omega, by omega⟩
  · simp only [Nat.succ_ne_zero, if_false, if_true, mini2]
    by_cases hz : size = 0
    · exact ⟨it, by simp [hz], Nat.le_refl _, by omega⟩
    · obtain ⟨it', size', he, h2, hl, hb⟩ := mini2_loop_bounds a (it + size) key h
        size it (by omega) (Nat.le_refl _)
      simp only [hz, if_false, he]
      obtain ⟨r, e, l, u⟩ := finish_bounds a (it + size) key it' size' h h2 hb
      exact ⟨r, e, by omega, by omega⟩

/-- Claim C27. For every array, sorted or not, and every key, each of `mini0`, `mini1` and
`mini2` returns (so it terminates and reads no element outside the array, such a read being
`none`) an index between `0` and the length `n`; the same holds on every range inside an
array; and for a range of length `0` each returns `it` with no element read, also on the
empty array. -/
theorem mini_bounds (a : List Nat) (it size key : Nat) (h : it + size ≤ a.length) :
    (∃ r, mini0 a 0 a.length key = some r ∧ r ≤ a.length) ∧
    (∃ r, mini1 a 0 a.length key = some r ∧ r ≤ a.length) ∧
    (∃ r, mini2 a 0 a.length key = some r ∧ r ≤ a.length) ∧
    (∃ r, mini0 a it size key = some r ∧ it ≤ r ∧ r ≤ it + size) ∧
    (∃ r, mini1 a it size key = some r ∧ it ≤ r ∧ r ≤ it + size) ∧
    (∃ r, mini2 a it size key = some r ∧ it ≤ r ∧ r ≤ it + size) ∧
    (∀ (b : List Nat) (p : Nat),
      mini0 b p 0 key = some p ∧ mini1 b p 0 key = some p ∧ mini2 b p 0 key = some p) := by
  have h0 := bsearch_bounds a it size key 0 (by omega) h
  have h1 := bsearch_bounds a it size key 1 (by omega) h
  have h2 := bsearch_bounds a it size key 2 (by omega) h
  have g0 := bsearch_bounds a 0 a.length key 0 (by omega) (by omega)
  have g1 := bsearch_bounds a 0 a.length key 1 (by omega) (by omega)
  have g2 := bsearch_bounds a 0 a.length key 2 (by omega) (by omega)
  simp only [bsearch, if_true, Nat.succ_ne_zero, if_false, Nat.zero_add] at h0 h1 h2 g0 g1 g2
  refine ⟨?_, ?_, ?_, h0, h1, h2, ?_⟩
  · obtain ⟨r, e, _, u⟩ := g0
    exact ⟨r, e, u⟩
  · obtain ⟨r, e, _, u⟩ := g1
    exact ⟨r, e, u⟩
  · obtain ⟨r, e, _, u⟩ := g2
    exact ⟨r, e, u⟩
  · intro b p
    refine ⟨?_, by simp [mini1], by simp [mini2]⟩
    rw [mini0, mini0_loop_unfold]
    simp [finish, advance_if_less]

/-- Instance of C27: an array that is not sorted, and the range of its two middle
elements. -/
theorem mini_bounds_witness :
    1 + 2 ≤ [9, 3, 7, 1].length ∧
    ((∃ r, mini0 [9, 3, 7, 1] 0 [9, 3, 7, 1].length 5 = some r ∧ r ≤ [9, 3, 7, 1].length) ∧
    (∃ r, mini1 [9, 3, 7, 1] 0 [9, 3, 7, 1].length 5 = some r ∧ r ≤ [9, 3, 7, 1].length) ∧
    (∃ r, mini2 [9, 3, 7, 1] 0 [9, 3, 7, 1].length 5 = some r ∧ r ≤ [9, 3, 7, 1].length) ∧
    (∃ r, mini0 [9, 3, 7, 1] 1 2 5 = some r ∧ 1 ≤ r ∧ r ≤ 1 + 2) ∧
    (∃ r, mini1 [9, 3, 7, 1] 1 2 5 = some r ∧ 1 ≤ r ∧ r ≤ 1 + 2) ∧
    (∃ r, mini2 [9, 3, 7, 1] 1 2 5 = some r ∧ 1 ≤ r ∧ r ≤ 1 + 2) ∧
    (∀ (b : List Nat) (p : Nat),
      mini0 b p 0 5 = some p ∧ mini1 b p 0 5 = some p ∧ mini2 b p 0 5 = some p)) :=
  ⟨by decide, mini_bounds [9, 3, 7, 1] 1 2 5 (by decide)⟩


/-! ## `add_free_arena` -/

/-- When `try_allocate` returns the null pointer on a non-decreasing index, the index is
empty or its last entry is below the request. -/
theorem try_allocate_null (algo : Nat) (s : best_fit_v2) (size : Nat)
    (halgo : algo ≤ 2) (hsorted : s.sizes_.Pairwise (· ≤ ·))
    (h : try_allocate algo s size = some optional_addr.nullptr) :
    ∀ x ∈ s.sizes_.getLast?, x < size := by
  intro x hx
  unfold try_allocate at h
  rw [Option.mem_def] at hx
  rw [hx] at h
  simp only at h
  by_cases hlt : x < size
  · exact hlt
  · simp only [if_neg hlt] at h
    obtain ⟨r, he, h1, h2, h3, h4⟩ := bsearch_spec s.sizes_ 0 s.sizes_.length size algo halgo
      (range_sorted_of_pairwise hsorted 0 (0 + s.sizes_.length)) (by omega)
    unfold find_free at h
    rw [he] at h
    simp only [Option.some.injEq] at h
    by_cases hr : r < 0 + s.sizes_.length
    · rw [if_pos hr] at h
      cases h
    · have hne : s.sizes_ ≠ [] := by
        intro e
        rw [e] at hx
        simp at hx
      have hpos : 0 < s.sizes_.length := List.length_pos.mpr hne
      have hl : s.sizes_.getLast? = some s.sizes_[s.sizes_.length - 1] := by
        rw [List.getLast?_eq_getElem?, List.getElem?_eq_getElem (by omega)]
      rw [hl] at hx
      have hx' := Option.some.inj hx
      have := h3 (s.sizes_.length - 1) (by omega) (Nat.zero_le _) (by omega)
      omega

/-- The order of an array with one entry appended. -/
theorem pairwise_append_singleton (l : List Nat) (v : Nat) (hl : l.Pairwise (· ≤ ·)) :
    (l ++ [v]).Pairwise (· ≤ ·) ↔ ∀ x ∈ l.getLast?, x ≤ v := by
  rw [List.pairwise_append]
  constructor
  · rintro ⟨_, _, h⟩ x hx
    exact h x (List.mem_of_getLast?_eq_some hx) v (List.mem_singleton_self v)
  · intro h
    refine ⟨hl, List.pairwise_singleton _ _, ?_⟩
    intro a ha b hb
    rw [List.mem_singleton] at hb
    subst hb
    obtain ⟨i, hi, rfl⟩ := List.mem_iff_getElem.mp ha
    have hlast : l.getLast? = some l[l.length - 1] := by
      rw [List.getLast?_eq_getElem?, List.getElem?_eq_getElem (by omega)]
    have h1 := h _ (by rw [hlast]; rfl)
    have h2 := range_sorted_of_pairwise hl 0 l.length i (l.length - 1) hi (by omega)
      (Nat.zero_le _) (by omega) (by omega)
    omega

/-- Claim C28. On an index that satisfies the free-index invariant `add_free_arena` appends
the entry of the block at the end of both arrays: the lengths stay equal, every entry keeps
the size of its block, and `sizes_` stays non-decreasing if and only if the index is empty or
its last entry is at most the size of the block; this is the case whenever `try_allocate`
returned the null pointer for a request that is at most the size of the block. -/
theorem add_free_arena_appends (algo : Nat) (blocks : block_bank) (s : best_fit_v2)
    (b : Nat) (blk : block) (halgo : algo ≤ 2) (hinv : free_index_inv blocks s)
    (hblk : blocks.at b = some blk) :
    ∃ s', add_free_arena blocks s b = some s' ∧
      s'.sizes_ = s.sizes_ ++ [blk.size_] ∧ s'.free_ordering_ = s.free_ordering_ ++ [b] ∧
      s'.sizes_.length = s'.free_ordering_.length ∧
      (∀ i (h1 : i < s'.sizes_.length) (h2 : i < s'.free_ordering_.length),
        (blocks.at s'.free_ordering_[i]).map block.size_ = some s'.sizes_[i]) ∧
      (s'.sizes_.Pairwise (· ≤ ·) ↔
        (s.sizes_ = [] ∨ ∃ last, s.sizes_.getLast? = some last ∧ last ≤ blk.size_)) ∧
      (∀ req, try_allocate algo s req = some optional_addr.nullptr → req ≤ blk.size_ →
        free_index_inv blocks s') := by
  obtain ⟨hlen, hsorted, h3⟩ := hinv
  have hiff := pairwise_append_singleton s.sizes_ blk.size_ hsorted
  have hfacts : ∀ i (h1 : i < (s.sizes_ ++ [blk.size_]).length)
      (h2 : i < (s.free_ordering_ ++ [b]).length),
      (blocks.at (s.free_ordering_ ++ [b])[i]).map block.size_
        = some (s.sizes_ ++ [blk.size_])[i] := by
    intro i h1 h2
    by_cases hi : i < s.sizes_.length
    · rw [List.getElem_append_left (by omega), List.getElem_append_left hi]
      exact h3 i hi (by omega)
    · simp only [List.length_append, List.length_singleton] at h1
      have hi' : i = s.sizes_.length := by omega
      subst hi'
      rw [List.getElem_append_right (by omega), List.getElem_append_right (by omega)]
      simp [hlen, hblk]
  refine ⟨⟨s.sizes_ ++ [blk.size_], s.free_ordering_ ++ [b]⟩, by simp [add_free_arena, hblk],
    rfl, rfl, by simp [hlen], hfacts, ?_, ?_⟩
  · rw [hiff]
    constructor
    · intro h
      cases hl : s.sizes_.getLast? with
      | none => exact Or.inl (List.getLast?_eq_none_iff.mp hl)
      | some last => exact Or.inr ⟨last, rfl, h last hl⟩
    · rintro (h | ⟨last, h1, h2⟩) x hx
      · rw [h] at hx
        simp at hx
      · rw [Option.mem_def, h1] at hx
        cases hx
        exact h2
  · intro req hnull hreq
    refine ⟨by simp [hlen], ?_, hfacts⟩
    show (s.sizes_ ++ [blk.size_]).Pairwise (· ≤ ·)
    rw [hiff]
    intro x hx
    have := try_allocate_null algo s req halgo hsorted hnull x hx
    omega

/-- Instance of C28: the index holds the sizes `200` and `674`; a request of `700` is
refused and the first block of a new arena of `1024` is appended. -/
theorem add_free_arena_appends_witness :
    (0 ≤ 2 ∧
      free_index_inv [some ⟨100, 200, 0, 0, true⟩, some ⟨350, 674, 0, 0, true⟩,
        some ⟨0, 1024, 1, 0, true⟩] ⟨[200, 674], [0, 1]⟩ ∧
      block_bank.at [some ⟨100, 200, 0, 0, true⟩, some ⟨350, 674, 0, 0, true⟩,
        some ⟨0, 1024, 1, 0, true⟩] 2 = some ⟨0, 1024, 1, 0, true⟩) ∧
    ∃ s', add_free_arena [some ⟨100, 200, 0, 0, true⟩, some ⟨350, 674, 0, 0, true⟩,
        some ⟨0, 1024, 1, 0, true⟩] ⟨[200, 674], [0, 1]⟩ 2 = some s' ∧
      s'.sizes_ = (best_fit_v2.mk [200, 674] [0, 1]).sizes_
        ++ [(block.mk 0 1024 1 0 true).size_] ∧
      s'.free_ordering_ = (best_fit_v2.mk [200, 674] [0, 1]).free_ordering_ ++ [2] ∧
      s'.sizes_.length = s'.free_ordering_.length ∧
      (∀ i (h1 : i < s'.sizes_.length) (h2 : i < s'.free_ordering_.length),
        (block_bank.at [some ⟨100, 200, 0, 0, true⟩, some ⟨350, 674, 0, 0, true⟩,
          some ⟨0, 1024, 1, 0, true⟩] s'.free_ordering_[i]).map block.size_
          = some s'.sizes_[i]) ∧
      (s'.sizes_.Pairwise (· ≤ ·) ↔
        ((best_fit_v2.mk [200, 674] [0, 1]).sizes_ = [] ∨
          ∃ last, (best_fit_v2.mk [200, 674] [0, 1]).sizes_.getLast? = some last ∧
            last ≤ (block.mk 0 1024 1 0 true).size_)) ∧
      (∀ req, try_allocate 0 ⟨[200, 674], [0, 1]⟩ req = some optional_addr.nullptr →
        req ≤ (block.mk 0 1024 1 0 true).size_ →
        free_index_inv [some ⟨100, 200, 0, 0, true⟩, some ⟨350, 674, 0, 0, true⟩,
          some ⟨0, 1024, 1, 0, true⟩] s') :=
  ⟨⟨by decide, by decide, by decide⟩,
    add_free_arena_appends 0 _ ⟨[200, 674], [0, 1]⟩ 2 ⟨0, 1024, 1, 0, true⟩ (by decide)
      (by decide) (by decide)⟩


/-! ## The lookup of a handle -/

/-- Claim C26, as amended. Under the free-index invariant, for a block `b` referenced at the
index `p`, the search for the size of `b` followed by the scan stops at the first index at
which `b` is referenced, the assertion `it != free_ordering_.size()` holds, the entry found
has the size of `b`, and the index found is `p` when no handle occurs twice. -/
theorem lookup_finds_entry (algo : Nat) (blocks : block_bank) (s : best_fit_v2) (b p : Nat)
    (halgo : algo ≤ 2) (hinv : free_index_inv blocks s)
    (hp : p < s.free_ordering_.length) (hb : s.free_ordering_[p] = b) :
    ∃ blk r k, blocks.at b = some blk ∧
      find_free_it algo s.sizes_ 0 s.sizes_.length blk.size_ = some r ∧
      find_node s.free_ordering_ b r = some k ∧
      OULY_ASSERT (k != s.free_ordering_.length) = some () ∧
      k ≤ p ∧ s.free_ordering_[k]? = some b ∧ s.sizes_[k]? = some blk.size_ ∧
      (∀ i (hi : i < s.free_ordering_.length), i < k → s.free_ordering_[i] ≠ b) ∧
      (s.free_ordering_.Nodup → k = p) := by
  obtain ⟨hlen, hsorted, h3⟩ := hinv
  have hp1 : p < s.sizes_.length := by omega
  have hbp := h3 p hp1 hp
  rw [hb] at hbp
  rcases hblk : blocks.at b with _ | blk
  · rw [hblk] at hbp; simp at hbp
  · rw [hblk] at hbp
    simp only [Option.map_some', Option.some.injEq] at hbp
    obtain ⟨r, he, hr1, hr2, hr3, hr4⟩ :=
      find_free_it_spec s.sizes_ 0 s.sizes_.length blk.size_ algo halgo
        (range_sorted_of_pairwise hsorted 0 (0 + s.sizes_.length)) (by omega)
    simp only [Nat.sub_zero, Nat.zero_add] at he hr2 hr4
    have hrp : r ≤ p := by
      rcases Nat.lt_or_ge p r with h | h
      · have := hr3 p hp1 (Nat.zero_le _) h
        omega
      · exact h
    obtain ⟨k, hk1, hk2, hk3, hk4, hk5⟩ :=
      find_node_spec s.free_ordering_ b (p - r) r p hp (by omega) hb
    have hk' : k < s.free_ordering_.length := by omega
    have hkb : s.free_ordering_[k] = b := by
      rw [List.getElem?_eq_getElem hk'] at hk3
      exact Option.some.inj hk3
    have hklt : k < s.sizes_.length := by omega
    have hsz : s.sizes_[k] = blk.size_ := by
      have := h3 k hklt hk'
      rw [hkb, hblk] at this
      simp only [Option.map_some', Option.some.injEq] at this
      exact this.symm
    refine ⟨blk, r, k, rfl, he, hk5, OULY_ASSERT_ne hk', hk2, hk3, ?_, ?_, ?_⟩
    · rw [List.getElem?_eq_getElem hklt, hsz]
    · intro i hi hik hib
      rcases Nat.lt_or_ge i r with h | h
      · have h1 := hr3 i (by omega) (Nat.zero_le _) h
        have h2 := h3 i (by omega) hi
        rw [hib, hblk] at h2
        simp only [Option.map_some', Option.some.injEq] at h2
        omega
      · exact hk4 i hi h hik hib
    · intro hnd
      exact (hnd.getElem_inj_iff).mp (hkb.trans hb.symm)

/-- Instance of C26 as amended: the blocks `0` and `1` share the size `10`; the block `1` is
referenced at the index `1`. -/
theorem lookup_finds_entry_witness :
    (0 ≤ 2 ∧
      free_index_inv [some ⟨0, 10, 0, 0, true⟩, some ⟨20, 10, 0, 0, true⟩,
        some ⟨40, 20, 0, 0, true⟩] ⟨[10, 10, 20], [0, 1, 2]⟩ ∧
      (best_fit_v2.mk [10, 10, 20] [0, 1, 2]).free_ordering_[1]? = some 1) ∧
    ∃ blk r k, block_bank.at [some ⟨0, 10, 0, 0, true⟩, some ⟨20, 10, 0, 0, true⟩,
        some ⟨40, 20, 0, 0, true⟩] 1 = some blk ∧
      find_free_it 0 (best_fit_v2.mk [10, 10, 20] [0, 1, 2]).sizes_ 0
        (best_fit_v2.mk [10, 10, 20] [0, 1, 2]).sizes_.length blk.size_ = some r ∧
      find_node (best_fit_v2.mk [10, 10, 20] [0, 1, 2]).free_ordering_ 1 r = some k ∧
      OULY_ASSERT (k != (best_fit_v2.mk [10, 10, 20] [0, 1, 2]).free_ordering_.length)
        = some () ∧
      k ≤ 1 ∧ (best_fit_v2.mk [10, 10, 20] [0, 1, 2]).free_ordering_[k]? = some 1 ∧
      (best_fit_v2.mk [10, 10, 20] [0, 1, 2]).sizes_[k]? = some blk.size_ ∧
      (∀ i (hi : i < (best_fit_v2.mk [10, 10, 20] [0, 1, 2]).free_ordering_.length), i < k →
        (best_fit_v2.mk [10, 10, 20] [0, 1, 2]).free_ordering_[i] ≠ 1) ∧
      ((best_fit_v2.mk [10, 10, 20] [0, 1, 2]).free_ordering_.Nodup → k = 1) :=
  ⟨⟨by decide, by decide, by decide⟩,
    lookup_finds_entry 0 _ ⟨[10, 10, 20], [0, 1, 2]⟩ 1 1 (by decide) (by decide) (by decide)
      rfl⟩

/-- Counterexample to C26 as stated: the index `sizes_ = [10, 10]`, `free_ordering_ = [0, 0]`
over a block `0` of size `10` is non-decreasing with `sizes_[i]` the size of the block
`free_ordering_[i]`, and the block `0` is referenced at the index `1`; the search for the size
`10` returns `0` and the scan stops there, not at the index `1`. -/
theorem lookup_duplicate_counterexample :
    free_index_inv [some ⟨0, 10, 0, 0, true⟩] ⟨[10, 10], [0, 0]⟩ ∧
    (best_fit_v2.mk [10, 10] [0, 0]).free_ordering_[1]? = some 0 ∧
    block_bank.at [some ⟨0, 10, 0, 0, true⟩] 0 = some ⟨0, 10, 0, 0, true⟩ ∧
    find_free_it 0 (best_fit_v2.mk [10, 10] [0, 0]).sizes_ 0 2 10 = some 0 ∧
    find_node (best_fit_v2.mk [10, 10] [0, 0]).free_ordering_ 0 0 = some 0 ∧
    (0 : Nat) ≠ 1 := by
  refine ⟨by decide, by decide, by decide, ?_, ?_, by decide⟩
  · simp [find_free_it, bsearch, mini0, mini0_loop_unfold, finish, advance_if_less]
  · rw [find_node_unfold]
    simp


/-! ## `commit`: the index afterwards -/

theorem not_mem_replace_move {l : List Nat} {k j v x : Nat} (hx : x ≠ v)
    (hn : x ∉ l.eraseIdx k) : x ∉ replace_move l k j v := by
  unfold replace_move
  rw [mem_insert_iff]
  rintro (h | h)
  · exact hx h
  · exact hn h

/-- The run of `commit` under the invariant and distinct handles: the index afterwards, in
which the block committed is not referenced. -/
theorem commit_index_spec (algo : Nat) (bank : bank_data) (s : best_fit_v2)
    (size k h S : Nat) (blk : block) (ar : arena)
    (halgo : algo ≤ 2) (hinv : free_index_inv bank.blocks_ s)
    (hnd : s.free_ordering_.Nodup)
    (hh : s.free_ordering_[k]? = some h) (hS : s.sizes_[k]? = some S)
    (hblk : bank.blocks_.at h = some blk) (hsz : size ≤ S) (hty : S < size_type_mod)
    (har : bank.arenas_[blk.arena_]? = some ar) (hmem : h ∈ ar.block_order_) :
    ∃ bank' s', commit algo bank s size k = some (bank', s', h) ∧
      free_index_inv bank'.blocks_ s' ∧ s'.free_ordering_.Nodup ∧
      block_bank.at bank'.blocks_ h = some { blk with is_free_ := false, size_ := size } ∧
      h ∉ s'.free_ordering_ ∧
      (S = size → s' = ⟨s.sizes_.eraseIdx k, s.free_ordering_.eraseIdx k⟩) ∧
      (size < S → ∃ j nb, j ≤ k ∧ is_lower_bound s.sizes_ 0 k (S - size) j ∧
        bank.blocks_.at nb = none ∧
        s' = ⟨replace_move s.sizes_ k j (S - size),
          replace_move s.free_ordering_ k j nb⟩) := by
  have hk : k < s.sizes_.length := (List.getElem?_eq_some_iff.mp hS).1
  have hk2 : k < s.free_ordering_.length := (List.getElem?_eq_some_iff.mp hh).1
  have hhk : s.free_ordering_[k] = h := by
    rw [List.getElem?_eq_getElem hk2] at hh
    exact Option.some.inj hh
  have hSk : s.sizes_[k] = S := by
    rw [List.getElem?_eq_getElem hk] at hS
    exact Option.some.inj hS
  obtain ⟨hlt, _⟩ := at_isSome_lt hblk
  have hnoth : h ∉ s.free_ordering_.eraseIdx k := by
    have := nodup_not_mem_eraseIdx hnd hk2
    rw [hhk] at this
    exact this
  have hlive : ∀ h' ∈ s.free_ordering_, (bank.blocks_.at h').isSome = true := by
    intro h' hh'
    obtain ⟨i, hi, rfl⟩ := List.mem_iff_getElem.mp hh'
    have := hinv.2.2 i (by have := hinv.1; omega) hi
    cases hx : bank.blocks_.at s.free_ordering_[i] with
    | none => rw [hx] at this; simp at this
    | some x => rfl
  obtain ⟨hc1, hc2⟩ := commit_spec algo bank s size k h S blk ar hh hS hblk hsz hty har hmem
  rcases Nat.eq_or_lt_of_le hsz with heq | hlt'
  · refine ⟨_, _, hc1 heq.symm, ?_, hnd.eraseIdx k, at_set_self _ hlt, hnoth,
      fun _ => rfl, fun hcontra => absurd hcontra (by omega)⟩
    have hinv' := (free_index_inv_iff bank.blocks_ s).mp hinv
    rw [free_index_inv_iff]
    refine ⟨hinv'.1.sublist (List.eraseIdx_sublist _ _), ?_⟩
    apply forall₂_congr_right (forall₂_eraseIdx k hinv'.2)
    intro a h' hh' hR
    have hne : h' ≠ h := fun e => hnoth (e ▸ hh')
    simp only [at_set_other _ hne]
    exact hR
  · obtain ⟨l1, l2, he, hn, hc⟩ := hc2 hlt'
    obtain ⟨e1, e2, e3⟩ := emplace_spec
      (bank.blocks_.set h (some { blk with is_free_ := false, size_ := size }))
      ⟨(blk.offset_ + size) % size_type_mod, S - size, blk.arena_, uint32_max, true⟩
    have hnbh : (block_bank.emplace
        (bank.blocks_.set h (some { blk with is_free_ := false, size_ := size }))
        ⟨(blk.offset_ + size) % size_type_mod, S - size, blk.arena_, uint32_max,
          true⟩).2 ≠ h := by
      intro e
      rw [e, at_set_self _ hlt] at e1
      simp at e1
    have hvac : bank.blocks_.at (block_bank.emplace
        (bank.blocks_.set h (some { blk with is_free_ := false, size_ := size }))
        ⟨(blk.offset_ + size) % size_type_mod, S - size, blk.arena_, uint32_max,
          true⟩).2 = none := by
      rw [← at_set_other (some { blk with is_free_ := false, size_ := size }) hnbh]
      exact e1
    have hnbnot : (block_bank.emplace
        (bank.blocks_.set h (some { blk with is_free_ := false, size_ := size }))
        ⟨(blk.offset_ + size) % size_type_mod, S - size, blk.arena_, uint32_max,
          true⟩).2 ∉ s.free_ordering_ := by
      intro hm
      have := hlive _ hm
      rw [hvac] at this
      simp at this
    obtain ⟨j, hj1, hlb, hre⟩ := reinsert_left_spec algo s k (S - size)
      (block_bank.emplace
        (bank.blocks_.set h (some { blk with is_free_ := false, size_ := size }))
        ⟨(blk.offset_ + size) % size_type_mod, S - size, blk.arena_, uint32_max, true⟩).2
      halgo hinv.1 hk (range_sorted_of_pairwise hinv.2.1 _ _)
    refine ⟨_, _, hc _ hre, ?_, nodup_insert (hnd.eraseIdx k)
        (fun hm => hnbnot (List.mem_of_mem_eraseIdx hm)), ?_, ?_,
      fun hcontra => absurd hcontra (by omega),
      fun _ => ⟨j, _, hj1, hlb, hvac, rfl⟩⟩
    · exact inv_replace_move hinv
        (pairwise_replace_move_left hinv.2.1 hk hj1 hlb (by rw [hSk]; omega))
        (by
          intro h' hh'
          have hne1 : h' ≠ h := fun e => hnoth (e ▸ hh')
          have hne2 : h' ≠ (block_bank.emplace
              (bank.blocks_.set h (some { blk with is_free_ := false, size_ := size }))
              ⟨(blk.offset_ + size) % size_type_mod, S - size, blk.arena_, uint32_max,
                true⟩).2 :=
            fun e => hnbnot (e ▸ List.mem_of_mem_eraseIdx hh')
          rw [e3 h' hne2]
          exact at_set_other _ hne1)
        (by rw [e2]; rfl)
    · show block_bank.at (block_bank.emplace _ _).1 h = _
      rw [e3 h (Ne.symm hnbh)]
      exact at_set_self _ hlt
    · exact not_mem_replace_move (Ne.symm hnbh) hnoth

/-! ## The totals of the free index -/

theorem size_type_mod_pos : 0 < size_type_mod := by
  unfold size_type_mod
  omega

theorem foldl_mod_sum (m : Nat) :
    ∀ (l : List Nat) (acc : Nat),
      l.foldl (fun sz fn => (sz + fn) % m) (acc % m) = (acc + l.sum) % m
  | [], acc => by simp
  | x :: l, acc => by
    rw [List.foldl_cons, foldl_mod_sum m l (acc % m + x), List.sum_cons]
    rw [Nat.add_mod (acc % m + x), Nat.add_mod (acc % m) x, Nat.mod_mod,
      ← Nat.add_mod acc x, ← Nat.add_mod, Nat.add_assoc]

theorem total_free_size_eq (blocks : block_bank) (s : best_fit_v2) :
    total_free_size blocks s = s.sizes_.sum % size_type_mod := by
  have := foldl_mod_sum size_type_mod s.sizes_ 0
  simp only [Nat.zero_mod, Nat.zero_add] at this
  exact this

theorem sum_eraseIdx_add :
    ∀ (l : List Nat) (k : Nat) (hk : k < l.length), (l.eraseIdx k).sum + l[k] = l.sum
  | [], _, hk => absurd hk (by simp)
  | x :: l, 0, _ => by simp [Nat.add_comm]
  | x :: l, k + 1, hk => by
    have ih := sum_eraseIdx_add l k (by simpa using hk)
    simp only [List.eraseIdx_cons_succ, List.sum_cons, List.getElem_cons_succ]
    omega

theorem sum_insert (l : List Nat) (j v : Nat) :
    (l.take j ++ v :: l.drop j).sum = l.sum + v := by
  have h := List.sum_take_add_sum_drop l j
  simp only [List.sum_append, List.sum_cons]
  omega

theorem sum_of_entry {l l0 : List Nat} {j v : Nat} (hj : l[j]? = some v)
    (he : l.eraseIdx j = l0) : l.sum = l0.sum + v := by
  have hlt : j < l.length := (List.getElem?_eq_some_iff.mp hj).1
  have h := sum_eraseIdx_add l j hlt
  rw [List.getElem?_eq_getElem hlt] at hj
  rw [Option.some.inj hj, he] at h
  exact h.symm

theorem sizes_sum_of_forall₂ (blocks : block_bank) (sizes order : List Nat)
    (h : List.Forall₂ (fun sz h => (blocks.at h).map block.size_ = some sz) sizes order) :
    sizes_sum blocks order = sizes.sum := by
  induction h with
  | nil => rfl
  | cons hR _ ih =>
    unfold sizes_sum at ih ⊢
    simp only [List.map_cons, List.sum_cons, ih, hR, Option.getD_some]

theorem mod_sub_add (t size : Nat) (ht : t < size_type_mod) (hs : size < size_type_mod) :
    ((t + size_type_mod - size) % size_type_mod + size) % size_type_mod = t := by
  have hM : size_type_mod = 4294967296 := by norm_num [size_type_mod]
  rw [hM] at ht hs ⊢
  omega

/-- Claim C22. In a state of the strategy that satisfies the free-index invariant with
distinct handles: `total_free_nodes` is the number of entries (below `2 ^ 32`) and
`total_free_size` is the sum of the sizes of the referenced blocks in `size_type`
arithmetic; `commit` of a request `size` on an entry of size `S ≥ size` returns with
`total_free_size` lowered by `size`, `add_free` of a block that is not referenced returns
with `total_free_size` raised by the size of the block, and `add_free` of the block just
committed restores `total_free_size`. -/
theorem free_size_accounting (algo : Nat) (bank : bank_data) (s : best_fit_v2)
    (size k h S : Nat) (blk : block) (ar : arena)
    (halgo : algo ≤ 2) (hinv : free_index_inv bank.blocks_ s)
    (hnd : s.free_ordering_.Nodup)
    (hh : s.free_ordering_[k]? = some h) (hS : s.sizes_[k]? = some S)
    (hblk : bank.blocks_.at h = some blk) (hsz : size ≤ S) (hty : S < size_type_mod)
    (har : bank.arenas_[blk.arena_]? = some ar) (hmem : h ∈ ar.block_order_) :
    (s.free_ordering_.length < uint32_max + 1 →
      total_free_nodes bank.blocks_ s = s.free_ordering_.length ∧
      total_free_nodes bank.blocks_ s = s.sizes_.length) ∧
    total_free_size bank.blocks_ s
      = sizes_sum bank.blocks_ s.free_ordering_ % size_type_mod ∧
    (∃ bank' s', commit algo bank s size k = some (bank', s', h) ∧
      total_free_size bank'.blocks_ s'
        = (total_free_size bank.blocks_ s + size_type_mod - size) % size_type_mod ∧
      ∃ blocks2 s2, add_free algo bank'.blocks_ s' h = some (blocks2, s2) ∧
        total_free_size blocks2 s2 = total_free_size bank.blocks_ s) ∧
    (∀ b blkb, bank.blocks_.at b = some blkb → b ∉ s.free_ordering_ →
      ∃ blocks' s', add_free algo bank.blocks_ s b = some (blocks', s') ∧
        total_free_size blocks' s'
          = (total_free_size bank.blocks_ s + blkb.size_) % size_type_mod) := by
  have hM : size_type_mod = 4294967296 := by norm_num [size_type_mod]
  have hk : k < s.sizes_.length := (List.getElem?_eq_some_iff.mp hS).1
  have hSk : s.sizes_[k] = S := by
    rw [List.getElem?_eq_getElem hk] at hS
    exact Option.some.inj hS
  have hsum := sum_eraseIdx_add s.sizes_ k hk
  rw [hSk] at hsum
  have hadd : ∀ (blocks : block_bank) (t : best_fit_v2) (b : Nat) (blkb : block),
      free_index_inv blocks t → blocks.at b = some blkb → b ∉ t.free_ordering_ →
      ∃ blocks' s', add_free algo blocks t b = some (blocks', s') ∧
        total_free_size blocks' s'
          = (total_free_size blocks t + blkb.size_) % size_type_mod := by
    intro blocks t b blkb hi hb hn
    obtain ⟨blocks', s', j, he, _, _, g1, _, g2, _, _, _, _, _, _⟩ :=
      add_free_spec algo blocks t b blkb halgo hi hb hn
    refine ⟨blocks', s', he, ?_⟩
    rw [total_free_size_eq, total_free_size_eq, sum_of_entry g1 g2, Nat.mod_add_mod]
  refine ⟨?_, ?_, ?_, fun b blkb hb hn => hadd bank.blocks_ s b blkb hinv hb hn⟩
  · intro hl
    unfold total_free_nodes
    rw [Nat.mod_eq_of_lt hl]
    exact ⟨rfl, hinv.1.symm⟩
  · rw [total_free_size_eq,
      sizes_sum_of_forall₂ _ _ _ ((free_index_inv_iff bank.blocks_ s).mp hinv).2]
  · obtain ⟨bank', s', hc, hinv', _, hbh, hnot, hcase1, hcase2⟩ :=
      commit_index_spec algo bank s size k h S blk ar halgo hinv hnd hh hS hblk hsz hty har
        hmem
    have htot : total_free_size bank'.blocks_ s'
        = (total_free_size bank.blocks_ s + size_type_mod - size) % size_type_mod := by
      rw [total_free_size_eq, total_free_size_eq]
      have hs' : s'.sizes_.sum + size = s.sizes_.sum := by
        rcases Nat.eq_or_lt_of_le hsz with heq | hlt
        · rw [hcase1 heq.symm]
          show (s.sizes_.eraseIdx k).sum + size = _
          omega
        · obtain ⟨j, nb, hj, _, _, hs'⟩ := hcase2 hlt
          rw [hs']
          show (replace_move s.sizes_ k j (S - size)).sum + size = _
          unfold replace_move
          rw [sum_insert]
          omega
      rw [hM] at hty ⊢
      omega
    refine ⟨bank', s', hc, htot, ?_⟩
    obtain ⟨blocks2, s2, he, ht⟩ := hadd bank'.blocks_ s' h _ hinv' hbh hnot
    refine ⟨blocks2, s2, he, ?_⟩
    rw [ht, htot]
    show ((total_free_size bank.blocks_ s + size_type_mod - size) % size_type_mod + size)
      % size_type_mod = _
    exact mod_sub_add _ _ (by rw [total_free_size_eq]; exact Nat.mod_lt _ size_type_mod_pos)
      (by omega)

/-- Instance of C22, the scenario of the spec: the entry of the block `1` (size `200`) is
committed for a request of `150` and the block is returned. -/
theorem free_size_accounting_witness :
    (0 ≤ 2 ∧
      free_index_inv (bank_data.mk [some ⟨0, 100, 0, 0, false⟩, some ⟨100, 200, 0, 0, true⟩,
        some ⟨300, 50, 0, 0, false⟩, some ⟨350, 674, 0, 0, true⟩]
        [⟨1024, [0, 1, 2, 3]⟩]).blocks_ ⟨[200, 674], [1, 3]⟩ ∧
      (best_fit_v2.mk [200, 674] [1, 3]).free_ordering_.Nodup ∧
      (best_fit_v2.mk [200, 674] [1, 3]).free_ordering_[0]? = some 1 ∧
      (best_fit_v2.mk [200, 674] [1, 3]).sizes_[0]? = some 200 ∧
      block_bank.at (bank_data.mk [some ⟨0, 100, 0, 0, false⟩, some ⟨100, 200, 0, 0, true⟩,
        some ⟨300, 50, 0, 0, false⟩, some ⟨350, 674, 0, 0, true⟩]
        [⟨1024, [0, 1, 2, 3]⟩]).blocks_ 1 = some ⟨100, 200, 0, 0, true⟩ ∧
      150 ≤ 200 ∧ 200 < size_type_mod ∧
      total_free_size [some ⟨0, 100, 0, 0, false⟩, some ⟨100, 200, 0, 0, true⟩,
        some ⟨300, 50, 0, 0, false⟩, some ⟨350, 674, 0, 0, true⟩] ⟨[200, 674], [1, 3]⟩
        = 874) ∧
    ∃ bank' s', commit 0 (bank_data.mk [some ⟨0, 100, 0, 0, false⟩,
        some ⟨100, 200, 0, 0, true⟩, some ⟨300, 50, 0, 0, false⟩, some ⟨350, 674, 0, 0, true⟩]
        [⟨1024, [0, 1, 2, 3]⟩]) ⟨[200, 674], [1, 3]⟩ 150 0 = some (bank', s', 1) ∧
      total_free_size bank'.blocks_ s'
        = (total_free_size (bank_data.mk [some ⟨0, 100, 0, 0, false⟩,
            some ⟨100, 200, 0, 0, true⟩, some ⟨300, 50, 0, 0, false⟩,
            some ⟨350, 674, 0, 0, true⟩] [⟨1024, [0, 1, 2, 3]⟩]).blocks_
            ⟨[200, 674], [1, 3]⟩ + size_type_mod - 150) % size_type_mod ∧
      ∃ blocks2 s2, add_free 0 bank'.blocks_ s' 1 = some (blocks2, s2) ∧
        total_free_size blocks2 s2
          = total_free_size (bank_data.mk [some ⟨0, 100, 0, 0, false⟩,
            some ⟨100, 200, 0, 0, true⟩, some ⟨300, 50, 0, 0, false⟩,
            some ⟨350, 674, 0, 0, true⟩] [⟨1024, [0, 1, 2, 3]⟩]).blocks_
            ⟨[200, 674], [1, 3]⟩ :=
  ⟨⟨by decide, by decide, by decide, by decide, by decide, by decide, by decide, by decide,
      by decide⟩,
    (free_size_accounting 0 (bank_data.mk [some ⟨0, 100, 0, 0, false⟩,
        some ⟨100, 200, 0, 0, true⟩, some ⟨300, 50, 0, 0, false⟩, some ⟨350, 674, 0, 0, true⟩]
        [⟨1024, [0, 1, 2, 3]⟩]) ⟨[200, 674], [1, 3]⟩ 150 0 1 200 ⟨100, 200, 0, 0, true⟩
      ⟨1024, [0, 1, 2, 3]⟩ (by decide) (by decide) (by decide) (by decide) (by decide)
      (by decide) (by decide) (by decide) (by decide) (by decide)).2.2.1⟩


/-! ## Ties among equal sizes -/

theorem getElem?_replace_move_lt {α : Type} (l : List α) (k j i : Nat) (v : α)
    (hij : i < j) (hj : j < l.length) :
    (replace_move l k j v)[i]? = if i < k then l[i]? else l[i + 1]? := by
  unfold replace_move
  have hlen : l.length - 1 ≤ (l.eraseIdx k).length := by
    rw [List.length_eraseIdx]
    split <;> omega
  rw [List.getElem?_append_left (by rw [List.length_take]; omega),
    List.getElem?_take_of_lt hij, List.getElem?_eraseIdx]

theorem getElem_of_getElem? {l : List Nat} {i x : Nat} (h : l[i]? = some x) :
    ∃ hi : i < l.length, l[i] = x := by
  obtain ⟨hi, he⟩ := List.getElem?_eq_some_iff.mp h
  exact ⟨hi, he⟩

/-- An entry of a non-decreasing index with only smaller entries before it is the entry that
`try_allocate` returns for its size. -/
theorem leftmost_of_lower (algo : Nat) (s : best_fit_v2) (j z node : Nat)
    (halgo : algo ≤ 2) (hsorted : s.sizes_.Pairwise (· ≤ ·))
    (hj : s.sizes_[j]? = some z) (hnode : s.free_ordering_[j]? = some node)
    (hlow : ∀ i x, i < j → s.sizes_[i]? = some x → x < z) :
    leftmost_entry algo s j z node := by
  obtain ⟨hjl, hjz⟩ := getElem_of_getElem? hj
  have hs := range_sorted_of_pairwise hsorted 0 s.sizes_.length
  refine ⟨hj, hnode, ?_, ?_⟩
  · intro i hi
    by_contra hlt
    have := hlow i z (by omega) hi
    omega
  · unfold try_allocate
    have hl : s.sizes_.getLast? = some s.sizes_[s.sizes_.length - 1] := by
      rw [List.getLast?_eq_getElem?, List.getElem?_eq_getElem (by omega)]
    have hback := hs j (s.sizes_.length - 1) hjl (by omega) (Nat.zero_le _) (by omega)
      (by omega)
    rw [hl]
    simp only [if_neg (by omega : ¬ s.sizes_[s.sizes_.length - 1] < z)]
    obtain ⟨r, he, hr⟩ := bsearch_spec s.sizes_ 0 s.sizes_.length z algo halgo
      (range_sorted_of_pairwise hsorted 0 (0 + s.sizes_.length)) (by omega)
    have hlb : is_lower_bound s.sizes_ 0 (0 + s.sizes_.length) z j :=
      ⟨Nat.zero_le _, by omega,
        fun i hi _ hij => hlow i _ hij (List.getElem?_eq_getElem hi),
        fun i hi hji _ => by
          have := hs j i hjl hi (Nat.zero_le _) hji hi
          omega⟩
    have hrj : r = j := is_lower_bound_unique (by omega) hr hlb
    subst hrj
    unfold find_free
    rw [he]
    simp [hjl]

/-- The entry that `reinsert_right` moves, with a size above its old size, is returned by
`try_allocate` of its size. -/
theorem reinsert_right_leftmost (algo : Nat) (s : best_fit_v2) (k v node : Nat)
    (halgo : algo ≤ 2) (hlen : s.sizes_.length = s.free_ordering_.length)
    (hsorted : s.sizes_.Pairwise (· ≤ ·)) (hk : k < s.sizes_.length)
    (hv : s.sizes_[k] < v) :
    ∃ s' j, reinsert_right algo s k v node = some s' ∧ leftmost_entry algo s' j v node := by
  have hs := range_sorted_of_pairwise hsorted 0 s.sizes_.length
  obtain ⟨j, hj1, hj2, hlb, he⟩ := reinsert_right_spec algo s k v node halgo hlen hk
    (range_sorted_of_pairwise hsorted _ _)
  refine ⟨_, j, he, leftmost_of_lower algo _ j v node halgo
    (pairwise_replace_move_right hsorted hk hj1 hlb (Nat.le_of_lt hv))
    (getElem?_replace_move _ _ _ _ hk hj2)
    (getElem?_replace_move _ _ _ _ (by omega) (by omega)) ?_⟩
  intro i x hij hx
  have hg : (replace_move s.sizes_ k j v)[i]? = some x := hx
  rw [getElem?_replace_move_lt s.sizes_ k j i v hij hj2] at hg
  by_cases hik : i < k
  · rw [if_pos hik] at hg
    obtain ⟨hi, hix⟩ := getElem_of_getElem? hg
    have := hs i k hi hk (Nat.zero_le _) (by omega) hk
    omega
  · rw [if_neg hik] at hg
    obtain ⟨hi, hix⟩ := getElem_of_getElem? hg
    have := hlb.2.2.1 (i + 1) hi (by omega) (by omega)
    omega

/-- The entry that `add_free` inserts is returned by `try_allocate` of its size. -/
theorem add_free_leftmost (algo : Nat) (blocks : block_bank) (s : best_fit_v2)
    (b : Nat) (blk : block)
    (halgo : algo ≤ 2) (hinv : free_index_inv blocks s) (hblk : blocks.at b = some blk) :
    ∃ blocks' s' j, add_free algo blocks s b = some (blocks', s') ∧
      leftmost_entry algo s' j blk.size_ b := by
  obtain ⟨hlen, hsorted, _⟩ := hinv
  obtain ⟨r, he, hr⟩ :=
    find_free_it_spec s.sizes_ 0 s.sizes_.length blk.size_ algo halgo
      (range_sorted_of_pairwise hsorted 0 (0 + s.sizes_.length)) (by omega)
  simp only [Nat.sub_zero, Nat.zero_add] at he hr
  have hr2 : r ≤ s.sizes_.length := hr.2.1
  have hr2' : r ≤ s.free_ordering_.length := by omega
  refine ⟨blocks.set b (some { blk with is_free_ := true }),
    ⟨s.sizes_.take r ++ blk.size_ :: s.sizes_.drop r,
      s.free_ordering_.take r ++ b :: s.free_ordering_.drop r⟩, r, ?_,
    leftmost_of_lower algo _ r blk.size_ b halgo (pairwise_insert_at hsorted hr)
      (getElem?_insert _ _ _ hr2) (getElem?_insert _ _ _ hr2') ?_⟩
  · simp [add_free, add_free_after_begin, hblk, put_eq_some _ hblk, he,
      emplace_at_eq_some _ _ _ hr2, emplace_at_eq_some _ _ _ hr2']
  · intro i x hir hx
    have hg : (s.sizes_.take r ++ blk.size_ :: s.sizes_.drop r)[i]? = some x := hx
    rw [List.getElem?_append_left (by rw [List.length_take]; omega),
      List.getElem?_take_of_lt hir] at hg
    obtain ⟨hi, hix⟩ := getElem_of_getElem? hg
    have := hr.2.2.1 i hi (Nat.zero_le _) hir
    omega

/-- The remainder entry that `commit` inserts is returned by `try_allocate` of its size. -/
theorem commit_leftmost (algo : Nat) (bank : bank_data) (s : best_fit_v2)
    (size k h S : Nat) (blk : block) (ar : arena)
    (halgo : algo ≤ 2) (hinv : free_index_inv bank.blocks_ s)
    (hnd : s.free_ordering_.Nodup)
    (hh : s.free_ordering_[k]? = some h) (hS : s.sizes_[k]? = some S)
    (hblk : bank.blocks_.at h = some blk) (hsz : size < S) (hty : S < size_type_mod)
    (har : bank.arenas_[blk.arena_]? = some ar) (hmem : h ∈ ar.block_order_) :
    ∃ bank' s' j nb, commit algo bank s size k = some (bank', s', h) ∧
      bank.blocks_.at nb = none ∧
      (block_bank.at bank'.blocks_ nb).map block.size_ = some (S - size) ∧
      leftmost_entry algo s' j (S - size) nb := by
  obtain ⟨bank', s', hc, hinv', _, _, _, _, hcase⟩ :=
    commit_index_spec algo bank s size k h S blk ar halgo hinv hnd hh hS hblk
      (Nat.le_of_lt hsz) hty har hmem
  obtain ⟨j, nb, hjk, hlb, hnone, hs'⟩ := hcase hsz
  have hk : k < s.sizes_.length := (List.getElem?_eq_some_iff.mp hS).1
  have hk2 : k < s.free_ordering_.length := (List.getElem?_eq_some_iff.mp hh).1
  subst hs'
  have hsz_j : (replace_move s.sizes_ k j (S - size))[j]? = some (S - size) :=
    getElem?_replace_move _ _ _ _ hk (by omega)
  have hfo_j : (replace_move s.free_ordering_ k j nb)[j]? = some nb :=
    getElem?_replace_move _ _ _ _ hk2 (by omega)
  refine ⟨bank', _, j, nb, hc, hnone, ?_,
    leftmost_of_lower algo _ j (S - size) nb halgo hinv'.2.1 hsz_j hfo_j ?_⟩
  · obtain ⟨h1, e1⟩ := getElem_of_getElem? hsz_j
    obtain ⟨h2, e2⟩ := List.getElem?_eq_some_iff.mp hfo_j
    have := hinv'.2.2 j h1 h2
    rw [e1, e2] at this
    exact this
  · intro i x hij hx
    have hg : (replace_move s.sizes_ k j (S - size))[i]? = some x := hx
    rw [getElem?_replace_move_lt s.sizes_ k j i (S - size) hij (by omega),
      if_pos (by omega : i < k)] at hg
    obtain ⟨hi, hix⟩ := getElem_of_getElem? hg
    have := hlb.2.2.1 i hi (Nat.zero_le _) hij
    omega

/-- Claim C29, as amended. In a state that satisfies the free-index invariant with distinct
handles: the entry that `add_free(b)` inserts, the remainder entry that `commit` inserts, and
the entry that `grow_free_node` or `replace_and_grow` re-inserts with a size strictly above
the old size of the block, precedes every other entry of its size `z` in the free index, and
`try_allocate(z)` issued right afterwards returns that entry. -/
theorem leftmost_insert (algo : Nat) (bank : bank_data) (s : best_fit_v2)
    (halgo : algo ≤ 2) (hinv : free_index_inv bank.blocks_ s)
    (hnd : s.free_ordering_.Nodup) :
    (∀ (b : Nat) (blk : block), bank.blocks_.at b = some blk →
      ∃ blocks' s' j, add_free algo bank.blocks_ s b = some (blocks', s') ∧
        leftmost_entry algo s' j blk.size_ b) ∧
    (∀ (size k h S : Nat) (blk : block) (ar : arena),
      s.free_ordering_[k]? = some h → s.sizes_[k]? = some S →
      bank.blocks_.at h = some blk → size < S → S < size_type_mod →
      bank.arenas_[blk.arena_]? = some ar → h ∈ ar.block_order_ →
      ∃ bank' s' j nb, commit algo bank s size k = some (bank', s', h) ∧
        bank.blocks_.at nb = none ∧
        (block_bank.at bank'.blocks_ nb).map block.size_ = some (S - size) ∧
        leftmost_entry algo s' j (S - size) nb) ∧
    (∀ (k b newsize : Nat) (blk : block), s.free_ordering_[k]? = some b →
      bank.blocks_.at b = some blk → blk.size_ < newsize →
      ∃ blocks' s' j, grow_free_node algo bank.blocks_ s b newsize = some (blocks', s') ∧
        leftmost_entry algo s' j newsize b) ∧
    (∀ (k b nb new_size : Nat) (blk nblk : block), s.free_ordering_[k]? = some b →
      bank.blocks_.at b = some blk → bank.blocks_.at nb = some nblk →
      blk.size_ < new_size →
      ∃ blocks' s' j,
        replace_and_grow algo bank.blocks_ s b nb new_size = some (blocks', s') ∧
        leftmost_entry algo s' j new_size nb) := by
  have hloc : ∀ (k b : Nat) (blk : block), s.free_ordering_[k]? = some b →
      bank.blocks_.at b = some blk →
      ∃ r k', find_free_it algo s.sizes_ 0 s.sizes_.length blk.size_ = some r ∧
        find_node s.free_ordering_ b r = some k' ∧
        ∃ hk : k' < s.sizes_.length, k' < s.free_ordering_.length ∧
          s.sizes_[k'] = blk.size_ := by
    intro k b blk hb hblk
    obtain ⟨hk, hbk⟩ := List.getElem?_eq_some_iff.mp hb
    obtain ⟨blk', r, k', hblk', hfind, hnode, _, hk1, hk2, _, hks, _⟩ :=
      locate_spec algo bank.blocks_ s b k halgo hinv hk hbk
    rw [hblk] at hblk'
    have hbb : blk = blk' := Option.some.inj hblk'
    subst hbb
    exact ⟨r, k', hfind, hnode, hk1, hk2, hks⟩
  refine ⟨fun b blk hblk => add_free_leftmost algo bank.blocks_ s b blk halgo hinv hblk,
    fun size k h S blk ar hh hS hblk hsz hty har hmem =>
      commit_leftmost algo bank s size k h S blk ar halgo hinv hnd hh hS hblk hsz hty har
        hmem, ?_, ?_⟩
  · intro k b newsize blk hb hblk hsize
    obtain ⟨r, k', hfind, hnode, hk1, hk2, hks⟩ := hloc k b blk hb hblk
    obtain ⟨s', j, he, hl⟩ := reinsert_right_leftmost algo s k' newsize b halgo hinv.1
      hinv.2.1 hk1 (by rw [hks]; exact hsize)
    refine ⟨bank.blocks_.set b (some { blk with size_ := newsize }), s', j, ?_, hl⟩
    simp [grow_free_node, hblk, hfind, hnode, OULY_ASSERT_ne hk2, put_eq_some _ hblk, he]
  · intro k b nb new_size blk nblk hb hblk hnblk hsize
    obtain ⟨r, k', hfind, hnode, hk1, hk2, hks⟩ := hloc k b blk hb hblk
    obtain ⟨s', j, he, hl⟩ := reinsert_right_leftmost algo s k' new_size nb halgo hinv.1
      hinv.2.1 hk1 (by rw [hks]; exact hsize)
    refine ⟨bank.blocks_.set nb (some { nblk with size_ := new_size }), s', j, ?_, hl⟩
    simp [replace_and_grow, hblk, hnblk, hfind, hnode, OULY_ASSERT_ne hk2,
      put_eq_some _ hnblk, he]

/-- Instance of C29: in the index `[200, 674]` the block `1` (size `200`) grows to `250`, and
the used block `2` (size `50`) is returned by `add_free`. -/
theorem leftmost_insert_witness :
    (0 ≤ 2 ∧
      free_index_inv (bank_data.mk [some ⟨0, 100, 0, 0, false⟩, some ⟨100, 200, 0, 0, true⟩,
        some ⟨300, 50, 0, 0, false⟩, some ⟨350, 674, 0, 0, true⟩]
        [⟨1024, [0, 1, 2, 3]⟩]).blocks_ ⟨[200, 674], [1, 3]⟩ ∧
      (best_fit_v2.mk [200, 674] [1, 3]).free_ordering_.Nodup ∧
      (best_fit_v2.mk [200, 674] [1, 3]).free_ordering_[0]? = some 1 ∧
      block_bank.at (bank_data.mk [some ⟨0, 100, 0, 0, false⟩, some ⟨100, 200, 0, 0, true⟩,
        some ⟨300, 50, 0, 0, false⟩, some ⟨350, 674, 0, 0, true⟩]
        [⟨1024, [0, 1, 2, 3]⟩]).blocks_ 1 = some ⟨100, 200, 0, 0, true⟩ ∧
      (block.mk 100 200 0 0 true).size_ < 250 ∧
      block_bank.at (bank_data.mk [some ⟨0, 100, 0, 0, false⟩, some ⟨100, 200, 0, 0, true⟩,
        some ⟨300, 50, 0, 0, false⟩, some ⟨350, 674, 0, 0, true⟩]
        [⟨1024, [0, 1, 2, 3]⟩]).blocks_ 2 = some ⟨300, 50, 0, 0, false⟩) ∧
    (∃ blocks' s' j, grow_free_node 0 (bank_data.mk [some ⟨0, 100, 0, 0, false⟩,
        some ⟨100, 200, 0, 0, true⟩, some ⟨300, 50, 0, 0, false⟩, some ⟨350, 674, 0, 0, true⟩]
        [⟨1024, [0, 1, 2, 3]⟩]).blocks_ ⟨[200, 674], [1, 3]⟩ 1 250 = some (blocks', s') ∧
      leftmost_entry 0 s' j 250 1) ∧
    ∃ blocks' s' j, add_free 0 (bank_data.mk [some ⟨0, 100, 0, 0, false⟩,
        some ⟨100, 200, 0, 0, true⟩, some ⟨300, 50, 0, 0, false⟩, some ⟨350, 674, 0, 0, true⟩]
        [⟨1024, [0, 1, 2, 3]⟩]).blocks_ ⟨[200, 674], [1, 3]⟩ 2 = some (blocks', s') ∧
      leftmost_entry 0 s' j (block.mk 300 50 0 0 false).size_ 2 :=
  ⟨⟨by decide, by decide, by decide, by decide, by decide, by decide, by decide⟩,
    (leftmost_insert 0 (bank_data.mk [some ⟨0, 100, 0, 0, false⟩,
        some ⟨100, 200, 0, 0, true⟩, some ⟨300, 50, 0, 0, false⟩, some ⟨350, 674, 0, 0, true⟩]
        [⟨1024, [0, 1, 2, 3]⟩]) ⟨[200, 674], [1, 3]⟩ (by decide) (by decide)
      (by decide)).2.2.1 0 1 250 ⟨100, 200, 0, 0, true⟩ (by decide) (by decide) (by decide),
    (leftmost_insert 0 (bank_data.mk [some ⟨0, 100, 0, 0, false⟩,
        some ⟨100, 200, 0, 0, true⟩, some ⟨300, 50, 0, 0, false⟩, some ⟨350, 674, 0, 0, true⟩]
        [⟨1024, [0, 1, 2, 3]⟩]) ⟨[200, 674], [1, 3]⟩ (by decide) (by decide)
      (by decide)).1 2 ⟨300, 50, 0, 0, false⟩ (by decide)⟩

/-- Counterexample to C29 as stated: the free blocks `0` and `2` both have the size `10`, the
index is `[10, 10]` with the handles `[0, 2]`, and `grow_free_node(2, 10)` re-inserts the
entry of the block `2` with the size `10`. The call returns with the index unchanged: the
entry of the block `2` stays at the index `1`, behind the entry of the block `0` of the same
size, and `try_allocate(10)` returns the index `0`, the entry of the block `0`. -/
theorem grow_same_size_counterexample :
    free_index_inv [some ⟨0, 10, 0, 0, true⟩, some ⟨10, 40, 0, 0, false⟩,
      some ⟨50, 10, 0, 0, true⟩] ⟨[10, 10], [0, 2]⟩ ∧
    (best_fit_v2.mk [10, 10] [0, 2]).free_ordering_.Nodup ∧
    grow_free_node 0 [some ⟨0, 10, 0, 0, true⟩, some ⟨10, 40, 0, 0, false⟩,
      some ⟨50, 10, 0, 0, true⟩] ⟨[10, 10], [0, 2]⟩ 2 10
      = some ([some ⟨0, 10, 0, 0, true⟩, some ⟨10, 40, 0, 0, false⟩,
          some ⟨50, 10, 0, 0, true⟩], ⟨[10, 10], [0, 2]⟩) ∧
    try_allocate 0 ⟨[10, 10], [0, 2]⟩ 10 = some (optional_addr.addr 0) ∧
    (best_fit_v2.mk [10, 10] [0, 2]).free_ordering_[0]? = some 0 ∧
    (best_fit_v2.mk [10, 10] [0, 2]).sizes_[0]? = some 10 ∧
    ¬ ∃ j, leftmost_entry 0 ⟨[10, 10], [0, 2]⟩ j 10 2 := by
  refine ⟨by decide, by decide, ?_, ?_, by decide, by decide, ?_⟩
  · have h1 : find_free_it 0 [10, 10] 0 2 10 = some 0 := by
      simp [find_free_it, bsearch, mini0, mini0_loop_unfold, finish, advance_if_less]
    have h2 : find_node [0, 2] 2 0 = some 1 := by
      rw [find_node_unfold]
      simp
      rw [find_node_unfold]
      simp
    have h3 : reinsert_right 0 ⟨[10, 10], [0, 2]⟩ 1 10 2 = some ⟨[10, 10], [0, 2]⟩ := by
      simp [reinsert_right, store]
    simp [grow_free_node, block_bank.at, block_bank.put, h1, h2, h3, OULY_ASSERT]
  · simp [try_allocate, find_free, bsearch, mini0, mini0_loop_unfold, finish, advance_if_less]
  · rintro ⟨j, _, h2, h3, _⟩
    have hj : j ≤ 0 := h3 0 (by decide)
    have hj0 : j = 0 := by omega
    subst hj0
    exact absurd h2 (by decide)

end strat

/-! # Theorems on the other components -/

/-! ## `optional_val` -/

namespace detail

/-! ## Work groups -/

theorem create_groups_spec {ρ : Type} (empty_ring : ρ) :
    ∀ (ds : List (Nat × Nat)) (start : Nat),
      start + (ds.map Prod.fst).sum < uint32_mod →
      (workgroup.create_groups empty_ring start ds).2 = start + (ds.map Prod.fst).sum ∧
      (workgroup.create_groups empty_ring start ds).1.length = ds.length ∧
      (∀ i g c p, (workgroup.create_groups empty_ring start ds).1[i]? = some g →
        ds[i]? = some (c, p) →
        g.start_thread_idx_ = start + ((ds.take i).map Prod.fst).sum ∧
        g.end_thread_idx_ = g.start_thread_idx_ + c ∧
        g.thread_count_ = c ∧ g.priority_ = p) ∧
      (∀ g ∈ (workgroup.create_groups empty_ring start ds).1,
        start ≤ g.start_thread_idx_ ∧
        g.end_thread_idx_ ≤ start + (ds.map Prod.fst).sum) ∧
      (workgroup.create_groups empty_ring start ds).1.Chain'
        (fun a b => a.end_thread_idx_ = b.start_thread_idx_) ∧
      (workgroup.create_groups empty_ring start ds).1.Pairwise
        (fun a b => a.end_thread_idx_ ≤ b.start_thread_idx_) ∧
      (∀ w, (start ≤ w ∧ w < start + (ds.map Prod.fst).sum) ↔
        ∃ g ∈ (workgroup.create_groups empty_ring start ds).1,
          g.start_thread_idx_ ≤ w ∧ w < g.end_thread_idx_) := by
  intro ds
  induction ds with
  | nil =>
    intro start _
    refine ⟨by simp [workgroup.create_groups], by simp [workgroup.create_groups], ?_, ?_,
      by simp [workgroup.create_groups], by simp [workgroup.create_groups], ?_⟩
    · intro i g c p hg
      simp [workgroup.create_groups] at hg
    · intro g hg
      simp [workgroup.create_groups] at hg
    · intro w
      simp [workgroup.create_groups]
  | cons d rest ih =>
    intro start hlt
    obtain ⟨c, p⟩ := d
    simp only [List.map_cons, List.sum_cons] at hlt ⊢
    have hmod : (start + c) % uint32_mod = start + c := Nat.mod_eq_of_lt (by omega)
    obtain ⟨h1, h2, h3, h4, h5, h6, h7⟩ := ih (start + c) (by omega)
    simp only [workgroup.create_groups, workgroup.create_group, hmod]
    refine ⟨by rw [h1]; omega, by simp [h2], ?_, ?_, ?_, ?_, ?_⟩
    · intro i g c' p' hg hd
      cases i with
      | zero =>
        simp only [List.getElem?_cons_zero, Option.some.injEq] at hg hd
        subst hg
        simp only [Prod.mk.injEq] at hd
        obtain ⟨rfl, rfl⟩ := hd
        simp
      | succ i =>
        simp only [List.getElem?_cons_succ] at hg hd
        obtain ⟨g1, g2, g3, g4⟩ := h3 i g c' p' hg hd
        refine ⟨?_, g2, g3, g4⟩
        rw [g1]
        simp only [List.take_succ_cons, List.map_cons, List.sum_cons]
        omega
    · intro g hg
      rcases List.mem_cons.mp hg with rfl | hg
      · simp only
        omega
      · have := h4 g hg
        omega
    · apply List.Chain'.cons'
      · exact h5
      · intro y hy
        simp only
        cases hl : (workgroup.create_groups empty_ring (start + c) rest).1 with
        | nil => rw [hl] at hy; simp at hy
        | cons z zs =>
          rw [hl] at hy
          simp only [List.head?_cons, Option.mem_def, Option.some.injEq] at hy
          subst hy
          cases hr : rest with
          | nil => rw [hr] at hl; simp [workgroup.create_groups] at hl
          | cons d2 rest2 =>
            obtain ⟨c2, p2⟩ := d2
            have hz : (workgroup.create_groups empty_ring (start + c) rest).1[0]? = some z := by
              rw [hl]; simp
            have := h3 0 z c2 p2 hz (by rw [hr]; simp)
            simp only [List.take_zero, List.map_nil, List.sum_nil, Nat.add_zero] at this
            exact this.1.symm
    · rw [List.pairwise_cons]
      refine ⟨?_, h6⟩
      intro g hg
      have := h4 g hg
      simp only
      omega
    · intro w
      constructor
      · intro hw
        by_cases hwc : w < start + c
        · exact ⟨_, List.mem_cons_self _ _, by simp only; omega, by simp only; omega⟩
        · obtain ⟨g, hg, hg2⟩ := (h7 w).mp (by omega)
          exact ⟨g, List.mem_cons_of_mem _ hg, hg2⟩
      · rintro ⟨g, hg, hg2⟩
        rcases List.mem_cons.mp hg with rfl | hg
        · simp only at hg2
          omega
        · have := (h7 w).mpr ⟨g, hg, hg2⟩
          omega

/-- Claim C16. When `start + count` is a `uint32_t` value, `create_group(start, count,
priority)` sets the worker range of the group to `[start, start + count)`, `thread_count_` to
`count` and the priority to `priority`, makes one ring per worker, and returns
`start + count`.  Hence the groups created in declaration order, each starting at the index
the previous call returned, have the ranges `[s_i, s_i + count_i)` with `s_0` the first start
and `s_(i+1) = s_i + count_i`: they are contiguous, pairwise non-overlapping, and their union
is the range from the first start to the last returned index. -/
theorem create_group_contiguous {ρ : Type} (empty_ring : ρ) (self : workgroup ρ)
    (start count priority : Nat) (ds : List (Nat × Nat)) :
    (start + count < uint32_mod →
      (workgroup.create_group empty_ring self start count priority).1.start_thread_idx_
        = start ∧
      (workgroup.create_group empty_ring self start count priority).1.end_thread_idx_
        = start + count ∧
      (workgroup.create_group empty_ring self start count priority).1.thread_count_
        = count ∧
      (workgroup.create_group empty_ring self start count priority).1.priority_ = priority ∧
      (workgroup.create_group empty_ring self start count priority).1.per_worker_queues_
        = some (List.replicate count empty_ring) ∧
      (workgroup.create_group empty_ring self start count priority).2 = start + count) ∧
    (start + (ds.map Prod.fst).sum < uint32_mod →
      (workgroup.create_groups empty_ring start ds).2 = start + (ds.map Prod.fst).sum ∧
      (workgroup.create_groups empty_ring start ds).1.length = ds.length ∧
      (∀ i g c p, (workgroup.create_groups empty_ring start ds).1[i]? = some g →
        ds[i]? = some (c, p) →
        g.start_thread_idx_ = start + ((ds.take i).map Prod.fst).sum ∧
        g.end_thread_idx_ = g.start_thread_idx_ + c ∧
        g.thread_count_ = c ∧ g.priority_ = p) ∧
      (workgroup.create_groups empty_ring start ds).1.Chain'
        (fun a b => a.end_thread_idx_ = b.start_thread_idx_) ∧
      (workgroup.create_groups empty_ring start ds).1.Pairwise
        (fun a b => a.end_thread_idx_ ≤ b.start_thread_idx_) ∧
      (∀ w, (start ≤ w ∧ w < (workgroup.create_groups empty_ring start ds).2) ↔
        ∃ g ∈ (workgroup.create_groups empty_ring start ds).1,
          g.start_thread_idx_ ≤ w ∧ w < g.end_thread_idx_)) := by
  constructor
  · intro h
    have hmod : (start + count) % uint32_mod = start + count := Nat.mod_eq_of_lt h
    simp [workgroup.create_group, hmod]
  · intro h
    obtain ⟨h1, h2, h3, _, h5, h6, h7⟩ := create_groups_spec empty_ring ds start h
    refine ⟨h1, h2, h3, h5, h6, ?_⟩
    intro w
    rw [h1]
    exact h7 w

/-- Instance of C16, the scenario of the spec: the groups `G0` of two workers and `G1` of two
workers, created from index `0`, get the ranges `[0, 2)` and `[2, 4)`. -/
theorem create_group_contiguous_witness :
    (0 + 2 < uint32_mod ∧ 0 + ([(2, 0), (2, 1)].map Prod.fst).sum < uint32_mod) ∧
    (workgroup.create_group () (workgroup.default_ctor Unit) 0 2 0).1.end_thread_idx_
      = 0 + 2 ∧
    (workgroup.create_groups () 0 [(2, 0), (2, 1)]).2 = 0 + ([(2, 0), (2, 1)].map Prod.fst).sum ∧
    (workgroup.create_groups () 0 [(2, 0), (2, 1)]).1.map
        (fun g => (g.start_thread_idx_, g.end_thread_idx_)) = [(0, 2), (2, 4)] :=
  ⟨⟨by decide, by decide⟩,
    ((create_group_contiguous () (workgroup.default_ctor Unit) 0 2 0 [(2, 0), (2, 1)]).1
      (by decide)).2.1,
    ((create_group_contiguous () (workgroup.default_ctor Unit) 0 2 0 [(2, 0), (2, 1)]).2
      (by decide)).1,
    by decide⟩

end detail

namespace detail

/-- Claim C17. For a work group and an offset `worker_offset >= thread_count_`,
`push_item_to_worker` and `pop_item_from_worker` return `false` and leave the group, all its
rings and the output item as they are, whatever the ring operations would do and even when the
ring array is null; this is the case for every offset on a default-constructed and on a
moved-from group.  For `worker_offset < thread_count_` they return what `emplace` / `pop` of
the ring number `worker_offset` returns, and only that ring changes; after `create_group` that
ring exists. -/
theorem push_pop_offset_guard {ρ ι : Type} (emplace : ρ → ι → Option (Bool × ρ))
    (pop : ρ → ι → Option (Bool × ι × ρ)) (empty_ring : ρ) (self other : workgroup ρ)
    (worker_offset : Nat) (item : ι) :
    (self.thread_count_ ≤ worker_offset →
      workgroup.push_item_to_worker emplace self worker_offset item = some (false, self) ∧
      workgroup.pop_item_from_worker pop self worker_offset item
        = some (false, item, self)) ∧
    (workgroup.push_item_to_worker emplace (workgroup.default_ctor ρ) worker_offset item
        = some (false, workgroup.default_ctor ρ) ∧
      workgroup.pop_item_from_worker pop (workgroup.default_ctor ρ) worker_offset item
        = some (false, item, workgroup.default_ctor ρ)) ∧
    (workgroup.push_item_to_worker emplace (workgroup.move_ctor other).2 worker_offset item
        = some (false, (workgroup.move_ctor other).2) ∧
      workgroup.pop_item_from_worker pop (workgroup.move_ctor other).2 worker_offset item
        = some (false, item, (workgroup.move_ctor other).2) ∧
      workgroup.push_item_to_worker emplace (workgroup.move_assign self other).2
          worker_offset item
        = some (false, (workgroup.move_assign self other).2) ∧
      workgroup.pop_item_from_worker pop (workgroup.move_assign self other).2
          worker_offset item
        = some (false, item, (workgroup.move_assign self other).2)) ∧
    (worker_offset < self.thread_count_ → ∀ queues ring,
      self.per_worker_queues_ = some queues → queues[worker_offset]? = some ring →
      workgroup.push_item_to_worker emplace self worker_offset item =
        (emplace ring item).map (fun r =>
          (r.1, { self with per_worker_queues_ := some (queues.set worker_offset r.2) })) ∧
      workgroup.pop_item_from_worker pop self worker_offset item =
        (pop ring item).map (fun r =>
          (r.1, r.2.1,
            { self with per_worker_queues_ := some (queues.set worker_offset r.2.2) }))) ∧
    (∀ start count priority, worker_offset < count →
      (workgroup.create_group empty_ring self start count priority).1.thread_count_ = count ∧
      ∃ queues,
        (workgroup.create_group empty_ring self start count priority).1.per_worker_queues_
          = some queues ∧ queues[worker_offset]? = some empty_ring) := by
  refine ⟨?_, ?_, ?_, ?_, ?_⟩
  · intro h
    simp [workgroup.push_item_to_worker, workgroup.pop_item_from_worker, h]
  · simp [workgroup.push_item_to_worker, workgroup.pop_item_from_worker,
      workgroup.default_ctor]
  · simp [workgroup.push_item_to_worker, workgroup.pop_item_from_worker,
      workgroup.move_ctor, workgroup.move_assign]
  · intro h queues ring hq hr
    have hn : ¬ worker_offset ≥ self.thread_count_ := by omega
    constructor
    · simp only [workgroup.push_item_to_worker, if_neg hn, hq, hr]
      cases emplace ring item with
      | none => rfl
      | some r => rfl
    · simp only [workgroup.pop_item_from_worker, if_neg hn, hq, hr]
      cases pop ring item with
      | none => rfl
      | some r => rfl
  · intro start count priority h
    refine ⟨rfl, List.replicate count empty_ring, rfl, ?_⟩
    rw [List.getElem?_eq_getElem (by simp; exact h)]
    simp

/-- Instance of C17 with rings that are lists of at most two items: on a group of two workers
the offsets `2` and above are rejected and the offset `1` reaches ring number `1`. -/
theorem push_pop_offset_guard_witness :
    ((workgroup.mk (some [[], [5]]) 2 0 2 0 : workgroup (List Nat)).thread_count_ ≤ 2 ∧
      1 < (workgroup.mk (some [[], [5]]) 2 0 2 0 : workgroup (List Nat)).thread_count_) ∧
    (workgroup.push_item_to_worker
        (fun r i => some (decide (r.length < 2), if r.length < 2 then r ++ [i] else r))
        (workgroup.mk (some [[], [5]]) 2 0 2 0) 2 7
        = some (false, workgroup.mk (some [[], [5]]) 2 0 2 0) ∧
      workgroup.pop_item_from_worker
        (fun r i => some (decide (r ≠ []), r.headD i, r.tail))
        (workgroup.mk (some [[], [5]]) 2 0 2 0) 2 7
        = some (false, 7, workgroup.mk (some [[], [5]]) 2 0 2 0)) ∧
    (workgroup.push_item_to_worker
        (fun r i => some (decide (r.length < 2), if r.length < 2 then r ++ [i] else r))
        (workgroup.mk (some [[], [5]]) 2 0 2 0) 1 7
        = some (true, workgroup.mk (some [[], [5, 7]]) 2 0 2 0) ∧
      workgroup.pop_item_from_worker
        (fun r i => some (decide (r ≠ []), r.headD i, r.tail))
        (workgroup.mk (some [[], [5]]) 2 0 2 0) 1 7
        = some (true, 5, workgroup.mk (some [[], []]) 2 0 2 0)) :=
  ⟨⟨by decide, by decide⟩,
    (push_pop_offset_guard
      (fun r i => some (decide (r.length < 2), if r.length < 2 then r ++ [i] else r))
      (fun r i => some (decide (r ≠ []), r.headD i, r.tail)) []
      (workgroup.mk (some [[], [5]]) 2 0 2 0) (workgroup.default_ctor (List Nat)) 2 7).1
      (by decide),
    by
      have h := (push_pop_offset_guard
        (fun r i => some (decide (r.length < 2), if r.length < 2 then r ++ [i] else r))
        (fun r i => some (decide (r ≠ []), r.headD i, r.tail)) []
        (workgroup.mk (some [[], [5]]) 2 0 2 0) (workgroup.default_ctor (List Nat)) 1
        7).2.2.2.1 (by decide) [[], [5]] [5] rfl rfl
      simpa using h⟩

end detail


/-! ## Lists: writing one position -/

theorem take_succ_set {β : Type} (l : List β) (i : Nat) (x : β) (h : i < l.length) :
    (l.set i x).take (i + 1) = l.take i ++ [x] := by
  rw [List.take_succ]
  have e : (l.set i x).take i = l.take i := by
    apply List.ext_getElem?
    intro j
    by_cases hj : j < i
    · rw [List.getElem?_take_of_lt hj, List.getElem?_take_of_lt hj,
        List.getElem?_set_ne (by omega)]
    · rw [List.getElem?_take_eq_none (by omega), List.getElem?_take_eq_none (by omega)]
  rw [e]
  simp [List.getElem?_set_self, h]

theorem drop_take_congr {β : Type} (l l' : List β) (i n : Nat)
    (h : l'.drop i = l.drop i) : (l'.take n).drop i = (l.take n).drop i := by
  rw [List.drop_take, List.drop_take, h]

namespace basic_queue

/-! ## `basic_queue`: reading blocks after a write -/

theorem data_of_set_ne {α : Type} (heap : List (deque_block α)) (b c : Nat)
    (x : deque_block α) (h : b ≠ c) : data_of (heap.set b x) c = data_of heap c := by
  simp [data_of, List.getElem?_set_ne h]

theorem data_of_set_self {α : Type} (heap : List (deque_block α)) (b : Nat)
    (x : deque_block α) (h : b < heap.length) : data_of (heap.set b x) b = x.data_ := by
  simp [data_of, List.getElem?_set_self, h]

theorem next_of_set_ne {α : Type} (heap : List (deque_block α)) (b c : Nat)
    (x : deque_block α) (h : b ≠ c) : next_of (heap.set b x) c = next_of heap c := by
  simp [next_of, List.getElem?_set_ne h]

theorem next_of_set_self {α : Type} (heap : List (deque_block α)) (b : Nat)
    (x : deque_block α) (h : b < heap.length) :
    next_of (heap.set b x) b = some x.next_ := by
  simp [next_of, List.getElem?_set_self, h]

theorem data_of_append_lt {α : Type} (heap l : List (deque_block α)) (c : Nat)
    (h : c < heap.length) : data_of (heap ++ l) c = data_of heap c := by
  simp [data_of, List.getElem?_append_left h]

theorem next_of_append_lt {α : Type} (heap l : List (deque_block α)) (c : Nat)
    (h : c < heap.length) : next_of (heap ++ l) c = next_of heap c := by
  simp [next_of, List.getElem?_append_left h]

theorem data_of_append_self {α : Type} (heap : List (deque_block α)) (x : deque_block α) :
    data_of (heap ++ [x]) heap.length = x.data_ := by
  simp [data_of]

theorem next_of_append_self {α : Type} (heap : List (deque_block α)) (x : deque_block α) :
    next_of (heap ++ [x]) heap.length = some x.next_ := by
  simp [next_of]

theorem data_of_eq {α : Type} {heap : List (deque_block α)} {b : Nat} {blk : deque_block α}
    (h : heap[b]? = some blk) : data_of heap b = blk.data_ := by
  simp [data_of, h]

theorem next_of_eq {α : Type} {heap : List (deque_block α)} {b : Nat} {blk : deque_block α}
    (h : heap[b]? = some blk) : next_of heap b = some blk.next_ := by
  simp [next_of, h]

/-! ## `basic_queue`: the chains and the stored slots under a change of other blocks -/

theorem stored_congr {α : Type} (heap heap' : List (deque_block α)) (back : Nat) :
    ∀ live : List Nat, (∀ b ∈ live, data_of heap' b = data_of heap b) →
      stored heap' back live = stored heap back live
  | [], _ => rfl
  | [t], h => by simp [stored, h t (List.mem_singleton_self t)]
  | b :: c :: rest, h => by
    have ih := stored_congr heap heap' back (c :: rest)
      (fun x hx => h x (List.mem_cons_of_mem _ hx))
    simp only [stored, ih, h b (List.mem_cons_self _ _)]

theorem live_chain_congr {α : Type} (heap heap' : List (deque_block α)) :
    ∀ (live : List Nat) (hd tl : Option Nat),
      (∀ b ∈ live, next_of heap' b = next_of heap b) →
      live_chain heap hd tl live → live_chain heap' hd tl live
  | [], _, _, _, h => h
  | [_], _, _, _, h => h
  | b :: c :: rest, hd, tl, hn, h => by
    obtain ⟨h1, h2, h3⟩ := h
    exact ⟨h1, by rw [hn b (List.mem_cons_self _ _)]; exact h2,
      live_chain_congr heap heap' (c :: rest) (some c) tl
        (fun x hx => hn x (List.mem_cons_of_mem _ hx)) h3⟩

theorem free_chain_congr {α : Type} (heap heap' : List (deque_block α)) :
    ∀ (fl : List Nat) (p : Option Nat),
      (∀ b ∈ fl, next_of heap' b = next_of heap b) →
      free_chain heap p fl → free_chain heap' p fl
  | [], _, _, h => h
  | b :: rest, p, hn, h => by
    obtain ⟨h1, n, h2, h3⟩ := h
    exact ⟨h1, n, by rw [hn b (List.mem_cons_self _ _)]; exact h2,
      free_chain_congr heap heap' rest n (fun x hx => hn x (List.mem_cons_of_mem _ hx)) h3⟩

theorem live_chain_head {α : Type} (heap : List (deque_block α)) :
    ∀ (live : List Nat) (hd tl : Option Nat), live_chain heap hd tl live → hd = live.head?
  | [], _, _, h => h.1
  | [_], _, _, h => h.1
  | _ :: _ :: _, _, _, h => h.1

theorem live_chain_tail {α : Type} (heap : List (deque_block α)) :
    ∀ (live : List Nat) (hd tl : Option Nat), live_chain heap hd tl live → tl = live.getLast?
  | [], _, _, h => h.2
  | [_], _, _, h => h.2
  | b :: c :: rest, _, tl, h => by
    rw [List.getLast?_cons_cons]
    exact live_chain_tail heap (c :: rest) (some c) tl h.2.2

/-- A block is chained behind the last block. -/
theorem live_chain_snoc {α : Type} (heap heap' : List (deque_block α)) (t db : Nat) :
    ∀ (live : List Nat) (hd : Option Nat), live ≠ [] → live.Nodup →
      live_chain heap hd (some t) live →
      (∀ b ∈ live, b ≠ t → next_of heap' b = next_of heap b) →
      next_of heap' t = some (some db) →
      live_chain heap' hd (some db) (live ++ [db])
  | [], _, h, _, _, _, _ => absurd rfl h
  | [b], hd, _, _, hc, _, ht => by
    obtain ⟨h1, h2⟩ := hc
    have : t = b := by simpa using h2
    subst this
    exact ⟨h1, ht, rfl, rfl⟩
  | b :: c :: rest, hd, _, hnd, hc, hn, ht => by
    obtain ⟨h1, h2, h3⟩ := hc
    have htl := live_chain_tail heap (c :: rest) (some c) (some t) h3
    have htm : t ∈ c :: rest := List.mem_of_getLast?_eq_some htl.symm
    have hbt : b ≠ t := by
      intro e
      subst e
      exact (List.nodup_cons.mp hnd).1 htm
    refine ⟨h1, ?_, ?_⟩
    · rw [hn b (List.mem_cons_self _ _) hbt]
      exact h2
    · exact live_chain_snoc heap heap' t db (c :: rest) (some c) (List.cons_ne_nil _ _)
        (List.nodup_cons.mp hnd).2 h3
        (fun x hx hxt => hn x (List.mem_cons_of_mem _ hx) hxt) ht

/-- The slots stored after a block is chained behind blocks that are full. -/
theorem stored_snoc {α : Type} (heap heap' : List (deque_block α)) (pool_size k db : Nat) :
    ∀ live : List Nat, live ≠ [] →
      (∀ b ∈ live, data_of heap' b = data_of heap b) →
      (∀ b ∈ live, (data_of heap b).length = pool_size) →
      stored heap' k (live ++ [db])
        = stored heap pool_size live ++ (data_of heap' db).take k
  | [], h, _, _ => absurd rfl h
  | [t], _, hd, hl => by
    have e : (data_of heap t).take pool_size = data_of heap t :=
      List.take_of_length_le (by rw [hl t (List.mem_singleton_self t)])
    simp only [List.singleton_append, stored, hd t (List.mem_singleton_self t), e]
  | b :: c :: rest, _, hd, hl => by
    have ih := stored_snoc heap heap' pool_size k db (c :: rest) (List.cons_ne_nil _ _)
      (fun x hx => hd x (List.mem_cons_of_mem _ hx))
      (fun x hx => hl x (List.mem_cons_of_mem _ hx))
    simp only [List.cons_append] at ih ⊢
    simp only [stored, ih, hd b (List.mem_cons_self _ _), List.append_assoc]

/-- The slots stored after a value is written to the slot `back` of the last block. -/
theorem stored_write_back {α : Type} (heap heap' : List (deque_block α)) (back t : Nat)
    (v : α) :
    ∀ live : List Nat, live.Nodup → live.getLast? = some t →
      (∀ b ∈ live, b ≠ t → data_of heap' b = data_of heap b) →
      data_of heap' t = (data_of heap t).set back (some v) →
      back < (data_of heap t).length →
      stored heap' (back + 1) live = stored heap back live ++ [some v]
  | [], _, h, _, _, _ => by simp at h
  | [b], _, h, _, ht, hlt => by
    have : b = t := by simpa using h
    subst this
    simp only [stored, ht]
    exact take_succ_set _ _ _ hlt
  | b :: c :: rest, hnd, h, hd, ht, hlt => by
    rw [List.getLast?_cons_cons] at h
    have htm : t ∈ c :: rest := List.mem_of_getLast?_eq_some h
    have hbt : b ≠ t := by
      intro e
      subst e
      exact (List.nodup_cons.mp hnd).1 htm
    have ih := stored_write_back heap heap' back t v (c :: rest) (List.nodup_cons.mp hnd).2 h
      (fun x hx hxt => hd x (List.mem_cons_of_mem _ hx) hxt) ht hlt
    simp only [stored, ih, hd b (List.mem_cons_self _ _) hbt, List.append_assoc]

/-- The slots stored behind the slot `i` of the first block do not depend on the slots of the
first block up to `i`. -/
theorem stored_drop_head {α : Type} (heap heap' : List (deque_block α)) (back i b : Nat)
    (rest : List Nat) (hb : b ∉ rest)
    (hd : ∀ c ∈ rest, data_of heap' c = data_of heap c)
    (hlen : (data_of heap' b).length = (data_of heap b).length)
    (hdrop : (data_of heap' b).drop (i + 1) = (data_of heap b).drop (i + 1))
    (hi : i < (data_of heap b).length) :
    (stored heap' back (b :: rest)).drop (i + 1) = (stored heap back (b :: rest)).drop (i + 1)
      ∧ (stored heap' back (b :: rest)).length = (stored heap back (b :: rest)).length := by
  cases rest with
  | nil =>
    simp only [stored]
    exact ⟨drop_take_congr _ _ _ _ hdrop, by simp [hlen]⟩
  | cons c rest =>
    have e := stored_congr heap heap' back (c :: rest) hd
    simp only [stored, e]
    constructor
    · rw [List.drop_append_of_le_length (by omega), List.drop_append_of_le_length (by omega),
        hdrop]
    · simp [hlen]

/-- The slot `i` of the slots stored is the slot `i` of the first block. -/
theorem stored_getElem?_head {α : Type} (heap : List (deque_block α)) (back i b : Nat)
    (rest : List Nat) (hi : i < (stored heap back (b :: rest)).length)
    (hi2 : i < (data_of heap b).length) :
    (stored heap back (b :: rest))[i]? = (data_of heap b)[i]? := by
  cases rest with
  | nil =>
    simp only [stored] at hi ⊢
    rw [List.length_take] at hi
    rw [List.getElem?_take_of_lt (by omega)]
  | cons c rest =>
    simp only [stored]
    rw [List.getElem?_append_left hi2]

end basic_queue

namespace basic_queue

/-! ## `basic_queue`: the invariant under `emplace_back` -/

theorem size_type_mod_eq : size_type_mod = 4294967296 := by
  norm_num [size_type_mod]

theorem next_of_some {α : Type} {heap : List (deque_block α)} {b : Nat} {n : Option Nat}
    (h : next_of heap b = some n) : ∃ blk, heap[b]? = some blk ∧ blk.next_ = n := by
  unfold next_of at h
  cases hb : heap[b]? with
  | none => rw [hb] at h; simp at h
  | some blk =>
    rw [hb] at h
    exact ⟨blk, rfl, by simpa using h⟩

theorem take_one_of_getElem? {β : Type} (l : List β) (x : β) (h : l[0]? = some x) :
    l.take 1 = [x] := by
  cases l with
  | nil => simp at h
  | cons a l => simp at h; simp [h]

/-- The last block of a chain that is not empty is the tail. -/
theorem live_chain_tail_mem {α : Type} (heap : List (deque_block α)) (live : List Nat)
    (hd tl : Option Nat) (hne : live ≠ []) (h : live_chain heap hd tl live) :
    ∃ t, tl = some t ∧ live.getLast? = some t ∧ t ∈ live := by
  have ht := live_chain_tail heap live hd tl h
  cases hl : live.getLast? with
  | none => exact absurd (List.getLast?_eq_none_iff.mp hl) hne
  | some t => exact ⟨t, by rw [ht, hl], rfl, List.mem_of_getLast?_eq_some hl⟩

/-- The invariant after a block `db` was chained behind the blocks in use and a value was
written to its first slot. -/
theorem inv_after_grow {α : Type} (pool_size : Nat) (q q' : basic_queue α)
    (live fl fl' : List Nat) (xs : List α) (db : Nat) (v : α)
    (hp : 0 < pool_size)
    (hinv : queue_inv pool_size q live fl xs)
    (hfull : live = [] ∨ q.back_ = pool_size)
    (hfl : fl = db :: fl' ∨ (fl = fl' ∧ db ∉ live ++ fl))
    (hdata : ∀ b ∈ live ++ fl', data_of q'.heap b = data_of q.heap b)
    (hlen : q.heap.length ≤ q'.heap.length)
    (hdb : db < q'.heap.length ∧ (data_of q'.heap db).length = pool_size ∧
      (data_of q'.heap db)[0]? = some (some v))
    (hnext : ∀ b ∈ live ++ fl', q.tail_ ≠ some b → next_of q'.heap b = next_of q.heap b)
    (htl : ∀ t, q.tail_ = some t → next_of q'.heap t = some (some db))
    (hhead : (live = [] → q'.head_ = some db) ∧ (live ≠ [] → q'.head_ = q.head_))
    (htail : q'.tail_ = some db)
    (hfree : free_chain q.heap q'.free_ fl')
    (hfront : q'.front_ = q.front_) (hback : q'.back_ = 1)
    (hsize : q'.size_ = (q.size_ + 1) % size_type_mod) :
    queue_inv pool_size q' (live ++ [db]) fl' (xs ++ [v]) := by
  have hnd : (live ++ db :: fl').Nodup ∧ (∀ b ∈ fl', b ∈ fl) := by
    rcases hfl with e | ⟨e, hnew⟩
    · rw [e] at hinv
      exact ⟨hinv.nodup, fun b hb => by rw [e]; exact List.mem_cons_of_mem _ hb⟩
    · subst e
      exact ⟨List.nodup_middle.mpr (List.nodup_cons.mpr ⟨hnew, hinv.nodup⟩), fun b hb => hb⟩
  obtain ⟨hnd, hsub⟩ := hnd
  have hdisj : ∀ b ∈ fl', b ∉ live := by
    intro b hb hbl
    have := (List.nodup_append.mp hinv.nodup).2.2
    exact this hbl (hsub b hb)
  have hnottail : ∀ b ∈ fl', q.tail_ ≠ some b := by
    intro b hb e
    by_cases hl : live = []
    · subst hl
      have := hinv.live_links.2
      rw [this] at e
      simp at e
    · obtain ⟨t, h1, _, h3⟩ := live_chain_tail_mem _ _ _ _ hl hinv.live_links
      rw [h1] at e
      simp only [Option.some.injEq] at e
      subst e
      exact hdisj _ hb h3
  have hstored : stored q'.heap q'.back_ (live ++ [db])
      = stored q.heap q.back_ live ++ [some v] := by
    rw [hback]
    by_cases hl : live = []
    · subst hl
      simp only [List.nil_append, stored]
      rw [take_one_of_getElem? _ _ hdb.2.2]
    · have hb : q.back_ = pool_size := hfull.resolve_left hl
      rw [stored_snoc q.heap q'.heap pool_size 1 db live hl
        (fun b hb => hdata b (List.mem_append_left _ hb))
        (fun b hb => (hinv.valid b (List.mem_append_left _ hb)).2),
        take_one_of_getElem? _ _ hdb.2.2, hb]
  refine ⟨by simpa using hnd, ?_, ?_, ?_, ?_, ?_, ?_, ?_, ?_, ?_, ?_⟩
  · intro b hb
    simp only [List.append_assoc, List.mem_append, List.mem_singleton] at hb
    rcases hb with hb | hb | hb
    · refine ⟨lt_of_lt_of_le (hinv.valid b (List.mem_append_left _ hb)).1 hlen, ?_⟩
      rw [hdata b (List.mem_append_left _ hb)]
      exact (hinv.valid b (List.mem_append_left _ hb)).2
    · subst hb
      exact ⟨hdb.1, hdb.2.1⟩
    · refine ⟨lt_of_lt_of_le (hinv.valid b (List.mem_append_right _ (hsub b hb))).1 hlen, ?_⟩
      rw [hdata b (List.mem_append_right _ hb)]
      exact (hinv.valid b (List.mem_append_right _ (hsub b hb))).2
  · by_cases hl : live = []
    · subst hl
      exact ⟨hhead.1 rfl, htail⟩
    · obtain ⟨t, h1, _, _⟩ := live_chain_tail_mem _ _ _ _ hl hinv.live_links
      rw [htail, hhead.2 hl]
      have hc := hinv.live_links
      rw [h1] at hc
      exact live_chain_snoc q.heap q'.heap t db live q.head_ hl
        (List.nodup_append.mp hinv.nodup).1 hc
        (fun b hb hbt => hnext b (List.mem_append_left _ hb)
          (by rw [h1]; intro e; exact hbt (Option.some.inj e).symm))
        (htl t h1)
  · exact free_chain_congr q.heap q'.heap fl' q'.free_
      (fun b hb => hnext b (List.mem_append_right _ hb) (hnottail b hb)) hfree
  · intro h
    simp at h
  · intro _
    rw [hfront]
    by_cases hl : live = []
    · rw [hinv.front_zero hl]
      exact hp
    · exact hinv.front_lt hl
  · intro _
    rw [hback]
    exact Nat.one_pos
  · rw [hback]
    exact hp
  · rw [hstored, hfront, List.length_append]
    have := hinv.front_le
    omega
  · rw [hstored, hfront, List.drop_append_of_le_length hinv.front_le, hinv.content]
    simp
  · rw [hsize, hinv.size_eq, List.length_append, List.length_singleton]
    simp only [size_type_mod_eq]
    omega

theorem getElem?_of_lt {α : Type} {heap : List (deque_block α)} {b : Nat}
    (h : b < heap.length) : ∃ blk, heap[b]? = some blk ∧ data_of heap b = blk.data_ ∧
      next_of heap b = some blk.next_ :=
  ⟨heap[b], List.getElem?_eq_getElem h, by simp [data_of, List.getElem?_eq_getElem h],
    by simp [next_of, List.getElem?_eq_getElem h]⟩

/-- The run of `emplace_back` under the invariant: it returns, and the queue holds the list
with the value appended. -/
theorem emplace_back_blocks {α : Type} (pool_size : Nat) (q : basic_queue α)
    (live fl : List Nat) (xs : List α) (v : α)
    (hp : 0 < pool_size) (hps : pool_size < size_type_mod)
    (hinv : queue_inv pool_size q live fl xs) :
    ∃ q' live' fl', emplace_back pool_size q v = some q' ∧
      queue_inv pool_size q' live' fl' (xs ++ [v]) ∧
      live'.length + fl'.length + q.heap.length
        = live.length + fl.length + q'.heap.length ∧
      fl'.length ≤ fl.length ∧
      q'.heap.length = q.heap.length +
        (if (pool_size ≤ q.back_ ∨ q.tail_ = none) ∧ q.free_ = none then 1 else 0) := by
  have hM := size_type_mod_eq
  have h1 : 1 % size_type_mod = 1 := by rw [hM]
  by_cases hl : live = []
  · -- no block in use: a block is taken
    subst hl
    have htail : q.tail_ = none := hinv.live_links.2
    cases fl with
    | nil =>
      have hfree : q.free_ = none := hinv.free_links
      refine ⟨_, [q.heap.length], [], by
        simp [emplace_back, add_tail, htail, hfree, hp, h1]; rfl, ?_,
        (by simp; omega), (by simp), (by simp [htail, hfree])⟩
      refine inv_after_grow pool_size q _ [] [] [] xs q.heap.length v hp hinv (Or.inl rfl)
        (Or.inr ⟨rfl, by simp⟩) (by simp) (by simp) ?_ (by simp) (by simp [htail])
        ⟨fun _ => rfl, fun h => absurd rfl h⟩ rfl (by simp [free_chain]) rfl
        (by simp) rfl
      simp [data_of, hp]
    | cons f fl' =>
      obtain ⟨hfree, n, hn, hchain⟩ := hinv.free_links
      obtain ⟨fb, hfb, hfn⟩ := next_of_some hn
      have hfv := hinv.valid f (by simp)
      have hfd : fb.data_.length = pool_size := by rw [← data_of_eq hfb]; exact hfv.2
      refine ⟨_, [f], fl', by
        simp [emplace_back, add_tail, htail, hfree, hfb, hfd, hp, h1]; rfl, ?_,
        (by simp; omega), (by simp), (by simp [hfree])⟩
      refine inv_after_grow pool_size q _ [] (f :: fl') fl' xs f v hp hinv (Or.inl rfl)
        (Or.inl rfl) ?_ (by simp) ?_ ?_ (by simp [htail])
        ⟨fun _ => rfl, fun h => absurd rfl h⟩ rfl (by rw [hfn]; exact hchain) rfl
        (by simp) rfl
      · intro b hb
        have hne : f ≠ b := by
          intro e
          subst e
          have := hinv.nodup
          simp only [List.nil_append, List.nodup_cons] at this
          exact this.1 (by simpa using hb)
        exact data_of_set_ne _ _ _ _ hne
      · simp [data_of, hfv.1, hfd, hp]
      · intro b hb _
        by_cases hne : f = b
        · subst hne
          rw [next_of_set_self _ _ _ hfv.1, next_of_eq hfb]
        · exact next_of_set_ne _ _ _ _ hne
  · obtain ⟨t, ht1, ht2, ht3⟩ := live_chain_tail_mem _ _ _ _ hl hinv.live_links
    have htv := hinv.valid t (List.mem_append_left _ ht3)
    obtain ⟨tb, htb, htd, htn⟩ := getElem?_of_lt htv.1
    have htlen : tb.data_.length = pool_size := by rw [← htd]; exact htv.2
    by_cases hfull : q.back_ = pool_size
    · -- the last block is full: a block is taken and chained behind it
      have hnd := hinv.nodup
      cases fl with
      | nil =>
        have hfree : q.free_ = none := hinv.free_links
        have htne : t ≠ q.heap.length := Nat.ne_of_lt htv.1
        have hget : (q.heap ++ [(⟨List.replicate pool_size none, none⟩ : deque_block α)])[t]?
            = some tb := by
          rw [List.getElem?_append_left htv.1, htb]
        refine ⟨_, live ++ [q.heap.length], [], by
          simp [emplace_back, add_tail, ht1, hfree, hfull, hget, hp, h1,
            List.getElem?_set_ne htne]; rfl, ?_,
        (by simp; omega), (by simp), (by simp [hfree, hfull])⟩
        refine inv_after_grow pool_size q _ live [] [] xs q.heap.length v hp hinv
          (Or.inr hfull) (Or.inr ⟨rfl, ?_⟩) ?_ (by simp) ?_ ?_ ?_
          ⟨fun h => absurd h hl, fun _ => rfl⟩ rfl (by simp [free_chain]) rfl
          (by simp) (by simp)
        · intro hm
          exact Nat.lt_irrefl _ (hinv.valid _ hm).1
        · intro b hb
          have hbl := (hinv.valid b (by simpa using hb)).1
          show data_of (List.set (List.set _ _ _) _ _) b = _
          rw [data_of_set_ne _ _ _ _ (Nat.ne_of_gt hbl)]
          by_cases hbt : t = b
          · subst hbt
            rw [data_of_set_self _ _ _ (by simp; omega), htd]
          · rw [data_of_set_ne _ _ _ _ hbt, data_of_append_lt _ _ _ hbl]
        · simp [data_of, hp, List.getElem?_set_ne htne]
        · intro b hb hbt
          have hbl := (hinv.valid b (by simpa using hb)).1
          show next_of (List.set (List.set _ _ _) _ _) b = _
          rw [next_of_set_ne _ _ _ _ (Nat.ne_of_gt hbl),
            next_of_set_ne _ _ _ _ (fun e => hbt (by rw [ht1, e])),
            next_of_append_lt _ _ _ hbl]
        · intro t' ht'
          rw [ht1] at ht'
          simp only [Option.some.injEq] at ht'
          subst ht'
          show next_of (List.set (List.set _ _ _) _ _) t = _
          rw [next_of_set_ne _ _ _ _ (Ne.symm htne), next_of_set_self _ _ _ (by simp; omega)]
      | cons f fl' =>
        obtain ⟨hfree, n, hn, hchain⟩ := hinv.free_links
        obtain ⟨fb, hfb, hfn⟩ := next_of_some hn
        have hfv := hinv.valid f (by simp)
        have hfd : fb.data_.length = pool_size := by rw [← data_of_eq hfb]; exact hfv.2
        have hft : t ≠ f := by
          intro e
          subst e
          exact (List.nodup_append.mp hnd).2.2 ht3 (List.mem_cons_self _ _)
        refine ⟨_, live ++ [f], fl', by
          simp [emplace_back, add_tail, ht1, hfree, hfull, htb, hfb, hfd, hp, h1,
            List.getElem?_set_ne hft]; rfl, ?_,
        (by simp; omega), (by simp), (by simp [hfree])⟩
        have hfnot : ∀ b ∈ live ++ fl', f ≠ b := by
          intro b hb e
          subst e
          rcases List.mem_append.mp hb with hb | hb
          · exact (List.nodup_append.mp hnd).2.2 hb (List.mem_cons_self _ _)
          · exact (List.nodup_cons.mp (List.nodup_append.mp hnd).2.1).1 hb
        refine inv_after_grow pool_size q _ live (f :: fl') fl' xs f v hp hinv
          (Or.inr hfull) (Or.inl rfl) ?_ (by simp) ?_ ?_ ?_
          ⟨fun h => absurd h hl, fun _ => rfl⟩ rfl (by rw [hfn]; exact hchain) rfl
          (by simp) (by simp)
        · intro b hb
          show data_of (List.set (List.set _ _ _) _ _) b = _
          rw [data_of_set_ne _ _ _ _ (hfnot b hb)]
          by_cases hbt : t = b
          · subst hbt
            rw [data_of_set_self _ _ _ htv.1, htd]
          · rw [data_of_set_ne _ _ _ _ hbt]
        · simp [data_of, hfv.1, hfd, hp, List.getElem?_set_ne hft]
        · intro b hb hbt
          show next_of (List.set (List.set _ _ _) _ _) b = _
          rw [next_of_set_ne _ _ _ _ (hfnot b hb),
            next_of_set_ne _ _ _ _ (fun e => hbt (by rw [ht1, e]))]
        · intro t' ht'
          rw [ht1] at ht'
          simp only [Option.some.injEq] at ht'
          subst ht'
          show next_of (List.set (List.set _ _ _) _ _) t = _
          rw [next_of_set_ne _ _ _ _ (Ne.symm hft), next_of_set_self _ _ _ htv.1]
    · -- the value is written to the last block
      have hlt : q.back_ < pool_size := lt_of_le_of_ne hinv.back_le hfull
      refine ⟨_, live, fl, by
        simp [emplace_back, ht1, htb, htlen, hlt, Nat.not_le.mpr hlt]; rfl, ?_,
        (by simp), (by simp), (by simp [ht1, Nat.not_le.mpr hlt])⟩
      have hdata : ∀ b, b ≠ t → data_of (q.heap.set t
          { tb with data_ := tb.data_.set q.back_ (some v) }) b = data_of q.heap b :=
        fun b hb => data_of_set_ne _ _ _ _ (fun e => hb e.symm)
      have hnext : ∀ b, next_of (q.heap.set t
          { tb with data_ := tb.data_.set q.back_ (some v) }) b = next_of q.heap b := by
        intro b
        by_cases hb : t = b
        · subst hb
          rw [next_of_set_self _ _ _ htv.1, htn]
        · exact next_of_set_ne _ _ _ _ hb
      have hstored := stored_write_back q.heap (q.heap.set t
          { tb with data_ := tb.data_.set q.back_ (some v) }) q.back_ t v live
        (List.nodup_append.mp hinv.nodup).1 ht2 (fun b _ hb => hdata b hb)
        (by rw [data_of_set_self _ _ _ htv.1, htd]) (by rw [htv.2]; exact hlt)
      have hmod : (q.back_ + 1) % size_type_mod = q.back_ + 1 :=
        Nat.mod_eq_of_lt (by omega)
      refine ⟨hinv.nodup, ?_, ?_, ?_, fun h => absurd h hl, fun _ => hinv.front_lt hl,
        fun _ => ?_, ?_, ?_, ?_, ?_⟩
      · intro b hb
        refine ⟨by rw [List.length_set]; exact (hinv.valid b hb).1, ?_⟩
        by_cases hbt : b = t
        · subst hbt
          rw [data_of_set_self _ _ _ htv.1]
          simp [htlen]
        · rw [hdata b hbt]
          exact (hinv.valid b hb).2
      · have hc := hinv.live_links
        rw [ht1] at hc
        exact live_chain_congr _ _ live _ _ (fun b _ => hnext b) hc
      · exact free_chain_congr _ _ fl _ (fun b _ => hnext b) hinv.free_links
      · show 0 < (q.back_ + 1) % size_type_mod
        rw [hmod]
        omega
      · show (q.back_ + 1) % size_type_mod ≤ pool_size
        rw [hmod]
        omega
      · show q.front_ ≤ (stored _ ((q.back_ + 1) % size_type_mod) live).length
        rw [hmod, hstored, List.length_append]
        have := hinv.front_le
        omega
      · show (stored _ ((q.back_ + 1) % size_type_mod) live).drop q.front_ = _
        rw [hmod, hstored, List.drop_append_of_le_length hinv.front_le, hinv.content]
        simp
      · show (q.size_ + 1) % size_type_mod = _
        rw [hinv.size_eq, List.length_append, List.length_singleton]
        simp only [size_type_mod_eq]
        omega

/-- The invariant after `emplace_back`. -/
theorem emplace_back_inv {α : Type} (pool_size : Nat) (q : basic_queue α)
    (live fl : List Nat) (xs : List α) (v : α)
    (hp : 0 < pool_size) (hps : pool_size < size_type_mod)
    (hinv : queue_inv pool_size q live fl xs) :
    ∃ q' live' fl', emplace_back pool_size q v = some q' ∧
      queue_inv pool_size q' live' fl' (xs ++ [v]) := by
  obtain ⟨q', live', fl', h1, h2, _⟩ :=
    emplace_back_blocks pool_size q live fl xs v hp hps hinv
  exact ⟨q', live', fl', h1, h2⟩

end basic_queue

namespace basic_queue

/-! ## `basic_queue`: the invariant under `pop_front_unsafe` -/

/-- The blocks in use of a queue that holds a value: the first slot read is in the first
block and holds the first value. -/
theorem front_slot {α : Type} (pool_size : Nat) (q : basic_queue α) (live fl : List Nat)
    (x : α) (xs : List α) (hinv : queue_inv pool_size q live fl (x :: xs)) :
    ∃ b rest hb, live = b :: rest ∧ q.head_ = some b ∧ q.heap[b]? = some hb ∧
      hb.data_.length = pool_size ∧ q.front_ < pool_size ∧
      q.front_ < (stored q.heap q.back_ live).length ∧
      hb.data_[q.front_]? = some (some x) ∧
      (stored q.heap q.back_ live).drop (q.front_ + 1) = xs.map some := by
  have hc := hinv.content
  cases live with
  | nil => simp [stored] at hc
  | cons b rest =>
    have hhd := live_chain_head _ _ _ _ hinv.live_links
    have hv := hinv.valid b (by simp)
    obtain ⟨hb, hhb, hd, _⟩ := getElem?_of_lt hv.1
    have hf := hinv.front_lt (List.cons_ne_nil _ _)
    have hlt : q.front_ < (stored q.heap q.back_ (b :: rest)).length := by
      by_contra hge
      rw [List.drop_eq_nil_of_le (by omega)] at hc
      simp at hc
    have h0 : (stored q.heap q.back_ (b :: rest))[q.front_]? = some (some x) := by
      have := congrArg (fun l => l[0]?) hc
      simpa [List.getElem?_drop] using this
    rw [stored_getElem?_head _ _ _ _ _ hlt (by rw [hv.2]; exact hf), hd] at h0
    refine ⟨b, rest, hb, rfl, hhd, hhb, by rw [← hd]; exact hv.2, hf, hlt, h0, ?_⟩
    have := congrArg (fun l => l.drop 1) hc
    simpa [List.drop_drop, Nat.add_comm] using this

/-- The second half of `pop_front_unsafe`, from the queue `q1` in which the slot read was
released and `front_` was advanced. -/
theorem pop_front_rest {α : Type} (pool_size : Nat) (q q1 : basic_queue α)
    (live fl : List Nat) (x : α) (xs : List α)
    (hp : 0 < pool_size) (hlen : (x :: xs).length < size_type_mod)
    (hinv : queue_inv pool_size q live fl (x :: xs))
    (h1 : q1.head_ = q.head_ ∧ q1.tail_ = q.tail_ ∧ q1.free_ = q.free_ ∧
      q1.size_ = q.size_ ∧ q1.back_ = q.back_ ∧ q1.front_ = q.front_ + 1)
    (hlength : q1.heap.length = q.heap.length)
    (hnext : ∀ c, next_of q1.heap c = next_of q.heap c)
    (hdata : ∀ c, q.head_ ≠ some c → data_of q1.heap c = data_of q.heap c)
    (hhead : ∀ b, q.head_ = some b →
      (data_of q1.heap b).length = (data_of q.heap b).length ∧
      (data_of q1.heap b).drop (q.front_ + 1) = (data_of q.heap b).drop (q.front_ + 1)) :
    ∃ q3 live' fl',
      (if q1.front_ = pool_size then
          (remove_head q1).map (fun q' => { q' with front_ := 0 })
        else some q1) = some q3 ∧
      queue_inv pool_size
        { q3 with size_ := (q3.size_ + size_type_mod - 1) % size_type_mod } live' fl' xs ∧
      q3.heap.length = q.heap.length ∧
      live'.length + fl'.length = live.length + fl.length ∧
      (q1.front_ = pool_size → q3.free_ = q.head_ ∧ fl'.length = fl.length + 1) := by
  obtain ⟨b, rest, hb, hlive, hhd, hhb, hbl, hf, hflt, _, hdrop⟩ :=
    front_slot pool_size q live fl x xs hinv
  subst hlive
  obtain ⟨e1, e2, e3, e4, e5, e6⟩ := h1
  have hnd := hinv.nodup
  have hbrest : b ∉ rest := (List.nodup_cons.mp (List.nodup_append.mp hnd).1).1
  have hbfl : b ∉ fl := fun h => (List.nodup_append.mp hnd).2.2 (List.mem_cons_self _ _) h
  have hv := hinv.valid b (by simp)
  have hdb : data_of q.heap b = hb.data_ := data_of_eq hhb
  obtain ⟨hh1, hh2⟩ := hhead b hhd
  have hdata' : ∀ c, c ≠ b → data_of q1.heap c = data_of q.heap c :=
    fun c hc => hdata c (by rw [hhd]; intro e; exact hc (Option.some.inj e).symm)
  have hst := stored_drop_head q.heap q1.heap q.back_ q.front_ b rest hbrest
    (fun c hc => hdata' c (fun e => hbrest (e ▸ hc))) hh1 hh2 (by rw [hv.2]; exact hf)
  have hsize : (q.size_ + size_type_mod - 1) % size_type_mod
      = xs.length % size_type_mod := by
    rw [hinv.size_eq]
    simp only [List.length_cons, size_type_mod_eq] at hlen ⊢
    omega
  have hvalid1 : ∀ c ∈ (b :: rest) ++ fl,
      c < q1.heap.length ∧ (data_of q1.heap c).length = pool_size := by
    intro c hc
    refine ⟨by rw [hlength]; exact (hinv.valid c hc).1, ?_⟩
    by_cases hcb : c = b
    · subst hcb
      rw [hh1]
      exact hv.2
    · rw [hdata' c hcb]
      exact (hinv.valid c hc).2
  by_cases hwrap : q1.front_ = pool_size
  · -- the first block is drained: it goes to the free list
    obtain ⟨hb1, hhb1, hd1, hn1⟩ := getElem?_of_lt (hvalid1 b (by simp)).1
    have hnb : hb1.next_ = hb.next_ := by
      have := hnext b
      rw [hn1, next_of_eq hhb] at this
      exact Option.some.inj this
    have hnext2 : ∀ c, c ≠ b →
        next_of (q1.heap.set b { hb1 with next_ := q1.free_ }) c = next_of q.heap c := by
      intro c hc
      rw [next_of_set_ne _ _ _ _ (Ne.symm hc), hnext c]
    have hdata2 : ∀ c, data_of (q1.heap.set b { hb1 with next_ := q1.free_ }) c
        = data_of q1.heap c := by
      intro c
      by_cases hc : b = c
      · subst hc
        rw [data_of_set_self _ _ _ (hvalid1 b (by simp)).1, hd1]
      · exact data_of_set_ne _ _ _ _ hc
    have hfree2 : free_chain (q1.heap.set b { hb1 with next_ := q1.free_ }) (some b)
        (b :: fl) := by
      refine ⟨rfl, q1.free_, next_of_set_self _ _ _ (hvalid1 b (by simp)).1, ?_⟩
      have := free_chain_congr q.heap _ fl q.free_
        (fun c hc => hnext2 c (fun e => hbfl (e ▸ hc))) hinv.free_links
      rw [← e3] at this
      exact this
    have hvalid2 : ∀ c ∈ (b :: rest) ++ fl,
        c < (q1.heap.set b { hb1 with next_ := q1.free_ }).length ∧
        (data_of (q1.heap.set b { hb1 with next_ := q1.free_ }) c).length = pool_size := by
      intro c hc
      rw [List.length_set, hdata2 c]
      exact hvalid1 c hc
    cases rest with
    | nil =>
      have htl : q.tail_ = some b := hinv.live_links.2
      refine ⟨_, [], b :: fl, by
        simp [hwrap, remove_head, e1, e2, hhd, htl, hhb1]; rfl, ?_,
        (by simp [hlength]), (by simp; omega), (fun _ => ⟨by simp [hhd], by simp⟩)⟩
      have hxs : xs = [] := by
        have hl := congrArg List.length hdrop
        simp only [stored, List.length_drop, List.length_take, List.length_map] at hl
        have := hv.2
        rw [e6] at hwrap
        have hx : xs.length = 0 := by omega
        exact List.length_eq_zero.mp hx
      subst hxs
      refine ⟨by simpa using hnd, fun c hc => hvalid2 c (by simpa using hc), ⟨rfl, rfl⟩,
        hfree2, fun _ => rfl, fun h => absurd rfl h, fun h => absurd rfl h, Nat.zero_le _,
        Nat.zero_le _, by simp [stored], ?_⟩
      show (q1.size_ + size_type_mod - 1) % size_type_mod = _
      rw [e4]
      exact hsize
    | cons c rest =>
      obtain ⟨_, hbc, hchain⟩ := hinv.live_links
      have hbn : hb.next_ = some c := by
        rw [next_of_eq hhb] at hbc
        exact Option.some.inj hbc
      obtain ⟨t, ht1, _, ht3⟩ := live_chain_tail_mem _ _ _ _ (List.cons_ne_nil c rest) hchain
      have htb : ¬ (b = t) := fun e => hbrest (e ▸ ht3)
      refine ⟨_, c :: rest, b :: fl, by
        simp [hwrap, remove_head, e1, e2, hhd, ht1, hhb1, htb]; rfl, ?_,
        (by simp [hlength]), (by simp; omega), (fun _ => ⟨by simp [hhd], by simp⟩)⟩
      have hstc : stored (q1.heap.set b { hb1 with next_ := q1.free_ }) q1.back_ (c :: rest)
          = stored q.heap q.back_ (c :: rest) := by
        rw [e5]
        exact stored_congr _ _ _ _ (fun y hy => by
          rw [hdata2 y, hdata' y (fun e => hbrest (e ▸ hy))])
      have hcontent : stored q.heap q.back_ (c :: rest) = xs.map some := by
        rw [← hdrop]
        simp only [stored]
        rw [e6] at hwrap
        rw [List.drop_append_of_le_length (by rw [hdb, hbl, hwrap]),
          List.drop_of_length_le (by rw [hdb, hbl, hwrap]), List.nil_append]
      refine ⟨?_, fun y hy => hvalid2 y ?_, ?_, hfree2, fun h => absurd h (List.cons_ne_nil _ _),
        fun _ => hp, fun _ => ?_, ?_, Nat.zero_le _, ?_, ?_⟩
      · have : (b :: ((c :: rest) ++ fl)).Nodup := by simpa using hnd
        exact List.nodup_middle.mpr this
      · simp only [List.mem_append, List.mem_cons] at hy ⊢
        rcases hy with (h | h) | h | h
        · exact Or.inl (Or.inr (Or.inl h))
        · exact Or.inl (Or.inr (Or.inr h))
        · exact Or.inl (Or.inl h)
        · exact Or.inr h
      · rw [ht1] at hchain
        have := live_chain_congr q.heap (q1.heap.set b { hb1 with next_ := q1.free_ })
          (c :: rest) _ _ (fun y hy => hnext2 y (fun e => hbrest (e ▸ hy))) hchain
        rw [← hbn, ← hnb] at this
        exact this
      · show 0 < q1.back_
        rw [e5]
        exact hinv.back_pos (List.cons_ne_nil _ _)
      · show q1.back_ ≤ pool_size
        rw [e5]
        exact hinv.back_le
      · show (stored _ q1.back_ (c :: rest)).drop 0 = _
        rw [hstc, hcontent, List.drop_zero]
      · show (q1.size_ + size_type_mod - 1) % size_type_mod = _
        rw [e4]
        exact hsize
  · -- the first block keeps slots that were not read
    refine ⟨q1, b :: rest, fl, by simp [hwrap], ?_, hlength, rfl,
      fun h => absurd h hwrap⟩
    refine ⟨hnd, hvalid1, ?_, ?_, fun h => absurd h (List.cons_ne_nil _ _), fun _ => ?_,
      fun _ => ?_, ?_, ?_, ?_, ?_⟩
    · show live_chain q1.heap q1.head_ q1.tail_ (b :: rest)
      rw [e1, e2]
      exact live_chain_congr q.heap _ _ _ _ (fun c _ => hnext c) hinv.live_links
    · show free_chain q1.heap q1.free_ fl
      rw [e3]
      exact free_chain_congr q.heap _ _ _ (fun c _ => hnext c) hinv.free_links
    · show q1.front_ < pool_size
      omega
    · show 0 < q1.back_
      rw [e5]
      exact hinv.back_pos (List.cons_ne_nil _ _)
    · show q1.back_ ≤ pool_size
      rw [e5]
      exact hinv.back_le
    · show q1.front_ ≤ (stored q1.heap q1.back_ (b :: rest)).length
      rw [e5, e6, hst.2]
      omega
    · show (stored q1.heap q1.back_ (b :: rest)).drop q1.front_ = _
      rw [e5, e6, hst.1, hdrop]
    · show (q1.size_ + size_type_mod - 1) % size_type_mod = _
      rw [e4]
      exact hsize

end basic_queue

namespace basic_queue

/-- The first half of `pop_front_unsafe`: the assertion holds, the slot is read and
released, and `front_` is advanced. -/
theorem pop_front_unsafe_eq {α : Type} (td : Bool) (pool_size : Nat) (q : basic_queue α)
    (h : Nat) (hb : deque_block α) (ret : α) (hne : q.empty = false)
    (hhd : q.head_ = some h) (hhb : q.heap[h]? = some hb)
    (hslot : hb.data_[q.front_]? = some (some ret)) :
    pop_front_unsafe td pool_size q =
      match (if (q.front_ + 1) % size_type_mod = pool_size then
          (remove_head { q with
            heap := if td then q.heap
              else q.heap.set h { hb with data_ := hb.data_.set q.front_ none },
            front_ := (q.front_ + 1) % size_type_mod }).map
            (fun q' => { q' with front_ := 0 })
        else some { q with
            heap := if td then q.heap
              else q.heap.set h { hb with data_ := hb.data_.set q.front_ none },
            front_ := (q.front_ + 1) % size_type_mod }) with
      | none => none
      | some q3 =>
        some (ret, { q3 with size_ := (q3.size_ + size_type_mod - 1) % size_type_mod }) := by
  simp only [ pop_front_unsafe, OULY_ASSERT, hne, hhd, hhb, hslot]
  rfl

/-- The run of `pop_front_unsafe` under the invariant, on a queue that holds a value: it
returns the first value, and the queue holds the rest. -/
theorem pop_front_unsafe_blocks {α : Type} (td : Bool) (pool_size : Nat)
    (q : basic_queue α) (live fl : List Nat) (x : α) (xs : List α)
    (hp : 0 < pool_size) (hps : pool_size < size_type_mod)
    (hlen : (x :: xs).length < size_type_mod)
    (hinv : queue_inv pool_size q live fl (x :: xs)) :
    ∃ q' live' fl', pop_front_unsafe td pool_size q = some (x, q') ∧
      queue_inv pool_size q' live' fl' xs ∧
      q'.heap.length = q.heap.length ∧
      live'.length + fl'.length = live.length + fl.length ∧
      (q.front_ + 1 = pool_size → q'.free_ = q.head_ ∧ fl'.length = fl.length + 1) := by
  obtain ⟨b, rest, hb, hlive, hhd, hhb, hbl, hf, hflt, hslot, hdrop⟩ :=
    front_slot pool_size q live fl x xs hinv
  have hne : q.empty = false := by
    have := hinv.size_eq
    simp only [List.length_cons, size_type_mod_eq] at hlen this
    simp only [empty, beq_eq_false_iff_ne, ne_eq]
    omega
  have hmod : (q.front_ + 1) % size_type_mod = q.front_ + 1 :=
    Nat.mod_eq_of_lt (by omega)
  have hv := hinv.valid b (by rw [hlive]; simp)
  obtain ⟨q3, live', fl', h3, hinv3, hheap3, hcount3, hfree3⟩ := pop_front_rest pool_size q
    { q with
      heap := if td then q.heap
        else q.heap.set b { hb with data_ := hb.data_.set q.front_ none },
      front_ := (q.front_ + 1) % size_type_mod } live fl x xs hp hlen hinv
    ⟨rfl, rfl, rfl, rfl, rfl, hmod⟩
    (by cases td <;> simp)
    (by
      intro c
      cases td
      · by_cases hc : b = c
        · subst hc
          simp only [Bool.false_eq_true, if_false]
          rw [next_of_set_self _ _ _ hv.1, next_of_eq hhb]
        · simp only [Bool.false_eq_true, if_false]
          exact next_of_set_ne _ _ _ _ hc
      · rfl)
    (by
      intro c hc
      cases td
      · simp only [Bool.false_eq_true, if_false]
        exact data_of_set_ne _ _ _ _ (fun e => hc (by rw [hhd, e]))
      · rfl)
    (by
      intro b' hb'
      rw [hhd] at hb'
      simp only [Option.some.injEq] at hb'
      subst hb'
      cases td
      · simp only [Bool.false_eq_true, if_false]
        rw [data_of_set_self _ _ _ hv.1, data_of_eq hhb]
        exact ⟨by simp, List.drop_set_of_lt _ _ (Nat.lt_succ_self _)⟩
      · exact ⟨rfl, rfl⟩)
  refine ⟨_, live', fl', ?_, hinv3, hheap3, hcount3, fun h => hfree3 (by
    show (q.front_ + 1) % size_type_mod = pool_size
    rw [hmod]
    exact h)⟩
  rw [pop_front_unsafe_eq td pool_size q b hb x hne hhd hhb hslot]
  simp only [hmod] at h3 ⊢
  rw [h3]

/-- The invariant after `pop_front_unsafe`. -/
theorem pop_front_unsafe_inv {α : Type} (td : Bool) (pool_size : Nat) (q : basic_queue α)
    (live fl : List Nat) (x : α) (xs : List α)
    (hp : 0 < pool_size) (hps : pool_size < size_type_mod)
    (hlen : (x :: xs).length < size_type_mod)
    (hinv : queue_inv pool_size q live fl (x :: xs)) :
    ∃ q' live' fl', pop_front_unsafe td pool_size q = some (x, q') ∧
      queue_inv pool_size q' live' fl' xs := by
  obtain ⟨q', live', fl', h1, h2, _⟩ :=
    pop_front_unsafe_blocks td pool_size q live fl x xs hp hps hlen hinv
  exact ⟨q', live', fl', h1, h2⟩

end basic_queue

namespace basic_queue

/-! ## `basic_queue`: the invariant under `clear` -/

/-- The chain of the blocks in use, with the link of its last block set to the free list, is
a free list. -/
theorem free_chain_of_live {α : Type} (heap heap' : List (deque_block α)) (t : Nat)
    (p : Option Nat) (fl : List Nat) :
    ∀ (live : List Nat) (hd : Option Nat), live ≠ [] → live.Nodup →
      live_chain heap hd (some t) live →
      (∀ b ∈ live, b ≠ t → next_of heap' b = next_of heap b) →
      next_of heap' t = some p → free_chain heap' p fl →
      free_chain heap' hd (live ++ fl)
  | [], _, h, _, _, _, _, _ => absurd rfl h
  | [b], hd, _, _, hc, _, ht, hf => by
    obtain ⟨h1, h2⟩ := hc
    have : t = b := by simpa using h2
    subst this
    exact ⟨h1, p, ht, hf⟩
  | b :: c :: rest, hd, _, hnd, hc, hn, ht, hf => by
    obtain ⟨h1, h2, h3⟩ := hc
    have htl := live_chain_tail heap (c :: rest) (some c) (some t) h3
    have htm : t ∈ c :: rest := List.mem_of_getLast?_eq_some htl.symm
    have hbt : b ≠ t := by
      intro e
      subst e
      exact (List.nodup_cons.mp hnd).1 htm
    refine ⟨h1, some c, ?_, ?_⟩
    · rw [hn b (List.mem_cons_self _ _) hbt]
      exact h2
    · exact free_chain_of_live heap heap' t p fl (c :: rest) (some c) (List.cons_ne_nil _ _)
        (List.nodup_cons.mp hnd).2 h3
        (fun x hx hxt => hn x (List.mem_cons_of_mem _ hx) hxt) ht hf

theorem free_chain_head {α : Type} (heap : List (deque_block α)) :
    ∀ (fl : List Nat) (p : Option Nat), free_chain heap p fl → p = fl.head?
  | [], _, h => h
  | _ :: _, _, h => h.1

/-- The run of `clear` for a trivially destructible type under the invariant: it returns,
every block is on the free list, and the queue holds the empty list. -/
theorem clear_blocks {α : Type} (pool_size : Nat) (q : basic_queue α) (live fl : List Nat)
    (xs : List α) (hinv : queue_inv pool_size q live fl xs) :
    ∃ q', clear true pool_size q = some q' ∧ queue_inv pool_size q' [] (live ++ fl) [] ∧
      q'.heap.length = q.heap.length := by
  by_cases hl : live = []
  · subst hl
    have htail : q.tail_ = none := hinv.live_links.2
    refine ⟨_, by simp [clear, htail]; rfl, ?_, (by simp)⟩
    exact ⟨hinv.nodup, hinv.valid, ⟨rfl, rfl⟩, hinv.free_links, fun _ => rfl,
      fun h => absurd rfl h, fun h => absurd rfl h, Nat.zero_le _, Nat.zero_le _,
      by simp [stored], rfl⟩
  · obtain ⟨t, ht1, ht2, ht3⟩ := live_chain_tail_mem _ _ _ _ hl hinv.live_links
    have htv := hinv.valid t (List.mem_append_left _ ht3)
    obtain ⟨tb, htb, htd, htn⟩ := getElem?_of_lt htv.1
    have hhd := live_chain_head _ _ _ _ hinv.live_links
    have hfr := free_chain_head _ _ _ hinv.free_links
    obtain ⟨b, rest, hlive⟩ := List.exists_cons_of_ne_nil hl
    have hhd' : q.head_ = some b := by rw [hhd, hlive]; rfl
    have hne : q.head_ ≠ q.free_ := by
      rw [hhd', hfr]
      intro e
      have hm : b ∈ fl := List.mem_of_mem_head? e.symm
      exact (List.nodup_append.mp hinv.nodup).2.2 (by rw [hlive]; simp) hm
    refine ⟨_, by simp [clear, ht1, OULY_ASSERT, hhd', htb]; rw [← hhd']; simp [hne]; rfl, ?_,
      (by simp)⟩
    have hnext : ∀ c, c ≠ t →
        next_of (q.heap.set t { tb with next_ := q.free_ }) c = next_of q.heap c :=
      fun c hc => next_of_set_ne _ _ _ _ (Ne.symm hc)
    have hdata : ∀ c, data_of (q.heap.set t { tb with next_ := q.free_ }) c
        = data_of q.heap c := by
      intro c
      by_cases hc : t = c
      · subst hc
        rw [data_of_set_self _ _ _ htv.1, htd]
      · exact data_of_set_ne _ _ _ _ hc
    have htfl : t ∉ fl := fun h => (List.nodup_append.mp hinv.nodup).2.2 ht3 h
    have hc := hinv.live_links
    rw [ht1] at hc
    have hfree := free_chain_of_live q.heap (q.heap.set t { tb with next_ := q.free_ }) t
      q.free_ fl live q.head_ hl (List.nodup_append.mp hinv.nodup).1 hc
      (fun c _ hct => hnext c hct) (next_of_set_self _ _ _ htv.1)
      (free_chain_congr q.heap _ fl q.free_
        (fun c hcf => hnext c (fun e => htfl (e ▸ hcf))) hinv.free_links)
    refine ⟨by simpa using hinv.nodup, ?_, ⟨rfl, rfl⟩, hfree, fun _ => rfl,
      fun h => absurd rfl h, fun h => absurd rfl h, Nat.zero_le _, Nat.zero_le _,
      by simp [stored], rfl⟩
    intro c hc
    rw [List.nil_append] at hc
    refine ⟨by rw [List.length_set]; exact (hinv.valid c hc).1, ?_⟩
    rw [hdata c]
    exact (hinv.valid c hc).2

/-- The invariant after `clear` for a trivially destructible type. -/
theorem clear_inv {α : Type} (pool_size : Nat) (q : basic_queue α) (live fl : List Nat)
    (xs : List α) (hinv : queue_inv pool_size q live fl xs) :
    ∃ q', clear true pool_size q = some q' ∧ queue_inv pool_size q' [] (live ++ fl) [] := by
  obtain ⟨q', h1, h2, _⟩ := clear_blocks pool_size q live fl xs hinv
  exact ⟨q', h1, h2⟩

end basic_queue

namespace basic_queue

/-! ## `basic_queue`: sequences of operations -/

theorem default_ctor_inv {α : Type} (pool_size : Nat) :
    queue_inv pool_size (default_ctor : basic_queue α) [] [] [] :=
  ⟨List.nodup_nil, fun b hb => absurd hb (by simp), ⟨rfl, rfl⟩, rfl, fun _ => rfl,
    fun h => absurd rfl h, fun h => absurd rfl h, Nat.zero_le _, Nat.zero_le _, rfl, rfl⟩

/-- Under the invariant `empty` tells whether the list held is empty. -/
theorem empty_iff {α : Type} (pool_size : Nat) (q : basic_queue α) (live fl : List Nat)
    (xs : List α) (hinv : queue_inv pool_size q live fl xs)
    (hlen : xs.length < size_type_mod) : q.empty = true ↔ xs = [] := by
  have h := hinv.size_eq
  rw [Nat.mod_eq_of_lt hlen] at h
  simp only [empty, beq_iff_eq, h]
  exact List.length_eq_zero

/-- One operation on the queue is the operation on the list held. -/
theorem apply_op_refines {α : Type} (td : Bool) (pool_size : Nat) (q : basic_queue α)
    (live fl : List Nat) (xs : List α) (o : queue_op α)
    (hp : 0 < pool_size) (hps : pool_size < size_type_mod)
    (hinv : queue_inv pool_size q live fl xs) (hlen : xs.length < size_type_mod)
    (hclear : td = true ∨ o ≠ queue_op.clear) :
    ∃ q' live' fl', apply_op td pool_size q o = some ((list_apply_op xs o).1, q') ∧
      queue_inv pool_size q' live' fl' (list_apply_op xs o).2 := by
  cases o with
  | emplace_back v =>
    obtain ⟨q', live', fl', h1, h2⟩ := emplace_back_inv pool_size q live fl xs v hp hps hinv
    exact ⟨q', live', fl', by simp [apply_op, h1, list_apply_op], h2⟩
  | pop_front =>
    cases xs with
    | nil =>
      have he := (empty_iff pool_size q live fl [] hinv hlen).mpr rfl
      exact ⟨q, live, fl, by simp [apply_op, pop_front, he, list_apply_op], hinv⟩
    | cons x xs =>
      have he : q.empty = false := by
        cases h : q.empty with
        | false => rfl
        | true => exact absurd ((empty_iff pool_size q live fl _ hinv hlen).mp h) (by simp)
      obtain ⟨q', live', fl', h1, h2⟩ :=
        pop_front_unsafe_inv td pool_size q live fl x xs hp hps hlen hinv
      exact ⟨q', live', fl', by simp [apply_op, pop_front, he, h1, list_apply_op], h2⟩
  | clear =>
    have htd : td = true := hclear.resolve_right (fun h => h rfl)
    subst htd
    obtain ⟨q', h1, h2⟩ := clear_inv pool_size q live fl xs hinv
    exact ⟨q', [], live ++ fl, by simp [apply_op, h1, list_apply_op], h2⟩

theorem held_below_cons {α : Type} (o : queue_op α) (ops : List (queue_op α)) (xs : List α)
    (h : held_below (o :: ops) xs) :
    xs.length < size_type_mod ∧ held_below ops (list_apply_op xs o).2 :=
  ⟨h 0, fun n => h (n + 1)⟩

/-- A sequence of operations on the queue is the sequence on the list held: it returns, the
pops that succeed return the values of the list, and the queue holds the list at the end. -/
theorem run_refines {α : Type} (td : Bool) (pool_size : Nat)
    (hp : 0 < pool_size) (hps : pool_size < size_type_mod) :
    ∀ (ops : List (queue_op α)) (q : basic_queue α) (live fl : List Nat) (xs : List α),
      queue_inv pool_size q live fl xs → held_below ops xs →
      (td = true ∨ ∀ o ∈ ops, o ≠ queue_op.clear) →
      ∃ q' live' fl', run td pool_size ops q = some ((list_run ops xs).1, q') ∧
        queue_inv pool_size q' live' fl' (list_run ops xs).2
  | [], q, live, fl, xs, hinv, _, _ => ⟨q, live, fl, rfl, hinv⟩
  | o :: ops, q, live, fl, xs, hinv, hheld, hclear => by
    obtain ⟨hlen, hheld'⟩ := held_below_cons o ops xs hheld
    obtain ⟨q1, live1, fl1, h1, hinv1⟩ := apply_op_refines td pool_size q live fl xs o hp hps
      hinv hlen (hclear.imp id (fun h => h o (List.mem_cons_self _ _)))
    obtain ⟨q2, live2, fl2, h2, hinv2⟩ := run_refines td pool_size hp hps ops q1 live1 fl1
      (list_apply_op xs o).2 hinv1 hheld'
      (hclear.imp id (fun h x hx => h x (List.mem_cons_of_mem _ hx)))
    exact ⟨q2, live2, fl2, by simp [run, h1, h2, list_run], hinv2⟩

theorem list_run_length_le {α : Type} :
    ∀ (ops : List (queue_op α)) (xs : List α),
      (list_run ops xs).2.length ≤ xs.length + ops.length
  | [], xs => by simp [list_run]
  | o :: ops, xs => by
    have ih := list_run_length_le ops (list_apply_op xs o).2
    have : (list_apply_op xs o).2.length ≤ xs.length + 1 := by
      cases o <;> simp [list_apply_op]
      omega
    simp only [list_run, List.length_cons]
    omega

/-- A sequence of operations that is shorter than the range of `size_type` keeps the list
below it. -/
theorem held_below_of_length {α : Type} (ops : List (queue_op α)) (xs : List α)
    (h : xs.length + ops.length < size_type_mod) : held_below ops xs := by
  intro n
  have h1 := list_run_length_le (ops.take n) xs
  have h2 : (ops.take n).length ≤ ops.length := by
    rw [List.length_take]
    exact Nat.min_le_right _ _
  omega

/-- The values returned followed by the values held are the values held at the start
followed by the values pushed, when no operation is `clear`. -/
theorem list_run_fifo {α : Type} :
    ∀ (ops : List (queue_op α)) (xs : List α), (∀ o ∈ ops, o ≠ queue_op.clear) →
      (list_run ops xs).1 ++ (list_run ops xs).2 = xs ++ pushed_values ops
  | [], xs, _ => by simp [list_run, pushed_values]
  | o :: ops, xs, h => by
    have ih := list_run_fifo ops (list_apply_op xs o).2
      (fun x hx => h x (List.mem_cons_of_mem _ hx))
    cases o with
    | emplace_back v =>
      simp only [list_run, list_apply_op, pushed_values] at ih ⊢
      simpa using ih
    | pop_front =>
      simp only [list_run, list_apply_op, pushed_values] at ih ⊢
      cases xs with
      | nil => simpa using ih
      | cons x xs => simpa using ih
    | clear => exact absurd rfl (h _ (List.mem_cons_self _ _))

end basic_queue

namespace basic_queue

/-! ## `basic_queue`: first in, first out -/

/-- Claim C13. For every block capacity and every sequence of `emplace_back` and `pop_front`
operations from the empty queue (with fewer than `2 ^ 32` values held at any time) the run
returns, the pops that succeed return what the pops on a list with append at the back and
removal at the front return, and the `i`-th pop that succeeds returns the `i`-th value
pushed. -/
theorem basic_queue_fifo {α : Type} (td : Bool) (pool_size : Nat) (ops : List (queue_op α))
    (hp : 0 < pool_size) (hps : pool_size < size_type_mod)
    (hops : ∀ o ∈ ops, o ≠ queue_op.clear) (hheld : held_below ops []) :
    ∃ q', run td pool_size ops default_ctor = some ((list_run ops []).1, q') ∧
      (∃ live fl, queue_inv pool_size q' live fl (list_run ops []).2) ∧
      ∀ (i : Nat) (v : α),
        (list_run ops []).1[i]? = some v → (pushed_values ops)[i]? = some v := by
  obtain ⟨q', live', fl', h1, h2⟩ := run_refines td pool_size hp hps ops default_ctor [] [] []
    (default_ctor_inv pool_size) hheld (Or.inr hops)
  refine ⟨q', h1, ⟨live', fl', h2⟩, ?_⟩
  intro i v hv
  have hfifo := list_run_fifo ops [] hops
  rw [List.nil_append] at hfifo
  have hi : i < (list_run ops []).1.length := by
    by_contra hge
    rw [List.getElem?_eq_none (by omega)] at hv
    exact absurd hv (by simp)
  rw [← hfifo, List.getElem?_append_left hi]
  exact hv

/-- Instance of C13: blocks of two slots; three pushes fill one block and start a second one,
two pops drain the first block, which goes to the free list, and the fifth push takes it from
there; the last pop finds the queue empty. -/
theorem basic_queue_fifo_witness :
    (0 < 2 ∧ 2 < size_type_mod ∧
      (∀ o ∈ [queue_op.emplace_back 1, queue_op.emplace_back 2, queue_op.emplace_back 3,
          queue_op.pop_front, queue_op.pop_front, queue_op.emplace_back 4,
          queue_op.emplace_back 5, queue_op.pop_front, queue_op.pop_front,
          queue_op.pop_front, queue_op.pop_front], o ≠ queue_op.clear) ∧
      (list_run [queue_op.emplace_back 1, queue_op.emplace_back 2, queue_op.emplace_back 3,
          queue_op.pop_front, queue_op.pop_front, queue_op.emplace_back 4,
          queue_op.emplace_back 5, queue_op.pop_front, queue_op.pop_front,
          queue_op.pop_front, queue_op.pop_front] ([] : List Nat)).1 = [1, 2, 3, 4, 5]) ∧
    ∃ q', run false 2 [queue_op.emplace_back 1, queue_op.emplace_back 2,
          queue_op.emplace_back 3, queue_op.pop_front, queue_op.pop_front,
          queue_op.emplace_back 4, queue_op.emplace_back 5, queue_op.pop_front,
          queue_op.pop_front, queue_op.pop_front, queue_op.pop_front] default_ctor
        = some ((list_run [queue_op.emplace_back 1, queue_op.emplace_back 2,
          queue_op.emplace_back 3, queue_op.pop_front, queue_op.pop_front,
          queue_op.emplace_back 4, queue_op.emplace_back 5, queue_op.pop_front,
          queue_op.pop_front, queue_op.pop_front, queue_op.pop_front] []).1, q') ∧
      (∃ live fl, queue_inv 2 q' live fl
        (list_run [queue_op.emplace_back 1, queue_op.emplace_back 2,
          queue_op.emplace_back 3, queue_op.pop_front, queue_op.pop_front,
          queue_op.emplace_back 4, queue_op.emplace_back 5, queue_op.pop_front,
          queue_op.pop_front, queue_op.pop_front, queue_op.pop_front] []).2) ∧
      ∀ (i : Nat) (v : Nat), (list_run [queue_op.emplace_back 1, queue_op.emplace_back 2,
          queue_op.emplace_back 3, queue_op.pop_front, queue_op.pop_front,
          queue_op.emplace_back 4, queue_op.emplace_back 5, queue_op.pop_front,
          queue_op.pop_front, queue_op.pop_front, queue_op.pop_front] []).1[i]? = some v →
        (pushed_values [queue_op.emplace_back 1, queue_op.emplace_back 2,
          queue_op.emplace_back 3, queue_op.pop_front, queue_op.pop_front,
          queue_op.emplace_back 4, queue_op.emplace_back 5, queue_op.pop_front,
          queue_op.pop_front, queue_op.pop_front, queue_op.pop_front])[i]? = some v :=
  ⟨⟨by decide, by decide, by decide, by decide⟩,
    basic_queue_fifo false 2 _ (by decide) (by decide) (by decide)
      (held_below_of_length _ _ (by decide))⟩

/-! ## `basic_queue`: access to the empty queue -/

/-- Claim C14. In the state after any sequence of operations from the empty queue (with fewer
than `2 ^ 32` values held at any time; `clear` for a trivially destructible type):
`pop_front()` throws if and only if the queue holds no value, `pop_front(out)` returns
`false` if and only if the queue holds no value; in both of these cases the queue and `out`
are as before; and on a queue that holds a value `pop_front()` returns the first value and
`pop_front(out)` returns `true` with `out` the first value, the queue holding the rest. -/
theorem pop_front_empty_access {α : Type} (td : Bool) (pool_size : Nat)
    (ops : List (queue_op α)) (hp : 0 < pool_size) (hps : pool_size < size_type_mod)
    (hclear : td = true ∨ ∀ o ∈ ops, o ≠ queue_op.clear) (hheld : held_below ops []) :
    ∃ r q, run td pool_size ops default_ctor = some (r, q) ∧
      ((∃ w q', pop_front td pool_size q = some (Except.error w, q'))
        ↔ (list_run ops []).2 = []) ∧
      (∀ out, (∃ out' q', pop_front_out td pool_size q out = some (false, out', q'))
        ↔ (list_run ops []).2 = []) ∧
      ((list_run ops []).2 = [] →
        pop_front td pool_size q = some (Except.error "Deque is empty", q) ∧
        ∀ out, pop_front_out td pool_size q out = some (false, out, q)) ∧
      (∀ x xs, (list_run ops []).2 = x :: xs →
        ∃ q', pop_front td pool_size q = some (Except.ok x, q') ∧
          (∀ out, pop_front_out td pool_size q out = some (true, x, q')) ∧
          ∃ live fl, queue_inv pool_size q' live fl xs) := by
  obtain ⟨q, live, fl, h1, hinv⟩ := run_refines td pool_size hp hps ops default_ctor [] [] []
    (default_ctor_inv pool_size) hheld hclear
  have hlen : (list_run ops []).2.length < size_type_mod := by
    have := hheld ops.length
    rwa [List.take_length] at this
  refine ⟨_, q, h1, ?_⟩
  cases hxs : (list_run ops []).2 with
  | nil =>
    rw [hxs] at hinv hlen
    have he := (empty_iff pool_size q live fl [] hinv hlen).mpr rfl
    refine ⟨⟨fun _ => rfl, fun _ => ⟨"Deque is empty", q, by simp [pop_front, he]⟩⟩,
      fun out => ⟨fun _ => rfl, fun _ => ⟨out, q, by simp [pop_front_out, he]⟩⟩,
      fun _ => ⟨by simp [pop_front, he], fun out => by simp [pop_front_out, he]⟩,
      fun x xs h => by simp at h⟩
  | cons x xs =>
    rw [hxs] at hinv hlen
    have he : q.empty = false := by
      cases h : q.empty with
      | false => rfl
      | true => exact absurd ((empty_iff pool_size q live fl _ hinv hlen).mp h) (by simp)
    obtain ⟨q', live', fl', h2, hinv'⟩ :=
      pop_front_unsafe_inv td pool_size q live fl x xs hp hps hlen hinv
    refine ⟨⟨fun ⟨w, q'', h⟩ => ?_, fun h => by simp at h⟩,
      fun out => ⟨fun ⟨o', q'', h⟩ => ?_, fun h => by simp at h⟩,
      fun h => by simp at h, ?_⟩
    · simp [pop_front, he, h2] at h
    · simp [pop_front_out, he, h2] at h
    · intro x' xs' h
      simp only [List.cons.injEq] at h
      obtain ⟨rfl, rfl⟩ := h
      exact ⟨q', by simp [pop_front, he, h2], fun out => by simp [pop_front_out, he, h2],
        live', fl', hinv'⟩

/-- Instance of C14: blocks of two slots; after three pushes and one pop the queue holds
the values `2` and `3`. -/
theorem pop_front_empty_access_witness :
    (0 < 2 ∧ 2 < size_type_mod ∧
      (∀ o ∈ [queue_op.emplace_back 1, queue_op.emplace_back 2, queue_op.emplace_back 3,
          queue_op.pop_front], o ≠ queue_op.clear) ∧
      (list_run [queue_op.emplace_back 1, queue_op.emplace_back 2, queue_op.emplace_back 3,
          queue_op.pop_front] ([] : List Nat)).2 = [2, 3]) ∧
    ∃ r q, run false 2 [queue_op.emplace_back 1, queue_op.emplace_back 2,
          queue_op.emplace_back 3, queue_op.pop_front] default_ctor = some (r, q) ∧
      ((∃ w q', pop_front false 2 q = some (Except.error w, q'))
        ↔ (list_run [queue_op.emplace_back 1, queue_op.emplace_back 2,
          queue_op.emplace_back 3, queue_op.pop_front] ([] : List Nat)).2 = []) ∧
      (∀ out, (∃ out' q', pop_front_out false 2 q out = some (false, out', q'))
        ↔ (list_run [queue_op.emplace_back 1, queue_op.emplace_back 2,
          queue_op.emplace_back 3, queue_op.pop_front] ([] : List Nat)).2 = []) ∧
      ((list_run [queue_op.emplace_back 1, queue_op.emplace_back 2,
          queue_op.emplace_back 3, queue_op.pop_front] ([] : List Nat)).2 = [] →
        pop_front false 2 q = some (Except.error "Deque is empty", q) ∧
        ∀ out, pop_front_out false 2 q out = some (false, out, q)) ∧
      (∀ x xs, (list_run [queue_op.emplace_back 1, queue_op.emplace_back 2,
          queue_op.emplace_back 3, queue_op.pop_front] ([] : List Nat)).2 = x :: xs →
        ∃ q', pop_front false 2 q = some (Except.ok x, q') ∧
          (∀ out, pop_front_out false 2 q out = some (true, x, q')) ∧
          ∃ live fl, queue_inv 2 q' live fl xs) :=
  ⟨⟨by decide, by decide, by decide, by decide⟩,
    pop_front_empty_access false 2 _ (by decide) (by decide) (Or.inr (by decide))
      (held_below_of_length _ _ (by decide))⟩

/-! ## `basic_queue`: the size -/

end basic_queue


namespace detail

namespace mpmc_ring

/-! ## The ring of a worker -/

variable {ι : Type}

end mpmc_ring

end detail


namespace basic_queue

/-! ## `basic_queue`: the walk of `for_each` -/

theorem for_each_slot_unfold {α σ : Type} (lambda : σ → α → σ × Option α)
    (data_ : List (Option α)) (start end_ : Nat) (st : σ) :
    for_each_slot lambda data_ start end_ st =
      if start < end_ then
        match data_[start]? with
        | none => none
        | some none => none
        | some (some v) =>
          for_each_slot lambda (data_.set start (lambda st v).2) (start + 1) end_
            (lambda st v).1
      else some (st, data_) := by
  rw [for_each_slot]
  split <;> rfl

set_option maxRecDepth 8192 in
/-- Claim C25, the failing run. With blocks of two slots the calls `emplace_back` of `1` to
`5`, four `pop_front` and `emplace_back` of `6` and `7` return with the queue holding
`5, 6, 7` (`size()` is `3`); the tail block `1` was taken by `add_tail` from the free list
`1 → 0` and its `next_` still refers to the freed block `0`, so `tail_->next_` is not null.
For a trivially destructible type `for_each` then makes five callbacks, on `5, 6, 7` and on
the slots `1, 2` of the freed block; for a type with a destructor the walk reads the
destroyed slots of the freed block, in `for_each` and in `clear()`. -/
theorem for_each_stale_next :
    run true 2 [queue_op.emplace_back 1, queue_op.emplace_back 2, queue_op.emplace_back 3,
        queue_op.emplace_back 4, queue_op.emplace_back 5, queue_op.pop_front,
        queue_op.pop_front, queue_op.pop_front, queue_op.pop_front, queue_op.emplace_back 6,
        queue_op.emplace_back 7] (default_ctor : basic_queue Nat)
      = some ([1, 2, 3, 4],
          ⟨[⟨[some 1, some 2], none⟩, ⟨[some 7, some 4], some 0⟩, ⟨[some 5, some 6], some 1⟩],
            some 2, some 1, some 0, 3, 0, 1⟩) ∧
    size (basic_queue.mk [⟨[some 1, some 2], none⟩, ⟨[some 7, some 4], some 0⟩,
      ⟨[some 5, some 6], some 1⟩] (some 2) (some 1) (some 0) 3 0 1) = 3 ∧
    next_of [(⟨[some 1, some 2], none⟩ : deque_block Nat), ⟨[some 7, some 4], some 0⟩,
      ⟨[some 5, some 6], some 1⟩] 1 = some (some 0) ∧
    for_each 2 (fun (st : List Nat) (v : Nat) => (st ++ [v], some v))
        ⟨[⟨[some 1, some 2], none⟩, ⟨[some 7, some 4], some 0⟩, ⟨[some 5, some 6], some 1⟩],
          some 2, some 1, some 0, 3, 0, 1⟩ []
      = some ([5, 6, 7, 1, 2],
          ⟨[⟨[some 1, some 2], none⟩, ⟨[some 7, some 4], some 0⟩, ⟨[some 5, some 6], some 1⟩],
            some 2, some 1, some 0, 3, 0, 1⟩) ∧
    run false 2 [queue_op.emplace_back 1, queue_op.emplace_back 2, queue_op.emplace_back 3,
        queue_op.emplace_back 4, queue_op.emplace_back 5, queue_op.pop_front,
        queue_op.pop_front, queue_op.pop_front, queue_op.pop_front, queue_op.emplace_back 6,
        queue_op.emplace_back 7] (default_ctor : basic_queue Nat)
      = some ([1, 2, 3, 4],
          ⟨[⟨[none, none], none⟩, ⟨[some 7, none], some 0⟩, ⟨[some 5, some 6], some 1⟩],
            some 2, some 1, some 0, 3, 0, 1⟩) ∧
    for_each 2 (fun (st : List Nat) (v : Nat) => (st ++ [v], some v))
        ⟨[⟨[none, none], none⟩, ⟨[some 7, none], some 0⟩, ⟨[some 5, some 6], some 1⟩],
          some 2, some 1, some 0, 3, 0, 1⟩ [] = none ∧
    clear false 2 (basic_queue.mk [(⟨[none, none], none⟩ : deque_block Nat),
      ⟨[some 7, none], some 0⟩, ⟨[some 5, some 6], some 1⟩] (some 2) (some 1) (some 0)
      3 0 1) = none := by
  refine ⟨by decide, by decide, by decide, ?_, by decide, ?_, ?_⟩
  · simp [for_each, internal_for_each_loop, for_each_slot_unfold]
  · simp [for_each, internal_for_each_loop, for_each_slot_unfold]
  · simp [clear, for_each, internal_for_each_loop, for_each_slot_unfold]

end basic_queue


namespace basic_queue

/-! ## `basic_queue`: the blocks obtained from the allocator -/

end basic_queue


namespace detail

namespace wake_event

/-! ## The wake event of a worker -/

theorem alternates_take : ∀ (ops : List wake_op) (n : Nat), alternates ops = true →
    alternates (ops.take n) = true
  | [], n, _ => by simp [alternates]
  | [wake_op.notify], n, _ => by
    cases n with
    | zero => rfl
    | succ n => simp [alternates]
  | wake_op.notify :: wake_op.wait :: ops, n, h => by
    cases n with
    | zero => rfl
    | succ n =>
      cases n with
      | zero => rfl
      | succ n =>
        simp only [List.take_succ_cons, alternates]
        exact alternates_take ops n (by simpa [alternates] using h)
  | wake_op.wait :: ops, n, h => by simp [alternates] at h
  | wake_op.notify :: wake_op.notify :: ops, n, h => by simp [alternates] at h

/-- An alternating sequence of calls from a wake event with nothing pending returns, with one
notification pending after an odd number of calls and none after an even number. -/
theorem wake_run_alternates (max : Nat) (hmax : 1 ≤ max) :
    ∀ (ops : List wake_op), alternates ops = true →
      wake_run max ops ctor = some ⟨⟨ops.length % 2⟩⟩
  | [], _ => rfl
  | [wake_op.notify], _ => by
    simp [wake_run, notify, binary_semaphore.release, ctor, hmax]
  | wake_op.notify :: wake_op.wait :: ops, h => by
    have ih := wake_run_alternates max hmax ops (by simpa [alternates] using h)
    have h1 : 1 ≤ max - 0 := by omega
    have h2 : (ops.length + 1 + 1) % 2 = ops.length % 2 := by omega
    simp only [wake_run, notify, wait, binary_semaphore.release, binary_semaphore.acquire,
      ctor, if_pos h1, Option.map_some', Nat.zero_add, Nat.lt_one_iff, if_true,
      Nat.sub_self, List.length_cons, h2]
    exact ih
  | wake_op.wait :: ops, h => by simp [alternates] at h
  | wake_op.notify :: wake_op.notify :: ops, h => by simp [alternates] at h

/-- Claim C21, as amended. For every sequence of calls on a `wake_event` (which starts with
no pending notification) that issues `notify()` only while no notification is pending and
`wait()` only while one is pending, every call returns and the number of pending
notifications never exceeds one; after a `notify()` exactly one `wait()` returns without a
further `notify()`, and a `wait()` with no notification pending does not return. -/
theorem wake_event_single_pending (max : Nat) (ops : List wake_op) (hmax : 1 ≤ max)
    (halt : alternates ops = true) :
    (∀ n, ∃ e, wake_run max (ops.take n) ctor = some e ∧ e.pending ≤ 1) ∧
    ∃ e, wake_run max ops ctor = some e ∧ e.pending = ops.length % 2 ∧
      (e.pending = 1 → ∃ e1, wait e = some e1 ∧ e1.pending = 0 ∧ wait e1 = none) ∧
      (e.pending = 0 → wait e = none) := by
  refine ⟨fun n => ⟨_, wake_run_alternates max hmax _ (alternates_take ops n halt), ?_⟩,
    _, wake_run_alternates max hmax ops halt, rfl, ?_, ?_⟩
  · show (ops.take n).length % 2 ≤ 1
    omega
  · intro h
    have h1 : ops.length % 2 = 1 := h
    refine ⟨⟨⟨0⟩⟩, ?_, rfl, rfl⟩
    simp [wait, binary_semaphore.acquire, h1]
  · intro h
    have h0 : ops.length % 2 = 0 := h
    simp [wait, binary_semaphore.acquire, h0]

/-- Instance of C21: `notify`, `wait`, `notify` with `max() == 1`. -/
theorem wake_event_single_pending_witness :
    (1 ≤ 1 ∧ alternates [wake_op.notify, wake_op.wait, wake_op.notify] = true) ∧
    (∀ n, ∃ e, wake_run 1 ([wake_op.notify, wake_op.wait, wake_op.notify].take n) ctor
      = some e ∧ e.pending ≤ 1) ∧
    ∃ e, wake_run 1 [wake_op.notify, wake_op.wait, wake_op.notify] ctor = some e ∧
      e.pending = [wake_op.notify, wake_op.wait, wake_op.notify].length % 2 ∧
      (e.pending = 1 → ∃ e1, wait e = some e1 ∧ e1.pending = 0 ∧ wait e1 = none) ∧
      (e.pending = 0 → wait e = none) :=
  ⟨⟨by decide, by decide⟩,
    wake_event_single_pending 1 [wake_op.notify, wake_op.wait, wake_op.notify] (by decide)
      (by decide)⟩

/-- Counterexample to C21 as stated: two `notify()` calls with no `wait()` in between.  Where
`max()` is `1` the second call breaks the precondition of `release()`, so the behaviour is
undefined; where `max()` is larger, two notifications are pending and two `wait()` calls
return without a further `notify()`. -/
theorem notify_twice_counterexample :
    wake_run 1 [wake_op.notify, wake_op.notify] ctor = none ∧
    wake_run 2 [wake_op.notify, wake_op.notify] ctor = some ⟨⟨2⟩⟩ ∧
    pending ⟨⟨2⟩⟩ = 2 ∧
    wake_run 2 [wake_op.notify, wake_op.notify, wake_op.wait, wake_op.wait] ctor
      = some ⟨⟨0⟩⟩ := by
  refine ⟨by decide, by decide, by decide, by decide⟩

end wake_event

end detail

end ouly
